import Mathlib

/-!
# Red-black tree over intrusive nodes (`rbtree.c`): program model

The C program is embedded shallowly.  The heap of `struct rb_node` cells is a
function from addresses to cells, `NULL` is address `0`, and the tree handle
`struct rb_tree` contributes its single field `root`.  Every function of
`rbtree.c` becomes a function on states in the `Option` monad: `none` stands
for a dereference of `NULL` or for a loop that used up its fuel.

Data model assumed for addresses: LP64 (pointers and `size_t` are 64 bits wide,
`sizeof (struct rb_node) = 32`), address arithmetic wraps modulo `2 ^ 64`.
-/

namespace Rbtree

/-- Colour tag `RB_RED` of `rbtree.h`. -/
def RB_RED : Int := 0

/-- Colour tag `RB_BLACK` of `rbtree.h`. -/
def RB_BLACK : Int := 1

/-- Cell `struct rb_node`: three links and an `int` colour. -/
structure rb_node where
  parent : Nat
  left : Nat
  right : Nat
  color : Int
deriving DecidableEq, Repr, Inhabited

/-- Program state: the field `root` of the `struct rb_tree` handle and the heap
of node cells, indexed by address. -/
structure State where
  root : Nat
  mem : Nat → rb_node

/-- Width of an address in bits. -/
def PTR_BITS : Nat := 64

/-- Value of `sizeof (struct rb_node)`: three 8-byte pointers, a 4-byte `int`
and 4 bytes of padding. -/
def SIZEOF_RB_NODE : Nat := 32

/-- Byte-granular address subtraction `(void *)p - n`. -/
def ptr_sub (p n : Nat) : Nat := (p + 2 ^ PTR_BITS - n % 2 ^ PTR_BITS) % 2 ^ PTR_BITS

/-- Byte-granular address addition `(void *)p + n`. -/
def ptr_add (p n : Nat) : Nat := (p + n) % 2 ^ PTR_BITS

/-- Ordering descriptor `struct rb_ops`; the callbacks receive record
addresses (resp. a record address and a key address) and the context. -/
structure rb_ops where
  offset : Nat
  context : Nat
  compare : Nat → Nat → Nat → Int
  compare_key : Nat → Nat → Nat → Int

namespace State

/-- Read `p->parent`. -/
def get_parent (s : State) (p : Nat) : Option Nat :=
  if p = 0 then none else some (s.mem p).parent

/-- Read `p->left`. -/
def get_left (s : State) (p : Nat) : Option Nat :=
  if p = 0 then none else some (s.mem p).left

/-- Read `p->right`. -/
def get_right (s : State) (p : Nat) : Option Nat :=
  if p = 0 then none else some (s.mem p).right

/-- Read `p->color`. -/
def get_color (s : State) (p : Nat) : Option Int :=
  if p = 0 then none else some (s.mem p).color

/-- Write `p->parent = v`. -/
def set_parent (s : State) (p v : Nat) : Option State :=
  if p = 0 then none
  else some { s with mem := Function.update s.mem p { s.mem p with parent := v } }

/-- Write `p->left = v`. -/
def set_left (s : State) (p v : Nat) : Option State :=
  if p = 0 then none
  else some { s with mem := Function.update s.mem p { s.mem p with left := v } }

/-- Write `p->right = v`. -/
def set_right (s : State) (p v : Nat) : Option State :=
  if p = 0 then none
  else some { s with mem := Function.update s.mem p { s.mem p with right := v } }

/-- Write `p->color = v`. -/
def set_color (s : State) (p : Nat) (v : Int) : Option State :=
  if p = 0 then none
  else some { s with mem := Function.update s.mem p { s.mem p with color := v } }

/-- Write `tree->root = v`. -/
def set_root (s : State) (v : Nat) : State := { s with root := v }

end State

/-- Macro `rb_is_red(node)`: `(node) && (node)->color == RB_RED`. -/
def rb_is_red (s : State) (node : Nat) : Bool :=
  decide (node ≠ 0) && decide ((s.mem node).color = RB_RED)

/-- Macro `rb_is_black(node)`: `!(node) || (node)->color == RB_BLACK`. -/
def rb_is_black (s : State) (node : Nat) : Bool :=
  decide (node = 0) || decide ((s.mem node).color = RB_BLACK)

/-- Macro `rb_set_red(node)`. -/
def rb_set_red (s : State) (node : Nat) : Option State := s.set_color node RB_RED

/-- Macro `rb_set_black(node)`. -/
def rb_set_black (s : State) (node : Nat) : Option State := s.set_color node RB_BLACK

/-- The block `parent <--> new` that `_rb_rotate_left`, `_rb_rotate_right`,
`rb_replace_node` and both branches of `rb_remove` share verbatim:
`if (parent) { if (parent->left == node) parent->left = new; else parent->right = new; }
else tree->root = new;`. -/
def relink_parent (parent node new : Nat) (s : State) : Option State :=
  if parent ≠ 0 then do
    let pl ← s.get_left parent
    if pl = node then s.set_left parent new else s.set_right parent new
  else some (s.set_root new)

/-- Function `_rb_rotate_left(node, tree)`. -/
def _rb_rotate_left (node : Nat) (s : State) : Option State := do
  let parent ← s.get_parent node
  let new ← s.get_right node
  let child ← s.get_left new
  let s ← relink_parent parent node new s
  let s ← s.set_parent new parent
  let s ← s.set_parent node new
  let s ← s.set_left new node
  let s ← if child ≠ 0 then s.set_parent child node else some s
  s.set_right node child

/-- Function `_rb_rotate_right(node, tree)`. -/
def _rb_rotate_right (node : Nat) (s : State) : Option State := do
  let parent ← s.get_parent node
  let new ← s.get_left node
  let child ← s.get_right new
  let s ← relink_parent parent node new s
  let s ← s.set_parent new parent
  let s ← s.set_parent node new
  let s ← s.set_right new node
  let s ← if child ≠ 0 then s.set_parent child node else some s
  s.set_left node child

/-- Loop `while ((parent = node->parent) && rb_is_red(parent))` of
`_rb_link_color`; `fuel` bounds the number of iterations. -/
def _rb_link_color_loop : Nat → Nat → State → Option State
  | 0, _, _ => none
  | fuel + 1, node, s => do
    let parent ← s.get_parent node
    if parent ≠ 0 ∧ rb_is_red s parent = true then
      let gparent ← s.get_parent parent
      let gl ← s.get_left gparent
      if gl = parent then
        let uncle ← s.get_right gparent
        if rb_is_red s uncle = true then
          -- case 3
          let s ← rb_set_black s parent
          let s ← rb_set_black s uncle
          let s ← rb_set_red s gparent
          _rb_link_color_loop fuel gparent s
        else
          -- case 4, step 1
          let pr ← s.get_right parent
          let (s, parent) ←
            if pr = node then do
              let s ← _rb_rotate_left parent s
              let node := parent
              let parent ← s.get_parent node
              pure (s, parent)
            else pure (s, parent)
          -- step 2
          let s ← _rb_rotate_right gparent s
          let s ← rb_set_red s gparent
          rb_set_black s parent
      else
        let uncle ← s.get_left gparent
        if rb_is_red s uncle = true then
          -- case 3
          let s ← rb_set_black s parent
          let s ← rb_set_black s uncle
          let s ← rb_set_red s gparent
          _rb_link_color_loop fuel gparent s
        else
          -- case 4, step 1
          let pl ← s.get_left parent
          let (s, parent) ←
            if pl = node then do
              let s ← _rb_rotate_right parent s
              let node := parent
              let parent ← s.get_parent node
              pure (s, parent)
            else pure (s, parent)
          -- step 2
          let s ← _rb_rotate_left gparent s
          let s ← rb_set_red s gparent
          rb_set_black s parent
    else some s

/-- Function `_rb_link_color(node, tree)`: the loop, then
`rb_set_black(tree->root)`. -/
def _rb_link_color (fuel : Nat) (node : Nat) (s : State) : Option State := do
  let s ← _rb_link_color_loop fuel node s
  rb_set_black s s.root

/-- Location a `struct rb_node **slot` can point at: the handle's root field or
the left or right link of a node. -/
inductive Slot where
  | root : Slot
  | left (p : Nat) : Slot
  | right (p : Nat) : Slot
deriving DecidableEq, Repr

namespace State

/-- Read `*slot`. -/
def read_slot (s : State) : Slot → Option Nat
  | Slot.root => some s.root
  | Slot.left p => s.get_left p
  | Slot.right p => s.get_right p

/-- Write `*slot = v`. -/
def write_slot (s : State) (v : Nat) : Slot → Option State
  | Slot.root => some (s.set_root v)
  | Slot.left p => s.set_left p v
  | Slot.right p => s.set_right p v

end State

/-- Function `rb_link(node, parent, slot, tree)`. -/
def rb_link (fuel : Nat) (node parent : Nat) (slot : Slot) (s : State) : Option State := do
  let s ← s.set_right node 0
  let s ← s.set_left node 0
  let s ← s.set_parent node parent
  let s ← s.write_slot node slot
  let s ← rb_set_red s node
  _rb_link_color fuel node s

/-- Outcome of the slot search of `rb_insert_item`: the record with the
identical key, or the empty slot and its parent. -/
inductive Descent where
  | found (tmpi : Nat) : Descent
  | vacant (parent : Nat) (slot : Slot) : Descent
deriving DecidableEq, Repr

/-- Loop `while (*slot)` of `rb_insert_item`. -/
def rb_insert_item_loop (ops : rb_ops) (item : Nat) :
    Nat → Nat → Slot → State → Option Descent
  | 0, _, _, _ => none
  | fuel + 1, parent, slot, s => do
    let cur ← s.read_slot slot
    if cur ≠ 0 then
      let tmpi := ptr_sub cur ops.offset
      let result := ops.compare tmpi item ops.context
      let parent := cur
      if result > 0 then rb_insert_item_loop ops item fuel parent (Slot.left parent) s
      else if result < 0 then rb_insert_item_loop ops item fuel parent (Slot.right parent) s
      else some (Descent.found tmpi)
    else some (Descent.vacant parent slot)

/-- Function `rb_insert_item(item, tree, ops)`; yields the returned record
address and the state after the call. -/
def rb_insert_item (fuel : Nat) (item : Nat) (s : State) (ops : rb_ops) :
    Option (Nat × State) := do
  let d ← rb_insert_item_loop ops item fuel 0 Slot.root s
  match d with
  | Descent.found tmpi => some (tmpi, s)
  | Descent.vacant parent slot =>
    let node := ptr_add item ops.offset
    let s ← rb_link fuel node parent slot s
    some (item, s)

/-- Loop `while (node)` of `rb_search_item`.  The record address is
`node - offset` with `node` of type `struct rb_node *`, so the subtraction
is scaled by `sizeof (struct rb_node)`. -/
def rb_search_item_loop (ops : rb_ops) (key : Nat) : Nat → Nat → State → Option Nat
  | 0, _, _ => none
  | fuel + 1, node, s =>
    if node ≠ 0 then
      let item := ptr_sub node (ops.offset * SIZEOF_RB_NODE)
      let result := ops.compare_key item key ops.context
      if result > 0 then do
        let l ← s.get_left node
        rb_search_item_loop ops key fuel l s
      else if result < 0 then do
        let r ← s.get_right node
        rb_search_item_loop ops key fuel r s
      else some item
    else some 0

/-- Function `rb_search_item(key, tree, ops)`; `0` is the `NULL` result. -/
def rb_search_item (fuel : Nat) (key : Nat) (s : State) (ops : rb_ops) : Option Nat :=
  rb_search_item_loop ops key fuel s.root s

/-- Function `rb_replace_node(victim, new, tree)`. -/
def rb_replace_node (victim new : Nat) (s : State) : Option State := do
  -- *new = *victim
  let s ← if victim = 0 ∨ new = 0 then none
          else some { s with mem := Function.update s.mem new (s.mem victim) }
  let tmp ← s.get_parent new
  let s ← relink_parent tmp victim new s
  let tmp ← s.get_left new
  let s ← if tmp ≠ 0 then s.set_parent tmp new else some s
  let tmp ← s.get_right new
  if tmp ≠ 0 then s.set_parent tmp new else some s

/-- Loop `while (rb_is_black(node) && parent)` of `_rb_remove_color`; it
yields the value of `node` and the state at the exit of the loop, and `fuel`
bounds the number of iterations. -/
def _rb_remove_color_loop : Nat → Nat → Nat → State → Option (Nat × State)
  | 0, _, _, _ => none
  | fuel + 1, node, parent, s =>
    if rb_is_black s node = true ∧ parent ≠ 0 then do
      let pl ← s.get_left parent
      if pl = node then
        let sibling ← s.get_right parent
        let (s, sibling) ←
          if rb_is_red s sibling = true then do
            -- case 2
            let s ← _rb_rotate_left parent s
            let s ← rb_set_black s sibling
            let s ← rb_set_red s parent
            let sibling ← s.get_right parent
            pure (s, sibling)
          else pure (s, sibling)
        let sr ← s.get_right sibling
        let sl ← s.get_left sibling
        if rb_is_black s sr = true ∧ rb_is_black s sl = true then
          -- case 3 and case 4
          let s ← rb_set_red s sibling
          let node := parent
          let parent ← s.get_parent node
          _rb_remove_color_loop fuel node parent s
        else
          let (s, sibling) ←
            if rb_is_black s sr = true then do
              -- case 5
              let child := sl
              let s ← _rb_rotate_right sibling s
              let s ← rb_set_red s sibling
              let s ← rb_set_black s child
              pure (s, child)
            else pure (s, sibling)
          -- case 6
          let pc ← s.get_color parent
          let s ← s.set_color sibling pc
          let s ← rb_set_black s parent
          let sr ← s.get_right sibling
          let s ← rb_set_black s sr
          let s ← _rb_rotate_left parent s
          some (s.root, s)
      else
        let sibling ← s.get_left parent
        let (s, sibling) ←
          if rb_is_red s sibling = true then do
            -- case 2
            let s ← _rb_rotate_right parent s
            let s ← rb_set_black s sibling
            let s ← rb_set_red s parent
            let sibling ← s.get_left parent
            pure (s, sibling)
          else pure (s, sibling)
        let sr ← s.get_right sibling
        let sl ← s.get_left sibling
        if rb_is_black s sr = true ∧ rb_is_black s sl = true then
          -- case 3 and case 4
          let s ← rb_set_red s sibling
          let node := parent
          let parent ← s.get_parent node
          _rb_remove_color_loop fuel node parent s
        else
          let (s, sibling) ←
            if rb_is_black s sl = true then do
              -- case 5
              let child := sr
              let s ← _rb_rotate_left sibling s
              let s ← rb_set_red s sibling
              let s ← rb_set_black s child
              pure (s, child)
            else pure (s, sibling)
          -- case 6
          let pc ← s.get_color parent
          let s ← s.set_color sibling pc
          let s ← rb_set_black s parent
          let sl ← s.get_left sibling
          let s ← rb_set_black s sl
          let s ← _rb_rotate_right parent s
          some (s.root, s)
    else some (node, s)

/-- Function `_rb_remove_color(node, parent, tree)`: the loop, then
`if (node) rb_set_black(node)`. -/
def _rb_remove_color (fuel : Nat) (node parent : Nat) (s : State) : Option State := do
  let (node, s) ← _rb_remove_color_loop fuel node parent s
  if node ≠ 0 then rb_set_black s node else some s

/-- Loop `while ((tmp = node->left)) node = tmp;` shared by `rb_remove` and
`rb_leftmost`. -/
def rb_leftmost : Nat → Nat → State → Option Nat
  | 0, _, _ => none
  | fuel + 1, node, s => do
    let l ← s.get_left node
    if l ≠ 0 then rb_leftmost fuel l s else some node

/-- Function `rb_rightmost(node)`. -/
def rb_rightmost : Nat → Nat → State → Option Nat
  | 0, _, _ => none
  | fuel + 1, node, s => do
    let r ← s.get_right node
    if r ≠ 0 then rb_rightmost fuel r s else some node

/-- Function `rb_remove(node, tree)`. -/
def rb_remove (fuel : Nat) (node : Nat) (s : State) : Option State := do
  let nl ← s.get_left node
  let nr ← s.get_right node
  let (color, child, parent, s) ←
    if nl = 0 ∨ nr = 0 then do
      -- the node has no child or one child
      let child := if nl ≠ 0 then nl else nr
      let color ← s.get_color node
      let parent ← s.get_parent node
      let s ← relink_parent parent node child s
      let s ← if child ≠ 0 then s.set_parent child parent else some s
      pure (color, child, parent, s)
    else do
      -- find the successor: the leftmost node of the right subtree
      let old := node
      let node ← rb_leftmost fuel nr s
      let color ← s.get_color node
      let child ← s.get_right node
      let parent ← s.get_parent node
      let s ← relink_parent parent node child s
      let s ← if child ≠ 0 then s.set_parent child parent else some s
      let parent := if old = parent then node else parent
      let s ← rb_replace_node old node s
      pure (color, child, parent, s)
  if color = RB_BLACK then _rb_remove_color fuel child parent s else some s

/-- Climbing loop `while ((parent = node->parent) && parent->right == node)` of
`rb_next`, followed by `return node->parent`. -/
def rb_next_climb : Nat → Nat → State → Option Nat
  | 0, _, _ => none
  | fuel + 1, node, s => do
    let parent ← s.get_parent node
    if parent ≠ 0 ∧ (s.mem parent).right = node then rb_next_climb fuel parent s
    else s.get_parent node

/-- Function `rb_next(node)`; `0` is the `NULL` result. -/
def rb_next (fuel : Nat) (node : Nat) (s : State) : Option Nat := do
  let r ← s.get_right node
  if r ≠ 0 then rb_leftmost fuel r s else rb_next_climb fuel node s

/-- Climbing loop `while ((parent = node->parent) && parent->left == node)` of
`rb_prev`, followed by `return node->parent`. -/
def rb_prev_climb : Nat → Nat → State → Option Nat
  | 0, _, _ => none
  | fuel + 1, node, s => do
    let parent ← s.get_parent node
    if parent ≠ 0 ∧ (s.mem parent).left = node then rb_prev_climb fuel parent s
    else s.get_parent node

/-- Function `rb_prev(node)`; `0` is the `NULL` result. -/
def rb_prev (fuel : Nat) (node : Nat) (s : State) : Option Nat := do
  let l ← s.get_left node
  if l ≠ 0 then rb_rightmost fuel l s else rb_prev_climb fuel node s

/-- Function `rb_first(tree)`; `0` is the `NULL` result. -/
def rb_first (fuel : Nat) (s : State) : Option Nat :=
  if s.root ≠ 0 then rb_leftmost fuel s.root s else some 0

/-- Function `rb_last(tree)`; `0` is the `NULL` result. -/
def rb_last (fuel : Nat) (s : State) : Option Nat :=
  if s.root ≠ 0 then rb_rightmost fuel s.root s else some 0

/-! ## Circular list (`list.c`)

The heap of `struct list` cells is a function from addresses to cells; a
dereference of `NULL` yields `none`. -/

/-- Cell `struct list` of `list.h`. -/
structure list where
  prev : Nat
  next : Nat
deriving DecidableEq, Repr, Inhabited

/-- Heap of `struct list` cells, indexed by address. -/
abbrev ListHeap := Nat → list

/-- Read `p->prev`. -/
def list_get_prev (h : ListHeap) (p : Nat) : Option Nat :=
  if p = 0 then none else some (h p).prev

/-- Read `p->next`. -/
def list_get_next (h : ListHeap) (p : Nat) : Option Nat :=
  if p = 0 then none else some (h p).next

/-- Write `p->prev = v`. -/
def list_set_prev (h : ListHeap) (p v : Nat) : Option ListHeap :=
  if p = 0 then none else some (Function.update h p { h p with prev := v })

/-- Write `p->next = v`. -/
def list_set_next (h : ListHeap) (p v : Nat) : Option ListHeap :=
  if p = 0 then none else some (Function.update h p { h p with next := v })

/-- Function `list_head_init(list)`. -/
def list_head_init (l : Nat) (h : ListHeap) : Option ListHeap := do
  let h ← list_set_prev h l l
  list_set_next h l l

/-- Function `list_remove(item)`. -/
def list_remove (item : Nat) (h : ListHeap) : Option ListHeap := do
  let prev ← list_get_prev h item
  let next ← list_get_next h item
  let h ← list_set_next h prev next
  list_set_prev h next prev

/-- Function `list_add(item, head)`. -/
def list_add (item head : Nat) (h : ListHeap) : Option ListHeap := do
  let first ← list_get_next h head
  let h ← list_set_prev h item head
  let h ← list_set_next h item first
  let h ← list_set_prev h first item
  list_set_next h head item

/-- Function `list_add_tail(item, head)`. -/
def list_add_tail (item head : Nat) (h : ListHeap) : Option ListHeap := do
  let tail ← list_get_prev h head
  let h ← list_set_prev h item tail
  let h ← list_set_next h item head
  let h ← list_set_next h tail item
  list_set_prev h head item

/-- Function `list_replace(victim, item)`.  The body reads `item->prev` and
`item->next`; it never reads `victim`. -/
def list_replace (victim item : Nat) (h : ListHeap) : Option ListHeap := do
  let prev ← list_get_prev h item
  let next ← list_get_next h item
  let h ← list_set_next h item next
  let h ← list_set_prev h item prev
  let h ← list_set_next h prev item
  list_set_prev h next item

/-!
# Abstraction: the binary tree a state lays out in the heap
-/

/-- Colour of a node of the abstract tree. -/
inductive Color where
  | red : Color
  | black : Color
deriving DecidableEq, Repr

/-- Value of the `int color` field that stores a colour. -/
def Color.enc : Color → Int
  | Color.red => RB_RED
  | Color.black => RB_BLACK

/-- Contribution of a colour to the black height. -/
def Color.weight : Color → Nat
  | Color.red => 0
  | Color.black => 1

/-- Binary tree of node addresses with colours: the shape that the `left` and
`right` links draw below a node. -/
inductive Tree where
  | nil : Tree
  | node (l : Tree) (p : Nat) (c : Color) (r : Tree) : Tree
deriving DecidableEq, Repr

namespace Tree

/-- Address of the root node, `NULL` for the empty tree. -/
def ptr : Tree → Nat
  | nil => 0
  | node _ p _ _ => p

/-- In-order sequence of node addresses. -/
def ptrs : Tree → List Nat
  | nil => []
  | node l p _ r => l.ptrs ++ p :: r.ptrs

/-- Number of nodes. -/
def size : Tree → Nat
  | nil => 0
  | node l _ _ r => l.size + 1 + r.size

/-- Number of nodes on the longest path from the root to a null link. -/
def height : Tree → Nat
  | nil => 0
  | node l _ _ r => max l.height r.height + 1

/-- Whether the root exists and is red. -/
def isRed : Tree → Bool
  | node _ _ Color.red _ => true
  | _ => false

/-- No red node has a red child. -/
def noRedRed : Tree → Prop
  | nil => True
  | node l _ c r =>
    (c = Color.red → l.isRed = false ∧ r.isRed = false) ∧ l.noRedRed ∧ r.noRedRed

/-- Number of black nodes on the leftmost path from the root to a null link,
the root included. -/
def bh : Tree → Nat
  | nil => 0
  | node l _ c _ => l.bh + c.weight

/-- Numbers of black nodes met on each path from the root to a null link, the
root included, listed from the leftmost path to the rightmost. -/
def pathBlacks : Tree → List Nat
  | nil => [0]
  | node l _ c r => (l.pathBlacks ++ r.pathBlacks).map (fun k => k + c.weight)

/-- Every path from any node to a descendant null link crosses the same number
of black nodes: at every node the black heights of the two subtrees agree.
Theorem `balanced_iff_paths` shows that this is the same as all numbers in
`pathBlacks` being equal. -/
def balanced : Tree → Prop
  | nil => True
  | node l _ _ r => l.bh = r.bh ∧ l.balanced ∧ r.balanced

/-- The tree with node address `v` renamed to `y`: same shape, same colours. -/
def subst (v y : Nat) : Tree → Tree
  | nil => nil
  | node l p c r => node (l.subst v y) (if p = v then y else p) c (r.subst v y)

/-- The tree with its root turned black. -/
def blacken : Tree → Tree
  | nil => nil
  | node l p _ r => node l p Color.black r

end Tree

/-- The heap lays out tree `t` below a node whose `parent` link is `par`: each
node of `t` is a non-null cell whose links are the addresses of its parent and
children in `t` and whose colour field stores its colour. -/
def Rep (m : Nat → rb_node) : Nat → Tree → Prop
  | _, Tree.nil => True
  | par, Tree.node l p c r =>
    p ≠ 0 ∧ m p = ⟨par, l.ptr, r.ptr, c.enc⟩ ∧ Rep m p l ∧ Rep m p r

/-- Well-formed tree: the state lays out `t` from its root reference, the root
has no parent, and no node occurs twice. -/
def WF (s : State) (t : Tree) : Prop :=
  s.root = t.ptr ∧ Rep s.mem 0 t ∧ t.ptrs.Nodup

/-- Address of the caller record that embeds the node at address `p`: the node
address minus `offset` bytes, as `rb_insert_item` computes it. -/
def record (ops : rb_ops) (p : Nat) : Nat := ptr_sub p ops.offset

/-- Address that `rb_search_item` computes for the node at address `p`: the
subtraction is done on a `struct rb_node *`, so it moves by `offset` cells. -/
def search_record (ops : rb_ops) (p : Nat) : Nat := ptr_sub p (ops.offset * SIZEOF_RB_NODE)

/-- In-order sequence of the record addresses of a tree. -/
def Tree.records (ops : rb_ops) (t : Tree) : List Nat := t.ptrs.map (record ops)

/-- The `compare` callback orders records by a key: negative when the first
key is smaller, positive when it is larger, zero otherwise. -/
def compare_by {K : Type} [LinearOrder K] (ops : rb_ops) (key : Nat → K) : Prop :=
  ∀ a b, (ops.compare a b ops.context < 0 ↔ key a < key b) ∧
    (0 < ops.compare a b ops.context ↔ key b < key a)

/-- The `compare_key` callback orders a record against a key address in the
same way, `kv` giving the key value found at a key address. -/
def compare_key_by {K : Type} [LinearOrder K] (ops : rb_ops) (key : Nat → K) (kv : Nat → K) :
    Prop :=
  ∀ a k, (ops.compare_key a k ops.context < 0 ↔ key a < kv k) ∧
    (0 < ops.compare_key a k ops.context ↔ kv k < key a)

/-- A sequence of records is strictly increasing by key. -/
def sorted_by {K : Type} [LinearOrder K] (key : Nat → K) (l : List Nat) : Prop :=
  l.Pairwise (fun a b => key a < key b)

/-- The three red-black invariants of a tree: the root is black or the tree is
empty, no red node has a red child, black heights agree on all paths. -/
def RB (t : Tree) : Prop :=
  t.isRed = false ∧ t.noRedRed ∧ t.balanced

/-- One step of a path from a subtree towards the root: the parent node, its
colour and the sibling subtree. -/
inductive Frame where
  | L (p : Nat) (c : Color) (r : Tree) : Frame
  | R (l : Tree) (p : Nat) (c : Color) : Frame
deriving DecidableEq, Repr

namespace Frame

/-- Tree obtained by putting `t` into the hole of the frame. -/
def fill : Frame → Tree → Tree
  | L p c r, t => Tree.node t p c r
  | R l p c, t => Tree.node l p c t

/-- Address of the frame node. -/
def ptr : Frame → Nat
  | L p _ _ => p
  | R _ p _ => p

/-- Colour of the frame node. -/
def color : Frame → Color
  | L _ c _ => c
  | R _ _ c => c

/-- Sibling subtree of the hole. -/
def sib : Frame → Tree
  | L _ _ r => r
  | R l _ _ => l

/-- Whether the hole is the left child of the frame node. -/
def isL : Frame → Bool
  | L _ _ _ => true
  | R _ _ _ => false

/-- The frame with its node coloured `c`. -/
def setColor (c : Color) : Frame → Frame
  | L p _ r => L p c r
  | R l p _ => R l p c

/-- The frame with the sibling subtree `t`. -/
def setSib (t : Tree) : Frame → Frame
  | L p c _ => L p c t
  | R _ p c => R t p c

end Frame

/-- Path from a hole to the root, innermost frame first. -/
abbrev Ctx := List Frame

/-- Tree obtained by putting `t` into the hole of the path. -/
def plug : Ctx → Tree → Tree
  | [], t => t
  | f :: fs, t => plug fs (f.fill t)

/-- The slot that holds the link to the hole of a path. -/
def slotOf : Ctx → Slot
  | [] => Slot.root
  | Frame.L p _ _ :: _ => Slot.left p
  | Frame.R _ p _ :: _ => Slot.right p

namespace Ctx

/-- Address of the parent of the hole, `NULL` at the root. -/
def top : Ctx → Nat
  | [] => 0
  | f :: _ => f.ptr

/-- Root address of `plug ctx t` when `h` is the root address of `t`. -/
def rootPtr : Ctx → Nat → Nat
  | [], h => h
  | f :: fs, _ => rootPtr fs f.ptr

/-- Addresses that precede the hole in the in-order sequence. -/
def before : Ctx → List Nat
  | [] => []
  | Frame.L _ _ _ :: fs => before fs
  | Frame.R l p _ :: fs => before fs ++ (l.ptrs ++ [p])

/-- Addresses that follow the hole in the in-order sequence. -/
def after : Ctx → List Nat
  | [] => []
  | Frame.L p _ r :: fs => (p :: r.ptrs) ++ after fs
  | Frame.R _ _ _ :: fs => after fs

/-- Whether the parent of the hole exists and is red. -/
def isRed : Ctx → Bool
  | [] => false
  | f :: _ => decide (f.color = Color.red)

/-- No red node of the path has a red child outside the hole. -/
def noRedRed : Ctx → Prop
  | [] => True
  | f :: fs =>
    f.sib.noRedRed ∧ (f.color = Color.red → f.sib.isRed = false ∧ isRed fs = false) ∧
      noRedRed fs

/-- Black heights agree everywhere once the hole holds a tree of black height
`h`. -/
def balanced : Ctx → Nat → Prop
  | [], _ => True
  | f :: fs, h => f.sib.bh = h ∧ f.sib.balanced ∧ balanced fs (h + f.color.weight)

/-- The path is the one a descent takes that goes left at a node where `cmp`
is positive and right where it is negative. -/
def pathOK (cmp : Nat → Int) : Ctx → Prop
  | [] => True
  | Frame.L p _ _ :: fs => cmp p > 0 ∧ pathOK cmp fs
  | Frame.R _ p _ :: fs => cmp p < 0 ∧ pathOK cmp fs

/-- The root of the plugged tree is black when the path is not empty. -/
def rootBlack : Ctx → Prop
  | [] => True
  | [f] => f.color = Color.black
  | _ :: f :: fs => rootBlack (f :: fs)

end Ctx

/-- The heap lays out the path `ctx` around a hole whose root address is `h`. -/
def RepCtx (m : Nat → rb_node) : Ctx → Nat → Prop
  | [], _ => True
  | Frame.L p c r :: fs, h =>
    p ≠ 0 ∧ m p = ⟨Ctx.top fs, h, r.ptr, c.enc⟩ ∧ Rep m p r ∧ RepCtx m fs p
  | Frame.R l p c :: fs, h =>
    p ≠ 0 ∧ m p = ⟨Ctx.top fs, l.ptr, h, c.enc⟩ ∧ Rep m p l ∧ RepCtx m fs p

instance instDecidableNoRedRed : (t : Tree) → Decidable t.noRedRed
  | Tree.nil => isTrue trivial
  | Tree.node l _ c r =>
    have := instDecidableNoRedRed l
    have := instDecidableNoRedRed r
    inferInstanceAs (Decidable ((c = Color.red → l.isRed = false ∧ r.isRed = false) ∧
      l.noRedRed ∧ r.noRedRed))

instance instDecidableBalanced : (t : Tree) → Decidable t.balanced
  | Tree.nil => isTrue trivial
  | Tree.node l _ _ r =>
    have := instDecidableBalanced l
    have := instDecidableBalanced r
    inferInstanceAs (Decidable (l.bh = r.bh ∧ l.balanced ∧ r.balanced))

instance instDecidableRep (m : Nat → rb_node) : (par : Nat) → (t : Tree) → Decidable (Rep m par t)
  | _, Tree.nil => isTrue trivial
  | par, Tree.node l p c r =>
    have := instDecidableRep m p l
    have := instDecidableRep m p r
    inferInstanceAs (Decidable (p ≠ 0 ∧ m p = ⟨par, l.ptr, r.ptr, c.enc⟩ ∧ Rep m p l ∧ Rep m p r))

instance instDecidableWF (s : State) (t : Tree) : Decidable (WF s t) :=
  inferInstanceAs (Decidable (s.root = t.ptr ∧ Rep s.mem 0 t ∧ t.ptrs.Nodup))

instance instDecidableRB (t : Tree) : Decidable (RB t) :=
  inferInstanceAs (Decidable (t.isRed = false ∧ t.noRedRed ∧ t.balanced))

/-- Subtree that case 3 of `_rb_link_color` leaves at the grandparent `g` of
the red subtree `sub` with parent `f`: parent and uncle black, grandparent
red. -/
def case3_tree (g f : Frame) (sub : Tree) : Tree :=
  ((g.setSib g.sib.blacken).setColor Color.red).fill ((f.setColor Color.black).fill sub)

/-- Subtree that case 4 of `_rb_link_color` leaves at the place of the
grandparent `g` of the red subtree `sub` with parent `f`: one rotation when
`sub` is an outer grandchild, two when it is an inner one; the new root is
black and the grandparent red. -/
def link_rotate : Frame → Frame → Tree → Tree
  | Frame.L gp _ u, Frame.L p _ fsib, sub =>
    Tree.node sub p Color.black (Tree.node fsib gp Color.red u)
  | Frame.R u gp _, Frame.R fsib p _, sub =>
    Tree.node (Tree.node u gp Color.red fsib) p Color.black sub
  | Frame.L gp _ u, Frame.R fsib p _, Tree.node l x _ r =>
    Tree.node (Tree.node fsib p Color.red l) x Color.black (Tree.node r gp Color.red u)
  | Frame.R u gp _, Frame.L p _ fsib, Tree.node l x _ r =>
    Tree.node (Tree.node u gp Color.red l) x Color.black (Tree.node r p Color.red fsib)
  | g, f, Tree.nil => g.fill (f.fill Tree.nil)

/-- The tree that the loop of `_rb_link_color` leaves when it starts at the
root of the red subtree `sub` in the hole of the path. -/
def link_color_tree : Ctx → Tree → Tree
  | [], sub => sub
  | [f], sub => f.fill sub
  | f :: g :: fs, sub =>
    if f.color = Color.red then
      if g.sib.isRed = true then link_color_tree fs (case3_tree g f sub)
      else plug fs (link_rotate g f sub)
    else plug fs (g.fill (f.fill sub))

/-- The part of the loop body of `_rb_link_color` that ends in `continue`
(case 3: parent and uncle are red): it yields the next value of `node`, the
grandparent, and the state after the three colour writes; `none` when the loop
ends instead, at its test or at the `break` of case 4. -/
def link_color_continue (node : Nat) (s : State) : Option (Nat × State) := do
  let parent ← s.get_parent node
  if parent ≠ 0 ∧ rb_is_red s parent = true then
    let gparent ← s.get_parent parent
    let gl ← s.get_left gparent
    if gl = parent then
      let uncle ← s.get_right gparent
      if rb_is_red s uncle = true then
        let s ← rb_set_black s parent
        let s ← rb_set_black s uncle
        let s ← rb_set_red s gparent
        some (gparent, s)
      else none
    else
      let uncle ← s.get_left gparent
      if rb_is_red s uncle = true then
        let s ← rb_set_black s parent
        let s ← rb_set_black s uncle
        let s ← rb_set_red s gparent
        some (gparent, s)
      else none
  else none

/-- Value of `node` and state at the loop test of `_rb_link_color` after `k`
iterations that ended in `continue`. -/
def link_color_head : Nat → Nat → State → Option (Nat × State)
  | 0, node, s => some (node, s)
  | k + 1, node, s => (link_color_continue node s).bind (fun r => link_color_head k r.1 r.2)

/-- Invariant of the loop of `_rb_link_color` at its test: `node` is the red
root of a subtree without red-red pair and with equal black counts, and so is
the path around it, once the subtree is in its hole, apart from the colour of
the parent of `node`; the root of the tree is black when `node` is not the
root. -/
def LinkInv (s : State) (node : Nat) : Prop :=
  ∃ (ctx : Ctx) (l r : Tree), WF s (plug ctx (Tree.node l node Color.red r)) ∧
    (Tree.node l node Color.red r).noRedRed ∧ (Tree.node l node Color.red r).balanced ∧
    ctx.noRedRed ∧ ctx.balanced (Tree.node l node Color.red r).bh ∧ ctx.rootBlack

/-- Case 6 of the left branch of the loop body of `_rb_remove_color`: the
sibling is black and its right child is red. -/
def remove_color_left_case6 (parent sibling : Nat) (s : State) : Option (Nat × State) := do
  let pc ← s.get_color parent
  let s ← s.set_color sibling pc
  let s ← rb_set_black s parent
  let sr ← s.get_right sibling
  let s ← rb_set_black s sr
  let s ← _rb_rotate_left parent s
  some (s.root, s)

/-- Cases 3 to 6 of the left branch of the loop body of `_rb_remove_color`, the
part that follows case 2; `k` is the loop that `continue` goes back to. -/
def remove_color_left_tail (k : Nat → Nat → State → Option (Nat × State))
    (parent sibling : Nat) (s : State) : Option (Nat × State) := do
  let sr ← s.get_right sibling
  let sl ← s.get_left sibling
  if rb_is_black s sr = true ∧ rb_is_black s sl = true then
    let s ← rb_set_red s sibling
    let node := parent
    let parent ← s.get_parent node
    k node parent s
  else
    let (s, sibling) ←
      if rb_is_black s sr = true then do
        let child := sl
        let s ← _rb_rotate_right sibling s
        let s ← rb_set_red s sibling
        let s ← rb_set_black s child
        pure (s, child)
      else pure (s, sibling)
    remove_color_left_case6 parent sibling s

/-- Left branch of the loop body of `_rb_remove_color`: the deficient node is
the left child of `parent`. -/
def remove_color_left (k : Nat → Nat → State → Option (Nat × State))
    (parent : Nat) (s : State) : Option (Nat × State) := do
  let sibling ← s.get_right parent
  let (s, sibling) ←
    if rb_is_red s sibling = true then do
      let s ← _rb_rotate_left parent s
      let s ← rb_set_black s sibling
      let s ← rb_set_red s parent
      let sibling ← s.get_right parent
      pure (s, sibling)
    else pure (s, sibling)
  remove_color_left_tail k parent sibling s

/-- Case 6 of the right branch of the loop body of `_rb_remove_color`: the
sibling is black and its left child is red. -/
def remove_color_right_case6 (parent sibling : Nat) (s : State) : Option (Nat × State) := do
  let pc ← s.get_color parent
  let s ← s.set_color sibling pc
  let s ← rb_set_black s parent
  let sl ← s.get_left sibling
  let s ← rb_set_black s sl
  let s ← _rb_rotate_right parent s
  some (s.root, s)

/-- Cases 3 to 6 of the right branch of the loop body of `_rb_remove_color`,
the part that follows case 2; `k` is the loop that `continue` goes back to. -/
def remove_color_right_tail (k : Nat → Nat → State → Option (Nat × State))
    (parent sibling : Nat) (s : State) : Option (Nat × State) := do
  let sr ← s.get_right sibling
  let sl ← s.get_left sibling
  if rb_is_black s sr = true ∧ rb_is_black s sl = true then
    let s ← rb_set_red s sibling
    let node := parent
    let parent ← s.get_parent node
    k node parent s
  else
    let (s, sibling) ←
      if rb_is_black s sl = true then do
        let child := sr
        let s ← _rb_rotate_left sibling s
        let s ← rb_set_red s sibling
        let s ← rb_set_black s child
        pure (s, child)
      else pure (s, sibling)
    remove_color_right_case6 parent sibling s

/-- Right branch of the loop body of `_rb_remove_color`: the deficient node is
the right child of `parent`. -/
def remove_color_right (k : Nat → Nat → State → Option (Nat × State))
    (parent : Nat) (s : State) : Option (Nat × State) := do
  let sibling ← s.get_left parent
  let (s, sibling) ←
    if rb_is_red s sibling = true then do
      let s ← _rb_rotate_right parent s
      let s ← rb_set_black s sibling
      let s ← rb_set_red s parent
      let sibling ← s.get_left parent
      pure (s, sibling)
    else pure (s, sibling)
  remove_color_right_tail k parent sibling s

/-- Case 2 of the left branch of the loop body of `_rb_remove_color`: the read
of the sibling and, when it is red, the rotation that makes its near child the
sibling; it yields the state and the sibling that cases 3 to 6 work on. -/
def remove_left_case2 (parent : Nat) (s : State) : Option (State × Nat) := do
  let sibling ← s.get_right parent
  if rb_is_red s sibling = true then do
    let s ← _rb_rotate_left parent s
    let s ← rb_set_black s sibling
    let s ← rb_set_red s parent
    let sibling ← s.get_right parent
    pure (s, sibling)
  else pure (s, sibling)

/-- Case 5 of the left branch of the loop body of `_rb_remove_color`, taken
when the far child `sr` of the sibling is black: the rotation that makes the
near child `sl` the sibling; it yields the state and the sibling that case 6
works on. -/
def remove_left_case5 (sibling sr sl : Nat) (s : State) : Option (State × Nat) :=
  if rb_is_black s sr = true then do
    let child := sl
    let s ← _rb_rotate_right sibling s
    let s ← rb_set_red s sibling
    let s ← rb_set_black s child
    pure (s, child)
  else pure (s, sibling)

/-- Case 2 of the right branch of the loop body of `_rb_remove_color`. -/
def remove_right_case2 (parent : Nat) (s : State) : Option (State × Nat) := do
  let sibling ← s.get_left parent
  if rb_is_red s sibling = true then do
    let s ← _rb_rotate_right parent s
    let s ← rb_set_black s sibling
    let s ← rb_set_red s parent
    let sibling ← s.get_left parent
    pure (s, sibling)
  else pure (s, sibling)

/-- Case 5 of the right branch of the loop body of `_rb_remove_color`, taken
when the far child `sl` of the sibling is black. -/
def remove_right_case5 (sibling sl sr : Nat) (s : State) : Option (State × Nat) :=
  if rb_is_black s sl = true then do
    let child := sr
    let s ← _rb_rotate_left sibling s
    let s ← rb_set_red s sibling
    let s ← rb_set_black s child
    pure (s, child)
  else pure (s, sibling)

/-- Last step of `_rb_remove_color`: `if (node) rb_set_black(node)`. -/
def remove_finish (r : Nat × State) : Option State :=
  if r.1 ≠ 0 then rb_set_black r.2 r.1 else some r.2

/-- Invariant of the removal fixup at a hole that lacks one black node: the
subtree in the hole is balanced and has no red-red pair once its root is black,
and the path is in order for a subtree one black node higher. -/
def RemoveInv (ctx : Ctx) (sub : Tree) : Prop :=
  sub.blacken.noRedRed ∧ sub.balanced ∧ ctx.noRedRed ∧ ctx.balanced (sub.bh + 1) ∧
    ctx.rootBlack

/-- Outcome of the removal fixup: the loop returns, the last step returns, and
the state then holds a red-black tree with the in-order sequence `l`. -/
def RemovePost (res : Option (Nat × State)) (l : List Nat) : Prop :=
  ∃ r s3 t', res = some r ∧ remove_finish r = some s3 ∧ WF s3 t' ∧ RB t' ∧ t'.ptrs = l

/-- The part of the loop body of `_rb_remove_color` that ends in `continue`
(cases 3 and 4, after case 2 when the sibling is red): it yields the next
values of `node` and `parent` and the state; `none` when the loop ends instead,
at its test or at the `break` of case 6. -/
def remove_color_continue (node parent : Nat) (s : State) : Option (Nat × Nat × State) :=
  if rb_is_black s node = true ∧ parent ≠ 0 then do
    let pl ← s.get_left parent
    let (s, sibling) ← if pl = node then remove_left_case2 parent s
      else remove_right_case2 parent s
    let sr ← s.get_right sibling
    let sl ← s.get_left sibling
    if rb_is_black s sr = true ∧ rb_is_black s sl = true then
      let s ← rb_set_red s sibling
      let node := parent
      let parent ← s.get_parent node
      some (node, parent, s)
    else none
  else none

/-- Values of `node` and `parent` and state at the loop test of
`_rb_remove_color` after `k` iterations that ended in `continue`. -/
def remove_color_head : Nat → Nat → Nat → State → Option (Nat × Nat × State)
  | 0, node, parent, s => some (node, parent, s)
  | k + 1, node, parent, s =>
    (remove_color_continue node parent s).bind (fun r => remove_color_head k r.1 r.2.1 r.2.2)

/-- Invariant of the loop of `_rb_remove_color` at its test: `node` is the root
of the subtree in a hole that lacks one black node, `parent` is the node above
the hole. -/
def RemoveHeadInv (s : State) (node parent : Nat) : Prop :=
  ∃ (ctx : Ctx) (sub : Tree), node = sub.ptr ∧ parent = ctx.top ∧ WF s (plug ctx sub) ∧
    RemoveInv ctx sub

/-- What the loop body of `_rb_remove_color` relies on when it runs: the
sibling is not null when it is read, the sibling that cases 3 to 6 work on
(the one read again after the rotation of case 2 when the first was red) is not
null, and when the loop ends with case 6 the sibling that case 6 works on and
its far child are not null. -/
def RemoveSafe (s : State) (node parent : Nat) : Prop :=
  ((s.mem parent).left = node →
    (s.mem parent).right ≠ 0 ∧
    ∃ st sb, remove_left_case2 parent s = some (st, sb) ∧ sb ≠ 0 ∧
      (¬ (rb_is_black st (st.mem sb).right = true ∧ rb_is_black st (st.mem sb).left = true) →
        ∃ st' sb', remove_left_case5 sb (st.mem sb).right (st.mem sb).left st
            = some (st', sb') ∧
          sb' ≠ 0 ∧ (st'.mem sb').right ≠ 0)) ∧
  ((s.mem parent).left ≠ node →
    (s.mem parent).left ≠ 0 ∧
    ∃ st sb, remove_right_case2 parent s = some (st, sb) ∧ sb ≠ 0 ∧
      (¬ (rb_is_black st (st.mem sb).right = true ∧ rb_is_black st (st.mem sb).left = true) →
        ∃ st' sb', remove_right_case5 sb (st.mem sb).left (st.mem sb).right st
            = some (st', sb') ∧
          sb' ≠ 0 ∧ (st'.mem sb').left ≠ 0))

/-- The part of `rb_remove` before the call of `_rb_remove_color`: the node is
unlinked (its successor takes its place when it has two children); it yields
the colour that was removed, the child and the parent that the fixup starts
with, and the state. -/
def rb_remove_unlink (fuel : Nat) (node : Nat) (s : State) :
    Option (Int × Nat × Nat × State) := do
  let nl ← s.get_left node
  let nr ← s.get_right node
  if nl = 0 ∨ nr = 0 then do
    let child := if nl ≠ 0 then nl else nr
    let color ← s.get_color node
    let parent ← s.get_parent node
    let s ← relink_parent parent node child s
    let s ← if child ≠ 0 then s.set_parent child parent else some s
    pure (color, child, parent, s)
  else do
    let old := node
    let node ← rb_leftmost fuel nr s
    let color ← s.get_color node
    let child ← s.get_right node
    let parent ← s.get_parent node
    let s ← relink_parent parent node child s
    let s ← if child ≠ 0 then s.set_parent child parent else some s
    let parent := if old = parent then node else parent
    let s ← rb_replace_node old node s
    pure (color, child, parent, s)

/-- The loop of `_rb_remove_color` with the given fuel restores the
invariants from every hole that is less deep than the fuel, and from every hole
with a red subtree. -/
def RemoveLoopOK (fuel : Nat) : Prop :=
  ∀ (ctx : Ctx) (sub : Tree) (s : State),
    (ctx.length < fuel ∨ (sub.isRed = true ∧ 0 < fuel)) → WF s (plug ctx sub) →
      RemoveInv ctx sub →
      RemovePost (_rb_remove_color_loop fuel sub.ptr ctx.top s) (plug ctx sub).ptrs

/-- Link from a node to one of its children: `b` is the non-null `left` or
`right` of the node `a`. -/
def child_link (s : State) (a b : Nat) : Prop :=
  a ≠ 0 ∧ b ≠ 0 ∧ ((s.mem a).left = b ∨ (s.mem a).right = b)

/-- Node `n` is reached from the root reference along child links. -/
def reachable (s : State) (n : Nat) : Prop :=
  s.root ≠ 0 ∧ Relation.ReflTransGen (child_link s) s.root n

/-- Structural link consistency: the root has no parent, and each non-null
`left` and `right` of every node of the tree has that node as its parent. -/
def links_ok (s : State) : Prop :=
  (s.root ≠ 0 → (s.mem s.root).parent = 0) ∧
  ∀ n, reachable s n →
    ((s.mem n).left ≠ 0 → (s.mem (s.mem n).left).parent = n) ∧
    ((s.mem n).right ≠ 0 → (s.mem (s.mem n).right).parent = n)

/-- No node that is reached from the root lies on a cycle of child links. -/
def acyclic (s : State) : Prop :=
  ∀ n, reachable s n → ¬ Relation.TransGen (child_link s) n n

/-- The call returns, and the state after it is link-consistent and has no
cycle. -/
def links_kept (res : Option State) : Prop :=
  ∃ s', res = some s' ∧ links_ok s' ∧ acyclic s'

/-- Number of nodes of the subtree whose root is at address `n`; `0` when the
address is not in the tree. -/
def Tree.sizeAt : Tree → Nat → Nat
  | Tree.nil, _ => 0
  | Tree.node l p c r, n =>
    if p = n then (Tree.node l p c r).size else l.sizeAt n + r.sizeAt n

/-- The client loop that inserts a list of records one after the other with
`rb_insert_item`. -/
def rb_insert_items (fuel : Nat) (ops : rb_ops) : List Nat → State → Option State
  | [], s => some s
  | item :: rest, s => do
    let r ← rb_insert_item fuel item s ops
    rb_insert_items fuel ops rest r.2

/-- A call that changes the tree: `rb_insert_item(item, tree, ops)` or
`rb_remove(node, tree)`. -/
inductive Op where
  | insert (item : Nat) : Op
  | remove (node : Nat) : Op
deriving DecidableEq, Repr

/-- The state after one call. -/
def rb_apply (fuel : Nat) (ops : rb_ops) : Op → State → Option State
  | Op.insert item, s => (rb_insert_item fuel item s ops).map Prod.snd
  | Op.remove node, s => rb_remove fuel node s

/-- The state after a sequence of calls. -/
def rb_run (fuel : Nat) (ops : rb_ops) : List Op → State → Option State
  | [], s => some s
  | o :: os, s => (rb_apply fuel ops o s).bind (rb_run fuel ops os)

/-- The nodes in the tree after a sequence of calls that starts with the nodes
`ps` in the tree. -/
def nodes_after (ops : rb_ops) : List Op → List Nat → List Nat
  | [], ps => ps
  | Op.insert item :: os, ps => nodes_after ops os (ptr_add item ops.offset :: ps)
  | Op.remove node :: os, ps => nodes_after ops os (ps.filter (fun p => p ≠ node))

/-- Every call of the sequence meets its precondition when the sequence starts
with the nodes `ps` in the tree: an inserted record is an address whose node is
not null and compares unequal to every stored record, a removed node is in the
tree. -/
def admissible (ops : rb_ops) : List Op → List Nat → Prop
  | [], _ => True
  | Op.insert item :: os, ps =>
    item < 2 ^ PTR_BITS ∧ ptr_add item ops.offset ≠ 0 ∧
      (∀ p ∈ ps, ops.compare (record ops p) item ops.context ≠ 0) ∧
      admissible ops os (ptr_add item ops.offset :: ps)
  | Op.remove node :: os, ps =>
    node ∈ ps ∧ admissible ops os (ps.filter (fun p => p ≠ node))

instance instDecidableAdmissible (ops : rb_ops) :
    (os : List Op) → (ps : List Nat) → Decidable (admissible ops os ps)
  | [], _ => isTrue trivial
  | Op.insert item :: os, ps =>
    have := instDecidableAdmissible ops os (ptr_add item ops.offset :: ps)
    inferInstanceAs (Decidable (item < 2 ^ PTR_BITS ∧ ptr_add item ops.offset ≠ 0 ∧
      (∀ p ∈ ps, ops.compare (record ops p) item ops.context ≠ 0) ∧
      admissible ops os (ptr_add item ops.offset :: ps)))
  | Op.remove node :: os, ps =>
    have := instDecidableAdmissible ops os (ps.filter (fun p => p ≠ node))
    inferInstanceAs (Decidable (node ∈ ps ∧
      admissible ops os (ps.filter (fun p => p ≠ node))))

/-- The calls that insert the records `items` one after the other and then
remove their nodes in the same order. -/
def insert_then_remove (ops : rb_ops) (items : List Nat) : List Op :=
  items.map Op.insert ++ items.map (fun i => Op.remove (ptr_add i ops.offset))

/-- The client loop `for (n = node; n; n = rb_next(n))`, collecting the nodes
it visits; `steps` bounds the number of iterations. -/
def rb_walk (fuel : Nat) : Nat → Nat → State → Option (List Nat)
  | 0, _, _ => none
  | steps + 1, node, s =>
    if node = 0 then some []
    else do
      let next ← rb_next fuel node s
      let rest ← rb_walk fuel steps next s
      some (node :: rest)

/-- The `next` and `prev` links lead from cell `a` through the cells `xs` to
cell `b`. -/
def list_chain (h : ListHeap) : Nat → List Nat → Nat → Prop
  | a, [], b => (h a).next = b ∧ (h b).prev = a
  | a, x :: xs, b => (h a).next = x ∧ (h x).prev = a ∧ list_chain h x xs b

instance instDecidableListChain (h : ListHeap) :
    (a : Nat) → (xs : List Nat) → (b : Nat) → Decidable (list_chain h a xs b)
  | a, [], b => inferInstanceAs (Decidable ((h a).next = b ∧ (h b).prev = a))
  | a, x :: xs, b =>
    have := instDecidableListChain h x xs b
    inferInstanceAs (Decidable ((h a).next = x ∧ (h x).prev = a ∧ list_chain h x xs b))

/-- Well-formed circular list with head cell `head` and member cells `xs`: all
cells are distinct and non-null, and the links run from the head through the
members back to the head. -/
def list_wf (h : ListHeap) (head : Nat) (xs : List Nat) : Prop :=
  (head :: xs).Nodup ∧ (∀ x ∈ head :: xs, x ≠ 0) ∧ list_chain h head xs head

instance instDecidableListWf (h : ListHeap) (head : Nat) (xs : List Nat) :
    Decidable (list_wf h head xs) :=
  inferInstanceAs (Decidable ((head :: xs).Nodup ∧ (∀ x ∈ head :: xs, x ≠ 0) ∧
    list_chain h head xs head))

/-- The client loop `for (p = head->next; p != head; p = p->next)`, collecting
the cells it visits; `fuel` bounds the number of iterations. -/
def list_walk (h : ListHeap) (head : Nat) : Nat → Nat → Option (List Nat)
  | 0, _ => none
  | fuel + 1, p =>
    if p = head then some []
    else do
      let n ← list_get_next h p
      let rest ← list_walk h head fuel n
      some (p :: rest)

/-- Heap with the circular list of head 100 and single member 200, and a cell
300 outside the list that `list_head_init` has linked to itself. -/
def ex_list : ListHeap := fun p =>
  if p = 100 then ⟨200, 200⟩
  else if p = 200 then ⟨100, 100⟩
  else if p = 300 then ⟨300, 300⟩
  else ⟨0, 0⟩

/-! ## Concrete data: records with an `int` key in front of the node

Records are 8 bytes of key followed by the node, so the ordering descriptor has
offset 8.  The example callbacks take the record address itself as the key value
and a key address as the key value searched for. -/

/-- Ordering descriptor of the examples: offset 8, keys compared by
subtraction. -/
def ex_ops : rb_ops :=
  { offset := 8
    context := 0
    compare := fun a b _ => (a : Int) - (b : Int)
    compare_key := fun a k _ => (a : Int) - (k : Int) }

/-- Ordering descriptor of records that lie 64 bytes apart, the record at
address `64 * k` holding the key `k`: offset 8, keys compared by subtraction. -/
def ex_ops64 : rb_ops :=
  { offset := 8
    context := 0
    compare := fun a b _ => ((a / 64 : Nat) : Int) - ((b / 64 : Nat) : Int)
    compare_key := fun a k _ => ((a / 64 : Nat) : Int) - (k : Int) }

/-- The records with the keys `1..n` in ascending order, the record with key
`k` at address `64 * k`. -/
def ex_items (n : Nat) : List Nat := (List.range' 1 n).map (fun k => 64 * k)

/-- The calls that insert the records with the keys 10, 20, 30, 15, 25, 5. -/
def ex_scenario : List Op :=
  [Op.insert 640, Op.insert 1280, Op.insert 1920, Op.insert 960, Op.insert 1600, Op.insert 320]

/-- The tree that the scenario builds: black root 20 over black 10 with red
children 5 and 15 and black 30 with red left child 25. -/
def ex_tree6 : Tree :=
  Tree.node
    (Tree.node (Tree.node Tree.nil 328 Color.red Tree.nil) 648 Color.black
      (Tree.node Tree.nil 968 Color.red Tree.nil))
    1288 Color.black
    (Tree.node (Tree.node Tree.nil 1608 Color.red Tree.nil) 1928 Color.black Tree.nil)

/-- Heap of an empty tree: the root reference is `NULL`. -/
def ex_state0 : State :=
  { root := 0
    mem := fun _ => ⟨0, 0, 0, 0⟩ }

/-- Heap with one black node at address 2008 (record 2000) as the root. -/
def ex_state1 : State :=
  { root := 2008
    mem := fun p => if p = 2008 then ⟨0, 0, 0, RB_BLACK⟩ else ⟨0, 0, 0, 0⟩ }

/-- The tree that `ex_state1` lays out. -/
def ex_tree1 : Tree := Tree.node Tree.nil 2008 Color.black Tree.nil

/-- Heap with a black root at 2008 and red children at 1008 and 3008. -/
def ex_state3 : State :=
  { root := 2008
    mem := fun p =>
      if p = 2008 then ⟨0, 1008, 3008, RB_BLACK⟩
      else if p = 1008 then ⟨2008, 0, 0, RB_RED⟩
      else if p = 3008 then ⟨2008, 0, 0, RB_RED⟩
      else ⟨0, 0, 0, 0⟩ }

/-- The tree that `ex_state3` lays out. -/
def ex_tree3 : Tree :=
  Tree.node (Tree.node Tree.nil 1008 Color.red Tree.nil) 2008 Color.black
    (Tree.node Tree.nil 3008 Color.red Tree.nil)

/-- Heap with a black root at 2008 and black children at 1008 and 3008. -/
def ex_state3b : State :=
  { root := 2008
    mem := fun p =>
      if p = 2008 then ⟨0, 1008, 3008, RB_BLACK⟩
      else if p = 1008 then ⟨2008, 0, 0, RB_BLACK⟩
      else if p = 3008 then ⟨2008, 0, 0, RB_BLACK⟩
      else ⟨0, 0, 0, 0⟩ }

/-- Heap with one red node at address 2008 as the root. -/
def ex_state_red : State :=
  { root := 2008
    mem := fun p => if p = 2008 then ⟨0, 0, 0, RB_RED⟩ else ⟨0, 0, 0, 0⟩ }

/-- Heap whose root at 2008 names the node at 1008 both as `left` and as
`right`; the node at 1008 names the root as its parent. -/
def ex_state_twin : State :=
  { root := 2008
    mem := fun p =>
      if p = 2008 then ⟨0, 1008, 1008, RB_BLACK⟩
      else if p = 1008 then ⟨2008, 0, 0, RB_RED⟩
      else ⟨0, 0, 0, 0⟩ }

/-- The tree that `ex_state3b` lays out. -/
def ex_tree3b : Tree :=
  Tree.node (Tree.node Tree.nil 1008 Color.black Tree.nil) 2008 Color.black
    (Tree.node Tree.nil 3008 Color.black Tree.nil)

/-! ## Reading and writing cells -/

section accessors
variable (s : State) (p v : Nat)

@[simp] theorem get_parent_eq (hp : p ≠ 0) : s.get_parent p = some (s.mem p).parent := by
  simp [State.get_parent, hp]

@[simp] theorem get_left_eq (hp : p ≠ 0) : s.get_left p = some (s.mem p).left := by
  simp [State.get_left, hp]

@[simp] theorem get_right_eq (hp : p ≠ 0) : s.get_right p = some (s.mem p).right := by
  simp [State.get_right, hp]

@[simp] theorem get_color_eq (hp : p ≠ 0) : s.get_color p = some (s.mem p).color := by
  simp [State.get_color, hp]

end accessors

@[simp] theorem enc_red : Color.enc Color.red = 0 := rfl
@[simp] theorem enc_black : Color.enc Color.black = 1 := rfl

theorem enc_injective {c d : Color} (h : c.enc = d.enc) : c = d := by
  cases c <;> cases d <;> simp_all [Color.enc, RB_RED, RB_BLACK]

/-! ## Trees and paths -/

@[simp] theorem top_nil : Ctx.top [] = 0 := rfl

@[simp] theorem top_cons (f : Frame) (fs : Ctx) : Ctx.top (f :: fs) = f.ptr := rfl

@[simp] theorem rootPtr_nil (h : Nat) : Ctx.rootPtr [] h = h := rfl

@[simp] theorem rootPtr_cons (f : Frame) (fs : Ctx) (h : Nat) :
    Ctx.rootPtr (f :: fs) h = Ctx.rootPtr fs f.ptr := rfl

@[simp] theorem ptr_L (p : Nat) (c : Color) (r : Tree) : (Frame.L p c r).ptr = p := rfl

@[simp] theorem ptr_R (p : Nat) (c : Color) (l : Tree) : (Frame.R l p c).ptr = p := rfl

@[simp] theorem ptr_nil : Tree.nil.ptr = 0 := rfl

@[simp] theorem ptr_node (l r : Tree) (p : Nat) (c : Color) : (Tree.node l p c r).ptr = p := rfl

@[simp] theorem plug_nil (t : Tree) : plug [] t = t := rfl

@[simp] theorem plug_cons (f : Frame) (fs : Ctx) (t : Tree) :
    plug (f :: fs) t = plug fs (f.fill t) := rfl

theorem plug_append (c1 c2 : Ctx) (t : Tree) : plug (c1 ++ c2) t = plug c2 (plug c1 t) := by
  induction c1 generalizing t with
  | nil => rfl
  | cons f fs ih => simp [ih]

theorem ptrs_plug (ctx : Ctx) (t : Tree) :
    (plug ctx t).ptrs = ctx.before ++ t.ptrs ++ ctx.after := by
  induction ctx generalizing t with
  | nil => simp [Ctx.before, Ctx.after]
  | cons f fs ih =>
    cases f <;> simp [ih, Frame.fill, Tree.ptrs, Ctx.before, Ctx.after]

theorem ptr_plug (ctx : Ctx) (t : Tree) : (plug ctx t).ptr = ctx.rootPtr t.ptr := by
  induction ctx generalizing t with
  | nil => rfl
  | cons f fs ih => rw [plug_cons, ih]; cases f <;> rfl

theorem size_eq_length (t : Tree) : t.size = t.ptrs.length := by
  induction t with
  | nil => rfl
  | node l p c r ihl ihr => simp [Tree.size, Tree.ptrs, ihl, ihr]; omega

theorem Rep_plug (m : Nat → rb_node) (ctx : Ctx) (t : Tree) :
    Rep m 0 (plug ctx t) ↔ RepCtx m ctx t.ptr ∧ Rep m ctx.top t := by
  induction ctx generalizing t with
  | nil => simp [RepCtx, Ctx.top]
  | cons f fs ih =>
    cases f <;> simp [ih, Frame.fill, Rep, RepCtx, Tree.ptr, Ctx.top, Frame.ptr] <;> tauto

theorem WF_plug (s : State) (ctx : Ctx) (t : Tree) :
    WF s (plug ctx t) ↔
      s.root = ctx.rootPtr t.ptr ∧ RepCtx s.mem ctx t.ptr ∧ Rep s.mem ctx.top t ∧
        (ctx.before ++ t.ptrs ++ ctx.after).Nodup := by
  simp only [WF, ptr_plug, Rep_plug, ptrs_plug, and_assoc]

theorem Rep_congr {m m' : Nat → rb_node} {par : Nat} {t : Tree}
    (h : ∀ q ∈ t.ptrs, m' q = m q) (hr : Rep m par t) : Rep m' par t := by
  induction t generalizing par with
  | nil => trivial
  | node l p c r ihl ihr =>
    obtain ⟨h0, hp, hl, hrr⟩ := hr
    refine ⟨h0, ?_, ihl (fun q hq => h q ?_) hl, ihr (fun q hq => h q ?_) hrr⟩
    · rw [h p (by simp [Tree.ptrs]), hp]
    · simp [Tree.ptrs, hq]
    · simp [Tree.ptrs, hq]

theorem RepCtx_congr {m m' : Nat → rb_node} {ctx : Ctx} {h : Nat}
    (hm : ∀ q, q ∈ ctx.before ∨ q ∈ ctx.after → m' q = m q) (hr : RepCtx m ctx h) :
    RepCtx m' ctx h := by
  induction ctx generalizing h with
  | nil => trivial
  | cons f fs ih =>
    cases f with
    | L p c r =>
      obtain ⟨h0, hp, hs, hrest⟩ := hr
      refine ⟨h0, ?_, Rep_congr (fun q hq => hm q ?_) hs, ih (fun q hq => hm q ?_) hrest⟩
      · rw [hm p (by simp [Ctx.after]), hp]
      · simp [Ctx.after, hq]
      · rcases hq with hq | hq <;> simp [Ctx.after, Ctx.before, hq]
    | R l p c =>
      obtain ⟨h0, hp, hs, hrest⟩ := hr
      refine ⟨h0, ?_, Rep_congr (fun q hq => hm q ?_) hs, ih (fun q hq => hm q ?_) hrest⟩
      · rw [hm p (by simp [Ctx.before]), hp]
      · simp [Ctx.before, hq]
      · rcases hq with hq | hq <;> simp [Ctx.after, Ctx.before, hq]

theorem Rep_ptrs_ne_zero {m : Nat → rb_node} {par : Nat} {t : Tree} (hr : Rep m par t) :
    ∀ q ∈ t.ptrs, q ≠ 0 := by
  induction t generalizing par with
  | nil => simp [Tree.ptrs]
  | node l p c r ihl ihr =>
    obtain ⟨h0, -, hl, hrr⟩ := hr
    intro q hq
    simp only [Tree.ptrs, List.mem_append, List.mem_cons] at hq
    rcases hq with hq | rfl | hq
    · exact ihl hl q hq
    · exact h0
    · exact ihr hrr q hq

theorem ptr_mem_ptrs {t : Tree} (h : t ≠ Tree.nil) : t.ptr ∈ t.ptrs := by
  cases t with
  | nil => exact absurd rfl h
  | node l p c r => simp [Tree.ptr, Tree.ptrs]

theorem Rep_ptr_eq_zero {m : Nat → rb_node} {par : Nat} {t : Tree} (hr : Rep m par t) :
    t.ptr = 0 ↔ t = Tree.nil := by
  cases t with
  | nil => simp [Tree.ptr]
  | node l p c r => simpa [Tree.ptr] using hr.1

theorem RepCtx_ptrs_ne_zero {m : Nat → rb_node} {ctx : Ctx} {h : Nat} (hr : RepCtx m ctx h) :
    ∀ q, q ∈ ctx.before ∨ q ∈ ctx.after → q ≠ 0 := by
  induction ctx generalizing h with
  | nil => simp [Ctx.before, Ctx.after]
  | cons f fs ih =>
    cases f with
    | L p c r =>
      obtain ⟨h0, -, hs, hrest⟩ := hr
      intro q hq
      simp only [Ctx.before, Ctx.after, List.mem_append, List.mem_cons] at hq
      rcases hq with hq | (rfl | hq) | hq
      · exact ih hrest q (Or.inl hq)
      · exact h0
      · exact Rep_ptrs_ne_zero hs q hq
      · exact ih hrest q (Or.inr hq)
    | R l p c =>
      obtain ⟨h0, -, hs, hrest⟩ := hr
      intro q hq
      simp only [Ctx.before, Ctx.after, List.mem_append, List.mem_cons, List.mem_singleton,
        List.not_mem_nil, or_false] at hq
      rcases hq with (hq | hq | rfl) | hq
      · exact ih hrest q (Or.inl hq)
      · exact Rep_ptrs_ne_zero hs q hq
      · exact h0
      · exact ih hrest q (Or.inr hq)

theorem top_mem (ctx : Ctx) (h : ctx ≠ []) : ctx.top ∈ ctx.before ∨ ctx.top ∈ ctx.after := by
  cases ctx with
  | nil => exact absurd rfl h
  | cons f fs => cases f <;> simp [Ctx.top, Frame.ptr, Ctx.before, Ctx.after]

/-- Every node of a tree is the root of a subtree in a path. -/
theorem exists_plug_of_mem {t : Tree} {p : Nat} (h : p ∈ t.ptrs) :
    ∃ ctx l c r, t = plug ctx (Tree.node l p c r) := by
  induction t with
  | nil => simp [Tree.ptrs] at h
  | node l q c r ihl ihr =>
    simp only [Tree.ptrs, List.mem_append, List.mem_cons] at h
    rcases h with h | rfl | h
    · obtain ⟨ctx, l', c', r', rfl⟩ := ihl h
      exact ⟨ctx ++ [Frame.L q c r], l', c', r', by simp [plug_append, Frame.fill]⟩
    · exact ⟨[], l, c, r, rfl⟩
    · obtain ⟨ctx, l', c', r', rfl⟩ := ihr h
      exact ⟨ctx ++ [Frame.R l q c], l', c', r', by simp [plug_append, Frame.fill]⟩

/-! ## Red-black invariants along a path -/

theorem isRed_eq_true {t : Tree} (h : t.isRed = true) :
    ∃ l p r, t = Tree.node l p Color.red r := by
  cases t with
  | nil => simp [Tree.isRed] at h
  | node l p c r =>
    cases c with
    | red => exact ⟨l, p, r, rfl⟩
    | black => simp [Tree.isRed] at h

@[simp] theorem isRed_nil : Tree.nil.isRed = false := rfl

@[simp] theorem isRed_node (l r : Tree) (p : Nat) (c : Color) :
    (Tree.node l p c r).isRed = decide (c = Color.red) := by
  cases c <;> rfl

@[simp] theorem ctx_isRed_nil : Ctx.isRed [] = false := rfl

@[simp] theorem ctx_isRed_cons (f : Frame) (fs : Ctx) :
    Ctx.isRed (f :: fs) = decide (f.color = Color.red) := rfl

@[simp] theorem weight_red : Color.red.weight = 0 := rfl

@[simp] theorem weight_black : Color.black.weight = 1 := rfl

theorem bh_fill (f : Frame) (t : Tree) (h : f.sib.bh = t.bh) :
    (f.fill t).bh = t.bh + f.color.weight := by
  cases f <;> simp_all [Frame.fill, Tree.bh, Frame.sib, Frame.color]

theorem balanced_plug {ctx : Ctx} {t : Tree} :
    (plug ctx t).balanced ↔ ctx.balanced t.bh ∧ t.balanced := by
  induction ctx generalizing t with
  | nil => simp [Ctx.balanced]
  | cons f fs ih =>
    rw [plug_cons, ih]
    constructor
    · intro ⟨h1, h2⟩
      cases f with
      | L p c r =>
        simp only [Frame.fill, Tree.balanced, Tree.bh] at h1 h2
        refine ⟨⟨?_, ?_, ?_⟩, h2.2.1⟩ <;> simp_all [Frame.sib, Frame.color]
      | R l p c =>
        simp only [Frame.fill, Tree.balanced, Tree.bh] at h1 h2
        refine ⟨⟨?_, ?_, ?_⟩, h2.2.2⟩ <;> simp_all [Frame.sib, Frame.color]
    · intro ⟨⟨h1, h2, h3⟩, h4⟩
      rw [bh_fill f t h1]
      refine ⟨h3, ?_⟩
      cases f <;> simp_all [Frame.fill, Tree.balanced, Frame.sib]

theorem bh_plug_congr {ctx : Ctx} {t t' : Tree} (h : t.bh = t'.bh) (hb : ctx.balanced t.bh) :
    (plug ctx t).bh = (plug ctx t').bh := by
  induction ctx generalizing t t' with
  | nil => simpa using h
  | cons f fs ih =>
    obtain ⟨h1, h2, h3⟩ := hb
    rw [plug_cons, plug_cons]
    have e1 := bh_fill f t h1
    have e2 := bh_fill f t' (h1.trans h)
    exact ih (by rw [e1, e2, h]) (by rw [e1]; exact h3)

theorem noRedRed_plug {ctx : Ctx} {t : Tree} :
    (plug ctx t).noRedRed ↔
      ctx.noRedRed ∧ t.noRedRed ∧ (ctx.isRed = true → t.isRed = false) := by
  induction ctx generalizing t with
  | nil => simp [Ctx.noRedRed]
  | cons f fs ih =>
    rw [plug_cons, ih]
    cases f with
    | L p c r =>
      cases c <;> simp [Frame.fill, Tree.noRedRed, Ctx.noRedRed, Frame.sib, Frame.color] <;>
        tauto
    | R l p c =>
      cases c <;> simp [Frame.fill, Tree.noRedRed, Ctx.noRedRed, Frame.sib, Frame.color] <;>
        tauto

theorem isRed_plug {ctx : Ctx} {t : Tree} :
    (plug ctx t).isRed = false ↔ ctx.rootBlack ∧ (ctx = [] → t.isRed = false) := by
  induction ctx generalizing t with
  | nil => simp [Ctx.rootBlack]
  | cons f fs ih =>
    rw [plug_cons, ih]
    cases fs with
    | nil =>
      cases f with
      | L p c r => cases c <;> simp [Ctx.rootBlack, Frame.fill, Frame.color]
      | R l p c => cases c <;> simp [Ctx.rootBlack, Frame.fill, Frame.color]
    | cons g gs => simp [Ctx.rootBlack]

theorem rootBlack_tail {f : Frame} {fs : Ctx} (h : Ctx.rootBlack (f :: fs)) :
    Ctx.rootBlack fs := by
  cases fs with
  | nil => trivial
  | cons g gs => exact h

theorem rootBlack_red {f : Frame} {fs : Ctx} (h : Ctx.rootBlack (f :: fs))
    (hf : f.color = Color.red) : ∃ g gs, fs = g :: gs := by
  cases fs with
  | nil => simp [Ctx.rootBlack, hf] at h
  | cons g gs => exact ⟨g, gs, rfl⟩

theorem RB_plug {ctx : Ctx} {t : Tree} :
    RB (plug ctx t) ↔
      (ctx.rootBlack ∧ (ctx = [] → t.isRed = false)) ∧
        (ctx.noRedRed ∧ t.noRedRed ∧ (ctx.isRed = true → t.isRed = false)) ∧
          (ctx.balanced t.bh ∧ t.balanced) := by
  rw [RB, isRed_plug, noRedRed_plug, balanced_plug]

theorem height_plug (ctx : Ctx) (t : Tree) : ctx.length + t.height ≤ (plug ctx t).height := by
  induction ctx generalizing t with
  | nil => simp
  | cons f fs ih =>
    rw [plug_cons]
    have := ih (f.fill t)
    cases f <;> simp [Frame.fill, Tree.height] at this ⊢ <;> omega

/-! ## Facts read off a focused tree -/

theorem nodup_focus {ctx : Ctx} {t : Tree} (h : (ctx.before ++ t.ptrs ++ ctx.after).Nodup) :
    t.ptrs.Nodup ∧ (ctx.before ++ ctx.after).Nodup ∧
      ∀ q ∈ t.ptrs, ¬ (q ∈ ctx.before ∨ q ∈ ctx.after) := by
  simp only [List.nodup_append, List.disjoint_left, List.mem_append] at h ⊢
  obtain ⟨⟨hb, ht, hbt⟩, ha, hbta⟩ := h
  refine ⟨ht, ⟨hb, ha, fun q hq => hbta (Or.inl hq)⟩, fun q hq hq' => ?_⟩
  rcases hq' with hq' | hq'
  · exact hbt hq' hq
  · exact hbta (Or.inr hq) hq'

theorem nodup_refocus {ctx : Ctx} {t t' : Tree}
    (h : (ctx.before ++ t.ptrs ++ ctx.after).Nodup) (ht : t'.ptrs.Nodup)
    (hsub : ∀ q ∈ t'.ptrs, q ∈ t.ptrs) : (ctx.before ++ t'.ptrs ++ ctx.after).Nodup := by
  obtain ⟨-, hca, hd⟩ := nodup_focus h
  simp only [List.nodup_append, List.disjoint_left, List.mem_append] at hca ⊢
  refine ⟨⟨hca.1, ht, fun q hq hq' => hd q (hsub q hq') (Or.inl hq)⟩, hca.2.1, ?_⟩
  rintro q (hq | hq) hq'
  · exact hca.2.2 hq hq'
  · exact hd q (hsub q hq) (Or.inr hq')

theorem mem_focus {s : State} {ctx : Ctx} {l r : Tree} {p : Nat} {c : Color}
    (hw : WF s (plug ctx (Tree.node l p c r))) :
    p ≠ 0 ∧ s.mem p = ⟨ctx.top, l.ptr, r.ptr, c.enc⟩ := by
  obtain ⟨-, -, hsub, -⟩ := (WF_plug _ _ _).1 hw
  exact ⟨hsub.1, hsub.2.1⟩

theorem rb_is_red_ptr {s : State} {par : Nat} {t : Tree} (h : Rep s.mem par t) :
    rb_is_red s t.ptr = t.isRed := by
  cases t with
  | nil => simp [rb_is_red, Tree.ptr, Tree.isRed]
  | node l p c r =>
    obtain ⟨h0, hp, -, -⟩ := h
    cases c <;> simp [rb_is_red, Tree.ptr, Tree.isRed, h0, hp, RB_RED, RB_BLACK]

theorem rb_is_black_ptr {s : State} {par : Nat} {t : Tree} (h : Rep s.mem par t) :
    rb_is_black s t.ptr = !t.isRed := by
  cases t with
  | nil => simp [rb_is_black, Tree.ptr, Tree.isRed]
  | node l p c r =>
    obtain ⟨h0, hp, -, -⟩ := h
    cases c <;> simp [rb_is_black, Tree.ptr, Tree.isRed, h0, hp, RB_RED, RB_BLACK]

/-! ## The shared relinking block -/

theorem relink_parent_spec {s : State} {ctx : Ctx} {h : Nat} (h' : Nat)
    (hroot : s.root = ctx.rootPtr h) (hctx : RepCtx s.mem ctx h) (hh : h ≠ 0)
    (hnd : (ctx.before ++ ctx.after).Nodup) (hnot : ¬ (h ∈ ctx.before ∨ h ∈ ctx.after)) :
    ∃ s', relink_parent ctx.top h h' s = some s' ∧ s'.root = ctx.rootPtr h' ∧
      RepCtx s'.mem ctx h' ∧ ∀ q, ¬ (q ∈ ctx.before ∨ q ∈ ctx.after) → s'.mem q = s.mem q := by
  cases ctx with
  | nil =>
    exact ⟨s.set_root h', by simp [relink_parent], rfl, trivial, fun _ _ => rfl⟩
  | cons f fs =>
    have hc := List.nodup_iff_count_le_one.1 hnd
    cases f with
    | L p c r =>
      obtain ⟨h0, hp, hs, hrest⟩ := hctx
      simp only [Ctx.before, Ctx.after, List.count_append, List.count_cons] at hc
      refine ⟨{ s with mem := Function.update s.mem p { s.mem p with left := h' } },
        by simp [relink_parent, Frame.ptr, h0, hp, State.set_left], ?_, ?_, ?_⟩
      · simpa [Ctx.rootPtr] using hroot
      · refine ⟨h0, by simp [hp], Rep_congr (fun q hq => ?_) hs,
          RepCtx_congr (fun q hq => ?_) hrest⟩
        · have : q ≠ p := by
            rintro rfl
            have h1 := hc q
            have h2 := List.count_pos_iff.2 hq
            simp only [beq_self_eq_true, if_true] at h1
            omega
          simp [Function.update_apply, this]
        · have : q ≠ p := by
            rintro rfl
            have h1 := hc q
            simp only [beq_self_eq_true, if_true] at h1
            rcases hq with hq | hq <;> have h2 := List.count_pos_iff.2 hq <;> omega
          simp [Function.update_apply, this]
      · intro q hq
        have : q ≠ p := by
          rintro rfl
          exact hq (by simp [Ctx.before, Ctx.after])
        simp [Function.update_apply, this]
    | R l p c =>
      obtain ⟨h0, hp, hs, hrest⟩ := hctx
      simp only [Ctx.before, Ctx.after, List.count_append, List.count_cons, List.count_nil] at hc
      have hlh : l.ptr ≠ h := by
        intro e
        by_cases hl : l = Tree.nil
        · subst hl; exact hh (by simpa [Tree.ptr] using e.symm)
        · exact hnot (Or.inl (by simp [Ctx.before, ← e, ptr_mem_ptrs hl]))
      refine ⟨{ s with mem := Function.update s.mem p { s.mem p with right := h' } },
        by simp [relink_parent, Frame.ptr, h0, hp, hlh, State.set_right], ?_, ?_, ?_⟩
      · simpa [Ctx.rootPtr] using hroot
      · refine ⟨h0, by simp [hp], Rep_congr (fun q hq => ?_) hs,
          RepCtx_congr (fun q hq => ?_) hrest⟩
        · have : q ≠ p := by
            rintro rfl
            have h1 := hc q
            have h2 := List.count_pos_iff.2 hq
            simp only [beq_self_eq_true, if_true] at h1
            omega
          simp [Function.update_apply, this]
        · have : q ≠ p := by
            rintro rfl
            have h1 := hc q
            simp only [beq_self_eq_true, if_true] at h1
            rcases hq with hq | hq <;> have h2 := List.count_pos_iff.2 hq <;> omega
          simp [Function.update_apply, this]
      · intro q hq
        have : q ≠ p := by
          rintro rfl
          exact hq (by simp [Ctx.before, Ctx.after])
        simp [Function.update_apply, this]

/-! ## Colour writes and rotations -/

/-- Transport of a laid-out subtree to a heap that agrees below its root and
differs at the root at most in the parent link. -/
theorem Rep_move {m m' : Nat → rb_node} {par par' : Nat} {t : Tree} (hr : Rep m par t)
    (hnd : t.ptrs.Nodup)
    (hroot : t ≠ Tree.nil → m' t.ptr = { m t.ptr with parent := par' })
    (hrest : ∀ q ∈ t.ptrs, q ≠ t.ptr → m' q = m q) : Rep m' par' t := by
  cases t with
  | nil => trivial
  | node l p c r =>
    obtain ⟨h0, hp, hl, hrr⟩ := hr
    have hc := List.nodup_iff_count_le_one.1 hnd
    simp only [Tree.ptrs, List.count_append, List.count_cons] at hc
    refine ⟨h0, ?_, Rep_congr (fun q hq => hrest q ?_ ?_) hl,
      Rep_congr (fun q hq => hrest q ?_ ?_) hrr⟩
    · have h3 := hroot (by simp)
      simp only [ptr_node] at h3
      rw [h3, hp]
    · simp [Tree.ptrs, hq]
    · rintro rfl
      have h1 := hc q
      have h2 := List.count_pos_iff.2 hq
      simp only [ptr_node, beq_self_eq_true, if_true] at h1
      omega
    · simp [Tree.ptrs, hq]
    · rintro rfl
      have h1 := hc q
      have h2 := List.count_pos_iff.2 hq
      simp only [ptr_node, beq_self_eq_true, if_true] at h1
      omega

theorem WF_refocus {s s' : State} {ctx : Ctx} {t t' : Tree} (hw : WF s (plug ctx t))
    (hroot : s'.root = ctx.rootPtr t'.ptr) (hctx : RepCtx s'.mem ctx t'.ptr)
    (hsub : Rep s'.mem ctx.top t') (hnd : t'.ptrs.Nodup) (hmem : ∀ q ∈ t'.ptrs, q ∈ t.ptrs) :
    WF s' (plug ctx t') :=
  (WF_plug _ _ _).2 ⟨hroot, hctx, hsub, nodup_refocus ((WF_plug _ _ _).1 hw).2.2.2 hnd hmem⟩

/-- Recolouring the focused node. -/
theorem set_color_spec {s : State} {ctx : Ctx} {l r : Tree} {p : Nat} {c : Color} (c' : Color)
    (hw : WF s (plug ctx (Tree.node l p c r))) :
    ∃ s', s.set_color p c'.enc = some s' ∧ WF s' (plug ctx (Tree.node l p c' r)) := by
  obtain ⟨hroot, hctx, ⟨h0, hp, hl, hr⟩, hnd⟩ := (WF_plug _ _ _).1 hw
  obtain ⟨htn, -, hdis⟩ := nodup_focus hnd
  have hc := List.nodup_iff_count_le_one.1 htn
  simp only [Tree.ptrs, List.count_append, List.count_cons] at hc
  simp only [State.set_color, if_neg h0]
  refine ⟨_, rfl, ?_⟩
  refine WF_refocus hw hroot (RepCtx_congr (fun q hq => ?_) hctx) ⟨h0, ?_, ?_, ?_⟩ htn
    (fun q hq => hq)
  · have : q ≠ p := by
      rintro rfl
      exact hdis q (by simp [Tree.ptrs]) hq
    simp [Function.update_apply, this]
  · simp [hp]
  · refine Rep_congr (fun q hq => ?_) hl
    have : q ≠ p := by
      rintro rfl
      have h1 := hc q
      have h2 := List.count_pos_iff.2 hq
      simp only [beq_self_eq_true, if_true] at h1
      omega
    simp [Function.update_apply, this]
  · refine Rep_congr (fun q hq => ?_) hr
    have : q ≠ p := by
      rintro rfl
      have h1 := hc q
      have h2 := List.count_pos_iff.2 hq
      simp only [beq_self_eq_true, if_true] at h1
      omega
    simp [Function.update_apply, this]

theorem rb_set_black_spec {s : State} {ctx : Ctx} {l r : Tree} {p : Nat} {c : Color}
    (hw : WF s (plug ctx (Tree.node l p c r))) :
    ∃ s', rb_set_black s p = some s' ∧ WF s' (plug ctx (Tree.node l p Color.black r)) :=
  set_color_spec Color.black hw

theorem rb_set_red_spec {s : State} {ctx : Ctx} {l r : Tree} {p : Nat} {c : Color}
    (hw : WF s (plug ctx (Tree.node l p c r))) :
    ∃ s', rb_set_red s p = some s' ∧ WF s' (plug ctx (Tree.node l p Color.red r)) :=
  set_color_spec Color.red hw

/-- Left rotation at the focused node. -/
theorem rotate_left_spec {s : State} {ctx : Ctx} {a b c : Tree} {n x : Nat} {cn cx : Color}
    (hw : WF s (plug ctx (Tree.node a n cn (Tree.node b x cx c)))) :
    ∃ s', _rb_rotate_left n s = some s' ∧
      WF s' (plug ctx (Tree.node (Tree.node a n cn b) x cx c)) := by
  have hwp := (WF_plug _ _ _).1 hw
  simp only [Rep, ptr_node] at hwp
  obtain ⟨hroot, hctx, ⟨hn0, hn, ha, hx0, hx, hb, hcc⟩, hnd⟩ := hwp
  obtain ⟨htn, hcn, hdis⟩ := nodup_focus hnd
  have hc := List.nodup_iff_count_le_one.1 htn
  simp only [Tree.ptrs, List.count_append, List.count_cons] at hc
  obtain ⟨s1, h1, hr1, hc1, hm1⟩ := relink_parent_spec x hroot hctx hn0 hcn
    (hdis n (by simp [Tree.ptrs]))
  have hnx : n ≠ x := by
    rintro rfl
    have h1 := hc n
    simp only [beq_self_eq_true, if_true] at h1
    omega
  have hs1 : ∀ q ∈ (Tree.node a n cn (Tree.node b x cx c)).ptrs, s1.mem q = s.mem q :=
    fun q hq => hm1 q (hdis q hq)
  have hs1n := hs1 n (by simp [Tree.ptrs])
  have hs1x := hs1 x (by simp [Tree.ptrs])
  have hbn : b.ptr ≠ n := by
    intro e
    by_cases hb0 : b = Tree.nil
    · subst hb0; exact hn0 e.symm
    · have h1 := hc n
      have h2 := List.count_pos_iff.2 (e ▸ ptr_mem_ptrs hb0)
      simp only [beq_self_eq_true, if_true] at h1
      omega
  have hbx : b.ptr ≠ x := by
    intro e
    by_cases hb0 : b = Tree.nil
    · subst hb0; exact hx0 e.symm
    · have h1 := hc x
      have h2 := List.count_pos_iff.2 (e ▸ ptr_mem_ptrs hb0)
      simp only [beq_self_eq_true, if_true] at h1
      omega
  -- the final heap, pointwise
  have key : ∃ s', _rb_rotate_left n s = some s' ∧ s'.root = s1.root ∧
      s'.mem n = ⟨x, a.ptr, b.ptr, cn.enc⟩ ∧ s'.mem x = ⟨ctx.top, n, c.ptr, cx.enc⟩ ∧
      (b ≠ Tree.nil → s'.mem b.ptr = { s.mem b.ptr with parent := n }) ∧
      ∀ q, q ≠ n → q ≠ x → (b ≠ Tree.nil → q ≠ b.ptr) → s'.mem q = s1.mem q := by
    by_cases hb0 : b.ptr = 0
    · simp only [_rb_rotate_left, get_parent_eq, get_right_eq, get_left_eq, hn0, hx0, hn, hx, h1,
        State.set_parent, State.set_left, State.set_right, hb0, ne_eq, not_false_eq_true,
        Option.bind_eq_bind, Option.some_bind, if_false, not_true_eq_false]
      refine ⟨_, rfl, rfl, ?_, ?_, ?_, ?_⟩
      · simp [Function.update_apply, hnx, hnx.symm, hs1n, hn, hb0]
      · simp [Function.update_apply, hnx, hnx.symm, hs1x, hx]
      · intro hb1
        exact absurd ((Rep_ptr_eq_zero hb).1 hb0) hb1
      · intro q h1 h2 _
        simp [Function.update_apply, h1, h2]
    · have hsb : s1.mem b.ptr = s.mem b.ptr :=
        hs1 _ (by
          have := ptr_mem_ptrs (fun e => hb0 ((Rep_ptr_eq_zero hb).2 e))
          simp [Tree.ptrs, this])
      simp only [_rb_rotate_left, get_parent_eq, get_right_eq, get_left_eq, hn0, hx0, hn, hx, h1,
        State.set_parent, State.set_left, State.set_right, hb0, ne_eq, not_false_eq_true,
        Option.bind_eq_bind, Option.some_bind, if_false, if_true]
      refine ⟨_, rfl, rfl, ?_, ?_, ?_, ?_⟩
      · simp [Function.update_apply, hnx, hnx.symm, hs1n, hn, hbn, hbn.symm]
      · simp [Function.update_apply, hnx, hnx.symm, hs1x, hx, hbx, hbx.symm]
      · intro _
        simp [Function.update_apply, hbn, hbx, hsb]
      · intro q h1 h2 h3
        have h4 := h3 (fun e => hb0 ((Rep_ptr_eq_zero hb).2 e))
        simp [Function.update_apply, h1, h2, h4]
  obtain ⟨s', hs', hroot', hn', hx', hb', hrest'⟩ := key
  refine ⟨s', hs', ?_⟩
  have hmemb : ∀ q ∈ b.ptrs, q ≠ n ∧ q ≠ x := by
    intro q hq
    have h2 := List.count_pos_iff.2 hq
    constructor <;> rintro rfl <;> have h1 := hc q <;>
      simp only [beq_self_eq_true, if_true] at h1 <;> omega
  have hmema : ∀ q ∈ a.ptrs, q ≠ n ∧ q ≠ x ∧ q ∉ b.ptrs := by
    intro q hq
    have h2 := List.count_pos_iff.2 hq
    refine ⟨?_, ?_, fun hq' => ?_⟩
    · rintro rfl
      have h1 := hc q
      simp only [beq_self_eq_true, if_true] at h1
      omega
    · rintro rfl
      have h1 := hc q
      simp only [beq_self_eq_true, if_true] at h1
      omega
    · have h1 := hc q
      have h3 := List.count_pos_iff.2 hq'
      omega
  have hmemc : ∀ q ∈ c.ptrs, q ≠ n ∧ q ≠ x ∧ q ∉ b.ptrs := by
    intro q hq
    have h2 := List.count_pos_iff.2 hq
    refine ⟨?_, ?_, fun hq' => ?_⟩
    · rintro rfl
      have h1 := hc q
      simp only [beq_self_eq_true, if_true] at h1
      omega
    · rintro rfl
      have h1 := hc q
      simp only [beq_self_eq_true, if_true] at h1
      omega
    · have h1 := hc q
      have h3 := List.count_pos_iff.2 hq'
      omega
  refine WF_refocus hw (hroot'.trans hr1) (RepCtx_congr (fun q hq => ?_) hc1)
    ⟨hx0, hx', ⟨hn0, hn', ?_, ?_⟩, ?_⟩ ?_ ?_
  · refine hrest' q ?_ ?_ ?_
    · rintro rfl
      exact hdis q (by simp [Tree.ptrs]) hq
    · rintro rfl
      exact hdis q (by simp [Tree.ptrs]) hq
    · rintro hb0 rfl
      exact hdis _ (by simp [Tree.ptrs, ptr_mem_ptrs hb0]) hq
  · refine Rep_congr (fun q hq => ?_) ha
    obtain ⟨e1, e2, e3⟩ := hmema q hq
    rw [hrest' q e1 e2 (fun hb0 e => e3 (e ▸ ptr_mem_ptrs hb0))]
    exact hs1 q (by simp [Tree.ptrs, hq])
  · refine Rep_move hb ?_ hb' (fun q hq hne => ?_)
    · rw [List.nodup_iff_count_le_one]
      intro q
      have h1 := hc q
      omega
    · obtain ⟨e1, e2⟩ := hmemb q hq
      rw [hrest' q e1 e2 (fun _ => hne)]
      exact hs1 q (by simp [Tree.ptrs, hq])
  · refine Rep_congr (fun q hq => ?_) hcc
    obtain ⟨e1, e2, e3⟩ := hmemc q hq
    rw [hrest' q e1 e2 (fun hb0 e => e3 (e ▸ ptr_mem_ptrs hb0))]
    exact hs1 q (by simp [Tree.ptrs, hq])
  · rw [List.nodup_iff_count_le_one]
    intro q
    have h1 := hc q
    simp only [Tree.ptrs, List.count_append, List.count_cons]
    omega
  · intro q hq
    simp only [Tree.ptrs, List.mem_append, List.mem_cons] at hq ⊢
    tauto

/-- Right rotation at the focused node. -/
theorem rotate_right_spec {s : State} {ctx : Ctx} {a b c : Tree} {n x : Nat} {cn cx : Color}
    (hw : WF s (plug ctx (Tree.node (Tree.node c x cx b) n cn a))) :
    ∃ s', _rb_rotate_right n s = some s' ∧
      WF s' (plug ctx (Tree.node c x cx (Tree.node b n cn a))) := by
  have hwp := (WF_plug _ _ _).1 hw
  simp only [Rep, ptr_node] at hwp
  obtain ⟨hroot, hctx, ⟨hn0, hn, ⟨hx0, hx, hcc, hb⟩, ha⟩, hnd⟩ := hwp
  obtain ⟨htn, hcn, hdis⟩ := nodup_focus hnd
  have hc := List.nodup_iff_count_le_one.1 htn
  simp only [Tree.ptrs, List.count_append, List.count_cons] at hc
  obtain ⟨s1, h1, hr1, hc1, hm1⟩ := relink_parent_spec x hroot hctx hn0 hcn
    (hdis n (by simp [Tree.ptrs]))
  have hnx : n ≠ x := by
    rintro rfl
    have h1 := hc n
    simp only [beq_self_eq_true, if_true] at h1
    omega
  have hs1 : ∀ q ∈ (Tree.node (Tree.node c x cx b) n cn a).ptrs, s1.mem q = s.mem q :=
    fun q hq => hm1 q (hdis q hq)
  have hs1n := hs1 n (by simp [Tree.ptrs])
  have hs1x := hs1 x (by simp [Tree.ptrs])
  have hbn : b.ptr ≠ n := by
    intro e
    by_cases hb0 : b = Tree.nil
    · subst hb0; exact hn0 e.symm
    · have h1 := hc n
      have h2 := List.count_pos_iff.2 (e ▸ ptr_mem_ptrs hb0)
      simp only [beq_self_eq_true, if_true] at h1
      omega
  have hbx : b.ptr ≠ x := by
    intro e
    by_cases hb0 : b = Tree.nil
    · subst hb0; exact hx0 e.symm
    · have h1 := hc x
      have h2 := List.count_pos_iff.2 (e ▸ ptr_mem_ptrs hb0)
      simp only [beq_self_eq_true, if_true] at h1
      omega
  -- the final heap, pointwise
  have key : ∃ s', _rb_rotate_right n s = some s' ∧ s'.root = s1.root ∧
      s'.mem n = ⟨x, b.ptr, a.ptr, cn.enc⟩ ∧ s'.mem x = ⟨ctx.top, c.ptr, n, cx.enc⟩ ∧
      (b ≠ Tree.nil → s'.mem b.ptr = { s.mem b.ptr with parent := n }) ∧
      ∀ q, q ≠ n → q ≠ x → (b ≠ Tree.nil → q ≠ b.ptr) → s'.mem q = s1.mem q := by
    by_cases hb0 : b.ptr = 0
    · simp only [_rb_rotate_right, get_parent_eq, get_left_eq, get_right_eq, hn0, hx0, hn, hx, h1,
        State.set_parent, State.set_left, State.set_right, hb0, ne_eq, not_false_eq_true,
        Option.bind_eq_bind, Option.some_bind, if_false, not_true_eq_false]
      refine ⟨_, rfl, rfl, ?_, ?_, ?_, ?_⟩
      · simp [Function.update_apply, hnx, hnx.symm, hs1n, hn, hb0]
      · simp [Function.update_apply, hnx, hnx.symm, hs1x, hx]
      · intro hb1
        exact absurd ((Rep_ptr_eq_zero hb).1 hb0) hb1
      · intro q h1 h2 _
        simp [Function.update_apply, h1, h2]
    · have hsb : s1.mem b.ptr = s.mem b.ptr :=
        hs1 _ (by
          have := ptr_mem_ptrs (fun e => hb0 ((Rep_ptr_eq_zero hb).2 e))
          simp [Tree.ptrs, this])
      simp only [_rb_rotate_right, get_parent_eq, get_left_eq, get_right_eq, hn0, hx0, hn, hx, h1,
        State.set_parent, State.set_left, State.set_right, hb0, ne_eq, not_false_eq_true,
        Option.bind_eq_bind, Option.some_bind, if_false, if_true]
      refine ⟨_, rfl, rfl, ?_, ?_, ?_, ?_⟩
      · simp [Function.update_apply, hnx, hnx.symm, hs1n, hn, hbn, hbn.symm]
      · simp [Function.update_apply, hnx, hnx.symm, hs1x, hx, hbx, hbx.symm]
      · intro _
        simp [Function.update_apply, hbn, hbx, hsb]
      · intro q h1 h2 h3
        have h4 := h3 (fun e => hb0 ((Rep_ptr_eq_zero hb).2 e))
        simp [Function.update_apply, h1, h2, h4]
  obtain ⟨s', hs', hroot', hn', hx', hb', hrest'⟩ := key
  refine ⟨s', hs', ?_⟩
  have hmemb : ∀ q ∈ b.ptrs, q ≠ n ∧ q ≠ x := by
    intro q hq
    have h2 := List.count_pos_iff.2 hq
    constructor <;> rintro rfl <;> have h1 := hc q <;>
      simp only [beq_self_eq_true, if_true] at h1 <;> omega
  have hmema : ∀ q ∈ a.ptrs, q ≠ n ∧ q ≠ x ∧ q ∉ b.ptrs := by
    intro q hq
    have h2 := List.count_pos_iff.2 hq
    refine ⟨?_, ?_, fun hq' => ?_⟩
    · rintro rfl
      have h1 := hc q
      simp only [beq_self_eq_true, if_true] at h1
      omega
    · rintro rfl
      have h1 := hc q
      simp only [beq_self_eq_true, if_true] at h1
      omega
    · have h1 := hc q
      have h3 := List.count_pos_iff.2 hq'
      omega
  have hmemc : ∀ q ∈ c.ptrs, q ≠ n ∧ q ≠ x ∧ q ∉ b.ptrs := by
    intro q hq
    have h2 := List.count_pos_iff.2 hq
    refine ⟨?_, ?_, fun hq' => ?_⟩
    · rintro rfl
      have h1 := hc q
      simp only [beq_self_eq_true, if_true] at h1
      omega
    · rintro rfl
      have h1 := hc q
      simp only [beq_self_eq_true, if_true] at h1
      omega
    · have h1 := hc q
      have h3 := List.count_pos_iff.2 hq'
      omega
  refine WF_refocus hw (hroot'.trans hr1) (RepCtx_congr (fun q hq => ?_) hc1)
    ⟨hx0, hx', ?_, ⟨hn0, hn', ?_, ?_⟩⟩ ?_ ?_
  · refine hrest' q ?_ ?_ ?_
    · rintro rfl
      exact hdis q (by simp [Tree.ptrs]) hq
    · rintro rfl
      exact hdis q (by simp [Tree.ptrs]) hq
    · rintro hb0 rfl
      exact hdis _ (by simp [Tree.ptrs, ptr_mem_ptrs hb0]) hq
  · refine Rep_congr (fun q hq => ?_) hcc
    obtain ⟨e1, e2, e3⟩ := hmemc q hq
    rw [hrest' q e1 e2 (fun hb0 e => e3 (e ▸ ptr_mem_ptrs hb0))]
    exact hs1 q (by simp [Tree.ptrs, hq])
  · refine Rep_move hb ?_ hb' (fun q hq hne => ?_)
    · rw [List.nodup_iff_count_le_one]
      intro q
      have h1 := hc q
      omega
    · obtain ⟨e1, e2⟩ := hmemb q hq
      rw [hrest' q e1 e2 (fun _ => hne)]
      exact hs1 q (by simp [Tree.ptrs, hq])
  · refine Rep_congr (fun q hq => ?_) ha
    obtain ⟨e1, e2, e3⟩ := hmema q hq
    rw [hrest' q e1 e2 (fun hb0 e => e3 (e ▸ ptr_mem_ptrs hb0))]
    exact hs1 q (by simp [Tree.ptrs, hq])
  · rw [List.nodup_iff_count_le_one]
    intro q
    have h1 := hc q
    simp only [Tree.ptrs, List.count_append, List.count_cons]
    omega
  · intro q hq
    simp only [Tree.ptrs, List.mem_append, List.mem_cons] at hq ⊢
    tauto

/-! ## The fixup loop of insertion: `_rb_link_color` -/

theorem focus_children {s : State} {ctx : Ctx} {l r : Tree} {p : Nat} {c : Color}
    (hw : WF s (plug ctx (Tree.node l p c r))) : Rep s.mem p l ∧ Rep s.mem p r := by
  obtain ⟨-, -, hsub, -⟩ := (WF_plug _ _ _).1 hw
  exact ⟨hsub.2.2.1, hsub.2.2.2⟩

theorem children_ne {s : State} {ctx : Ctx} {l r : Tree} {p : Nat} {c : Color}
    (hw : WF s (plug ctx (Tree.node l p c r))) (h : l ≠ Tree.nil ∨ r ≠ Tree.nil) :
    l.ptr ≠ r.ptr := by
  obtain ⟨-, -, hsub, hnd⟩ := (WF_plug _ _ _).1 hw
  obtain ⟨htn, -, -⟩ := nodup_focus hnd
  have hc := List.nodup_iff_count_le_one.1 htn
  simp only [Tree.ptrs, List.count_append, List.count_cons] at hc
  intro e
  by_cases hl : l = Tree.nil
  · have hr : r ≠ Tree.nil := by tauto
    subst hl
    exact hr ((Rep_ptr_eq_zero hsub.2.2.2).1 e.symm)
  · by_cases hr : r = Tree.nil
    · subst hr
      exact hl ((Rep_ptr_eq_zero hsub.2.2.1).1 e)
    · have h1 := hc l.ptr
      have h2 := List.count_pos_iff.2 (ptr_mem_ptrs hl)
      have h3 := List.count_pos_iff.2 (e ▸ ptr_mem_ptrs hr)
      omega

theorem focus_children' {s : State} {ctx : Ctx} {l r : Tree} {p : Nat} {c : Color}
    (hw : WF s (plug ctx (Tree.node l p c r))) : Rep s.mem p r ∧ Rep s.mem p l :=
  (focus_children hw).symm

theorem children_ne' {s : State} {ctx : Ctx} {l r : Tree} {p : Nat} {c : Color}
    (hw : WF s (plug ctx (Tree.node l p c r))) (h : r ≠ Tree.nil ∨ l ≠ Tree.nil) :
    r.ptr ≠ l.ptr :=
  (children_ne hw h.symm).symm

/-- The test `parent->left == node` tells on which side of its parent a node
hangs. -/
theorem left_eq_iff {s : State} {f : Frame} {fs : Ctx} {t : Tree}
    (hw : WF s (plug (f :: fs) t)) (ht : t ≠ Tree.nil) :
    ((s.mem f.ptr).left = t.ptr) = (f.isL = true) := by
  cases f with
  | L p c r =>
    have hw' : WF s (plug fs (Tree.node t p c r)) := hw
    simp [(mem_focus hw').2, Frame.isL]
  | R l p c =>
    have hw' : WF s (plug fs (Tree.node l p c t)) := hw
    simp [(mem_focus hw').2, Frame.isL, children_ne hw' (Or.inr ht)]

theorem isRed_eq_true' {t : Tree} (h : t.isRed = true) :
    ∃ r p l, t = Tree.node l p Color.red r := by
  obtain ⟨l, p, r, rfl⟩ := isRed_eq_true h
  exact ⟨r, p, l, rfl⟩

theorem rb_is_red_focus {s : State} {ctx : Ctx} {l r : Tree} {p : Nat} {c : Color}
    (hw : WF s (plug ctx (Tree.node l p c r))) : rb_is_red s p = decide (c = Color.red) := by
  obtain ⟨h0, hp⟩ := mem_focus hw
  cases c <;> simp [rb_is_red, h0, hp, RB_RED, RB_BLACK]

theorem link_color_tree_black {f : Frame} {fs : Ctx} {sub : Tree}
    (h : f.color = Color.black) : link_color_tree (f :: fs) sub = plug (f :: fs) sub := by
  cases fs with
  | nil => rfl
  | cons g fs' => simp [link_color_tree, h, plug]

theorem link_color_tree_case3 {f g : Frame} {fs : Ctx} {sub : Tree}
    (h : f.color = Color.red) (hu : g.sib.isRed = true) :
    link_color_tree (f :: g :: fs) sub = link_color_tree fs (case3_tree g f sub) := by
  simp [link_color_tree, h, hu]

theorem link_color_tree_case4 {f g : Frame} {fs : Ctx} {sub : Tree}
    (h : f.color = Color.red) (hu : g.sib.isRed = false) :
    link_color_tree (f :: g :: fs) sub = plug fs (link_rotate g f sub) := by
  simp [link_color_tree, h, hu]

/-- The loop of `_rb_link_color` started at a red node whose subtree and path
satisfy the invariants ends in a well-formed tree with the same in-order
sequence in which the colour and balance invariants hold everywhere; the tree
is the one that `link_color_tree` computes. -/
theorem link_color_loop_spec : ∀ (fuel : Nat) (ctx : Ctx) (l r : Tree) (x : Nat) (s : State),
    ctx.length < fuel → WF s (plug ctx (Tree.node l x Color.red r)) →
    (Tree.node l x Color.red r).noRedRed → (Tree.node l x Color.red r).balanced →
    ctx.noRedRed → ctx.balanced (Tree.node l x Color.red r).bh → ctx.rootBlack →
    ∃ s' t', _rb_link_color_loop fuel x s = some s' ∧ WF s' t' ∧ t'.noRedRed ∧ t'.balanced ∧
      t'.ptrs = (plug ctx (Tree.node l x Color.red r)).ptrs ∧ t' ≠ Tree.nil ∧
      t' = link_color_tree ctx (Tree.node l x Color.red r) := by
  intro fuel
  induction fuel with
  | zero => intro ctx l r x s h; exact absurd h (Nat.not_lt_zero _)
  | succ fuel ih =>
    intro ctx l r x s hlen hw hnr hbal hcn hcb hcr
    obtain ⟨hx0, hx⟩ := mem_focus hw
    have hne : ∀ (c : Ctx) (t : Tree) (p : Nat) (cl : Color) (t2 : Tree),
        plug c (Tree.node t p cl t2) ≠ Tree.nil := by
      intro c t p cl t2 e
      have := congrArg Tree.ptrs e
      simp [ptrs_plug, Tree.ptrs] at this
    rw [_rb_link_color_loop]
    simp only [get_parent_eq _ _ hx0, hx, Option.bind_eq_bind, Option.some_bind]
    cases ctx with
    | nil =>
      simp only [top_nil, ne_eq, not_true_eq_false, false_and, if_false]
      exact ⟨s, _, rfl, hw, hnr, hbal, rfl, by simp, rfl⟩
    | cons f fs =>
      cases f with
      | L p c fsib =>
        have hwp : WF s (plug fs (Tree.node (Tree.node l x Color.red r) p c fsib)) := hw
        obtain ⟨hp0, hp⟩ := mem_focus hwp
        have hredp := rb_is_red_focus hwp
        simp only [top_cons, ptr_L, ne_eq, hp0, not_false_eq_true, true_and, hredp]
        cases c with
        | black =>
          simp only [reduceCtorEq, decide_False, Bool.false_eq_true, if_false]
          refine ⟨s, _, rfl, hw, ?_, ?_, rfl, hne _ _ _ _ _, (@link_color_tree_black (Frame.L p Color.black fsib) fs _ rfl).symm⟩
          · exact noRedRed_plug.2 ⟨hcn, hnr, by simp [Frame.color]⟩
          · exact balanced_plug.2 ⟨hcb, hbal⟩
        | red =>
          simp only [decide_True, if_true]
          obtain ⟨g, fs', rfl⟩ := rootBlack_red hcr rfl
          have hgb : g.color = Color.black := by
            have := hcn.2.1 rfl
            simp only [Frame.color, ctx_isRed_cons, decide_eq_false_iff_not] at this
            cases hg : g.color
            · exact absurd hg this.2
            · rfl
          cases g with
          | L gp cg u =>
            have hgb' : cg = Color.black := hgb
            subst hgb'
            have hwg : WF s (plug fs' (Tree.node (Tree.node (Tree.node l x Color.red r) p
              Color.red fsib) gp Color.black u)) := hw
            obtain ⟨hg0, hg⟩ := mem_focus hwg
            have hu := (focus_children hwg).2
            have htest := left_eq_iff hwp (by simp)
            simp only [top_cons, ptr_L, ptr_R, ptr_node] at hp hg htest
            simp only [hp, get_parent_eq _ _ hp0, get_left_eq _ _ hg0, get_right_eq _ _ hg0,
              Option.some_bind, htest, Frame.isL, if_true, if_false, Bool.false_eq_true]
            simp only [hp, get_left_eq _ _ hp0, get_right_eq _ _ hp0, hg, rb_is_red_ptr hu]
            simp only [Ctx.noRedRed, Ctx.balanced, Tree.noRedRed, Tree.balanced, Tree.bh,
              Frame.sib, Frame.color, weight_red, weight_black, isRed_node, ctx_isRed_cons,
              decide_True, decide_False, reduceCtorEq, forall_const, and_true, true_and,
              Nat.add_zero, false_implies, decide_eq_false_iff_not, decide_eq_true_eq,
              Bool.false_eq_true, not_false_eq_true] at hnr hbal hcn hcb
            obtain ⟨⟨hn1, hn2⟩, hn3, hn4⟩ := hnr
            obtain ⟨hb1, hb2, hb3⟩ := hbal
            obtain ⟨hc1, hc2, hc3, hc4⟩ := hcn
            obtain ⟨hd1, hd2, hd3, hd4, hd5⟩ := hcb
            cases hur : u.isRed with
            | true =>
              obtain ⟨ul, pu, ur, rfl⟩ := isRed_eq_true hur
              obtain ⟨s1, e1, w1⟩ := rb_set_black_spec hwp
              have w1' : WF s1 (plug (Frame.R (Tree.node (Tree.node l x Color.red r) p
                Color.black fsib) gp Color.black :: fs') (Tree.node ul pu Color.red ur)) := w1
              obtain ⟨s2, e2, w2⟩ := rb_set_black_spec w1'
              have w2' : WF s2 (plug fs' (Tree.node (Tree.node (Tree.node l x Color.red r) p
                Color.black fsib) gp Color.black (Tree.node ul pu Color.black ur))) := w2
              obtain ⟨s3, e3, w3⟩ := rb_set_red_spec w2'
              simp only [ptr_node, if_true, e1, e2, e3, Option.some_bind]
              simp only [Tree.noRedRed, Tree.balanced, Tree.bh, weight_red, weight_black,
                isRed_node, decide_True, decide_False, reduceCtorEq, forall_const, and_true,
                true_and, Nat.add_zero, false_implies, decide_eq_false_iff_not,
                Bool.false_eq_true, not_false_eq_true] at hc3 hd3 hd4
              obtain ⟨⟨hc5, hc6⟩, hc7, hc8⟩ := hc3
              obtain ⟨hd6, hd7, hd8⟩ := hd4
              obtain ⟨s', t', hl, hw', h1, h2, h3, h4, h5⟩ := ih fs' _ _ gp s3
                (by simp only [List.length_cons] at hlen; omega) w3
                (by simp [Tree.noRedRed]; tauto)
                (by simp only [Tree.balanced, Tree.bh, weight_red, weight_black]
                    repeat' constructor
                    all_goals first | omega | assumption)
                hc4 (by convert hd5 using 1 <;> first | omega | (simp only [Tree.bh, weight_red, weight_black]; omega)) (rootBlack_tail (rootBlack_tail hcr))
              exact ⟨s', t', hl, hw', h1, h2,
                h3.trans (by simp [ptrs_plug, Tree.ptrs, Ctx.before, Ctx.after]), h4,
                h5.trans (@link_color_tree_case3 (Frame.L p Color.red fsib)
                  (Frame.L gp Color.black (Tree.node ul pu Color.red ur)) fs' _ rfl rfl).symm⟩
            | false =>
              have hfx : fsib.ptr ≠ x := fun e => children_ne hwp (Or.inl (by simp)) e.symm
              obtain ⟨s1, e1, w1⟩ := rotate_right_spec hwg
              have w1' : WF s1 (plug (Frame.R (Tree.node l x Color.red r) p Color.red :: fs')
                (Tree.node fsib gp Color.black u)) := w1
              obtain ⟨s2, e2, w2⟩ := rb_set_red_spec w1'
              have w2' : WF s2 (plug fs' (Tree.node (Tree.node l x Color.red r) p Color.red
                (Tree.node fsib gp Color.red u))) := w2
              obtain ⟨s3, e3, w3⟩ := rb_set_black_spec w2'
              simp only [Bool.false_eq_true, if_false, hfx, Option.pure_def, Option.some_bind,
                e1, e2, e3]
              refine ⟨s3, _, rfl, w3, ?_, ?_, ?_, hne _ _ _ _ _,
                (@link_color_tree_case4 (Frame.L p Color.red fsib) (Frame.L gp Color.black u) fs'
                  (Tree.node l x Color.red r) rfl hur).symm⟩
              · refine noRedRed_plug.2 ⟨hc4, ?_, by simp⟩
                simp [Tree.noRedRed]
                tauto
              · refine balanced_plug.2 ⟨by convert hd5 using 1 <;> first | omega | (simp only [Tree.bh, weight_red, weight_black]; omega), ?_⟩
                simp only [Tree.balanced, Tree.bh, weight_red, weight_black]
                repeat' constructor
                all_goals first | omega | assumption
              · simp [ptrs_plug, Tree.ptrs, Ctx.before, Ctx.after]
          | R u gp cg =>
            have hgb' : cg = Color.black := hgb
            subst hgb'
            have hwg : WF s (plug fs' (Tree.node u gp Color.black (Tree.node
              (Tree.node l x Color.red r) p Color.red fsib))) := hw
            obtain ⟨hg0, hg⟩ := mem_focus hwg
            have hu := (focus_children hwg).1
            have htest := left_eq_iff hwp (by simp)
            simp only [top_cons, ptr_L, ptr_R, ptr_node] at hp hg htest
            simp only [hp, get_parent_eq _ _ hp0, get_left_eq _ _ hg0, get_right_eq _ _ hg0,
              Option.some_bind, htest, Frame.isL, if_true, if_false, Bool.false_eq_true]
            simp only [hp, get_left_eq _ _ hp0, get_right_eq _ _ hp0, hg, rb_is_red_ptr hu]
            simp only [Ctx.noRedRed, Ctx.balanced, Tree.noRedRed, Tree.balanced, Tree.bh,
              Frame.sib, Frame.color, weight_red, weight_black, isRed_node, ctx_isRed_cons,
              decide_True, decide_False, reduceCtorEq, forall_const, and_true, true_and,
              Nat.add_zero, false_implies, decide_eq_false_iff_not, decide_eq_true_eq,
              Bool.false_eq_true, not_false_eq_true] at hnr hbal hcn hcb
            obtain ⟨⟨hn1, hn2⟩, hn3, hn4⟩ := hnr
            obtain ⟨hb1, hb2, hb3⟩ := hbal
            obtain ⟨hc1, hc2, hc3, hc4⟩ := hcn
            obtain ⟨hd1, hd2, hd3, hd4, hd5⟩ := hcb
            cases hur : u.isRed with
            | true =>
              obtain ⟨ul, pu, ur, rfl⟩ := isRed_eq_true hur
              obtain ⟨s1, e1, w1⟩ := rb_set_black_spec hwp
              have w1' : WF s1 (plug (Frame.L gp Color.black (Tree.node
                (Tree.node l x Color.red r) p Color.black fsib) :: fs')
                (Tree.node ul pu Color.red ur)) := w1
              obtain ⟨s2, e2, w2⟩ := rb_set_black_spec w1'
              have w2' : WF s2 (plug fs' (Tree.node (Tree.node ul pu Color.black ur) gp
                Color.black (Tree.node (Tree.node l x Color.red r) p Color.black fsib))) := w2
              obtain ⟨s3, e3, w3⟩ := rb_set_red_spec w2'
              simp only [ptr_node, if_true, e1, e2, e3, Option.some_bind]
              simp only [Tree.noRedRed, Tree.balanced, Tree.bh, weight_red, weight_black,
                isRed_node, decide_True, decide_False, reduceCtorEq, forall_const, and_true,
                true_and, Nat.add_zero, false_implies, decide_eq_false_iff_not,
                Bool.false_eq_true, not_false_eq_true] at hc3 hd3 hd4
              obtain ⟨⟨hc5, hc6⟩, hc7, hc8⟩ := hc3
              obtain ⟨hd6, hd7, hd8⟩ := hd4
              obtain ⟨s', t', hl, hw', h1, h2, h3, h4, h5⟩ := ih fs' _ _ gp s3
                (by simp only [List.length_cons] at hlen; omega) w3
                (by simp [Tree.noRedRed]; tauto)
                (by simp only [Tree.balanced, Tree.bh, weight_red, weight_black]
                    repeat' constructor
                    all_goals first | omega | assumption)
                hc4 (by convert hd5 using 1 <;> first | omega | (simp only [Tree.bh, weight_red, weight_black]; omega)) (rootBlack_tail (rootBlack_tail hcr))
              exact ⟨s', t', hl, hw', h1, h2,
                h3.trans (by simp [ptrs_plug, Tree.ptrs, Ctx.before, Ctx.after]), h4,
                h5.trans (@link_color_tree_case3 (Frame.L p Color.red fsib)
                  (Frame.R (Tree.node ul pu Color.red ur) gp Color.black) fs' _ rfl rfl).symm⟩
            | false =>
              obtain ⟨s1, e1, w1⟩ := rotate_right_spec hwp
              have w1p : WF s1 (plug (Frame.R l x Color.red :: Frame.R u gp Color.black :: fs')
                (Tree.node r p Color.red fsib)) := w1
              obtain ⟨-, hp1⟩ := mem_focus w1p
              simp only [top_cons, ptr_R] at hp1
              have w1' : WF s1 (plug fs' (Tree.node u gp Color.black (Tree.node l x Color.red
                (Tree.node r p Color.red fsib)))) := w1
              obtain ⟨s2, e2, w2⟩ := rotate_left_spec w1'
              have w2' : WF s2 (plug (Frame.L x Color.red (Tree.node r p Color.red fsib) :: fs')
                (Tree.node u gp Color.black l)) := w2
              obtain ⟨s3, e3, w3⟩ := rb_set_red_spec w2'
              have w3' : WF s3 (plug fs' (Tree.node (Tree.node u gp Color.red l) x Color.red
                (Tree.node r p Color.red fsib))) := w3
              obtain ⟨s4, e4, w4⟩ := rb_set_black_spec w3'
              simp only [Bool.false_eq_true, if_false, if_true, Option.pure_def, Option.some_bind,
                Option.bind_eq_bind, e1, e2, e3, e4, get_parent_eq _ _ hp0, hp1]
              refine ⟨s4, _, rfl, w4, ?_, ?_, ?_, hne _ _ _ _ _,
                (@link_color_tree_case4 (Frame.L p Color.red fsib) (Frame.R u gp Color.black) fs'
                  (Tree.node l x Color.red r) rfl hur).symm⟩
              · refine noRedRed_plug.2 ⟨hc4, ?_, by simp⟩
                simp [Tree.noRedRed]
                tauto
              · refine balanced_plug.2 ⟨by convert hd5 using 1 <;> first | omega | (simp only [Tree.bh, weight_red, weight_black]; omega), ?_⟩
                simp only [Tree.balanced, Tree.bh, weight_red, weight_black]
                repeat' constructor
                all_goals first | omega | assumption
              · simp [ptrs_plug, Tree.ptrs, Ctx.before, Ctx.after]
      | R fsib p c =>
        have hwp : WF s (plug fs (Tree.node fsib p c (Tree.node l x Color.red r))) := hw
        obtain ⟨hp0, hp⟩ := mem_focus hwp
        have hredp := rb_is_red_focus hwp
        simp only [top_cons, ptr_R, ne_eq, hp0, not_false_eq_true, true_and, hredp]
        cases c with
        | black =>
          simp only [reduceCtorEq, decide_False, Bool.false_eq_true, if_false]
          refine ⟨s, _, rfl, hw, ?_, ?_, rfl, hne _ _ _ _ _, (@link_color_tree_black (Frame.R fsib p Color.black) fs _ rfl).symm⟩
          · exact noRedRed_plug.2 ⟨hcn, hnr, by simp [Frame.color]⟩
          · exact balanced_plug.2 ⟨hcb, hbal⟩
        | red =>
          simp only [decide_True, if_true]
          obtain ⟨g, fs', rfl⟩ := rootBlack_red hcr rfl
          have hgb : g.color = Color.black := by
            have := hcn.2.1 rfl
            simp only [Frame.color, ctx_isRed_cons, decide_eq_false_iff_not] at this
            cases hg : g.color
            · exact absurd hg this.2
            · rfl
          cases g with
          | R u gp cg =>
            have hgb' : cg = Color.black := hgb
            subst hgb'
            have hwg : WF s (plug fs' (Tree.node u gp Color.black (Tree.node fsib p
              Color.red (Tree.node l x Color.red r)))) := hw
            obtain ⟨hg0, hg⟩ := mem_focus hwg
            have hu := (focus_children' hwg).2
            have htest := left_eq_iff hwp (by simp)
            simp only [top_cons, ptr_R, ptr_L, ptr_node] at hp hg htest
            simp only [hp, get_parent_eq _ _ hp0, get_right_eq _ _ hg0, get_left_eq _ _ hg0,
              Option.some_bind, htest, Frame.isL, if_true, if_false, Bool.false_eq_true]
            simp only [hp, get_right_eq _ _ hp0, get_left_eq _ _ hp0, hg, rb_is_red_ptr hu]
            simp only [Ctx.noRedRed, Ctx.balanced, Tree.noRedRed, Tree.balanced, Tree.bh,
              Frame.sib, Frame.color, weight_red, weight_black, isRed_node, ctx_isRed_cons,
              decide_True, decide_False, reduceCtorEq, forall_const, and_true, true_and,
              Nat.add_zero, false_implies, decide_eq_false_iff_not, decide_eq_true_eq,
              Bool.false_eq_true, not_false_eq_true] at hnr hbal hcn hcb
            obtain ⟨⟨hn1, hn2⟩, hn3, hn4⟩ := hnr
            obtain ⟨hb1, hb2, hb3⟩ := hbal
            obtain ⟨hc1, hc2, hc3, hc4⟩ := hcn
            obtain ⟨hd1, hd2, hd3, hd4, hd5⟩ := hcb
            cases hur : u.isRed with
            | true =>
              obtain ⟨ul, pu, ur, rfl⟩ := isRed_eq_true' hur
              obtain ⟨s1, e1, w1⟩ := rb_set_black_spec hwp
              have w1' : WF s1 (plug (Frame.L gp Color.black (Tree.node fsib p
                Color.black (Tree.node l x Color.red r)) :: fs') (Tree.node ur pu Color.red ul)) := w1
              obtain ⟨s2, e2, w2⟩ := rb_set_black_spec w1'
              have w2' : WF s2 (plug fs' (Tree.node (Tree.node ur pu Color.black ul) gp Color.black (Tree.node fsib p
                Color.black (Tree.node l x Color.red r)))) := w2
              obtain ⟨s3, e3, w3⟩ := rb_set_red_spec w2'
              simp only [ptr_node, if_true, e1, e2, e3, Option.some_bind]
              simp only [Tree.noRedRed, Tree.balanced, Tree.bh, weight_red, weight_black,
                isRed_node, decide_True, decide_False, reduceCtorEq, forall_const, and_true,
                true_and, Nat.add_zero, false_implies, decide_eq_false_iff_not,
                Bool.false_eq_true, not_false_eq_true] at hc3 hd3 hd4
              obtain ⟨⟨hc5, hc6⟩, hc7, hc8⟩ := hc3
              obtain ⟨hd6, hd7, hd8⟩ := hd4
              obtain ⟨s', t', hl, hw', h1, h2, h3, h4, h5⟩ := ih fs' _ _ gp s3
                (by simp only [List.length_cons] at hlen; omega) w3
                (by simp [Tree.noRedRed]; tauto)
                (by simp only [Tree.balanced, Tree.bh, weight_red, weight_black]
                    repeat' constructor
                    all_goals first | omega | assumption)
                hc4 (by convert hd5 using 1 <;> first | omega | (simp only [Tree.bh, weight_red, weight_black]; omega)) (rootBlack_tail (rootBlack_tail hcr))
              exact ⟨s', t', hl, hw', h1, h2,
                h3.trans (by simp [ptrs_plug, Tree.ptrs, Ctx.after, Ctx.before]), h4,
                h5.trans (@link_color_tree_case3 (Frame.R fsib p Color.red)
                  (Frame.R (Tree.node ur pu Color.red ul) gp Color.black) fs' _ rfl rfl).symm⟩
            | false =>
              have hfx : fsib.ptr ≠ x := fun e => children_ne' hwp (Or.inl (by simp)) e.symm
              obtain ⟨s1, e1, w1⟩ := rotate_left_spec hwg
              have w1' : WF s1 (plug (Frame.L p Color.red (Tree.node l x Color.red r) :: fs')
                (Tree.node u gp Color.black fsib)) := w1
              obtain ⟨s2, e2, w2⟩ := rb_set_red_spec w1'
              have w2' : WF s2 (plug fs' (Tree.node (Tree.node u gp Color.red fsib) p Color.red
                (Tree.node l x Color.red r))) := w2
              obtain ⟨s3, e3, w3⟩ := rb_set_black_spec w2'
              simp only [Bool.false_eq_true, if_false, hfx, Option.pure_def, Option.some_bind,
                e1, e2, e3]
              refine ⟨s3, _, rfl, w3, ?_, ?_, ?_, hne _ _ _ _ _,
                (@link_color_tree_case4 (Frame.R fsib p Color.red) (Frame.R u gp Color.black) fs'
                  (Tree.node l x Color.red r) rfl hur).symm⟩
              · refine noRedRed_plug.2 ⟨hc4, ?_, by simp⟩
                simp [Tree.noRedRed]
                tauto
              · refine balanced_plug.2 ⟨by convert hd5 using 1 <;> first | omega | (simp only [Tree.bh, weight_red, weight_black]; omega), ?_⟩
                simp only [Tree.balanced, Tree.bh, weight_red, weight_black]
                repeat' constructor
                all_goals first | omega | assumption
              · simp [ptrs_plug, Tree.ptrs, Ctx.after, Ctx.before]
          | L gp cg u =>
            have hgb' : cg = Color.black := hgb
            subst hgb'
            have hwg : WF s (plug fs' (Tree.node (Tree.node
              fsib p Color.red (Tree.node l x Color.red r)) gp Color.black u)) := hw
            obtain ⟨hg0, hg⟩ := mem_focus hwg
            have hu := (focus_children' hwg).1
            have htest := left_eq_iff hwp (by simp)
            simp only [top_cons, ptr_R, ptr_L, ptr_node] at hp hg htest
            simp only [hp, get_parent_eq _ _ hp0, get_right_eq _ _ hg0, get_left_eq _ _ hg0,
              Option.some_bind, htest, Frame.isL, if_true, if_false, Bool.false_eq_true]
            simp only [hp, get_right_eq _ _ hp0, get_left_eq _ _ hp0, hg, rb_is_red_ptr hu]
            simp only [Ctx.noRedRed, Ctx.balanced, Tree.noRedRed, Tree.balanced, Tree.bh,
              Frame.sib, Frame.color, weight_red, weight_black, isRed_node, ctx_isRed_cons,
              decide_True, decide_False, reduceCtorEq, forall_const, and_true, true_and,
              Nat.add_zero, false_implies, decide_eq_false_iff_not, decide_eq_true_eq,
              Bool.false_eq_true, not_false_eq_true] at hnr hbal hcn hcb
            obtain ⟨⟨hn1, hn2⟩, hn3, hn4⟩ := hnr
            obtain ⟨hb1, hb2, hb3⟩ := hbal
            obtain ⟨hc1, hc2, hc3, hc4⟩ := hcn
            obtain ⟨hd1, hd2, hd3, hd4, hd5⟩ := hcb
            cases hur : u.isRed with
            | true =>
              obtain ⟨ul, pu, ur, rfl⟩ := isRed_eq_true' hur
              obtain ⟨s1, e1, w1⟩ := rb_set_black_spec hwp
              have w1' : WF s1 (plug (Frame.R (Tree.node
                fsib p Color.black (Tree.node l x Color.red r)) gp Color.black :: fs')
                (Tree.node ur pu Color.red ul)) := w1
              obtain ⟨s2, e2, w2⟩ := rb_set_black_spec w1'
              have w2' : WF s2 (plug fs' (Tree.node (Tree.node fsib p Color.black (Tree.node l x Color.red r)) gp
                Color.black (Tree.node ur pu Color.black ul))) := w2
              obtain ⟨s3, e3, w3⟩ := rb_set_red_spec w2'
              simp only [ptr_node, if_true, e1, e2, e3, Option.some_bind]
              simp only [Tree.noRedRed, Tree.balanced, Tree.bh, weight_red, weight_black,
                isRed_node, decide_True, decide_False, reduceCtorEq, forall_const, and_true,
                true_and, Nat.add_zero, false_implies, decide_eq_false_iff_not,
                Bool.false_eq_true, not_false_eq_true] at hc3 hd3 hd4
              obtain ⟨⟨hc5, hc6⟩, hc7, hc8⟩ := hc3
              obtain ⟨hd6, hd7, hd8⟩ := hd4
              obtain ⟨s', t', hl, hw', h1, h2, h3, h4, h5⟩ := ih fs' _ _ gp s3
                (by simp only [List.length_cons] at hlen; omega) w3
                (by simp [Tree.noRedRed]; tauto)
                (by simp only [Tree.balanced, Tree.bh, weight_red, weight_black]
                    repeat' constructor
                    all_goals first | omega | assumption)
                hc4 (by convert hd5 using 1 <;> first | omega | (simp only [Tree.bh, weight_red, weight_black]; omega)) (rootBlack_tail (rootBlack_tail hcr))
              exact ⟨s', t', hl, hw', h1, h2,
                h3.trans (by simp [ptrs_plug, Tree.ptrs, Ctx.after, Ctx.before]), h4,
                h5.trans (@link_color_tree_case3 (Frame.R fsib p Color.red)
                  (Frame.L gp Color.black (Tree.node ur pu Color.red ul)) fs' _ rfl rfl).symm⟩
            | false =>
              obtain ⟨s1, e1, w1⟩ := rotate_left_spec hwp
              have w1p : WF s1 (plug (Frame.L x Color.red r :: Frame.L gp Color.black u :: fs')
                (Tree.node fsib p Color.red l)) := w1
              obtain ⟨-, hp1⟩ := mem_focus w1p
              simp only [top_cons, ptr_L] at hp1
              have w1' : WF s1 (plug fs' (Tree.node (Tree.node (Tree.node fsib p Color.red l) x Color.red
                r) gp Color.black u)) := w1
              obtain ⟨s2, e2, w2⟩ := rotate_right_spec w1'
              have w2' : WF s2 (plug (Frame.R (Tree.node fsib p Color.red l) x Color.red :: fs')
                (Tree.node r gp Color.black u)) := w2
              obtain ⟨s3, e3, w3⟩ := rb_set_red_spec w2'
              have w3' : WF s3 (plug fs' (Tree.node (Tree.node fsib p Color.red l) x Color.red
                (Tree.node r gp Color.red u))) := w3
              obtain ⟨s4, e4, w4⟩ := rb_set_black_spec w3'
              simp only [Bool.false_eq_true, if_false, if_true, Option.pure_def, Option.some_bind,
                Option.bind_eq_bind, e1, e2, e3, e4, get_parent_eq _ _ hp0, hp1]
              refine ⟨s4, _, rfl, w4, ?_, ?_, ?_, hne _ _ _ _ _,
                (@link_color_tree_case4 (Frame.R fsib p Color.red) (Frame.L gp Color.black u) fs'
                  (Tree.node l x Color.red r) rfl hur).symm⟩
              · refine noRedRed_plug.2 ⟨hc4, ?_, by simp⟩
                simp [Tree.noRedRed]
                tauto
              · refine balanced_plug.2 ⟨by convert hd5 using 1 <;> first | omega | (simp only [Tree.bh, weight_red, weight_black]; omega), ?_⟩
                simp only [Tree.balanced, Tree.bh, weight_red, weight_black]
                repeat' constructor
                all_goals first | omega | assumption
              · simp [ptrs_plug, Tree.ptrs, Ctx.after, Ctx.before]

/-! ## Rotations: links and in-order sequence -/

theorem rootPtr_mem : ∀ (ctx : Ctx) (h : Nat), ctx ≠ [] →
    ctx.rootPtr h ∈ ctx.before ∨ ctx.rootPtr h ∈ ctx.after := by
  intro ctx
  induction ctx with
  | nil => intro h hne; exact absurd rfl hne
  | cons f fs ih =>
    intro h _
    rw [rootPtr_cons]
    by_cases hfs : fs = []
    · subst hfs
      simpa using top_mem [f] (by simp)
    · rcases ih f.ptr hfs with h1 | h1
      · left
        cases f <;> simp only [ptr_L, ptr_R] at h1 <;> simp [Ctx.before, h1]
      · right
        cases f <;> simp only [ptr_L, ptr_R] at h1 <;> simp [Ctx.after, h1]

/-- The root reference names the focused node exactly when the path is empty. -/
theorem root_eq_focus_iff {s : State} {ctx : Ctx} {l r : Tree} {p : Nat} {c : Color}
    (hw : WF s (plug ctx (Tree.node l p c r))) : s.root = p ↔ ctx = [] := by
  obtain ⟨hroot, -, -, hnd⟩ := (WF_plug _ _ _).1 hw
  obtain ⟨-, -, hdis⟩ := nodup_focus hnd
  constructor
  · intro e
    by_contra hne
    have := rootPtr_mem ctx p hne
    simp only [ptr_node] at hroot
    rw [← hroot, e] at this
    exact hdis p (by simp [Tree.ptrs]) this
  · rintro rfl
    simpa using hroot

theorem root_focus_congr {s s' : State} {ctx : Ctx} {t t' : Tree}
    (hw : WF s (plug ctx t)) (hw' : WF s' (plug ctx t')) (hne : ctx ≠ []) : s'.root = s.root := by
  rw [hw.1, hw'.1, ptr_plug, ptr_plug]
  cases ctx with
  | nil => exact absurd rfl hne
  | cons f fs => simp

/-- The parent link of the root of a subtree names the node above it. -/
theorem parent_of_hole {s : State} {ctx : Ctx} {t : Tree} (hw : WF s (plug ctx t))
    (ht : t.ptr ≠ 0) : (s.mem t.ptr).parent = ctx.top := by
  obtain ⟨-, -, hsub, -⟩ := (WF_plug _ _ _).1 hw
  cases t with
  | nil => exact absurd rfl ht
  | node l p c r => rw [ptr_node, hsub.2.1]

/-- Links after `_rb_rotate_left` at a focused node with a right child. -/
theorem rotate_left_facts {s : State} {ctx : Ctx} {a b c : Tree} {n x : Nat} {cn cx : Color}
    (hw : WF s (plug ctx (Tree.node a n cn (Tree.node b x cx c)))) :
    ∃ s', _rb_rotate_left n s = some s' ∧
      WF s' (plug ctx (Tree.node (Tree.node a n cn b) x cx c)) ∧
      (s.mem n).right = x ∧ (s.mem x).left = b.ptr ∧ (s.mem n).parent = ctx.top ∧
      (s'.mem n).parent = x ∧ (s'.mem n).right = b.ptr ∧ (s'.mem x).left = n ∧
      (s'.mem x).parent = ctx.top ∧ (b.ptr ≠ 0 → (s'.mem b.ptr).parent = n) ∧
      (s'.root = x ↔ s.root = n) ∧ (s.root ≠ n → s'.root = s.root) := by
  obtain ⟨s', e, hw'⟩ := rotate_left_spec hw
  have h0 := (mem_focus hw).2
  have hw1 : WF s (plug (Frame.R a n cn :: ctx) (Tree.node b x cx c)) := hw
  have h1 := (mem_focus hw1).2
  have h2 := (mem_focus hw').2
  have hw2 : WF s' (plug (Frame.L x cx c :: ctx) (Tree.node a n cn b)) := hw'
  have h3 := (mem_focus hw2).2
  simp only [ptr_node, top_cons, ptr_L, ptr_R] at h0 h1 h2 h3
  refine ⟨s', e, hw', by rw [h0], by rw [h1], by rw [h0], by rw [h3], by rw [h3], by rw [h2],
    by rw [h2], ?_, ?_, ?_⟩
  · intro hb
    have hw3 : WF s' (plug (Frame.R a n cn :: Frame.L x cx c :: ctx) b) := hw'
    simpa using parent_of_hole hw3 hb
  · rw [root_eq_focus_iff hw, root_eq_focus_iff hw']
  · intro hr
    exact root_focus_congr hw hw' (fun e => hr ((root_eq_focus_iff hw).2 e))

/-- Links after `_rb_rotate_right` at c focused node with c right child. -/
theorem rotate_right_facts {s : State} {ctx : Ctx} {c b a : Tree} {n x : Nat} {cn cx : Color}
    (hw : WF s (plug ctx (Tree.node (Tree.node a x cx b) n cn c))) :
    ∃ s', _rb_rotate_right n s = some s' ∧
      WF s' (plug ctx (Tree.node a x cx (Tree.node b n cn c))) ∧
      (s.mem n).left = x ∧ (s.mem x).right = b.ptr ∧ (s.mem n).parent = ctx.top ∧
      (s'.mem n).parent = x ∧ (s'.mem n).left = b.ptr ∧ (s'.mem x).right = n ∧
      (s'.mem x).parent = ctx.top ∧ (b.ptr ≠ 0 → (s'.mem b.ptr).parent = n) ∧
      (s'.root = x ↔ s.root = n) ∧ (s.root ≠ n → s'.root = s.root) := by
  obtain ⟨s', e, hw'⟩ := rotate_right_spec hw
  have h0 := (mem_focus hw).2
  have hw1 : WF s (plug (Frame.L n cn c :: ctx) (Tree.node a x cx b)) := hw
  have h1 := (mem_focus hw1).2
  have h2 := (mem_focus hw').2
  have hw2 : WF s' (plug (Frame.R a x cx :: ctx) (Tree.node b n cn c)) := hw'
  have h3 := (mem_focus hw2).2
  simp only [ptr_node, top_cons, ptr_R, ptr_L] at h0 h1 h2 h3
  refine ⟨s', e, hw', by rw [h0], by rw [h1], by rw [h0], by rw [h3], by rw [h3], by rw [h2],
    by rw [h2], ?_, ?_, ?_⟩
  · intro hb
    have hw3 : WF s' (plug (Frame.L n cn c :: Frame.R a x cx :: ctx) b) := hw'
    simpa using parent_of_hole hw3 hb
  · rw [root_eq_focus_iff hw, root_eq_focus_iff hw']
  · intro hr
    exact root_focus_congr hw hw' (fun e => hr ((root_eq_focus_iff hw).2 e))

/-- C11. Claim: in a well-formed tree, `_rb_rotate_left` at a node with a right
child (resp. `_rb_rotate_right` at a node with a left child) returns, leaves the
in-order sequence of the whole tree unchanged, makes the pivot child the parent
of the node, in the place the node had under its former parent, and the node
the parent of the pivot child's former inner subtree, and sets the root
reference to the pivot child exactly when the node was the root (otherwise the
root reference keeps its value). -/
theorem rb_rotate_inorder (s : State) (t : Tree) (n : Nat) (hw : WF s t) (hn : n ∈ t.ptrs) :
    ((s.mem n).right ≠ 0 →
      ∃ s' t', _rb_rotate_left n s = some s' ∧ WF s' t' ∧ t'.ptrs = t.ptrs ∧
        (s'.mem n).parent = (s.mem n).right ∧ (s'.mem (s.mem n).right).left = n ∧
        (s'.mem (s.mem n).right).parent = (s.mem n).parent ∧
        (s'.mem n).right = (s.mem (s.mem n).right).left ∧
        ((s.mem (s.mem n).right).left ≠ 0 →
          (s'.mem (s.mem (s.mem n).right).left).parent = n) ∧
        (s'.root = (s.mem n).right ↔ s.root = n) ∧ (s.root ≠ n → s'.root = s.root)) ∧
    ((s.mem n).left ≠ 0 →
      ∃ s' t', _rb_rotate_right n s = some s' ∧ WF s' t' ∧ t'.ptrs = t.ptrs ∧
        (s'.mem n).parent = (s.mem n).left ∧ (s'.mem (s.mem n).left).right = n ∧
        (s'.mem (s.mem n).left).parent = (s.mem n).parent ∧
        (s'.mem n).left = (s.mem (s.mem n).left).right ∧
        ((s.mem (s.mem n).left).right ≠ 0 →
          (s'.mem (s.mem (s.mem n).left).right).parent = n) ∧
        (s'.root = (s.mem n).left ↔ s.root = n) ∧ (s.root ≠ n → s'.root = s.root)) := by
  obtain ⟨ctx, l, c, r, rfl⟩ := exists_plug_of_mem hn
  have h0 := (mem_focus hw).2
  obtain ⟨hl, hr⟩ := focus_children hw
  constructor
  · intro h
    rw [h0] at h
    cases r with
    | nil => exact absurd rfl h
    | node b x cx cc =>
      obtain ⟨s', e, hw', f1, f2, f3, f4, f5, f6, f7, f8, f9, f10⟩ := rotate_left_facts hw
      rw [f1, f2, f3]
      exact ⟨s', _, e, hw', by simp [ptrs_plug, Tree.ptrs], f4, f6, f7, f5, f8, f9, f10⟩
  · intro h
    rw [h0] at h
    cases l with
    | nil => exact absurd rfl h
    | node cc x cx b =>
      obtain ⟨s', e, hw', f1, f2, f3, f4, f5, f6, f7, f8, f9, f10⟩ := rotate_right_facts hw
      rw [f1, f2, f3]
      exact ⟨s', _, e, hw', by simp [ptrs_plug, Tree.ptrs], f4, f6, f7, f5, f8, f9, f10⟩

theorem rb_rotate_inorder_witness :
    ((ex_state3.mem 2008).right ≠ 0 →
      ∃ s' t', _rb_rotate_left 2008 ex_state3 = some s' ∧ WF s' t' ∧ t'.ptrs = ex_tree3.ptrs ∧
        (s'.mem 2008).parent = (ex_state3.mem 2008).right ∧
        (s'.mem (ex_state3.mem 2008).right).left = 2008 ∧
        (s'.mem (ex_state3.mem 2008).right).parent = (ex_state3.mem 2008).parent ∧
        (s'.mem 2008).right = (ex_state3.mem (ex_state3.mem 2008).right).left ∧
        ((ex_state3.mem (ex_state3.mem 2008).right).left ≠ 0 →
          (s'.mem (ex_state3.mem (ex_state3.mem 2008).right).left).parent = 2008) ∧
        (s'.root = (ex_state3.mem 2008).right ↔ ex_state3.root = 2008) ∧
        (ex_state3.root ≠ 2008 → s'.root = ex_state3.root)) ∧
    ((ex_state3.mem 2008).left ≠ 0 →
      ∃ s' t', _rb_rotate_right 2008 ex_state3 = some s' ∧ WF s' t' ∧ t'.ptrs = ex_tree3.ptrs ∧
        (s'.mem 2008).parent = (ex_state3.mem 2008).left ∧
        (s'.mem (ex_state3.mem 2008).left).right = 2008 ∧
        (s'.mem (ex_state3.mem 2008).left).parent = (ex_state3.mem 2008).parent ∧
        (s'.mem 2008).left = (ex_state3.mem (ex_state3.mem 2008).left).right ∧
        ((ex_state3.mem (ex_state3.mem 2008).left).right ≠ 0 →
          (s'.mem (ex_state3.mem (ex_state3.mem 2008).left).right).parent = 2008) ∧
        (s'.root = (ex_state3.mem 2008).left ↔ ex_state3.root = 2008) ∧
        (ex_state3.root ≠ 2008 → s'.root = ex_state3.root)) :=
  rb_rotate_inorder ex_state3 ex_tree3 2008 (by decide) (by decide)

/-! ## Linking a node: `rb_link` -/

theorem read_slot_spec {s : State} {ctx : Ctx} {t : Tree} (hw : WF s (plug ctx t)) :
    s.read_slot (slotOf ctx) = some t.ptr := by
  obtain ⟨hroot, hctx, -, -⟩ := (WF_plug _ _ _).1 hw
  cases ctx with
  | nil => simpa [slotOf, State.read_slot] using hroot
  | cons f fs =>
    cases f with
    | L p c r => simp [slotOf, State.read_slot, hctx.1, hctx.2.1]
    | R l p c => simp [slotOf, State.read_slot, hctx.1, hctx.2.1]

theorem plug_ne_nil (c : Ctx) (t : Tree) (p : Nat) (cl : Color) (t2 : Tree) :
    plug c (Tree.node t p cl t2) ≠ Tree.nil := by
  intro e
  have := congrArg Tree.ptrs e
  simp [ptrs_plug, Tree.ptrs] at this

/-- The stores of `rb_link` before the fixup put a red leaf into an empty
slot. -/
theorem link_stores_spec {s : State} {ctx : Ctx} {x : Nat} (hw : WF s (plug ctx Tree.nil))
    (hx0 : x ≠ 0) (hfresh : x ∉ (plug ctx Tree.nil).ptrs) :
    ∃ s', (do
        let s ← s.set_right x 0
        let s ← s.set_left x 0
        let s ← s.set_parent x ctx.top
        let s ← s.write_slot x (slotOf ctx)
        rb_set_red s x) = some s' ∧
      WF s' (plug ctx (Tree.node Tree.nil x Color.red Tree.nil)) := by
  obtain ⟨hroot, hctx, -, hnd⟩ := (WF_plug _ _ _).1 hw
  simp only [ptrs_plug, Tree.ptrs, List.append_nil, List.mem_append] at hfresh hnd
  have hnd' : (ctx.before ++ (Tree.node Tree.nil x Color.red Tree.nil).ptrs ++ ctx.after).Nodup := by
    rw [List.nodup_iff_count_le_one] at hnd ⊢
    intro q
    have h1 := hnd q
    simp only [Tree.ptrs, List.count_append, List.count_cons, List.count_nil, List.nil_append]
      at h1 ⊢
    by_cases hq : x = q
    · subst hq
      have h2 : List.count x ctx.before = 0 := List.count_eq_zero.2 (fun h => hfresh (Or.inl h))
      have h3 : List.count x ctx.after = 0 := List.count_eq_zero.2 (fun h => hfresh (Or.inr h))
      simp [h2, h3]
    · simp [hq]
      omega
  cases ctx with
  | nil =>
    simp only [State.set_right, State.set_left, State.set_parent, State.write_slot, rb_set_red,
      State.set_color, slotOf, if_neg hx0, Option.bind_eq_bind, Option.some_bind, top_nil]
    refine ⟨_, rfl, (WF_plug _ _ _).2 ⟨rfl, trivial, ⟨hx0, ?_, trivial, trivial⟩, hnd'⟩⟩
    simp [State.set_root, RB_RED]
  | cons f fs =>
    have hc := List.nodup_iff_count_le_one.1 hnd
    cases f with
    | L p c r =>
      obtain ⟨h0, hp, hs, hrest⟩ := hctx
      have hxp : x ≠ p := by
        rintro rfl
        exact hfresh (Or.inr (by simp [Ctx.after]))
      simp only [Ctx.before, Ctx.after, List.count_append, List.count_cons] at hc
      simp only [State.set_right, State.set_left, State.set_parent, State.write_slot, rb_set_red,
        State.set_color, slotOf, if_neg hx0, if_neg h0, Option.bind_eq_bind, Option.some_bind,
        top_cons, ptr_L]
      refine ⟨_, rfl, (WF_plug _ _ _).2 ⟨by simpa using hroot, ⟨h0, ?_, ?_, ?_⟩,
        ⟨hx0, ?_, trivial, trivial⟩, hnd'⟩⟩
      · simp [Function.update_apply, hxp, hxp.symm, hp]
      · refine Rep_congr (fun q hq => ?_) hs
        have h1 : q ≠ x := by
          rintro rfl
          exact hfresh (Or.inr (by simp [Ctx.after, hq]))
        have h2 : q ≠ p := by
          rintro rfl
          have h1 := hc q
          have h2 := List.count_pos_iff.2 hq
          simp only [beq_self_eq_true, if_true] at h1
          omega
        simp [Function.update_apply, h1, h2]
      · refine RepCtx_congr (fun q hq => ?_) hrest
        have h1 : q ≠ x := by
          rintro rfl
          rcases hq with hq | hq
          · exact hfresh (Or.inl (by simp [Ctx.before, hq]))
          · exact hfresh (Or.inr (by simp [Ctx.after, hq]))
        have h2 : q ≠ p := by
          rintro rfl
          have h1 := hc q
          simp only [beq_self_eq_true, if_true] at h1
          rcases hq with hq | hq <;> have h2 := List.count_pos_iff.2 hq <;> omega
        simp [Function.update_apply, h1, h2]
      · simp [Function.update_apply, hxp, hxp.symm, RB_RED]
    | R l p c =>
      obtain ⟨h0, hp, hs, hrest⟩ := hctx
      have hxp : x ≠ p := by
        rintro rfl
        exact hfresh (Or.inl (by simp [Ctx.before]))
      simp only [Ctx.before, Ctx.after, List.count_append, List.count_cons, List.count_nil] at hc
      simp only [State.set_right, State.set_left, State.set_parent, State.write_slot, rb_set_red,
        State.set_color, slotOf, if_neg hx0, if_neg h0, Option.bind_eq_bind, Option.some_bind,
        top_cons, ptr_R]
      refine ⟨_, rfl, (WF_plug _ _ _).2 ⟨by simpa using hroot, ⟨h0, ?_, ?_, ?_⟩,
        ⟨hx0, ?_, trivial, trivial⟩, hnd'⟩⟩
      · simp [Function.update_apply, hxp, hxp.symm, hp]
      · refine Rep_congr (fun q hq => ?_) hs
        have h1 : q ≠ x := by
          rintro rfl
          exact hfresh (Or.inl (by simp [Ctx.before, hq]))
        have h2 : q ≠ p := by
          rintro rfl
          have h1 := hc q
          have h2 := List.count_pos_iff.2 hq
          simp only [beq_self_eq_true, if_true] at h1
          omega
        simp [Function.update_apply, h1, h2]
      · refine RepCtx_congr (fun q hq => ?_) hrest
        have h1 : q ≠ x := by
          rintro rfl
          rcases hq with hq | hq
          · exact hfresh (Or.inl (by simp [Ctx.before, hq]))
          · exact hfresh (Or.inr (by simp [Ctx.after, hq]))
        have h2 : q ≠ p := by
          rintro rfl
          have h1 := hc q
          simp only [beq_self_eq_true, if_true] at h1
          rcases hq with hq | hq <;> have h2 := List.count_pos_iff.2 hq <;> omega
        simp [Function.update_apply, h1, h2]
      · simp [Function.update_apply, hxp, hxp.symm, RB_RED]

theorem blacken_spec {s : State} {t : Tree} (hw : WF s t) (hne : t ≠ Tree.nil) :
    ∃ s', rb_set_black s s.root = some s' ∧ WF s' t.blacken := by
  cases t with
  | nil => exact absurd rfl hne
  | node l p c r =>
    have hw' : WF s (plug [] (Tree.node l p c r)) := hw
    obtain ⟨s', e, w⟩ := rb_set_black_spec hw'
    refine ⟨s', ?_, w⟩
    rw [hw.1]
    exact e

theorem RB_blacken {t : Tree} (h1 : t.noRedRed) (h2 : t.balanced) : RB t.blacken := by
  cases t with
  | nil => exact ⟨rfl, trivial, trivial⟩
  | node l p c r =>
    refine ⟨by simp [Tree.blacken], ?_, ?_⟩
    · simp only [Tree.blacken, Tree.noRedRed] at h1 ⊢
      exact ⟨by simp, h1.2⟩
    · exact h2

theorem ptrs_blacken (t : Tree) : t.blacken.ptrs = t.ptrs := by
  cases t <;> rfl

/-- Function `rb_link` on an empty slot of a path that satisfies the
invariants: the result is a red-black tree whose in-order sequence has the new
node at the place of the slot; it is the tree of `link_color_tree` with a black
root. -/
theorem rb_link_full {s : State} {ctx : Ctx} {x : Nat} (fuel : Nat)
    (hw : WF s (plug ctx Tree.nil)) (hx0 : x ≠ 0)
    (hfresh : x ∉ (plug ctx Tree.nil).ptrs) (hfuel : ctx.length < fuel)
    (hn1 : ctx.noRedRed) (hb1 : ctx.balanced 0) (hr1 : ctx.rootBlack) :
    ∃ s' t', rb_link fuel x ctx.top (slotOf ctx) s = some s' ∧ WF s' t' ∧ RB t' ∧
      t'.ptrs = ctx.before ++ x :: ctx.after ∧
      t' = (link_color_tree ctx (Tree.node Tree.nil x Color.red Tree.nil)).blacken := by
  obtain ⟨s1, e1, w1⟩ := link_stores_spec hw hx0 hfresh
  obtain ⟨s2, t2, e2, w2, n2, b2, p2, ne2, x2⟩ :=
    link_color_loop_spec fuel ctx Tree.nil Tree.nil x
    s1 hfuel w1 (by simp [Tree.noRedRed]) (by simp [Tree.balanced]) hn1
    (by simpa [Tree.bh] using hb1) hr1
  obtain ⟨s3, e3, w3⟩ := blacken_spec w2 ne2
  refine ⟨s3, t2.blacken, ?_, w3, RB_blacken n2 b2, ?_, by rw [x2]⟩
  · have hsplit : rb_link fuel x ctx.top (slotOf ctx) s = (do
        let s ← s.set_right x 0
        let s ← s.set_left x 0
        let s ← s.set_parent x ctx.top
        let s ← s.write_slot x (slotOf ctx)
        rb_set_red s x).bind (_rb_link_color fuel x) := by
      simp only [rb_link, Option.bind_eq_bind, Option.bind_assoc]
    rw [hsplit, e1]
    simp only [Option.some_bind, _rb_link_color, Option.bind_eq_bind, e2, e3]
  · rw [ptrs_blacken, p2, ptrs_plug]
    simp [Tree.ptrs]

theorem rb_link_spec {s : State} {ctx : Ctx} {x : Nat} (fuel : Nat)
    (hw : WF s (plug ctx Tree.nil)) (hrb : RB (plug ctx Tree.nil)) (hx0 : x ≠ 0)
    (hfresh : x ∉ (plug ctx Tree.nil).ptrs) (hfuel : ctx.length < fuel) :
    ∃ s' t', rb_link fuel x ctx.top (slotOf ctx) s = some s' ∧ WF s' t' ∧ RB t' ∧
      t'.ptrs = ctx.before ++ x :: ctx.after := by
  obtain ⟨⟨hr1, -⟩, ⟨hn1, -, -⟩, ⟨hb1, -⟩⟩ := RB_plug.1 hrb
  obtain ⟨s', t', h1, h2, h3, h4, -⟩ :=
    rb_link_full fuel hw hx0 hfresh hfuel hn1 (by simpa [Tree.bh] using hb1) hr1
  exact ⟨s', t', h1, h2, h3, h4⟩

/-! ## The grandparent in the insertion fixup -/

/-- An iteration of the loop of `_rb_link_color` that ends in `continue` goes
on like the loop started at the grandparent. -/
theorem link_color_loop_continue {n n' : Nat} {s s' : State}
    (h : link_color_continue n s = some (n', s')) (fuel : Nat) :
    _rb_link_color_loop (fuel + 1) n s = _rb_link_color_loop fuel n' s' := by
  rw [_rb_link_color_loop]
  unfold link_color_continue at h
  cases h1 : s.get_parent n with
  | none => simp [h1] at h
  | some parent =>
    simp only [h1, Option.bind_eq_bind, Option.some_bind] at h ⊢
    by_cases hc : parent ≠ 0 ∧ rb_is_red s parent = true
    · rw [if_pos hc] at h
      rw [if_pos hc]
      cases h2 : s.get_parent parent with
      | none => simp [h2] at h
      | some gparent =>
        simp only [h2, Option.some_bind] at h ⊢
        cases h3 : s.get_left gparent with
        | none => simp [h3] at h
        | some gl =>
          simp only [h3, Option.some_bind] at h ⊢
          by_cases hg : gl = parent
          · simp only [hg, if_true] at h ⊢
            cases h4 : s.get_right gparent with
            | none => simp [h4] at h
            | some uncle =>
              simp only [h4, Option.some_bind] at h ⊢
              by_cases hu : rb_is_red s uncle = true
              · simp only [hu, if_true] at h ⊢
                cases h5 : rb_set_black s parent with
                | none => simp [h5] at h
                | some s1 =>
                  simp only [h5, Option.some_bind] at h ⊢
                  cases h6 : rb_set_black s1 uncle with
                  | none => simp [h6] at h
                  | some s2 =>
                    simp only [h6, Option.some_bind] at h ⊢
                    cases h7 : rb_set_red s2 gparent with
                    | none => simp [h7] at h
                    | some s3 =>
                      simp only [h7, Option.some_bind, Option.some.injEq, Prod.mk.injEq] at h ⊢
                      rw [h.1, h.2]
              · simp [hu] at h
          · simp only [hg, if_false] at h ⊢
            cases h4 : s.get_left gparent with
            | none => simp [h4] at h3
            | some uncle =>
              simp only [h4, Option.some.injEq] at h3
              subst h3
              by_cases hu : rb_is_red s uncle = true
              · simp only [hu, if_true] at h ⊢
                cases h5 : rb_set_black s parent with
                | none => simp [h5] at h
                | some s1 =>
                  simp only [h5, Option.some_bind] at h ⊢
                  cases h6 : rb_set_black s1 uncle with
                  | none => simp [h6] at h
                  | some s2 =>
                    simp only [h6, Option.some_bind] at h ⊢
                    cases h7 : rb_set_red s2 gparent with
                    | none => simp [h7] at h
                    | some s3 =>
                      simp only [h7, Option.some_bind, Option.some.injEq, Prod.mk.injEq] at h ⊢
                      rw [h.1, h.2]
              · simp [hu] at h
    · rw [if_neg hc] at h
      cases h

/-- Case 3 of `_rb_link_color` re-establishes the loop invariant at the
grandparent. -/
theorem link_continue_L {s : State} {fs : Ctx} {l r fsib : Tree} {x p : Nat}
    (hw : WF s (plug (Frame.L p Color.red fsib :: fs) (Tree.node l x Color.red r)))
    (hnr : (Tree.node l x Color.red r).noRedRed) (hbal : (Tree.node l x Color.red r).balanced)
    (hcn : Ctx.noRedRed (Frame.L p Color.red fsib :: fs))
    (hcb : Ctx.balanced (Frame.L p Color.red fsib :: fs) (Tree.node l x Color.red r).bh)
    (hcr : Ctx.rootBlack (Frame.L p Color.red fsib :: fs)) {n' : Nat} {s' : State}
    (h : link_color_continue x s = some (n', s')) : LinkInv s' n' := by
  obtain ⟨hx0, hx⟩ := mem_focus hw
  have hwp : WF s (plug fs (Tree.node (Tree.node l x Color.red r) p Color.red fsib)) := hw
  obtain ⟨hp0, hp⟩ := mem_focus hwp
  have hredp := rb_is_red_focus hwp
  obtain ⟨g, fs', rfl⟩ := rootBlack_red hcr rfl
  have hgb : g.color = Color.black := by
    have := hcn.2.1 rfl
    simp only [Frame.color, ctx_isRed_cons, decide_eq_false_iff_not] at this
    cases hg : g.color
    · exact absurd hg this.2
    · rfl
  unfold link_color_continue at h
  simp only [get_parent_eq _ _ hx0, hx, Option.bind_eq_bind, Option.some_bind, top_cons, ptr_L,
    ne_eq, hp0, not_false_eq_true, true_and, hredp, decide_True, if_true] at h
  cases g with
  | L gp cg u =>
    have hgb' : cg = Color.black := hgb
    subst hgb'
    have hwg : WF s (plug fs' (Tree.node (Tree.node (Tree.node l x Color.red r) p
      Color.red fsib) gp Color.black u)) := hw
    obtain ⟨hg0, hg⟩ := mem_focus hwg
    have hu := (focus_children hwg).2
    have htest := left_eq_iff hwp (by simp)
    simp only [top_cons, ptr_L, ptr_R, ptr_node] at hp hg htest
    simp only [hp, get_parent_eq _ _ hp0, get_left_eq _ _ hg0, get_right_eq _ _ hg0,
      Option.some_bind, htest, Frame.isL, if_true, if_false, Bool.false_eq_true] at h
    simp only [hp, get_left_eq _ _ hp0, get_right_eq _ _ hp0, hg, rb_is_red_ptr hu] at h
    simp only [Ctx.noRedRed, Ctx.balanced, Tree.noRedRed, Tree.balanced, Tree.bh,
      Frame.sib, Frame.color, weight_red, weight_black, isRed_node, ctx_isRed_cons,
      decide_True, decide_False, reduceCtorEq, forall_const, and_true, true_and,
      Nat.add_zero, false_implies, decide_eq_false_iff_not, decide_eq_true_eq,
      Bool.false_eq_true, not_false_eq_true] at hnr hbal hcn hcb
    obtain ⟨⟨hn1, hn2⟩, hn3, hn4⟩ := hnr
    obtain ⟨hb1, hb2, hb3⟩ := hbal
    obtain ⟨hc1, hc2, hc3, hc4⟩ := hcn
    obtain ⟨hd1, hd2, hd3, hd4, hd5⟩ := hcb
    cases hur : u.isRed with
    | true =>
      obtain ⟨ul, pu, ur, rfl⟩ := isRed_eq_true hur
      obtain ⟨s1, e1, w1⟩ := rb_set_black_spec hwp
      have w1' : WF s1 (plug (Frame.R (Tree.node (Tree.node l x Color.red r) p
        Color.black fsib) gp Color.black :: fs') (Tree.node ul pu Color.red ur)) := w1
      obtain ⟨s2, e2, w2⟩ := rb_set_black_spec w1'
      have w2' : WF s2 (plug fs' (Tree.node (Tree.node (Tree.node l x Color.red r) p
        Color.black fsib) gp Color.black (Tree.node ul pu Color.black ur))) := w2
      obtain ⟨s3, e3, w3⟩ := rb_set_red_spec w2'
      simp only [ptr_node, isRed_node, decide_True, if_true, e1, e2, e3, Option.some_bind,
        Option.some.injEq, Prod.mk.injEq] at h
      obtain ⟨rfl, rfl⟩ := h
      simp only [Tree.noRedRed, Tree.balanced, Tree.bh, weight_red, weight_black,
        isRed_node, decide_True, decide_False, reduceCtorEq, forall_const, and_true,
        true_and, Nat.add_zero, false_implies, decide_eq_false_iff_not,
        Bool.false_eq_true, not_false_eq_true] at hc3 hd3 hd4
      obtain ⟨⟨hc5, hc6⟩, hc7, hc8⟩ := hc3
      obtain ⟨hd6, hd7, hd8⟩ := hd4
      exact ⟨fs', _, _, w3,
        (by simp [Tree.noRedRed]; tauto),
        (by simp only [Tree.balanced, Tree.bh, weight_red, weight_black]
            repeat' constructor
            all_goals first | omega | assumption),
        hc4, (by convert hd5 using 1 <;> first | omega | (simp only [Tree.bh, weight_red, weight_black]; omega)), rootBlack_tail (rootBlack_tail hcr)⟩
    | false =>
      simp [hur] at h
  | R u gp cg =>
    have hgb' : cg = Color.black := hgb
    subst hgb'
    have hwg : WF s (plug fs' (Tree.node u gp Color.black (Tree.node
      (Tree.node l x Color.red r) p Color.red fsib))) := hw
    obtain ⟨hg0, hg⟩ := mem_focus hwg
    have hu := (focus_children hwg).1
    have htest := left_eq_iff hwp (by simp)
    simp only [top_cons, ptr_L, ptr_R, ptr_node] at hp hg htest
    simp only [hp, get_parent_eq _ _ hp0, get_left_eq _ _ hg0, get_right_eq _ _ hg0,
      Option.some_bind, htest, Frame.isL, if_true, if_false, Bool.false_eq_true] at h
    simp only [hp, get_left_eq _ _ hp0, get_right_eq _ _ hp0, hg, rb_is_red_ptr hu] at h
    simp only [Ctx.noRedRed, Ctx.balanced, Tree.noRedRed, Tree.balanced, Tree.bh,
      Frame.sib, Frame.color, weight_red, weight_black, isRed_node, ctx_isRed_cons,
      decide_True, decide_False, reduceCtorEq, forall_const, and_true, true_and,
      Nat.add_zero, false_implies, decide_eq_false_iff_not, decide_eq_true_eq,
      Bool.false_eq_true, not_false_eq_true] at hnr hbal hcn hcb
    obtain ⟨⟨hn1, hn2⟩, hn3, hn4⟩ := hnr
    obtain ⟨hb1, hb2, hb3⟩ := hbal
    obtain ⟨hc1, hc2, hc3, hc4⟩ := hcn
    obtain ⟨hd1, hd2, hd3, hd4, hd5⟩ := hcb
    cases hur : u.isRed with
    | true =>
      obtain ⟨ul, pu, ur, rfl⟩ := isRed_eq_true hur
      obtain ⟨s1, e1, w1⟩ := rb_set_black_spec hwp
      have w1' : WF s1 (plug (Frame.L gp Color.black (Tree.node
        (Tree.node l x Color.red r) p Color.black fsib) :: fs')
        (Tree.node ul pu Color.red ur)) := w1
      obtain ⟨s2, e2, w2⟩ := rb_set_black_spec w1'
      have w2' : WF s2 (plug fs' (Tree.node (Tree.node ul pu Color.black ur) gp
        Color.black (Tree.node (Tree.node l x Color.red r) p Color.black fsib))) := w2
      obtain ⟨s3, e3, w3⟩ := rb_set_red_spec w2'
      simp only [ptr_node, isRed_node, decide_True, if_true, e1, e2, e3, Option.some_bind,
        Option.some.injEq, Prod.mk.injEq] at h
      obtain ⟨rfl, rfl⟩ := h
      simp only [Tree.noRedRed, Tree.balanced, Tree.bh, weight_red, weight_black,
        isRed_node, decide_True, decide_False, reduceCtorEq, forall_const, and_true,
        true_and, Nat.add_zero, false_implies, decide_eq_false_iff_not,
        Bool.false_eq_true, not_false_eq_true] at hc3 hd3 hd4
      obtain ⟨⟨hc5, hc6⟩, hc7, hc8⟩ := hc3
      obtain ⟨hd6, hd7, hd8⟩ := hd4
      exact ⟨fs', _, _, w3,
        (by simp [Tree.noRedRed]; tauto),
        (by simp only [Tree.balanced, Tree.bh, weight_red, weight_black]
            repeat' constructor
            all_goals first | omega | assumption),
        hc4, (by convert hd5 using 1 <;> first | omega | (simp only [Tree.bh, weight_red, weight_black]; omega)), rootBlack_tail (rootBlack_tail hcr)⟩
    | false =>
      simp [hur] at h

/-- Case 3 of `_rb_link_color` re-establishes the loop invariant at the
grandparent. -/
theorem link_continue_R {s : State} {fs : Ctx} {r l fsib : Tree} {x p : Nat}
    (hw : WF s (plug (Frame.R fsib p Color.red :: fs) (Tree.node l x Color.red r)))
    (hnr : (Tree.node l x Color.red r).noRedRed) (hbal : (Tree.node l x Color.red r).balanced)
    (hcn : Ctx.noRedRed (Frame.R fsib p Color.red :: fs))
    (hcb : Ctx.balanced (Frame.R fsib p Color.red :: fs) (Tree.node l x Color.red r).bh)
    (hcr : Ctx.rootBlack (Frame.R fsib p Color.red :: fs)) {n' : Nat} {s' : State}
    (h : link_color_continue x s = some (n', s')) : LinkInv s' n' := by
  obtain ⟨hx0, hx⟩ := mem_focus hw
  have hwp : WF s (plug fs (Tree.node fsib p Color.red (Tree.node l x Color.red r))) := hw
  obtain ⟨hp0, hp⟩ := mem_focus hwp
  have hredp := rb_is_red_focus hwp
  obtain ⟨g, fs', rfl⟩ := rootBlack_red hcr rfl
  have hgb : g.color = Color.black := by
    have := hcn.2.1 rfl
    simp only [Frame.color, ctx_isRed_cons, decide_eq_false_iff_not] at this
    cases hg : g.color
    · exact absurd hg this.2
    · rfl
  unfold link_color_continue at h
  simp only [get_parent_eq _ _ hx0, hx, Option.bind_eq_bind, Option.some_bind, top_cons, ptr_R,
    ne_eq, hp0, not_false_eq_true, true_and, hredp, decide_True, if_true] at h
  cases g with
  | R u gp cg =>
    have hgb' : cg = Color.black := hgb
    subst hgb'
    have hwg : WF s (plug fs' (Tree.node u gp Color.black (Tree.node fsib p
      Color.red (Tree.node l x Color.red r)))) := hw
    obtain ⟨hg0, hg⟩ := mem_focus hwg
    have hu := (focus_children' hwg).2
    have htest := left_eq_iff hwp (by simp)
    simp only [top_cons, ptr_R, ptr_L, ptr_node] at hp hg htest
    simp only [hp, get_parent_eq _ _ hp0, get_right_eq _ _ hg0, get_left_eq _ _ hg0,
      Option.some_bind, htest, Frame.isL, if_true, if_false, Bool.false_eq_true] at h
    simp only [hp, get_right_eq _ _ hp0, get_left_eq _ _ hp0, hg, rb_is_red_ptr hu] at h
    simp only [Ctx.noRedRed, Ctx.balanced, Tree.noRedRed, Tree.balanced, Tree.bh,
      Frame.sib, Frame.color, weight_red, weight_black, isRed_node, ctx_isRed_cons,
      decide_True, decide_False, reduceCtorEq, forall_const, and_true, true_and,
      Nat.add_zero, false_implies, decide_eq_false_iff_not, decide_eq_true_eq,
      Bool.false_eq_true, not_false_eq_true] at hnr hbal hcn hcb
    obtain ⟨⟨hn1, hn2⟩, hn3, hn4⟩ := hnr
    obtain ⟨hb1, hb2, hb3⟩ := hbal
    obtain ⟨hc1, hc2, hc3, hc4⟩ := hcn
    obtain ⟨hd1, hd2, hd3, hd4, hd5⟩ := hcb
    cases hur : u.isRed with
    | true =>
      obtain ⟨ul, pu, ur, rfl⟩ := isRed_eq_true' hur
      obtain ⟨s1, e1, w1⟩ := rb_set_black_spec hwp
      have w1' : WF s1 (plug (Frame.L gp Color.black (Tree.node fsib p
        Color.black (Tree.node l x Color.red r)) :: fs') (Tree.node ur pu Color.red ul)) := w1
      obtain ⟨s2, e2, w2⟩ := rb_set_black_spec w1'
      have w2' : WF s2 (plug fs' (Tree.node (Tree.node ur pu Color.black ul) gp Color.black (Tree.node fsib p
        Color.black (Tree.node l x Color.red r)))) := w2
      obtain ⟨s3, e3, w3⟩ := rb_set_red_spec w2'
      simp only [ptr_node, isRed_node, decide_True, if_true, e1, e2, e3, Option.some_bind,
        Option.some.injEq, Prod.mk.injEq] at h
      obtain ⟨rfl, rfl⟩ := h
      simp only [Tree.noRedRed, Tree.balanced, Tree.bh, weight_red, weight_black,
        isRed_node, decide_True, decide_False, reduceCtorEq, forall_const, and_true,
        true_and, Nat.add_zero, false_implies, decide_eq_false_iff_not,
        Bool.false_eq_true, not_false_eq_true] at hc3 hd3 hd4
      obtain ⟨⟨hc5, hc6⟩, hc7, hc8⟩ := hc3
      obtain ⟨hd6, hd7, hd8⟩ := hd4
      exact ⟨fs', _, _, w3,
        (by simp [Tree.noRedRed]; tauto),
        (by simp only [Tree.balanced, Tree.bh, weight_red, weight_black]
            repeat' constructor
            all_goals first | omega | assumption),
        hc4, (by convert hd5 using 1 <;> first | omega | (simp only [Tree.bh, weight_red, weight_black]; omega)), rootBlack_tail (rootBlack_tail hcr)⟩
    | false =>
      simp [hur] at h
  | L gp cg u =>
    have hgb' : cg = Color.black := hgb
    subst hgb'
    have hwg : WF s (plug fs' (Tree.node (Tree.node
      fsib p Color.red (Tree.node l x Color.red r)) gp Color.black u)) := hw
    obtain ⟨hg0, hg⟩ := mem_focus hwg
    have hu := (focus_children' hwg).1
    have htest := left_eq_iff hwp (by simp)
    simp only [top_cons, ptr_R, ptr_L, ptr_node] at hp hg htest
    simp only [hp, get_parent_eq _ _ hp0, get_right_eq _ _ hg0, get_left_eq _ _ hg0,
      Option.some_bind, htest, Frame.isL, if_true, if_false, Bool.false_eq_true] at h
    simp only [hp, get_right_eq _ _ hp0, get_left_eq _ _ hp0, hg, rb_is_red_ptr hu] at h
    simp only [Ctx.noRedRed, Ctx.balanced, Tree.noRedRed, Tree.balanced, Tree.bh,
      Frame.sib, Frame.color, weight_red, weight_black, isRed_node, ctx_isRed_cons,
      decide_True, decide_False, reduceCtorEq, forall_const, and_true, true_and,
      Nat.add_zero, false_implies, decide_eq_false_iff_not, decide_eq_true_eq,
      Bool.false_eq_true, not_false_eq_true] at hnr hbal hcn hcb
    obtain ⟨⟨hn1, hn2⟩, hn3, hn4⟩ := hnr
    obtain ⟨hb1, hb2, hb3⟩ := hbal
    obtain ⟨hc1, hc2, hc3, hc4⟩ := hcn
    obtain ⟨hd1, hd2, hd3, hd4, hd5⟩ := hcb
    cases hur : u.isRed with
    | true =>
      obtain ⟨ul, pu, ur, rfl⟩ := isRed_eq_true' hur
      obtain ⟨s1, e1, w1⟩ := rb_set_black_spec hwp
      have w1' : WF s1 (plug (Frame.R (Tree.node
        fsib p Color.black (Tree.node l x Color.red r)) gp Color.black :: fs')
        (Tree.node ur pu Color.red ul)) := w1
      obtain ⟨s2, e2, w2⟩ := rb_set_black_spec w1'
      have w2' : WF s2 (plug fs' (Tree.node (Tree.node fsib p Color.black (Tree.node l x Color.red r)) gp
        Color.black (Tree.node ur pu Color.black ul))) := w2
      obtain ⟨s3, e3, w3⟩ := rb_set_red_spec w2'
      simp only [ptr_node, isRed_node, decide_True, if_true, e1, e2, e3, Option.some_bind,
        Option.some.injEq, Prod.mk.injEq] at h
      obtain ⟨rfl, rfl⟩ := h
      simp only [Tree.noRedRed, Tree.balanced, Tree.bh, weight_red, weight_black,
        isRed_node, decide_True, decide_False, reduceCtorEq, forall_const, and_true,
        true_and, Nat.add_zero, false_implies, decide_eq_false_iff_not,
        Bool.false_eq_true, not_false_eq_true] at hc3 hd3 hd4
      obtain ⟨⟨hc5, hc6⟩, hc7, hc8⟩ := hc3
      obtain ⟨hd6, hd7, hd8⟩ := hd4
      exact ⟨fs', _, _, w3,
        (by simp [Tree.noRedRed]; tauto),
        (by simp only [Tree.balanced, Tree.bh, weight_red, weight_black]
            repeat' constructor
            all_goals first | omega | assumption),
        hc4, (by convert hd5 using 1 <;> first | omega | (simp only [Tree.bh, weight_red, weight_black]; omega)), rootBlack_tail (rootBlack_tail hcr)⟩
    | false =>
      simp [hur] at h

/-- The loop invariant is kept by every iteration that ends in `continue`. -/
theorem link_continue_inv {s s' : State} {n n' : Nat} (hi : LinkInv s n)
    (h : link_color_continue n s = some (n', s')) : LinkInv s' n' := by
  obtain ⟨ctx, l, r, hw, h1, h2, h3, h4, h5⟩ := hi
  cases ctx with
  | nil =>
    obtain ⟨hx0, hx⟩ := mem_focus hw
    simp [link_color_continue, get_parent_eq _ _ hx0, hx] at h
  | cons f fs =>
    cases f with
    | L p c fsib =>
      cases c with
      | red => exact link_continue_L hw h1 h2 h3 h4 h5 h
      | black =>
        obtain ⟨hx0, hx⟩ := mem_focus hw
        have hwp : WF s (plug fs (Tree.node (Tree.node l n Color.red r) p Color.black fsib)) :=
          hw
        have hredp := rb_is_red_focus hwp
        simp [link_color_continue, get_parent_eq _ _ hx0, hx, hredp] at h
    | R fsib p c =>
      cases c with
      | red => exact link_continue_R hw h1 h2 h3 h4 h5 h
      | black =>
        obtain ⟨hx0, hx⟩ := mem_focus hw
        have hwp : WF s (plug fs (Tree.node fsib p Color.black (Tree.node l n Color.red r))) :=
          hw
        have hredp := rb_is_red_focus hwp
        simp [link_color_continue, get_parent_eq _ _ hx0, hx, hredp] at h

/-- Under the loop invariant a red parent has a parent. -/
theorem link_inv_gparent {s : State} {n : Nat} (hi : LinkInv s n)
    (hp : (s.mem n).parent ≠ 0) (hr : rb_is_red s (s.mem n).parent = true) :
    (s.mem (s.mem n).parent).parent ≠ 0 := by
  obtain ⟨ctx, l, r, hw, -, -, -, -, h5⟩ := hi
  obtain ⟨-, hx⟩ := mem_focus hw
  rw [hx] at hp hr ⊢
  cases ctx with
  | nil => exact absurd rfl hp
  | cons f fs =>
    have key : f.color = Color.red ∧ (s.mem f.ptr).parent = Ctx.top fs ∧
        ∀ g gs, fs = g :: gs → g.ptr ≠ 0 := by
      cases f with
      | L p c fsib =>
        have hwp : WF s (plug fs (Tree.node (Tree.node l n Color.red r) p c fsib)) := hw
        have hredp := rb_is_red_focus hwp
        simp only [top_cons, ptr_L, hredp, decide_eq_true_eq] at hr
        refine ⟨hr, by rw [ptr_L, (mem_focus hwp).2], ?_⟩
        rintro g gs rfl
        cases g with
        | L gp cg u =>
          have hwg : WF s (plug gs (Tree.node (Tree.node (Tree.node l n Color.red r) p c fsib)
            gp cg u)) := hw
          exact (mem_focus hwg).1
        | R u gp cg =>
          have hwg : WF s (plug gs (Tree.node u gp cg
            (Tree.node (Tree.node l n Color.red r) p c fsib))) := hw
          exact (mem_focus hwg).1
      | R fsib p c =>
        have hwp : WF s (plug fs (Tree.node fsib p c (Tree.node l n Color.red r))) := hw
        have hredp := rb_is_red_focus hwp
        simp only [top_cons, ptr_R, hredp, decide_eq_true_eq] at hr
        refine ⟨hr, by rw [ptr_R, (mem_focus hwp).2], ?_⟩
        rintro g gs rfl
        cases g with
        | L gp cg u =>
          have hwg : WF s (plug gs (Tree.node (Tree.node fsib p c (Tree.node l n Color.red r))
            gp cg u)) := hw
          exact (mem_focus hwg).1
        | R u gp cg =>
          have hwg : WF s (plug gs (Tree.node u gp cg
            (Tree.node fsib p c (Tree.node l n Color.red r)))) := hw
          exact (mem_focus hwg).1
    obtain ⟨k1, k2, k3⟩ := key
    obtain ⟨g, gs, rfl⟩ := rootBlack_red h5 k1
    simp only [top_cons] at k2 ⊢
    rw [k2]
    exact k3 g gs rfl

/-- The configurations at the loop test: each satisfies the invariant, and the
loop started at the first one goes on like the loop started at the later
one. -/
theorem link_color_head_inv : ∀ (k : Nat) (n : Nat) (s : State) (n' : Nat) (s' : State),
    LinkInv s n → link_color_head k n s = some (n', s') →
    LinkInv s' n' ∧
      ∀ fuel, _rb_link_color_loop (fuel + k) n s = _rb_link_color_loop fuel n' s' := by
  intro k
  induction k with
  | zero =>
    intro n s n' s' hi h
    simp only [link_color_head, Option.some.injEq, Prod.mk.injEq] at h
    obtain ⟨rfl, rfl⟩ := h
    exact ⟨hi, fun _ => rfl⟩
  | succ k ih =>
    intro n s n' s' hi h
    simp only [link_color_head] at h
    cases hc : link_color_continue n s with
    | none => simp [hc] at h
    | some r =>
      obtain ⟨n1, s1⟩ := r
      simp only [hc, Option.some_bind] at h
      have hi1 := link_continue_inv hi hc
      obtain ⟨h1, h2⟩ := ih n1 s1 n' s' hi1 h
      refine ⟨h1, fun fuel => ?_⟩
      rw [← h2 fuel, ← Nat.add_assoc]
      exact link_color_loop_continue hc (fuel + k)

/-- C18. Claim: `rb_link` is called with a non-null node outside the tree and
an empty slot of a tree that satisfies the red-black invariants.  After its
stores, at the loop test of `_rb_link_color` in the first and in every later
iteration (that is, after any number `k` of iterations that ended in
`continue`): whenever the current node has a red parent, so that the loop body
is entered, the grandparent is not `NULL`, and the reads `gparent->left` and
`gparent->right` succeed. -/
theorem rb_link_gparent_exists (s : State) (ctx : Ctx) (node : Nat)
    (hw : WF s (plug ctx Tree.nil)) (hrb : RB (plug ctx Tree.nil)) (hn0 : node ≠ 0)
    (hfresh : node ∉ (plug ctx Tree.nil).ptrs) :
    ∃ s0, (do
        let s ← s.set_right node 0
        let s ← s.set_left node 0
        let s ← s.set_parent node ctx.top
        let s ← s.write_slot node (slotOf ctx)
        rb_set_red s node) = some s0 ∧
      (∀ fuel, rb_link fuel node ctx.top (slotOf ctx) s = _rb_link_color fuel node s0) ∧
      ∀ k n sk, link_color_head k node s0 = some (n, sk) →
        (∀ fuel, _rb_link_color_loop (fuel + k) node s0 = _rb_link_color_loop fuel n sk) ∧
        ((sk.mem n).parent ≠ 0 → rb_is_red sk (sk.mem n).parent = true →
          (sk.mem (sk.mem n).parent).parent ≠ 0 ∧
          sk.get_left (sk.mem (sk.mem n).parent).parent =
            some (sk.mem (sk.mem (sk.mem n).parent).parent).left ∧
          sk.get_right (sk.mem (sk.mem n).parent).parent =
            some (sk.mem (sk.mem (sk.mem n).parent).parent).right) := by
  obtain ⟨s0, e0, w0⟩ := link_stores_spec hw hn0 hfresh
  obtain ⟨⟨hr1, -⟩, ⟨hn1, -, -⟩, ⟨hb1, -⟩⟩ := RB_plug.1 hrb
  have hi : LinkInv s0 node :=
    ⟨ctx, Tree.nil, Tree.nil, w0, by simp [Tree.noRedRed], by simp [Tree.balanced], hn1,
      by simpa [Tree.bh] using hb1, hr1⟩
  refine ⟨s0, e0, fun fuel => ?_, fun k n sk h => ?_⟩
  · have hsplit : rb_link fuel node ctx.top (slotOf ctx) s = (do
        let s ← s.set_right node 0
        let s ← s.set_left node 0
        let s ← s.set_parent node ctx.top
        let s ← s.write_slot node (slotOf ctx)
        rb_set_red s node).bind (_rb_link_color fuel node) := by
      simp only [rb_link, Option.bind_eq_bind, Option.bind_assoc]
    rw [hsplit, e0]
    rfl
  · obtain ⟨h1, h2⟩ := link_color_head_inv k node s0 n sk hi h
    refine ⟨h2, fun hp hr => ?_⟩
    have hg := link_inv_gparent h1 hp hr
    exact ⟨hg, get_left_eq _ _ hg, get_right_eq _ _ hg⟩

theorem rb_link_gparent_exists_witness :
    ∃ s0, (do
        let s ← ex_state3.set_right 508 0
        let s ← s.set_left 508 0
        let s ← s.set_parent 508 (Ctx.top [Frame.L 1008 Color.red Tree.nil,
          Frame.L 2008 Color.black (Tree.node Tree.nil 3008 Color.red Tree.nil)])
        let s ← s.write_slot 508 (slotOf [Frame.L 1008 Color.red Tree.nil,
          Frame.L 2008 Color.black (Tree.node Tree.nil 3008 Color.red Tree.nil)])
        rb_set_red s 508) = some s0 ∧
      (∀ fuel, rb_link fuel 508 (Ctx.top [Frame.L 1008 Color.red Tree.nil,
          Frame.L 2008 Color.black (Tree.node Tree.nil 3008 Color.red Tree.nil)])
        (slotOf [Frame.L 1008 Color.red Tree.nil,
          Frame.L 2008 Color.black (Tree.node Tree.nil 3008 Color.red Tree.nil)]) ex_state3 =
        _rb_link_color fuel 508 s0) ∧
      ∀ k n sk, link_color_head k 508 s0 = some (n, sk) →
        (∀ fuel, _rb_link_color_loop (fuel + k) 508 s0 = _rb_link_color_loop fuel n sk) ∧
        ((sk.mem n).parent ≠ 0 → rb_is_red sk (sk.mem n).parent = true →
          (sk.mem (sk.mem n).parent).parent ≠ 0 ∧
          sk.get_left (sk.mem (sk.mem n).parent).parent =
            some (sk.mem (sk.mem (sk.mem n).parent).parent).left ∧
          sk.get_right (sk.mem (sk.mem n).parent).parent =
            some (sk.mem (sk.mem (sk.mem n).parent).parent).right) :=
  rb_link_gparent_exists ex_state3 [Frame.L 1008 Color.red Tree.nil,
      Frame.L 2008 Color.black (Tree.node Tree.nil 3008 Color.red Tree.nil)] 508
    (by decide) (by decide) (by decide) (by decide)

/-! ## The slot search of `rb_insert_item` -/

@[simp] theorem slotOf_nil : slotOf [] = Slot.root := rfl
@[simp] theorem slotOf_L (p : Nat) (c : Color) (r : Tree) (fs : Ctx) :
    slotOf (Frame.L p c r :: fs) = Slot.left p := rfl
@[simp] theorem slotOf_R (p : Nat) (c : Color) (l : Tree) (fs : Ctx) :
    slotOf (Frame.R l p c :: fs) = Slot.right p := rfl

/-- The slot search of `rb_insert_item` below a path: it ends at an empty slot
of the tree or at a node where the comparison is zero, and the path to that
place goes left where the comparison is positive and right where it is
negative. -/
theorem insert_loop_spec (ops : rb_ops) (item : Nat) :
    ∀ (t : Tree) (ctx : Ctx) (fuel : Nat) (s : State), WF s (plug ctx t) → t.height < fuel →
      ctx.pathOK (fun p => ops.compare (ptr_sub p ops.offset) item ops.context) →
      (∃ ctx', plug ctx' Tree.nil = plug ctx t ∧
          ctx'.pathOK (fun p => ops.compare (ptr_sub p ops.offset) item ops.context) ∧
          ctx'.length ≤ ctx.length + t.height ∧
          rb_insert_item_loop ops item fuel ctx.top (slotOf ctx) s =
            some (Descent.vacant ctx'.top (slotOf ctx'))) ∨
      (∃ ctx' l p c r, plug ctx' (Tree.node l p c r) = plug ctx t ∧
          ctx'.pathOK (fun p => ops.compare (ptr_sub p ops.offset) item ops.context) ∧
          ops.compare (ptr_sub p ops.offset) item ops.context = 0 ∧
          rb_insert_item_loop ops item fuel ctx.top (slotOf ctx) s =
            some (Descent.found (ptr_sub p ops.offset))) := by
  intro t
  induction t with
  | nil =>
    intro ctx fuel s hw hf hp
    cases fuel with
    | zero => exact absurd hf (Nat.not_lt_zero _)
    | succ fuel =>
      left
      refine ⟨ctx, rfl, hp, by simp, ?_⟩
      rw [rb_insert_item_loop]
      simp [read_slot_spec hw]
  | node l p c r ihl ihr =>
    intro ctx fuel s hw hf hp
    cases fuel with
    | zero => exact absurd hf (Nat.not_lt_zero _)
    | succ fuel =>
      obtain ⟨hp0, -⟩ := mem_focus hw
      simp only [Tree.height] at hf
      rw [rb_insert_item_loop]
      simp only [read_slot_spec hw, ptr_node, Option.bind_eq_bind, Option.some_bind, ne_eq, hp0,
        not_false_eq_true, if_true]
      by_cases h1 : ops.compare (ptr_sub p ops.offset) item ops.context > 0
      · simp only [h1, if_true]
        have hw' : WF s (plug (Frame.L p c r :: ctx) l) := hw
        rcases ihl (Frame.L p c r :: ctx) fuel s hw' (by omega) ⟨h1, hp⟩ with
          ⟨ctx', e1, e2, e3, e4⟩ | ⟨ctx', l', p', c', r', e1, e2, e3, e4⟩
        · left
          refine ⟨ctx', e1, e2, ?_, by simpa using e4⟩
          simp only [List.length_cons, Tree.height] at e3 ⊢
          omega
        · right
          exact ⟨ctx', l', p', c', r', e1, e2, e3, by simpa using e4⟩
      · by_cases h2 : ops.compare (ptr_sub p ops.offset) item ops.context < 0
        · simp only [h1, h2, if_true, if_false]
          have hw' : WF s (plug (Frame.R l p c :: ctx) r) := hw
          rcases ihr (Frame.R l p c :: ctx) fuel s hw' (by omega) ⟨h2, hp⟩ with
            ⟨ctx', e1, e2, e3, e4⟩ | ⟨ctx', l', p', c', r', e1, e2, e3, e4⟩
          · left
            refine ⟨ctx', e1, e2, ?_, by simpa using e4⟩
            simp only [List.length_cons, Tree.height] at e3 ⊢
            omega
          · right
            exact ⟨ctx', l', p', c', r', e1, e2, e3, by simpa using e4⟩
        · right
          simp only [h1, h2, if_false]
          exact ⟨ctx, l, p, c, r, rfl, hp, by omega, rfl⟩

/-- Keys along a search path: everything before the hole is smaller than the
key searched for, everything after it is larger. -/
theorem path_bounds {K : Type} [LinearOrder K] (kp : Nat → K) (k : K) (cmp : Nat → Int)
    (hlt : ∀ p, cmp p < 0 → kp p < k) (hgt : ∀ p, cmp p > 0 → k < kp p) :
    ∀ (ctx : Ctx), (ctx.before ++ ctx.after).Pairwise (fun a b => kp a < kp b) →
      ctx.pathOK cmp → (∀ q ∈ ctx.before, kp q < k) ∧ (∀ q ∈ ctx.after, k < kp q) := by
  intro ctx
  induction ctx with
  | nil => simp [Ctx.before, Ctx.after]
  | cons f fs ih =>
    intro hs hp
    cases f with
    | L p c r =>
      obtain ⟨hp1, hp2⟩ := hp
      simp only [Ctx.before, Ctx.after] at hs ⊢
      rw [List.pairwise_append] at hs
      obtain ⟨hs1, hs2, hs3⟩ := hs
      rw [List.pairwise_append] at hs2
      obtain ⟨hs4, hs5, hs6⟩ := hs2
      rw [List.pairwise_cons] at hs4
      have ih' := ih (List.pairwise_append.2 ⟨hs1, hs5,
        fun a ha b hb => hs3 a ha b (List.mem_append_right _ hb)⟩) hp2
      have hkp := hgt p hp1
      refine ⟨ih'.1, fun q hq => ?_⟩
      simp only [List.mem_append, List.mem_cons] at hq
      rcases hq with (rfl | hq) | hq
      · exact hkp
      · exact lt_trans hkp (hs4.1 q hq)
      · exact ih'.2 q hq
    | R l p c =>
      obtain ⟨hp1, hp2⟩ := hp
      simp only [Ctx.before, Ctx.after] at hs ⊢
      rw [List.pairwise_append] at hs
      obtain ⟨hs1, hs2, hs3⟩ := hs
      rw [List.pairwise_append] at hs1
      obtain ⟨hs4, hs5, hs6⟩ := hs1
      rw [List.pairwise_append] at hs5
      have ih' := ih (List.pairwise_append.2 ⟨hs4, hs2,
        fun a ha b hb => hs3 a (List.mem_append_left _ ha) b hb⟩) hp2
      have hkp := hlt p hp1
      refine ⟨fun q hq => ?_, ih'.2⟩
      simp only [List.mem_append, List.mem_cons, List.mem_singleton, List.not_mem_nil,
        or_false] at hq
      rcases hq with hq | hq | rfl
      · exact ih'.1 q hq
      · exact lt_trans (hs5.2.2 q hq p (by simp)) hkp
      · exact hkp

/-! ## Insertion: `rb_insert_item` -/

theorem ptr_sub_add (item off : Nat) (h : item < 2 ^ PTR_BITS) :
    ptr_sub (ptr_add item off) off = item := by
  simp only [ptr_sub, ptr_add, PTR_BITS] at *
  omega

theorem sorted_inj {K : Type} [LinearOrder K] (kp : Nat → K) :
    ∀ (l : List Nat), l.Pairwise (fun a b => kp a < kp b) → ∀ a ∈ l, ∀ b ∈ l,
      kp a = kp b → a = b := by
  intro l
  induction l with
  | nil => simp
  | cons x xs ih =>
    intro h a ha b hb e
    rw [List.pairwise_cons] at h
    simp only [List.mem_cons] at ha hb
    rcases ha with rfl | ha <;> rcases hb with rfl | hb
    · rfl
    · exact absurd e (ne_of_lt (h.1 b hb))
    · exact absurd e.symm (ne_of_lt (h.1 a ha))
    · exact ih h.2 a ha b hb e

theorem compare_eq_zero_iff {K : Type} [LinearOrder K] {ops : rb_ops} {key : Nat → K}
    (h : compare_by ops key) (a b : Nat) : ops.compare a b ops.context = 0 ↔ key a = key b := by
  obtain ⟨h1, h2⟩ := h a b
  constructor
  · intro e
    have n1 : ¬ key a < key b := fun c => by have := h1.2 c; omega
    have n2 : ¬ key b < key a := fun c => by have := h2.2 c; omega
    exact le_antisymm (not_lt.1 n2) (not_lt.1 n1)
  · intro e
    have n1 : ¬ ops.compare a b ops.context < 0 := fun c => by
      have := h1.1 c; rw [e] at this; exact lt_irrefl _ this
    have n2 : ¬ 0 < ops.compare a b ops.context := fun c => by
      have := h2.1 c; rw [e] at this; exact lt_irrefl _ this
    omega

/-- Insertion of a record whose comparison with every stored record is not
zero: the search ends at an empty slot and the new node is linked there; the
result is the tree of `link_color_tree` with a black root. -/
theorem rb_insert_item_vacant (ops : rb_ops) (item fuel : Nat) (s : State) (t : Tree)
    (hw : WF s t) (hrb : RB t) (hfuel : t.height < fuel)
    (hnode : ptr_add item ops.offset ≠ 0) (hfresh : ptr_add item ops.offset ∉ t.ptrs)
    (hne : ∀ p ∈ t.ptrs, ops.compare (record ops p) item ops.context ≠ 0) :
    ∃ ctx s' t', t = plug ctx Tree.nil ∧
      ctx.pathOK (fun p => ops.compare (ptr_sub p ops.offset) item ops.context) ∧
      rb_insert_item fuel item s ops = some (item, s') ∧ WF s' t' ∧ RB t' ∧
      t'.ptrs = ctx.before ++ ptr_add item ops.offset :: ctx.after ∧
      t' = (link_color_tree ctx
        (Tree.node Tree.nil (ptr_add item ops.offset) Color.red Tree.nil)).blacken := by
  have hw0 : WF s (plug [] t) := hw
  rcases insert_loop_spec ops item t [] fuel s hw0 hfuel trivial with
    ⟨ctx, e1, e2, e3, e4⟩ | ⟨ctx, l, p, c, r, e1, e2, e3, e4⟩
  · simp only [plug_nil] at e1
    subst e1
    have hlen : ctx.length < fuel := by
      have := height_plug ctx Tree.nil
      simp only [List.length_nil, Nat.zero_add] at e3
      omega
    obtain ⟨⟨hr1, -⟩, ⟨hn1, -, -⟩, ⟨hb1, -⟩⟩ := RB_plug.1 hrb
    obtain ⟨s', t', h1, h2, h3, h4, h5⟩ :=
      rb_link_full fuel hw hnode hfresh hlen hn1 (by simpa [Tree.bh] using hb1) hr1
    refine ⟨ctx, s', t', rfl, e2, ?_, h2, h3, h4, h5⟩
    simp only [top_nil, slotOf_nil] at e4
    simp only [rb_insert_item, e4, Option.bind_eq_bind, Option.some_bind, h1]
  · exfalso
    simp only [plug_nil] at e1
    refine hne p ?_ e3
    rw [← e1, ptrs_plug]
    simp [Tree.ptrs]

theorem sorted_ptrs {K : Type} [LinearOrder K] {key : Nat → K} {ops : rb_ops} {t : Tree}
    (h : sorted_by key (t.records ops)) :
    t.ptrs.Pairwise (fun a b => key (record ops a) < key (record ops b)) := by
  simpa [sorted_by, Tree.records, List.pairwise_map] using h

theorem search_path_bounds {K : Type} [LinearOrder K] {key : Nat → K} {ops : rb_ops}
    {item : Nat} {ctx : Ctx} (hcmp : compare_by ops key)
    (hs : (ctx.before ++ ctx.after).Pairwise (fun a b => key (record ops a) < key (record ops b)))
    (hp : ctx.pathOK (fun p => ops.compare (ptr_sub p ops.offset) item ops.context)) :
    (∀ q ∈ ctx.before, key (record ops q) < key item) ∧
      (∀ q ∈ ctx.after, key item < key (record ops q)) :=
  path_bounds (fun p => key (record ops p)) (key item)
    (fun p => ops.compare (ptr_sub p ops.offset) item ops.context)
    (fun p h => (hcmp _ _).1.1 h) (fun p h => (hcmp _ _).2.1 h) ctx hs hp

/-- C1. Claim: for every tree that satisfies the red-black invariants (root
black or tree empty, no red node has a red child, equal black counts on all
paths to null links) and every item that compares unequal to every stored
record, `rb_insert_item` returns and the tree after the call satisfies the three
invariants again.  The item's node is a non-null cell outside the tree, and
the fuel exceeds the height of the tree. -/
theorem rb_insert_item_preserves_invariants (ops : rb_ops) (item fuel : Nat) (s : State)
    (t : Tree) (hw : WF s t) (hrb : RB t) (hfuel : t.height < fuel)
    (hnode : ptr_add item ops.offset ≠ 0) (hfresh : ptr_add item ops.offset ∉ t.ptrs)
    (hne : ∀ p ∈ t.ptrs, ops.compare (record ops p) item ops.context ≠ 0) :
    ∃ s' t', rb_insert_item fuel item s ops = some (item, s') ∧ WF s' t' ∧
      t'.isRed = false ∧ t'.noRedRed ∧ t'.balanced := by
  obtain ⟨ctx, s', t', -, -, h1, h2, h3, -⟩ :=
    rb_insert_item_vacant ops item fuel s t hw hrb hfuel hnode hfresh hne
  exact ⟨s', t', h1, h2, h3⟩

theorem rb_insert_item_preserves_invariants_witness :
    ∃ s' t', rb_insert_item 3 500 ex_state3 ex_ops = some (500, s') ∧ WF s' t' ∧
      t'.isRed = false ∧ t'.noRedRed ∧ t'.balanced :=
  rb_insert_item_preserves_invariants ex_ops 500 3 ex_state3 ex_tree3 (by decide) (by decide)
    (by decide) (by decide) (by decide) (by decide)

/-- Insertion of a record with a new key into a sorted valid tree: the result
is valid and its in-order sequence is the old one with the item put in at its
sorted position, and so is the in-order sequence of nodes. -/
theorem rb_insert_item_full {K : Type} [LinearOrder K] (key : Nat → K) (ops : rb_ops)
    (item fuel : Nat) (s : State) (t : Tree) (hw : WF s t) (hrb : RB t)
    (hfuel : t.height < fuel) (hitem : item < 2 ^ PTR_BITS)
    (hnode : ptr_add item ops.offset ≠ 0)
    (hcmp : compare_by ops key) (hsorted : sorted_by key (t.records ops))
    (hne : ∀ r ∈ t.records ops, ops.compare r item ops.context ≠ 0) :
    ∃ s' t', rb_insert_item fuel item s ops = some (item, s') ∧ WF s' t' ∧ RB t' ∧
      (∃ xs ys, t.ptrs = xs ++ ys ∧ t'.ptrs = xs ++ ptr_add item ops.offset :: ys) ∧
      (∃ xs ys, t.records ops = xs ++ ys ∧ t'.records ops = xs ++ item :: ys) ∧
      sorted_by key (t'.records ops) ∧ (∀ r ∈ t.records ops, r ∈ t'.records ops) ∧
      (t'.records ops).length = (t.records ops).length + 1 ∧ t'.size = t.size + 1 := by
  have hrec : record ops (ptr_add item ops.offset) = item := ptr_sub_add item ops.offset hitem
  have hfresh : ptr_add item ops.offset ∉ t.ptrs := by
    intro hin
    have hmem : item ∈ t.records ops := by
      rw [← hrec]
      exact List.mem_map_of_mem _ hin
    exact hne item hmem ((compare_eq_zero_iff hcmp item item).2 rfl)
  obtain ⟨ctx, s', t', e1, e2, h1, h2, h3, h4, -⟩ :=
    rb_insert_item_vacant ops item fuel s t hw hrb hfuel hnode hfresh
      (fun p hp => hne _ (List.mem_map_of_mem _ hp))
  subst e1
  have hold : (plug ctx Tree.nil).records ops =
      ctx.before.map (record ops) ++ ctx.after.map (record ops) := by
    simp [Tree.records, ptrs_plug, Tree.ptrs]
  have hnew : t'.records ops =
      ctx.before.map (record ops) ++ item :: ctx.after.map (record ops) := by
    simp [Tree.records, h4, hrec]
  have hsp := sorted_ptrs hsorted
  simp only [ptrs_plug, Tree.ptrs, List.append_nil] at hsp
  obtain ⟨hb, ha⟩ := search_path_bounds hcmp hsp e2
  refine ⟨s', t', h1, h2, h3, ⟨ctx.before, ctx.after, by simp [ptrs_plug, Tree.ptrs], h4⟩,
    ⟨_, _, hold, hnew⟩, ?_, ?_, ?_, ?_⟩
  · rw [sorted_by, hnew]
    rw [sorted_by, hold] at hsorted
    rw [List.pairwise_append] at hsorted ⊢
    refine ⟨hsorted.1, List.pairwise_cons.2 ⟨?_, hsorted.2.1⟩, ?_⟩
    · intro r hr
      obtain ⟨q, hq, rfl⟩ := List.mem_map.1 hr
      exact ha q hq
    · intro a ha' b hb'
      obtain ⟨q, hq, rfl⟩ := List.mem_map.1 ha'
      rcases List.mem_cons.1 hb' with rfl | hb'
      · exact hb q hq
      · exact hsorted.2.2 _ ha' _ hb'
  · intro r hr
    rw [hold] at hr
    rw [hnew]
    simp only [List.mem_append, List.mem_cons] at hr ⊢
    tauto
  · rw [hold, hnew]
    simp
    omega
  · rw [size_eq_length, size_eq_length, h4, ptrs_plug]
    simp [Tree.ptrs]
    omega

theorem rb_insert_item_sorted {K : Type} [LinearOrder K] (key : Nat → K) (ops : rb_ops)
    (item fuel : Nat) (s : State) (t : Tree) (hw : WF s t) (hrb : RB t)
    (hfuel : t.height < fuel) (hitem : item < 2 ^ PTR_BITS)
    (hnode : ptr_add item ops.offset ≠ 0)
    (hcmp : compare_by ops key) (hsorted : sorted_by key (t.records ops))
    (hne : ∀ r ∈ t.records ops, ops.compare r item ops.context ≠ 0) :
    ∃ s' t', rb_insert_item fuel item s ops = some (item, s') ∧ WF s' t' ∧ RB t' ∧
      (∃ xs ys, t.records ops = xs ++ ys ∧ t'.records ops = xs ++ item :: ys) ∧
      sorted_by key (t'.records ops) ∧ (∀ r ∈ t.records ops, r ∈ t'.records ops) ∧
      (t'.records ops).length = (t.records ops).length + 1 ∧ t'.size = t.size + 1 := by
  obtain ⟨s', t', h1, h2, h3, -, h4⟩ :=
    rb_insert_item_full key ops item fuel s t hw hrb hfuel hitem hnode hcmp hsorted hne
  exact ⟨s', t', h1, h2, h3, h4⟩

/-- C3. Claim: for every valid tree whose in-order sequence is strictly
increasing under the compare callback and every item that compares unequal to
all stored records, `rb_insert_item` returns the item itself, and the in-order
sequence of records of the resulting tree is the old sequence with the item
inserted at one place, is strictly increasing, contains every old record and is
one longer than the old one.  The resulting tree is valid again.  Theorem
`rb_insert_items_size` draws the consequence for N records put into an empty
tree. -/
theorem rb_insert_item_inorder {K : Type} [LinearOrder K] (key : Nat → K) (ops : rb_ops)
    (item fuel : Nat) (s : State) (t : Tree) (hw : WF s t) (hrb : RB t)
    (hfuel : t.height < fuel) (hitem : item < 2 ^ PTR_BITS)
    (hnode : ptr_add item ops.offset ≠ 0)
    (hcmp : compare_by ops key) (hsorted : sorted_by key (t.records ops))
    (hne : ∀ r ∈ t.records ops, ops.compare r item ops.context ≠ 0) :
    ∃ s' t', rb_insert_item fuel item s ops = some (item, s') ∧ WF s' t' ∧ RB t' ∧
      (∃ xs ys, t.records ops = xs ++ ys ∧ t'.records ops = xs ++ item :: ys) ∧
      sorted_by key (t'.records ops) ∧ (∀ r ∈ t.records ops, r ∈ t'.records ops) ∧
      (t'.records ops).length = (t.records ops).length + 1 ∧ t'.size = t.size + 1 :=
  rb_insert_item_sorted key ops item fuel s t hw hrb hfuel hitem hnode hcmp hsorted hne

theorem rb_insert_item_inorder_witness :
    ∃ s' t', rb_insert_item 3 500 ex_state3 ex_ops = some (500, s') ∧ WF s' t' ∧ RB t' ∧
      (∃ xs ys, ex_tree3.records ex_ops = xs ++ ys ∧ t'.records ex_ops = xs ++ 500 :: ys) ∧
      sorted_by (fun a => (a : Int)) (t'.records ex_ops) ∧
      (∀ r ∈ ex_tree3.records ex_ops, r ∈ t'.records ex_ops) ∧
      (t'.records ex_ops).length = (ex_tree3.records ex_ops).length + 1 ∧
      t'.size = ex_tree3.size + 1 :=
  rb_insert_item_inorder (fun a => (a : Int)) ex_ops 500 3 ex_state3 ex_tree3 (by decide)
    (by decide) (by decide) (by decide) (by decide)
    (fun a b => by simp only [ex_ops]; omega)
    (by simp [sorted_by, Tree.records, ex_tree3, Tree.ptrs, record, ex_ops, ptr_sub, PTR_BITS])
    (by decide)

/-- C4. Claim: for every well-formed tree whose in-order sequence is strictly
increasing under the compare callback and every item that compares equal to a
stored record, `rb_insert_item` returns that stored record and leaves the whole
state as it was: the root reference, every field of every node, and the fields
of the item's own node. -/
theorem rb_insert_item_duplicate {K : Type} [LinearOrder K] (key : Nat → K) (ops : rb_ops)
    (item fuel : Nat) (s : State) (t : Tree) (hw : WF s t) (hfuel : t.height < fuel)
    (hcmp : compare_by ops key) (hsorted : sorted_by key (t.records ops))
    (p : Nat) (hp : p ∈ t.ptrs) (heq : ops.compare (record ops p) item ops.context = 0) :
    rb_insert_item fuel item s ops = some (record ops p, s) := by
  have hw0 : WF s (plug [] t) := hw
  have hkey := (compare_eq_zero_iff hcmp _ _).1 heq
  have hsp := sorted_ptrs hsorted
  rcases insert_loop_spec ops item t [] fuel s hw0 hfuel trivial with
    ⟨ctx, e1, e2, e3, e4⟩ | ⟨ctx, l, p', c, r, e1, e2, e3, e4⟩
  · exfalso
    simp only [plug_nil] at e1
    subst e1
    simp only [ptrs_plug, Tree.ptrs, List.append_nil] at hsp hp
    obtain ⟨hb, ha⟩ := search_path_bounds hcmp hsp e2
    rcases List.mem_append.1 hp with h | h
    · exact absurd hkey (ne_of_lt (hb p h))
    · exact absurd hkey.symm (ne_of_lt (ha p h))
  · simp only [plug_nil] at e1
    have hp' : p' ∈ t.ptrs := by
      rw [← e1, ptrs_plug]
      simp [Tree.ptrs]
    have hkey' := (compare_eq_zero_iff hcmp _ _).1 e3
    have : p' = p := sorted_inj (fun q => key (record ops q)) _ hsp p' hp' p hp
      (hkey'.trans hkey.symm)
    subst this
    simp only [top_nil, slotOf_nil] at e4
    simp only [rb_insert_item, e4, Option.bind_eq_bind, Option.some_bind, record]

theorem rb_insert_item_duplicate_witness :
    rb_insert_item 3 1000 ex_state3 ex_ops = some (record ex_ops 1008, ex_state3) :=
  rb_insert_item_duplicate (fun a => (a : Int)) ex_ops 1000 3 ex_state3 ex_tree3 (by decide)
    (by decide) (fun a b => by simp only [ex_ops]; omega)
    (by simp [sorted_by, Tree.records, ex_tree3, Tree.ptrs, record, ex_ops, ptr_sub, PTR_BITS])
    1008 (by decide) (by decide)

/-! ## Black heights along paths, and repeated insertion -/

theorem height_le_size (t : Tree) : t.height ≤ t.size := by
  induction t with
  | nil => simp [Tree.height, Tree.size]
  | node l p c r ihl ihr =>
    simp only [Tree.height, Tree.size]
    omega

theorem bh_mem_pathBlacks (t : Tree) : t.bh ∈ t.pathBlacks := by
  induction t with
  | nil => simp [Tree.bh, Tree.pathBlacks]
  | node l p c r ihl _ =>
    simp only [Tree.bh, Tree.pathBlacks, List.mem_map, List.mem_append]
    exact ⟨l.bh, Or.inl ihl, rfl⟩

theorem balanced_iff_bh (t : Tree) : t.balanced ↔ ∀ k ∈ t.pathBlacks, k = t.bh := by
  induction t with
  | nil => simp [Tree.balanced, Tree.bh, Tree.pathBlacks]
  | node l p c r ihl ihr =>
    simp only [Tree.balanced, Tree.bh, Tree.pathBlacks, List.mem_map, List.mem_append]
    constructor
    · rintro ⟨hb, hl, hr⟩ k ⟨j, hj, rfl⟩
      rcases hj with hj | hj
      · rw [(ihl.1 hl) j hj]
      · rw [(ihr.1 hr) j hj, hb]
    · intro h
      have hl : ∀ j ∈ l.pathBlacks, j = l.bh := fun j hj => by
        have := h (j + c.weight) ⟨j, Or.inl hj, rfl⟩
        omega
      have hr : ∀ j ∈ r.pathBlacks, j = l.bh := fun j hj => by
        have := h (j + c.weight) ⟨j, Or.inr hj, rfl⟩
        omega
      have hb : r.bh = l.bh := hr _ (bh_mem_pathBlacks r)
      exact ⟨hb.symm, ihl.2 hl, ihr.2 (fun j hj => by rw [hb]; exact hr j hj)⟩

/-- The recursive reading of the black-height invariant is the path reading:
a tree is balanced exactly when all its paths from the root to a null link
cross the same number of black nodes. -/
theorem balanced_iff_paths (t : Tree) :
    t.balanced ↔ ∀ a ∈ t.pathBlacks, ∀ b ∈ t.pathBlacks, a = b := by
  rw [balanced_iff_bh]
  constructor
  · intro h a ha b hb
    rw [h a ha, h b hb]
  · intro h k hk
    exact h k hk _ (bh_mem_pathBlacks t)

/-- Insertion of a list of records with pairwise distinct keys, none of them
in the tree yet: every call returns, and the final tree is valid, sorted, has
grown by the number of records and stores the old records and the new ones. -/
theorem rb_insert_items_spec {K : Type} [LinearOrder K] (key : Nat → K) (ops : rb_ops)
    (hcmp : compare_by ops key) (fuel : Nat) :
    ∀ (items : List Nat) (s : State) (t : Tree), WF s t → RB t →
      sorted_by key (t.records ops) → t.size + items.length ≤ fuel →
      (∀ i ∈ items, i < 2 ^ PTR_BITS ∧ ptr_add i ops.offset ≠ 0) →
      (items.map key).Nodup → (∀ i ∈ items, ∀ r ∈ t.records ops, key r ≠ key i) →
      ∃ s' t', rb_insert_items fuel ops items s = some s' ∧ WF s' t' ∧ RB t' ∧
        sorted_by key (t'.records ops) ∧ t'.size = t.size + items.length ∧
        (∀ r, r ∈ t'.records ops ↔ r ∈ t.records ops ∨ r ∈ items) := by
  intro items
  induction items with
  | nil =>
    intro s t hw hrb hs _ _ _ _
    exact ⟨s, t, rfl, hw, hrb, hs, by simp, by simp⟩
  | cons item rest ih =>
    intro s t hw hrb hs hf hi hd hk
    have hh := height_le_size t
    simp only [List.length_cons] at hf
    obtain ⟨hi1, hi2⟩ := hi item (List.mem_cons_self _ _)
    obtain ⟨s1, t1, e1, hw1, hrb1, ⟨xs, ys, hx, hy⟩, hs1, -, -, hz1⟩ :=
      rb_insert_item_sorted key ops item fuel s t hw hrb (by omega) hi1 hi2 hcmp hs
        (fun r hr e => hk item (List.mem_cons_self _ _) r hr
          ((compare_eq_zero_iff hcmp r item).1 e))
    have hmem : ∀ r, r ∈ t1.records ops ↔ r ∈ t.records ops ∨ r = item := by
      intro r
      rw [hx, hy]
      simp only [List.mem_append, List.mem_cons]
      tauto
    rw [List.map_cons, List.nodup_cons] at hd
    obtain ⟨s2, t2, e2, hw2, hrb2, hs2, hz2, hm2⟩ := ih s1 t1 hw1 hrb1 hs1 (by omega)
      (fun i hi' => hi i (List.mem_cons_of_mem _ hi')) hd.2
      (fun i hi' r hr e => by
        rcases (hmem r).1 hr with h | h
        · exact hk i (List.mem_cons_of_mem _ hi') r h e
        · subst h
          exact hd.1 (e ▸ List.mem_map_of_mem key hi'))
    refine ⟨s2, t2, ?_, hw2, hrb2, hs2, ?_, ?_⟩
    · simp only [rb_insert_items, e1, Option.bind_eq_bind, Option.some_bind, e2]
    · rw [hz2, hz1, List.length_cons]
      omega
    · intro r
      rw [hm2, hmem, List.mem_cons]
      tauto

/-- Records with pairwise distinct keys, put one after the other into an empty
tree with `rb_insert_item`: every call returns, and the final tree is valid,
sorted, stores exactly these records and has as many nodes as there were
records. -/
theorem rb_insert_items_size {K : Type} [LinearOrder K] (key : Nat → K) (ops : rb_ops)
    (hcmp : compare_by ops key) (fuel : Nat) (items : List Nat) (s : State)
    (hroot : s.root = 0) (hfuel : items.length ≤ fuel)
    (hitems : ∀ i ∈ items, i < 2 ^ PTR_BITS ∧ ptr_add i ops.offset ≠ 0)
    (hkeys : (items.map key).Nodup) :
    ∃ s' t', rb_insert_items fuel ops items s = some s' ∧ WF s' t' ∧ RB t' ∧
      sorted_by key (t'.records ops) ∧ t'.size = items.length ∧
      (∀ r, r ∈ t'.records ops ↔ r ∈ items) := by
  obtain ⟨s', t', h1, h2, h3, h4, h5, h6⟩ :=
    rb_insert_items_spec key ops hcmp fuel items s Tree.nil ⟨hroot, trivial, List.nodup_nil⟩
      ⟨rfl, trivial, trivial⟩ List.Pairwise.nil (by simpa [Tree.size] using hfuel) hitems hkeys
      (fun _ _ r hr => by simp [Tree.records, Tree.ptrs] at hr)
  refine ⟨s', t', h1, h2, h3, h4, by simpa [Tree.size] using h5, fun r => ?_⟩
  rw [h6]
  simp [Tree.records, Tree.ptrs]

theorem rb_insert_items_size_witness :
    ∃ s' t', rb_insert_items 3 ex_ops [500, 100, 300] ex_state0 = some s' ∧ WF s' t' ∧ RB t' ∧
      sorted_by (fun a => (a : Int)) (t'.records ex_ops) ∧ t'.size = [500, 100, 300].length ∧
      (∀ r, r ∈ t'.records ex_ops ↔ r ∈ [500, 100, 300]) :=
  rb_insert_items_size (fun a => (a : Int)) ex_ops (fun a b => by simp only [ex_ops]; omega) 3
    [500, 100, 300] ex_state0 rfl (by decide) (by decide) (by decide)

/-! ## Shape of the tree after the insertion fixup -/

/-- The layout of a tree in a state determines the tree. -/
theorem Rep_unique {m : Nat → rb_node} : ∀ (t t' : Tree) (par par' : Nat),
    Rep m par t → Rep m par' t' → t.ptr = t'.ptr → t = t' := by
  intro t
  induction t with
  | nil =>
    intro t' par par' _ h' e
    exact ((Rep_ptr_eq_zero h').1 e.symm).symm
  | node l p c r ihl ihr =>
    intro t' par par' h h' e
    cases t' with
    | nil => exact absurd e h.1
    | node l' p' c' r' =>
      simp only [ptr_node] at e
      subst e
      obtain ⟨-, h1, h2, h3⟩ := h
      obtain ⟨-, h1', h2', h3'⟩ := h'
      rw [h1] at h1'
      simp only [rb_node.mk.injEq] at h1'
      obtain ⟨-, el, er, ec⟩ := h1'
      rw [ihl l' _ _ h2 h2' el, ihr r' _ _ h3 h3' er, enc_injective ec]

theorem WF_unique {s : State} {t t' : Tree} (h : WF s t) (h' : WF s t') : t = t' :=
  Rep_unique t t' 0 0 h.2.1 h'.2.1 (h.1.symm.trans h'.1)

/-- Two states that lay out the same tree hold the same cells at its nodes. -/
theorem Rep_mem_eq {m m' : Nat → rb_node} : ∀ (t : Tree) (par : Nat),
    Rep m par t → Rep m' par t → ∀ p ∈ t.ptrs, m p = m' p := by
  intro t
  induction t with
  | nil => intro _ _ _ p hp; simp [Tree.ptrs] at hp
  | node l q c r ihl ihr =>
    intro par h h' p hp
    simp only [Tree.ptrs, List.mem_append, List.mem_cons] at hp
    rcases hp with hp | rfl | hp
    · exact ihl _ h.2.2.1 h'.2.2.1 p hp
    · rw [h.2.1, h'.2.1]
    · exact ihr _ h.2.2.2 h'.2.2.2 p hp

theorem eq_nil_of_bh_zero {t : Tree} (h : t.bh = 0) (hr : t.isRed = false) : t = Tree.nil := by
  cases t with
  | nil => rfl
  | node l p c r =>
    cases c with
    | red => simp at hr
    | black => simp [Tree.bh] at h

/-- Turning the root black changes only the outermost frame of a path. -/
theorem blacken_plug : ∀ (c : Ctx) (X : Tree), c ≠ [] →
    ∃ c', (plug c X).blacken = plug c' X ∧ c' ≠ [] ∧ (c.isRed = false → c'.isRed = false) := by
  intro c
  induction c with
  | nil => intro X h; exact absurd rfl h
  | cons f fs ih =>
    intro X _
    cases fs with
    | nil =>
      refine ⟨[f.setColor Color.black], ?_, by simp, fun _ => ?_⟩
      · cases f <;> rfl
      · cases f <;> simp [Frame.setColor, Frame.color]
    | cons g gs =>
      obtain ⟨c', h1, -, -⟩ := ih (f.fill X) (by simp)
      exact ⟨f :: c', h1, by simp, fun h => h⟩

/-- Where the loop of `_rb_link_color` leaves the red node it started at: red
below a black node or at the root, with its two subtrees; or black between its
former parent and grandparent, both red, after the two rotations of case 4. -/
theorem link_color_tree_shape : ∀ (n : Nat) (ctx : Ctx) (l r : Tree) (x : Nat),
    ctx.length ≤ n → ctx.rootBlack →
    (∃ c, link_color_tree ctx (Tree.node l x Color.red r) = plug c (Tree.node l x Color.red r) ∧
      c.isRed = false) ∨
    (∃ c lp p rg g, link_color_tree ctx (Tree.node l x Color.red r) =
      plug c (Tree.node (Tree.node lp p Color.red l) x Color.black
        (Tree.node r g Color.red rg))) := by
  intro n
  induction n using Nat.strong_induction_on with
  | _ n ih =>
    intro ctx l r x hlen hrb
    cases ctx with
    | nil => exact Or.inl ⟨[], rfl, rfl⟩
    | cons f fs =>
      by_cases hf : f.color = Color.black
      · exact Or.inl ⟨f :: fs, link_color_tree_black hf, by simp [hf]⟩
      · have hf' : f.color = Color.red := by
          cases h : f.color
          · rfl
          · exact absurd h hf
        obtain ⟨g, gs, rfl⟩ := rootBlack_red hrb hf'
        cases hu : g.sib.isRed with
        | true =>
          rw [link_color_tree_case3 hf' hu]
          simp only [List.length_cons] at hlen
          have hrb' := rootBlack_tail (rootBlack_tail hrb)
          cases g with
          | L gp cg u =>
            rcases ih (n - 2) (by omega) gs ((f.setColor Color.black).fill
                (Tree.node l x Color.red r)) u.blacken gp (by omega) hrb' with
              ⟨c, h1, -⟩ | ⟨c, lp, p, rg, g2, h1⟩
            · left
              refine ⟨f.setColor Color.black :: Frame.L gp Color.red u.blacken :: c, ?_, ?_⟩
              · exact h1
              · cases f <;> simp [Frame.setColor, Frame.color]
            · left
              refine ⟨f.setColor Color.black :: Frame.R lp p Color.red ::
                Frame.L gp Color.black (Tree.node u.blacken g2 Color.red rg) :: c, ?_, ?_⟩
              · exact h1
              · cases f <;> simp [Frame.setColor, Frame.color]
          | R u gp cg =>
            rcases ih (n - 2) (by omega) gs u.blacken ((f.setColor Color.black).fill
                (Tree.node l x Color.red r)) gp (by omega) hrb' with
              ⟨c, h1, -⟩ | ⟨c, lp, p, rg, g2, h1⟩
            · left
              refine ⟨f.setColor Color.black :: Frame.R u.blacken gp Color.red :: c, ?_, ?_⟩
              · exact h1
              · cases f <;> simp [Frame.setColor, Frame.color]
            · left
              refine ⟨f.setColor Color.black :: Frame.L g2 Color.red rg ::
                Frame.R (Tree.node lp p Color.red u.blacken) gp Color.black :: c, ?_, ?_⟩
              · exact h1
              · cases f <;> simp [Frame.setColor, Frame.color]
        | false =>
          rw [link_color_tree_case4 hf' hu]
          cases g with
          | L gp cg u =>
            cases f with
            | L p cp fsib =>
              exact Or.inl ⟨Frame.L p Color.black (Tree.node fsib gp Color.red u) :: gs, rfl,
                rfl⟩
            | R fsib p cp => exact Or.inr ⟨gs, fsib, p, u, gp, rfl⟩
          | R u gp cg =>
            cases f with
            | L p cp fsib => exact Or.inr ⟨gs, u, gp, fsib, p, rfl⟩
            | R fsib p cp =>
              exact Or.inl ⟨Frame.R (Tree.node u gp Color.red fsib) p Color.black :: gs, rfl,
                rfl⟩

/-- Shape of the tree after `rb_link`, root turned black: the new node is the
black root of a one-node tree, or a red leaf below a black node, or black
between two red nodes. -/
theorem link_tree_shape (ctx : Ctx) (x : Nat) (hrb : ctx.rootBlack) :
    (link_color_tree ctx (Tree.node Tree.nil x Color.red Tree.nil)).blacken =
        Tree.node Tree.nil x Color.black Tree.nil ∨
    (∃ c, (link_color_tree ctx (Tree.node Tree.nil x Color.red Tree.nil)).blacken =
        plug c (Tree.node Tree.nil x Color.red Tree.nil) ∧ c ≠ [] ∧ c.isRed = false) ∨
    (∃ c lp p rg g, (link_color_tree ctx (Tree.node Tree.nil x Color.red Tree.nil)).blacken =
        plug c (Tree.node (Tree.node lp p Color.red Tree.nil) x Color.black
          (Tree.node Tree.nil g Color.red rg))) := by
  rcases link_color_tree_shape ctx.length ctx Tree.nil Tree.nil x (le_refl _) hrb with
    ⟨c, h1, h2⟩ | ⟨c, lp, p, rg, g, h1⟩
  · by_cases hc : c = []
    · subst hc
      left
      rw [h1]
      rfl
    · right; left
      obtain ⟨c', e1, e2, e3⟩ := blacken_plug c _ hc
      exact ⟨c', by rw [h1, e1], e2, e3 h2⟩
  · right; right
    by_cases hc : c = []
    · subst hc
      exact ⟨[], lp, p, rg, g, by rw [h1]; rfl⟩
    · obtain ⟨c', e1, -, -⟩ := blacken_plug c _ hc
      exact ⟨c', lp, p, rg, g, by rw [h1, e1]⟩

/-! ## Search: `rb_search_item` -/

/-- The loop of `rb_search_item` below a path: it ends at a null link or at a
node where the comparison is zero, along a path that goes left where the
comparison is positive and right where it is negative. -/
theorem search_loop_spec (ops : rb_ops) (k : Nat) :
    ∀ (t : Tree) (ctx : Ctx) (fuel : Nat) (s : State), WF s (plug ctx t) → t.height < fuel →
      ctx.pathOK (fun p => ops.compare_key (search_record ops p) k ops.context) →
      (∃ ctx', plug ctx' Tree.nil = plug ctx t ∧
          ctx'.pathOK (fun p => ops.compare_key (search_record ops p) k ops.context) ∧
          rb_search_item_loop ops k fuel t.ptr s = some 0) ∨
      (∃ ctx' l p c r, plug ctx' (Tree.node l p c r) = plug ctx t ∧
          ctx'.pathOK (fun p => ops.compare_key (search_record ops p) k ops.context) ∧
          ops.compare_key (search_record ops p) k ops.context = 0 ∧
          rb_search_item_loop ops k fuel t.ptr s = some (search_record ops p)) := by
  intro t
  induction t with
  | nil =>
    intro ctx fuel s hw hf hp
    cases fuel with
    | zero => exact absurd hf (Nat.not_lt_zero _)
    | succ fuel =>
      left
      exact ⟨ctx, rfl, hp, by simp [rb_search_item_loop]⟩
  | node l p c r ihl ihr =>
    intro ctx fuel s hw hf hp
    cases fuel with
    | zero => exact absurd hf (Nat.not_lt_zero _)
    | succ fuel =>
      obtain ⟨hp0, hmem⟩ := mem_focus hw
      simp only [Tree.height] at hf
      rw [rb_search_item_loop]
      simp only [ptr_node, ne_eq, hp0, not_false_eq_true, if_true, get_left_eq _ _ hp0,
        get_right_eq _ _ hp0, hmem, Option.bind_eq_bind, Option.some_bind]
      by_cases h1 : ops.compare_key (search_record ops p) k ops.context > 0
      · have h1' : ops.compare_key (ptr_sub p (ops.offset * SIZEOF_RB_NODE)) k ops.context > 0 :=
          h1
        simp only [h1', if_true]
        have hw' : WF s (plug (Frame.L p c r :: ctx) l) := hw
        rcases ihl (Frame.L p c r :: ctx) fuel s hw' (by omega) ⟨h1, hp⟩ with
          ⟨ctx', e1, e2, e4⟩ | ⟨ctx', l', p', c', r', e1, e2, e3, e4⟩
        · left
          exact ⟨ctx', e1, e2, e4⟩
        · right
          exact ⟨ctx', l', p', c', r', e1, e2, e3, e4⟩
      · by_cases h2 : ops.compare_key (search_record ops p) k ops.context < 0
        · have h1' : ¬ ops.compare_key (ptr_sub p (ops.offset * SIZEOF_RB_NODE)) k
              ops.context > 0 := h1
          have h2' : ops.compare_key (ptr_sub p (ops.offset * SIZEOF_RB_NODE)) k
              ops.context < 0 := h2
          simp only [h1', h2', if_true, if_false]
          have hw' : WF s (plug (Frame.R l p c :: ctx) r) := hw
          rcases ihr (Frame.R l p c :: ctx) fuel s hw' (by omega) ⟨h2, hp⟩ with
            ⟨ctx', e1, e2, e4⟩ | ⟨ctx', l', p', c', r', e1, e2, e3, e4⟩
          · left
            exact ⟨ctx', e1, e2, e4⟩
          · right
            exact ⟨ctx', l', p', c', r', e1, e2, e3, e4⟩
        · right
          have h1' : ¬ ops.compare_key (ptr_sub p (ops.offset * SIZEOF_RB_NODE)) k
              ops.context > 0 := h1
          have h2' : ¬ ops.compare_key (ptr_sub p (ops.offset * SIZEOF_RB_NODE)) k
              ops.context < 0 := h2
          simp only [h1', h2', if_false]
          exact ⟨ctx, l, p, c, r, rfl, hp, by omega, rfl⟩

theorem compare_key_eq_zero_iff {K : Type} [LinearOrder K] {ops : rb_ops} {key kv : Nat → K}
    (h : compare_key_by ops key kv) (a k : Nat) :
    ops.compare_key a k ops.context = 0 ↔ key a = kv k := by
  obtain ⟨h1, h2⟩ := h a k
  constructor
  · intro e
    have n1 : ¬ key a < kv k := fun c => by have := h1.2 c; omega
    have n2 : ¬ kv k < key a := fun c => by have := h2.2 c; omega
    exact le_antisymm (not_lt.1 n2) (not_lt.1 n1)
  · intro e
    have n1 : ¬ ops.compare_key a k ops.context < 0 := fun c => by
      have := h1.1 c; rw [e] at this; exact lt_irrefl _ this
    have n2 : ¬ 0 < ops.compare_key a k ops.context := fun c => by
      have := h2.1 c; rw [e] at this; exact lt_irrefl _ this
    omega

/-- What `rb_search_item` does on a well-formed tree whose nodes, mapped to the
addresses the function itself computes, are strictly increasing by key: it
returns the computed address of the node whose key equals the key searched
for, and `NULL` when there is no such node. -/
theorem rb_search_item_spec {K : Type} [LinearOrder K] (key kv : Nat → K) (ops : rb_ops)
    (k fuel : Nat) (s : State) (t : Tree) (hw : WF s t) (hfuel : t.height < fuel)
    (hck : compare_key_by ops key kv)
    (hsorted : sorted_by key (t.ptrs.map (search_record ops))) :
    (∀ p ∈ t.ptrs, key (search_record ops p) = kv k →
        rb_search_item fuel k s ops = some (search_record ops p)) ∧
      ((∀ p ∈ t.ptrs, key (search_record ops p) ≠ kv k) →
        rb_search_item fuel k s ops = some 0) := by
  have hw0 : WF s (plug [] t) := hw
  have hsp : t.ptrs.Pairwise (fun a b => key (search_record ops a) < key (search_record ops b)) := by
    simpa [sorted_by, List.pairwise_map] using hsorted
  have hroot : s.root = t.ptr := hw.1
  rcases search_loop_spec ops k t [] fuel s hw0 hfuel trivial with
    ⟨ctx, e1, e2, e4⟩ | ⟨ctx, l, p', c, r, e1, e2, e3, e4⟩
  · simp only [plug_nil] at e1
    subst e1
    simp only [ptrs_plug, Tree.ptrs, List.append_nil] at hsp
    obtain ⟨hb, ha⟩ := path_bounds (fun p => key (search_record ops p)) (kv k)
      (fun p => ops.compare_key (search_record ops p) k ops.context)
      (fun p h => (hck _ _).1.1 h) (fun p h => (hck _ _).2.1 h) ctx hsp e2
    constructor
    · intro p hp hk
      exfalso
      simp only [ptrs_plug, Tree.ptrs, List.append_nil] at hp
      rcases List.mem_append.1 hp with h | h
      · exact absurd hk (ne_of_lt (hb p h))
      · exact absurd hk.symm (ne_of_lt (ha p h))
    · intro _
      rw [rb_search_item, hroot]
      exact e4
  · simp only [plug_nil] at e1
    have hp' : p' ∈ t.ptrs := by
      rw [← e1, ptrs_plug]
      simp [Tree.ptrs]
    have hkey' := (compare_key_eq_zero_iff hck _ _).1 e3
    constructor
    · intro p hp hk
      have : p' = p := sorted_inj (fun q => key (search_record ops q)) _ hsp p' hp' p hp
        (hkey'.trans hk.symm)
      subst this
      rw [rb_search_item, hroot]
      exact e4
    · intro h
      exact absurd hkey' (h p' hp')

/-- With offset 0 the node is the first member of the record, both functions
compute the same record address, and `rb_search_item` finds the stored record
with the key searched for or returns `NULL` when there is none. -/
theorem rb_search_item_offset_zero {K : Type} [LinearOrder K] (key kv : Nat → K)
    (ops : rb_ops) (k fuel : Nat) (s : State) (t : Tree) (hoff : ops.offset = 0)
    (hw : WF s t) (hfuel : t.height < fuel) (hck : compare_key_by ops key kv)
    (hsorted : sorted_by key (t.records ops)) :
    (∀ r ∈ t.records ops, ops.compare_key r k ops.context = 0 →
        rb_search_item fuel k s ops = some r) ∧
      ((∀ r ∈ t.records ops, ops.compare_key r k ops.context ≠ 0) →
        rb_search_item fuel k s ops = some 0) := by
  have hrec : search_record ops = record ops := by
    funext p
    simp [search_record, record, hoff]
  have hs' : sorted_by key (t.ptrs.map (search_record ops)) := by
    rw [hrec]; exact hsorted
  obtain ⟨h1, h2⟩ := rb_search_item_spec key kv ops k fuel s t hw hfuel hck hs'
  rw [hrec] at h1 h2
  constructor
  · intro r hr he
    obtain ⟨p, hp, rfl⟩ := List.mem_map.1 hr
    exact h1 p hp ((compare_key_eq_zero_iff hck _ _).1 he)
  · intro h
    refine h2 (fun p hp e => h _ (List.mem_map_of_mem _ hp) ((compare_key_eq_zero_iff hck _ _).2 e))

/-- C6. Evaluation at a failing input: the record at address 2000 is stored (its
node is the root at address 2008, the offset is 8) and compares equal to the
key at address 2000, yet `rb_search_item` returns `NULL`: it compares the key
with address `2008 - 8 * 32`, not with the stored record. -/
theorem rb_search_item_misses_stored_record :
    WF ex_state1 ex_tree1 ∧ RB ex_tree1 ∧ 2000 ∈ ex_tree1.records ex_ops ∧
      ex_ops.compare_key 2000 2000 ex_ops.context = 0 ∧
      rb_search_item 3 2000 ex_state1 ex_ops = some 0 := by
  decide

/-- C7. Evaluation at a failing input: with offset 8, `rb_insert_item` maps the
node at 2008 to the record at 2000 while `rb_search_item` maps it to address
1752; after the item at 500 was inserted and returned, a search with a key equal
to the item's key returns `NULL` and not the item. -/
theorem rb_search_after_insert_misses_item :
    record ex_ops 2008 = 2000 ∧ search_record ex_ops 2008 = 1752 ∧
      (rb_insert_item 3 500 ex_state3 ex_ops).map Prod.fst = some 500 ∧
      ex_ops.compare_key 500 500 ex_ops.context = 0 ∧
      (rb_insert_item 3 500 ex_state3 ex_ops).bind
        (fun r => rb_search_item 4 500 r.2 ex_ops) = some 0 := by
  decide

/-! ## Traversal loops: `rb_leftmost`, `rb_rightmost` and the climbing loops -/

/-- The test `parent->right == node` tells on which side of its parent a node
hangs. -/
theorem right_eq_iff {s : State} {f : Frame} {fs : Ctx} {t : Tree}
    (hw : WF s (plug (f :: fs) t)) (ht : t ≠ Tree.nil) :
    ((s.mem f.ptr).right = t.ptr) = (f.isL = false) := by
  cases f with
  | L p c r =>
    have hw' : WF s (plug fs (Tree.node t p c r)) := hw
    simp [(mem_focus hw').2, Frame.isL, children_ne' hw' (Or.inr ht)]
  | R l p c =>
    have hw' : WF s (plug fs (Tree.node l p c t)) := hw
    simp [(mem_focus hw').2, Frame.isL]

theorem getLastD_append_ne (xs ys : List Nat) (h : ys ≠ []) :
    (xs ++ ys).getLastD 0 = ys.getLastD 0 := by
  rw [List.getLastD_eq_getLast?, List.getLastD_eq_getLast?, List.getLast?_append_of_ne_nil _ h]

theorem headD_append_ne (xs ys : List Nat) (h : xs ≠ []) :
    (xs ++ ys).headD 0 = xs.headD 0 := by
  cases xs with
  | nil => exact absurd rfl h
  | cons a as => rfl

theorem ptrs_ne_nil {t : Tree} (h : t ≠ Tree.nil) : t.ptrs ≠ [] := by
  cases t with
  | nil => exact absurd rfl h
  | node l p c r => simp [Tree.ptrs]

theorem ptrs_eq_nil {t : Tree} : t.ptrs = [] ↔ t = Tree.nil := by
  cases t <;> simp [Tree.ptrs]

theorem rb_leftmost_spec : ∀ (t : Tree) (ctx : Ctx) (fuel : Nat) (s : State),
    WF s (plug ctx t) → t ≠ Tree.nil → t.height ≤ fuel →
    rb_leftmost fuel t.ptr s = some (t.ptrs.headD 0) := by
  intro t
  induction t with
  | nil => intro ctx fuel s _ h; exact absurd rfl h
  | node l p c r ihl _ =>
    intro ctx fuel s hw _ hf
    obtain ⟨hp0, hmem⟩ := mem_focus hw
    have hl := (focus_children hw).1
    simp only [Tree.height] at hf
    cases fuel with
    | zero => omega
    | succ fuel =>
      rw [rb_leftmost]
      simp only [ptr_node, get_left_eq _ _ hp0, hmem, Option.bind_eq_bind, Option.some_bind]
      by_cases hl0 : l = Tree.nil
      · subst hl0
        simp [Tree.ptrs]
      · have hne : l.ptr ≠ 0 := fun e => hl0 ((Rep_ptr_eq_zero hl).1 e)
        have hw' : WF s (plug (Frame.L p c r :: ctx) l) := hw
        simp only [ne_eq, hne, not_false_eq_true, if_true]
        rw [ihl (Frame.L p c r :: ctx) fuel s hw' hl0 (by omega)]
        simp only [Tree.ptrs]
        rw [headD_append_ne _ _ (ptrs_ne_nil hl0)]

theorem rb_rightmost_spec : ∀ (t : Tree) (ctx : Ctx) (fuel : Nat) (s : State),
    WF s (plug ctx t) → t ≠ Tree.nil → t.height ≤ fuel →
    rb_rightmost fuel t.ptr s = some (t.ptrs.getLastD 0) := by
  intro t
  induction t with
  | nil => intro ctx fuel s _ h; exact absurd rfl h
  | node l p c r _ ihr =>
    intro ctx fuel s hw _ hf
    obtain ⟨hp0, hmem⟩ := mem_focus hw
    have hr := (focus_children hw).2
    simp only [Tree.height] at hf
    cases fuel with
    | zero => omega
    | succ fuel =>
      rw [rb_rightmost]
      simp only [ptr_node, get_right_eq _ _ hp0, hmem, Option.bind_eq_bind, Option.some_bind]
      by_cases hr0 : r = Tree.nil
      · subst hr0
        simp [Tree.ptrs]
      · have hne : r.ptr ≠ 0 := fun e => hr0 ((Rep_ptr_eq_zero hr).1 e)
        have hw' : WF s (plug (Frame.R l p c :: ctx) r) := hw
        simp only [ne_eq, hne, not_false_eq_true, if_true]
        rw [ihr (Frame.R l p c :: ctx) fuel s hw' hr0 (by omega)]
        have := ptrs_ne_nil hr0
        simp only [Tree.ptrs]
        rw [getLastD_append_ne _ _ (by simp)]
        cases hr' : r.ptrs with
        | nil => exact absurd hr' this
        | cons a as => rfl

theorem rb_next_climb_spec : ∀ (ctx : Ctx) (t : Tree) (fuel : Nat) (s : State),
    WF s (plug ctx t) → t ≠ Tree.nil → ctx.length < fuel →
    rb_next_climb fuel t.ptr s = some (ctx.after.headD 0) := by
  intro ctx
  induction ctx with
  | nil =>
    intro t fuel s hw ht hf
    cases t with
    | nil => exact absurd rfl ht
    | node l p c r =>
      obtain ⟨hp0, hmem⟩ := mem_focus hw
      cases fuel with
      | zero => exact absurd hf (Nat.not_lt_zero _)
      | succ fuel =>
        rw [rb_next_climb]
        simp [get_parent_eq _ _ hp0, hmem, Ctx.after]
  | cons f fs ih =>
    intro t fuel s hw ht hf
    cases fuel with
    | zero => exact absurd hf (Nat.not_lt_zero _)
    | succ fuel =>
      have htest := right_eq_iff hw ht
      cases t with
      | nil => exact absurd rfl ht
      | node l p c r =>
        obtain ⟨hp0, hmem⟩ := mem_focus hw
        have hw' : WF s (plug fs (f.fill (Tree.node l p c r))) := hw
        rw [rb_next_climb]
        simp only [ptr_node, top_cons] at hmem htest
        simp only [ptr_node, get_parent_eq _ _ hp0, hmem, Option.bind_eq_bind, Option.some_bind,
          htest]
        cases f with
        | L q c' r' =>
          have hq0 := (mem_focus hw').1
          simp [Frame.isL, Ctx.after, hq0]
        | R l' q c' =>
          have hq0 := (mem_focus hw').1
          simp only [ptr_R, ne_eq, hq0, not_false_eq_true, Frame.isL, and_self, if_true]
          have := ih (Tree.node l' q c' (Tree.node l p c r)) fuel s hw' (by simp)
            (by simpa using hf)
          simpa [Ctx.after] using this

theorem rb_prev_climb_spec : ∀ (ctx : Ctx) (t : Tree) (fuel : Nat) (s : State),
    WF s (plug ctx t) → t ≠ Tree.nil → ctx.length < fuel →
    rb_prev_climb fuel t.ptr s = some (ctx.before.getLastD 0) := by
  intro ctx
  induction ctx with
  | nil =>
    intro t fuel s hw ht hf
    cases t with
    | nil => exact absurd rfl ht
    | node l p c r =>
      obtain ⟨hp0, hmem⟩ := mem_focus hw
      cases fuel with
      | zero => exact absurd hf (Nat.not_lt_zero _)
      | succ fuel =>
        rw [rb_prev_climb]
        simp [get_parent_eq _ _ hp0, hmem, Ctx.before]
  | cons f fs ih =>
    intro t fuel s hw ht hf
    cases fuel with
    | zero => exact absurd hf (Nat.not_lt_zero _)
    | succ fuel =>
      have htest := left_eq_iff hw ht
      cases t with
      | nil => exact absurd rfl ht
      | node l p c r =>
        obtain ⟨hp0, hmem⟩ := mem_focus hw
        have hw' : WF s (plug fs (f.fill (Tree.node l p c r))) := hw
        rw [rb_prev_climb]
        simp only [ptr_node, top_cons] at hmem htest
        simp only [ptr_node, get_parent_eq _ _ hp0, hmem, Option.bind_eq_bind, Option.some_bind,
          htest]
        cases f with
        | L q c' r' =>
          have hq0 := (mem_focus hw').1
          simp only [ptr_L, ne_eq, hq0, not_false_eq_true, Frame.isL, and_self, if_true]
          have := ih (Tree.node (Tree.node l p c r) q c' r') fuel s hw' (by simp)
            (by simpa using hf)
          simpa [Ctx.before] using this
        | R l' q c' =>
          have hq0 := (mem_focus hw').1
          simp [Frame.isL, Ctx.before, hq0]

/-! ## Traversal: `rb_next`, `rb_prev`, `rb_first`, `rb_last` -/

theorem nodup_split_unique {n : Nat} : ∀ (xs ys xs' ys' : List Nat),
    (xs ++ n :: ys).Nodup → xs ++ n :: ys = xs' ++ n :: ys' → xs = xs' ∧ ys = ys' := by
  intro xs
  induction xs with
  | nil =>
    intro ys xs' ys' hnd e
    cases xs' with
    | nil => simpa using e
    | cons a as =>
      simp only [List.nil_append, List.cons_append, List.cons.injEq] at e
      obtain ⟨rfl, rfl⟩ := e
      simp at hnd
  | cons x xs ih =>
    intro ys xs' ys' hnd e
    cases xs' with
    | nil =>
      simp only [List.nil_append, List.cons_append, List.cons.injEq] at e
      obtain ⟨rfl, e2⟩ := e
      simp at hnd
    | cons a as =>
      simp only [List.cons_append, List.cons.injEq] at e
      obtain ⟨rfl, e2⟩ := e
      simp only [List.cons_append, List.nodup_cons] at hnd
      obtain ⟨h1, h2⟩ := ih ys as ys' hnd.2 e2
      exact ⟨by rw [h1], h2⟩

/-- Every split of the in-order sequence at a node is the split that the path
to that node gives. -/
theorem exists_focus_of_split {s : State} {t : Tree} (hw : WF s t) {xs ys : List Nat} {n : Nat}
    (h : t.ptrs = xs ++ n :: ys) :
    ∃ ctx l c r, t = plug ctx (Tree.node l n c r) ∧ xs = ctx.before ++ l.ptrs ∧
      ys = r.ptrs ++ ctx.after := by
  have hn : n ∈ t.ptrs := by rw [h]; simp
  obtain ⟨ctx, l, c, r, rfl⟩ := exists_plug_of_mem hn
  have hnd := hw.2.2
  rw [h] at hnd
  have e : xs ++ n :: ys = (ctx.before ++ l.ptrs) ++ n :: (r.ptrs ++ ctx.after) := by
    rw [← h, ptrs_plug]
    simp [Tree.ptrs]
  obtain ⟨h1, h2⟩ := nodup_split_unique _ _ _ _ hnd e
  exact ⟨ctx, l, c, r, rfl, h1, h2⟩

theorem rb_next_focus {s : State} {ctx : Ctx} {l r : Tree} {n : Nat} {c : Color} {fuel : Nat}
    (hw : WF s (plug ctx (Tree.node l n c r)))
    (hf : (plug ctx (Tree.node l n c r)).height ≤ fuel) :
    rb_next fuel n s = some ((r.ptrs ++ ctx.after).headD 0) := by
  obtain ⟨hn0, hmem⟩ := mem_focus hw
  have hr := (focus_children hw).2
  have hh := height_plug ctx (Tree.node l n c r)
  simp only [Tree.height] at hh
  rw [rb_next]
  simp only [get_right_eq _ _ hn0, hmem, Option.bind_eq_bind, Option.some_bind]
  by_cases hr0 : r = Tree.nil
  · subst hr0
    simp only [ptr_nil, ne_eq, not_true_eq_false, if_false, Tree.ptrs, List.nil_append]
    exact rb_next_climb_spec ctx (Tree.node l n c Tree.nil) fuel s hw (by simp) (by omega)
  · have hne : r.ptr ≠ 0 := fun e => hr0 ((Rep_ptr_eq_zero hr).1 e)
    have hw' : WF s (plug (Frame.R l n c :: ctx) r) := hw
    simp only [ne_eq, hne, not_false_eq_true, if_true]
    rw [rb_leftmost_spec r _ fuel s hw' hr0 (by omega), headD_append_ne _ _ (ptrs_ne_nil hr0)]

theorem rb_prev_focus {s : State} {ctx : Ctx} {l r : Tree} {n : Nat} {c : Color} {fuel : Nat}
    (hw : WF s (plug ctx (Tree.node l n c r)))
    (hf : (plug ctx (Tree.node l n c r)).height ≤ fuel) :
    rb_prev fuel n s = some ((ctx.before ++ l.ptrs).getLastD 0) := by
  obtain ⟨hn0, hmem⟩ := mem_focus hw
  have hl := (focus_children hw).1
  have hh := height_plug ctx (Tree.node l n c r)
  simp only [Tree.height] at hh
  rw [rb_prev]
  simp only [get_left_eq _ _ hn0, hmem, Option.bind_eq_bind, Option.some_bind]
  by_cases hl0 : l = Tree.nil
  · subst hl0
    simp only [ptr_nil, ne_eq, not_true_eq_false, if_false, Tree.ptrs, List.append_nil]
    exact rb_prev_climb_spec ctx (Tree.node Tree.nil n c r) fuel s hw (by simp) (by omega)
  · have hne : l.ptr ≠ 0 := fun e => hl0 ((Rep_ptr_eq_zero hl).1 e)
    have hw' : WF s (plug (Frame.L n c r :: ctx) l) := hw
    simp only [ne_eq, hne, not_false_eq_true, if_true]
    rw [rb_rightmost_spec l _ fuel s hw' hl0 (by omega), getLastD_append_ne _ _ (ptrs_ne_nil hl0)]

theorem rb_next_split {s : State} {t : Tree} {fuel : Nat} (hw : WF s t) (hf : t.height ≤ fuel)
    {xs ys : List Nat} {n : Nat} (h : t.ptrs = xs ++ n :: ys) :
    rb_next fuel n s = some (ys.headD 0) := by
  obtain ⟨ctx, l, c, r, rfl, -, rfl⟩ := exists_focus_of_split hw h
  exact rb_next_focus hw hf

theorem rb_prev_split {s : State} {t : Tree} {fuel : Nat} (hw : WF s t) (hf : t.height ≤ fuel)
    {xs ys : List Nat} {n : Nat} (h : t.ptrs = xs ++ n :: ys) :
    rb_prev fuel n s = some (xs.getLastD 0) := by
  obtain ⟨ctx, l, c, r, rfl, rfl, -⟩ := exists_focus_of_split hw h
  exact rb_prev_focus hw hf

theorem rb_first_eq {s : State} {t : Tree} {fuel : Nat} (hw : WF s t) (hf : t.height ≤ fuel) :
    rb_first fuel s = some (t.ptrs.headD 0) := by
  rw [rb_first, hw.1]
  by_cases ht : t = Tree.nil
  · subst ht; rfl
  · have hne : t.ptr ≠ 0 := fun e => ht ((Rep_ptr_eq_zero hw.2.1).1 e)
    have hw' : WF s (plug [] t) := hw
    simp only [ne_eq, hne, not_false_eq_true, if_true]
    exact rb_leftmost_spec t [] fuel s hw' ht hf

theorem rb_last_eq {s : State} {t : Tree} {fuel : Nat} (hw : WF s t) (hf : t.height ≤ fuel) :
    rb_last fuel s = some (t.ptrs.getLastD 0) := by
  rw [rb_last, hw.1]
  by_cases ht : t = Tree.nil
  · subst ht; rfl
  · have hne : t.ptr ≠ 0 := fun e => ht ((Rep_ptr_eq_zero hw.2.1).1 e)
    have hw' : WF s (plug [] t) := hw
    simp only [ne_eq, hne, not_false_eq_true, if_true]
    exact rb_rightmost_spec t [] fuel s hw' ht hf

theorem headD_eq_zero {l : List Nat} (h : ∀ q ∈ l, q ≠ 0) : l.headD 0 = 0 ↔ l = [] := by
  cases l with
  | nil => simp
  | cons a as => simpa using h a (by simp)

theorem getLastD_eq_zero {l : List Nat} (h : ∀ q ∈ l, q ≠ 0) : l.getLastD 0 = 0 ↔ l = [] := by
  cases l with
  | nil => simp
  | cons a as =>
    have hm : (a :: as).getLast (by simp) ∈ a :: as := List.getLast_mem _
    have : (a :: as).getLastD 0 = (a :: as).getLast (by simp) := by
      rw [List.getLastD_eq_getLast?, List.getLast?_eq_getLast _ (by simp)]
      rfl
    rw [this]
    simpa using h _ hm

theorem rb_walk_spec {s : State} {t : Tree} {fuel : Nat} (hw : WF s t) (hf : t.height ≤ fuel) :
    ∀ (ys xs : List Nat) (steps : Nat), t.ptrs = xs ++ ys → ys.length < steps →
      rb_walk fuel steps (ys.headD 0) s = some ys := by
  intro ys
  induction ys with
  | nil =>
    intro xs steps _ hs
    cases steps with
    | zero => exact absurd hs (Nat.not_lt_zero _)
    | succ steps => simp [rb_walk]
  | cons n ys ih =>
    intro xs steps h hs
    cases steps with
    | zero => exact absurd hs (Nat.not_lt_zero _)
    | succ steps =>
      have hn0 : n ≠ 0 := Rep_ptrs_ne_zero hw.2.1 n (by rw [h]; simp)
      have hnext := rb_next_split hw hf h
      have hrest := ih (xs ++ [n]) steps (by simpa using h) (by simpa using hs)
      simp only [rb_walk, List.headD_cons, hn0, if_false, hnext, Option.bind_eq_bind,
        Option.some_bind, hrest]

/-- C8. Claim: in a well-formed tree, `rb_next` of a node is the node right
after it in the in-order sequence, and `NULL` exactly when the node is the last
one; `rb_prev` is the node right before it, and `NULL` exactly when the node is
the first one; and the loop that starts at `rb_first` and repeats `rb_next`
until `NULL` visits the in-order sequence, every node once. -/
theorem rb_next_prev_inorder (fuel : Nat) (s : State) (t : Tree) (hw : WF s t)
    (hf : t.height ≤ fuel) :
    (∀ xs n ys, t.ptrs = xs ++ n :: ys →
      rb_next fuel n s = some (ys.headD 0) ∧ (ys.headD 0 = 0 ↔ ys = []) ∧
        rb_prev fuel n s = some (xs.getLastD 0) ∧ (xs.getLastD 0 = 0 ↔ xs = [])) ∧
    (∀ steps, t.size < steps →
      (rb_first fuel s).bind (fun n => rb_walk fuel steps n s) = some t.ptrs ∧
        t.ptrs.Nodup) := by
  have hnz := Rep_ptrs_ne_zero hw.2.1
  constructor
  · intro xs n ys h
    refine ⟨rb_next_split hw hf h, headD_eq_zero (fun q hq => hnz q ?_),
      rb_prev_split hw hf h, getLastD_eq_zero (fun q hq => hnz q ?_)⟩
    · rw [h]; simp [hq]
    · rw [h]; simp [hq]
  · intro steps hs
    rw [rb_first_eq hw hf]
    refine ⟨?_, hw.2.2⟩
    simp only [Option.some_bind]
    exact rb_walk_spec hw hf t.ptrs [] steps rfl (by rw [← size_eq_length]; exact hs)

theorem rb_next_prev_inorder_witness :
    (∀ xs n ys, ex_tree3.ptrs = xs ++ n :: ys →
      rb_next 2 n ex_state3 = some (ys.headD 0) ∧ (ys.headD 0 = 0 ↔ ys = []) ∧
        rb_prev 2 n ex_state3 = some (xs.getLastD 0) ∧ (xs.getLastD 0 = 0 ↔ xs = [])) ∧
    (∀ steps, ex_tree3.size < steps →
      (rb_first 2 ex_state3).bind (fun n => rb_walk 2 steps n ex_state3) = some ex_tree3.ptrs ∧
        ex_tree3.ptrs.Nodup) :=
  rb_next_prev_inorder 2 ex_state3 ex_tree3 (by decide) (by decide)

/-- C9. Claim: in a well-formed tree, for every node `n`: when `rb_prev(n)` is
not `NULL` then `rb_next(rb_prev(n)) == n`, when `rb_next(n)` is not `NULL` then
`rb_prev(rb_next(n)) == n`; and in a tree that is not empty `rb_first` and
`rb_last` return nodes with `rb_prev(rb_first(tree)) == NULL` and
`rb_next(rb_last(tree)) == NULL`. -/
theorem rb_next_prev_inverse (fuel : Nat) (s : State) (t : Tree) (hw : WF s t)
    (hf : t.height ≤ fuel) :
    (∀ n ∈ t.ptrs, ∃ m, rb_prev fuel n s = some m ∧ (m ≠ 0 → rb_next fuel m s = some n)) ∧
    (∀ n ∈ t.ptrs, ∃ m, rb_next fuel n s = some m ∧ (m ≠ 0 → rb_prev fuel m s = some n)) ∧
    (s.root ≠ 0 → ∃ a, rb_first fuel s = some a ∧ a ≠ 0 ∧ rb_prev fuel a s = some 0) ∧
    (s.root ≠ 0 → ∃ z, rb_last fuel s = some z ∧ z ≠ 0 ∧ rb_next fuel z s = some 0) := by
  have hnz := Rep_ptrs_ne_zero hw.2.1
  have hne : s.root ≠ 0 → t.ptrs ≠ [] := by
    intro h e
    rw [ptrs_eq_nil.1 e] at hw
    exact h hw.1
  refine ⟨fun n hn => ?_, fun n hn => ?_, fun hr => ?_, fun hr => ?_⟩
  · obtain ⟨xs, ys, h⟩ := List.append_of_mem hn
    refine ⟨_, rb_prev_split hw hf h, fun hm => ?_⟩
    rcases List.eq_nil_or_concat xs with rfl | ⟨xs', m, rfl⟩
    · simp at hm
    · have h' : t.ptrs = xs' ++ m :: (n :: ys) := by rw [h]; simp
      have := rb_next_split hw hf h'
      simpa using this
  · obtain ⟨xs, ys, h⟩ := List.append_of_mem hn
    refine ⟨_, rb_next_split hw hf h, fun hm => ?_⟩
    cases ys with
    | nil => simp at hm
    | cons m ys' =>
      have h' : t.ptrs = (xs ++ [n]) ++ m :: ys' := by rw [h]; simp
      have := rb_prev_split hw hf h'
      simpa using this
  · have hl := hne hr
    cases hp : t.ptrs with
    | nil => exact absurd hp hl
    | cons a as =>
      refine ⟨a, by rw [rb_first_eq hw hf, hp]; rfl, hnz a (by rw [hp]; simp), ?_⟩
      have h' : t.ptrs = [] ++ a :: as := by rw [hp]; rfl
      exact rb_prev_split hw hf h'
  · have hl := hne hr
    rcases List.eq_nil_or_concat t.ptrs with hp | ⟨as, z, hp⟩
    · exact absurd hp hl
    · refine ⟨z, by rw [rb_last_eq hw hf, hp]; simp, hnz z (by rw [hp]; simp), ?_⟩
      have h' : t.ptrs = as ++ z :: [] := by rw [hp]; simp
      exact rb_next_split hw hf h'

theorem rb_next_prev_inverse_witness :
    (∀ n ∈ ex_tree3.ptrs,
      ∃ m, rb_prev 2 n ex_state3 = some m ∧ (m ≠ 0 → rb_next 2 m ex_state3 = some n)) ∧
    (∀ n ∈ ex_tree3.ptrs,
      ∃ m, rb_next 2 n ex_state3 = some m ∧ (m ≠ 0 → rb_prev 2 m ex_state3 = some n)) ∧
    (ex_state3.root ≠ 0 →
      ∃ a, rb_first 2 ex_state3 = some a ∧ a ≠ 0 ∧ rb_prev 2 a ex_state3 = some 0) ∧
    (ex_state3.root ≠ 0 →
      ∃ z, rb_last 2 ex_state3 = some z ∧ z ≠ 0 ∧ rb_next 2 z ex_state3 = some 0) :=
  rb_next_prev_inverse 2 ex_state3 ex_tree3 (by decide) (by decide)

/-- C10. Claim: `rb_first` and `rb_last` return `NULL` exactly when the tree is
empty; on a well-formed tree that is not empty `rb_first` returns the first node
of the in-order sequence and `rb_last` the last one, which are the nodes with
the smallest and the largest key whenever the in-order sequence is strictly
increasing by key. -/
theorem rb_first_last_spec (fuel : Nat) (s : State) (t : Tree) (hw : WF s t)
    (hf : t.height ≤ fuel) :
    rb_first fuel s = some (t.ptrs.headD 0) ∧ rb_last fuel s = some (t.ptrs.getLastD 0) ∧
    (rb_first fuel s = some 0 ↔ s.root = 0) ∧ (rb_last fuel s = some 0 ↔ s.root = 0) ∧
    (s.root = 0 ↔ t.ptrs = []) ∧
    (∀ (ops : rb_ops) (key : Nat → Int), sorted_by key (t.records ops) → ∀ p ∈ t.ptrs,
      key (record ops (t.ptrs.headD 0)) ≤ key (record ops p) ∧
        key (record ops p) ≤ key (record ops (t.ptrs.getLastD 0))) := by
  have hnz := Rep_ptrs_ne_zero hw.2.1
  have hroot : s.root = 0 ↔ t.ptrs = [] := by
    rw [hw.1, Rep_ptr_eq_zero hw.2.1, ptrs_eq_nil]
  refine ⟨rb_first_eq hw hf, rb_last_eq hw hf, ?_, ?_, hroot, ?_⟩
  · rw [rb_first_eq hw hf, hroot, Option.some.injEq, headD_eq_zero hnz]
  · rw [rb_last_eq hw hf, hroot, Option.some.injEq, getLastD_eq_zero hnz]
  · intro ops key hs p hp
    have hsp := sorted_ptrs hs
    constructor
    · cases hl : t.ptrs with
      | nil => rw [hl] at hp; simp at hp
      | cons a as =>
        rw [hl] at hsp hp
        simp only [List.headD_cons]
        rcases List.mem_cons.1 hp with rfl | h
        · exact le_refl _
        · exact le_of_lt ((List.pairwise_cons.1 hsp).1 p h)
    · rcases List.eq_nil_or_concat t.ptrs with hl | ⟨as, z, hl⟩
      · rw [hl] at hp; simp at hp
      · rw [List.concat_eq_append] at hl
        rw [hl] at hsp hp
        have hz : (as ++ [z]).getLastD 0 = z := by simp
        rw [hl, hz]
        rcases List.mem_append.1 hp with h | h
        · exact le_of_lt ((List.pairwise_append.1 hsp).2.2 p h z (by simp))
        · simp only [List.mem_singleton] at h
          rw [h]

theorem rb_first_last_spec_witness :
    rb_first 2 ex_state3 = some (ex_tree3.ptrs.headD 0) ∧
    rb_last 2 ex_state3 = some (ex_tree3.ptrs.getLastD 0) ∧
    (rb_first 2 ex_state3 = some 0 ↔ ex_state3.root = 0) ∧
    (rb_last 2 ex_state3 = some 0 ↔ ex_state3.root = 0) ∧
    (ex_state3.root = 0 ↔ ex_tree3.ptrs = []) ∧
    (∀ (ops : rb_ops) (key : Nat → Int), sorted_by key (ex_tree3.records ops) →
      ∀ p ∈ ex_tree3.ptrs,
        key (record ops (ex_tree3.ptrs.headD 0)) ≤ key (record ops p) ∧
          key (record ops p) ≤ key (record ops (ex_tree3.ptrs.getLastD 0))) :=
  rb_first_last_spec 2 ex_state3 ex_tree3 (by decide) (by decide)

/-! ## Unlinking and replacing a node -/

/-- Splicing out the focused node when it has at most one child: the child
takes its place. -/
theorem splice_spec {s : State} {ctx : Ctx} {l r ch : Tree} {n : Nat} {c : Color}
    (hw : WF s (plug ctx (Tree.node l n c r)))
    (hch : (l = Tree.nil ∧ ch = r) ∨ (r = Tree.nil ∧ ch = l)) :
    ∃ s0 s', relink_parent ctx.top n ch.ptr s = some s0 ∧
      (if ch.ptr ≠ 0 then s0.set_parent ch.ptr ctx.top else some s0) = some s' ∧
      WF s' (plug ctx ch) := by
  have hwp := (WF_plug _ _ _).1 hw
  simp only [Rep, ptr_node] at hwp
  obtain ⟨hroot, hctx, ⟨hn0, hn, hl, hr⟩, hnd⟩ := hwp
  obtain ⟨htn, hcn, hdis⟩ := nodup_focus hnd
  have hc := List.nodup_iff_count_le_one.1 htn
  simp only [Tree.ptrs, List.count_append, List.count_cons] at hc
  obtain ⟨s1, h1, hr1, hc1, hm1⟩ := relink_parent_spec ch.ptr hroot hctx hn0 hcn
    (hdis n (by simp [Tree.ptrs]))
  have hchrep : Rep s.mem n ch := by
    rcases hch with ⟨-, rfl⟩ | ⟨-, rfl⟩
    · exact hr
    · exact hl
  have hchsub : ∀ q ∈ ch.ptrs, q ∈ (Tree.node l n c r).ptrs := by
    intro q hq
    rcases hch with ⟨-, rfl⟩ | ⟨-, rfl⟩ <;> simp [Tree.ptrs, hq]
  have hchnd : ch.ptrs.Nodup := by
    rw [List.nodup_iff_count_le_one]
    intro q
    have h1 := hc q
    rcases hch with ⟨-, rfl⟩ | ⟨-, rfl⟩ <;> omega
  refine ⟨s1, ?_⟩
  simp only [h1, true_and]
  by_cases hch0 : ch = Tree.nil
  · subst hch0
    simp only [ptr_nil, ne_eq, not_true_eq_false, if_false]
    exact ⟨s1, rfl, WF_refocus hw hr1 hc1 trivial (by simp [Tree.ptrs]) (by simp [Tree.ptrs])⟩
  · have hne : ch.ptr ≠ 0 := fun e => hch0 ((Rep_ptr_eq_zero hchrep).1 e)
    have hmem := ptr_mem_ptrs hch0
    simp only [ne_eq, hne, not_false_eq_true, if_true, State.set_parent, if_false]
    refine ⟨_, rfl, WF_refocus hw hr1 (RepCtx_congr (fun q hq => ?_) hc1) ?_ hchnd hchsub⟩
    · have : q ≠ ch.ptr := by
        rintro rfl
        exact hdis _ (hchsub _ hmem) hq
      simp [Function.update_apply, this]
    · refine Rep_move hchrep hchnd (fun _ => ?_) (fun q hq hne' => ?_)
      · simp [Function.update_apply, hm1 _ (hdis _ (hchsub _ hmem))]
      · simp [Function.update_apply, hne', hm1 _ (hdis _ (hchsub _ hq))]

/-- Cells that the block `parent <--> new` writes: only the cell of the parent,
where the link that named the node now names the new node, or the root
reference when there is no parent. -/
theorem relink_parent_frame {P h h' : Nat} {s s1 : State}
    (e : relink_parent P h h' s = some s1) :
    (∀ q, q ≠ P → s1.mem q = s.mem q) ∧
      (P ≠ 0 → s1.root = s.root ∧
        s1.mem P = if (s.mem P).left = h then { s.mem P with left := h' }
          else { s.mem P with right := h' }) ∧
      (P = 0 → s1.root = h') := by
  unfold relink_parent at e
  by_cases hP : P = 0
  · subst hP
    simp only [ne_eq, not_true_eq_false, if_false, Option.some.injEq] at e
    subst e
    exact ⟨fun _ _ => rfl, fun h => absurd rfl h, fun _ => rfl⟩
  · simp only [ne_eq, hP, not_false_eq_true, if_true, get_left_eq _ _ hP, Option.bind_eq_bind,
      Option.some_bind] at e
    by_cases hl : (s.mem P).left = h
    · simp only [hl, if_true, State.set_left, hP, if_false, Option.some.injEq] at e
      subst e
      refine ⟨fun q hq => by simp [Function.update_apply, hq], fun _ => ⟨rfl, ?_⟩,
        fun h => absurd h hP⟩
      simp [hl]
    · simp only [hl, if_false, State.set_right, hP, Option.some.injEq] at e
      subst e
      refine ⟨fun q hq => by simp [Function.update_apply, hq], fun _ => ⟨rfl, ?_⟩,
        fun h => absurd h hP⟩
      simp [hl]

/-- Function `rb_replace_node` on the focused node: the new node, a non-null
cell outside the tree, takes the place of the victim with the victim's colour,
parent and children; the cells written are those of the new node, of the
parent and of the two children. -/
theorem rb_replace_node_full {s : State} {ctx : Ctx} {l r : Tree} {n y : Nat} {c : Color}
    (hw : WF s (plug ctx (Tree.node l n c r))) (hy0 : y ≠ 0)
    (hy : y ∉ (plug ctx (Tree.node l n c r)).ptrs) :
    ∃ s', rb_replace_node n y s = some s' ∧ WF s' (plug ctx (Tree.node l y c r)) ∧
      s'.mem y = s.mem n ∧
      (∀ q, q ≠ y → q ≠ ctx.top → q ≠ l.ptr → q ≠ r.ptr → s'.mem q = s.mem q) ∧
      (ctx.top ≠ 0 → s'.root = s.root ∧
        s'.mem ctx.top = if (s.mem ctx.top).left = n then { s.mem ctx.top with left := y }
          else { s.mem ctx.top with right := y }) ∧
      (ctx.top = 0 → s'.root = y) ∧
      (l.ptr ≠ 0 → s'.mem l.ptr = { s.mem l.ptr with parent := y }) ∧
      (r.ptr ≠ 0 → s'.mem r.ptr = { s.mem r.ptr with parent := y }) := by
  have hwp := (WF_plug _ _ _).1 hw
  simp only [Rep, ptr_node] at hwp
  obtain ⟨hroot, hctx, ⟨hn0, hn, hl, hr⟩, hnd⟩ := hwp
  obtain ⟨htn, hcn, hdis⟩ := nodup_focus hnd
  have hc := List.nodup_iff_count_le_one.1 htn
  simp only [Tree.ptrs, List.count_append, List.count_cons] at hc
  simp only [ptrs_plug, Tree.ptrs, List.mem_append, List.mem_cons, not_or] at hy
  obtain ⟨⟨hyb, hyl, hyn, hyr⟩, hya⟩ := hy
  -- the state after `*new = *victim`
  have hctx0 : RepCtx (Function.update s.mem y (s.mem n)) ctx n := by
    refine RepCtx_congr (fun q hq => ?_) hctx
    have : q ≠ y := by
      rintro rfl
      rcases hq with hq | hq
      · exact hyb hq
      · exact hya hq
    simp [Function.update_apply, this]
  obtain ⟨s1, h1, hr1, hc1, hm1⟩ := @relink_parent_spec
    { s with mem := Function.update s.mem y (s.mem n) } ctx n y hroot hctx0 hn0 hcn
    (hdis n (by simp [Tree.ptrs]))
  have hs1y : s1.mem y = s.mem n := by
    rw [hm1 y (by tauto)]
    simp
  have hs1 : ∀ q, q ≠ y → ¬ (q ∈ ctx.before ∨ q ∈ ctx.after) → s1.mem q = s.mem q := by
    intro q h1 h2
    rw [hm1 q h2]
    simp [Function.update_apply, h1]
  have hlptr : l ≠ Tree.nil → l.ptr ≠ y := fun h e => hyl (e ▸ ptr_mem_ptrs h)
  have hrptr : r ≠ Tree.nil → r.ptr ≠ y := fun h e => hyr (e ▸ ptr_mem_ptrs h)
  have hlr : l ≠ Tree.nil → r ≠ Tree.nil → l.ptr ≠ r.ptr := fun h1 h2 =>
    children_ne hw (Or.inl h1)
  have hnd' : (Tree.node l y c r).ptrs.Nodup := by
    rw [List.nodup_iff_count_le_one]
    intro q
    have h1 := hc q
    simp only [Tree.ptrs, List.count_append, List.count_cons]
    by_cases hq : y = q
    · subst hq
      have h2 : List.count y l.ptrs = 0 := List.count_eq_zero.2 hyl
      have h3 : List.count y r.ptrs = 0 := List.count_eq_zero.2 hyr
      simp [h2, h3]
    · have hq' : (y == q) = false := by simpa using hq
      simp only [hq', Bool.false_eq_true, if_false, Nat.add_zero]
      omega
  have hfin : (ctx.before ++ (Tree.node l y c r).ptrs ++ ctx.after).Nodup := by
    rw [List.nodup_iff_count_le_one] at hnd ⊢
    intro q
    have h1 := hnd q
    simp only [Tree.ptrs, List.count_append, List.count_cons] at h1 ⊢
    by_cases hq : y = q
    · subst hq
      have h2 : List.count y l.ptrs = 0 := List.count_eq_zero.2 hyl
      have h3 : List.count y r.ptrs = 0 := List.count_eq_zero.2 hyr
      have h4 : List.count y ctx.before = 0 := List.count_eq_zero.2 hyb
      have h5 : List.count y ctx.after = 0 := List.count_eq_zero.2 hya
      simp [h2, h3, h4, h5]
    · have hq' : (y == q) = false := by simpa using hq
      simp only [hq', Bool.false_eq_true, if_false, Nat.add_zero]
      omega
  have key : ∃ s', rb_replace_node n y s = some s' ∧ s'.root = s1.root ∧
      s'.mem y = ⟨ctx.top, l.ptr, r.ptr, c.enc⟩ ∧
      (l ≠ Tree.nil → s'.mem l.ptr = { s.mem l.ptr with parent := y }) ∧
      (r ≠ Tree.nil → s'.mem r.ptr = { s.mem r.ptr with parent := y }) ∧
      ∀ q, q ≠ y → (l ≠ Tree.nil → q ≠ l.ptr) → (r ≠ Tree.nil → q ≠ r.ptr) →
        s'.mem q = s1.mem q := by
    have hl0 : l.ptr = 0 ↔ l = Tree.nil := Rep_ptr_eq_zero hl
    have hr0 : r.ptr = 0 ↔ r = Tree.nil := Rep_ptr_eq_zero hr
    have hinl : l ≠ Tree.nil → s1.mem l.ptr = s.mem l.ptr := fun h =>
      hs1 _ (hlptr h) (hdis _ (by simp [Tree.ptrs, ptr_mem_ptrs h]))
    have hinr : r ≠ Tree.nil → s1.mem r.ptr = s.mem r.ptr := fun h =>
      hs1 _ (hrptr h) (hdis _ (by simp [Tree.ptrs, ptr_mem_ptrs h]))
    have h1' := h1
    rw [hn] at h1'
    simp only [rb_replace_node, hn0, hy0, or_self, if_false, Option.bind_eq_bind,
      Option.some_bind, get_parent_eq _ _ hy0, Function.update_same, hn, h1',
      get_left_eq _ _ hy0, get_right_eq _ _ hy0, hs1y]
    by_cases hln : l = Tree.nil <;> by_cases hrn : r = Tree.nil
    · subst hln hrn
      simp only [ptr_nil, ne_eq, not_true_eq_false, if_false, Option.some_bind, hs1y, hn]
      refine ⟨_, rfl, rfl, by simp [hs1y, hn], by simp, by simp, fun q _ _ _ => rfl⟩
    · subst hln
      have hr1' : r.ptr ≠ 0 := fun e => hrn (hr0.1 e)
      simp only [ptr_nil, ne_eq, not_true_eq_false, if_false, Option.some_bind, hs1y, hn,
        hr1', not_false_eq_true, if_true, State.set_parent]
      refine ⟨_, rfl, rfl, ?_, by simp, ?_, ?_⟩
      · simp [Function.update_apply, (hrptr hrn).symm, hs1y, hn]
      · intro _
        simp [Function.update_apply, hinr hrn]
      · intro q h1 _ h3
        simp [Function.update_apply, h3 hrn]
    · subst hrn
      have hl1' : l.ptr ≠ 0 := fun e => hln (hl0.1 e)
      simp only [ptr_nil, ne_eq, not_true_eq_false, if_false, Option.some_bind, hs1y, hn,
        hl1', not_false_eq_true, if_true, State.set_parent, Function.update_apply,
        (hlptr hln).symm]
      refine ⟨_, rfl, rfl, ?_, ?_, by simp, ?_⟩
      · simp [Function.update_apply, (hlptr hln).symm, hs1y, hn]
      · intro _
        simp [Function.update_apply, hinl hln]
      · intro q h1 h2 _
        simp [Function.update_apply, h2 hln]
    · have hl1' : l.ptr ≠ 0 := fun e => hln (hl0.1 e)
      have hr1' : r.ptr ≠ 0 := fun e => hrn (hr0.1 e)
      simp only [ne_eq, not_true_eq_false, if_false, Option.some_bind, hs1y, hn,
        hl1', hr1', not_false_eq_true, if_true, State.set_parent, Function.update_apply,
        (hlptr hln).symm]
      refine ⟨_, rfl, rfl, ?_, ?_, ?_, ?_⟩
      · simp [Function.update_apply, (hlptr hln).symm, (hrptr hrn).symm, hs1y, hn]
      · intro _
        simp [Function.update_apply, hinl hln, hlr hln hrn]
      · intro _
        simp [Function.update_apply, hinr hrn, (hlr hln hrn).symm]
      · intro q h1 h2 h3
        simp [Function.update_apply, h2 hln, h3 hrn]
  obtain ⟨s', hs', hroot', hy', hl', hr', hrest'⟩ := key
  have hagree : ∀ t : Tree, (∀ q ∈ t.ptrs, q ∈ (Tree.node l n c r).ptrs ∧ q ≠ y) →
      ∀ q ∈ t.ptrs, (l ≠ Tree.nil → q ≠ l.ptr) → (r ≠ Tree.nil → q ≠ r.ptr) →
        s'.mem q = s.mem q := by
    intro t ht q hq h2 h3
    rw [hrest' q (ht q hq).2 h2 h3]
    exact hs1 q (ht q hq).2 (hdis q (ht q hq).1)
  obtain ⟨fr1, fr2, fr3⟩ := relink_parent_frame h1
  have hl0 : l.ptr = 0 ↔ l = Tree.nil := Rep_ptr_eq_zero hl
  have hr0 : r.ptr = 0 ↔ r = Tree.nil := Rep_ptr_eq_zero hr
  have htop : ctx.top ≠ 0 → ctx.top ≠ y ∧ (l ≠ Tree.nil → ctx.top ≠ l.ptr) ∧
      (r ≠ Tree.nil → ctx.top ≠ r.ptr) := by
    intro h0
    have hne : ctx ≠ [] := by
      rintro rfl
      exact h0 rfl
    have hm := top_mem ctx hne
    refine ⟨?_, ?_, ?_⟩
    · intro e
      rw [e] at hm
      rcases hm with hm | hm
      · exact hyb hm
      · exact hya hm
    · intro h e
      exact hdis _ (by simp [Tree.ptrs, ptr_mem_ptrs h]) (e ▸ hm)
    · intro h e
      exact hdis _ (by simp [Tree.ptrs, ptr_mem_ptrs h]) (e ▸ hm)
  refine ⟨s', hs', (WF_plug _ _ _).2 ⟨hroot'.trans hr1, RepCtx_congr (fun q hq => ?_) hc1,
    ⟨hy0, hy', ?_, ?_⟩, hfin⟩, hy'.trans hn.symm, ?_, ?_, ?_,
    fun h => hl' (fun e => h (hl0.2 e)), fun h => hr' (fun e => h (hr0.2 e))⟩
  rotate_left 3
  · intro q h1 h2 h3 h4
    rw [hrest' q h1 (fun _ => h3) (fun _ => h4), fr1 q h2]
    simp [Function.update_apply, h1]
  · intro h0
    obtain ⟨t1, t2, t3⟩ := htop h0
    obtain ⟨f1, f2⟩ := fr2 h0
    refine ⟨hroot'.trans f1, ?_⟩
    rw [hrest' _ t1 t2 t3, f2]
    simp [Function.update_apply, t1]
  · intro h0
    exact hroot'.trans (fr3 h0)
  · refine hrest' q ?_ ?_ ?_
    · rintro rfl
      rcases hq with hq | hq
      · exact hyb hq
      · exact hya hq
    · rintro h rfl
      exact hdis _ (by simp [Tree.ptrs, ptr_mem_ptrs h]) hq
    · rintro h rfl
      exact hdis _ (by simp [Tree.ptrs, ptr_mem_ptrs h]) hq
  · refine Rep_move hl ?_ hl' (fun q hq hne => ?_)
    · rw [List.nodup_iff_count_le_one]
      intro q
      have h1 := hc q
      omega
    · refine hagree l (fun q hq => ⟨by simp [Tree.ptrs, hq], fun e => hyl (e ▸ hq)⟩) q hq
        (fun _ => hne) (fun h e => ?_)
      have h1 := hc q
      have h2 := List.count_pos_iff.2 hq
      have h3 := List.count_pos_iff.2 (e ▸ ptr_mem_ptrs h)
      omega
  · refine Rep_move hr ?_ hr' (fun q hq hne => ?_)
    · rw [List.nodup_iff_count_le_one]
      intro q
      have h1 := hc q
      omega
    · refine hagree r (fun q hq => ⟨by simp [Tree.ptrs, hq], fun e => hyr (e ▸ hq)⟩) q hq
        (fun h e => ?_) (fun _ => hne)
      have h1 := hc q
      have h2 := List.count_pos_iff.2 hq
      have h3 := List.count_pos_iff.2 (e ▸ ptr_mem_ptrs h)
      omega

theorem rb_replace_node_spec {s : State} {ctx : Ctx} {l r : Tree} {n y : Nat} {c : Color}
    (hw : WF s (plug ctx (Tree.node l n c r))) (hy0 : y ≠ 0)
    (hy : y ∉ (plug ctx (Tree.node l n c r)).ptrs) :
    ∃ s', rb_replace_node n y s = some s' ∧ WF s' (plug ctx (Tree.node l y c r)) := by
  obtain ⟨s', e, w, -⟩ := rb_replace_node_full hw hy0 hy
  exact ⟨s', e, w⟩

/-! ## Replacing a node: `rb_replace_node` -/

theorem subst_of_not_mem (v y : Nat) : ∀ (t : Tree), v ∉ t.ptrs → t.subst v y = t := by
  intro t
  induction t with
  | nil => intro _; rfl
  | node l p c r ihl ihr =>
    intro h
    simp only [Tree.ptrs, List.mem_append, List.mem_cons, not_or] at h
    have hp : ¬ p = v := fun e => h.2.1 e.symm
    simp only [Tree.subst, ihl h.1, ihr h.2.2, hp, if_false]

theorem subst_plug (v y : Nat) : ∀ (ctx : Ctx) (t : Tree), v ∉ ctx.before → v ∉ ctx.after →
    (plug ctx t).subst v y = plug ctx (t.subst v y) := by
  intro ctx
  induction ctx with
  | nil => intro t _ _; rfl
  | cons f fs ih =>
    intro t hb ha
    cases f with
    | L p c r =>
      simp only [Ctx.before, Ctx.after, List.mem_append, List.mem_cons, not_or] at hb ha
      have hp : ¬ p = v := fun e => ha.1.1 e.symm
      rw [plug_cons, ih _ hb ha.2]
      simp only [Frame.fill, Tree.subst, subst_of_not_mem v y r ha.1.2, hp, if_false, plug_cons]
    | R l p c =>
      simp only [Ctx.before, Ctx.after, List.mem_append, List.mem_cons, not_or,
        List.mem_singleton, List.not_mem_nil, or_false] at hb ha
      have hp : ¬ p = v := fun e => hb.2.2 e.symm
      rw [plug_cons, ih _ hb.1 ha]
      simp only [Frame.fill, Tree.subst, subst_of_not_mem v y l hb.2.1, hp, if_false, plug_cons]

/-- C17. Claim: in a well-formed tree with a node `victim` in it and a node
`new` outside it, `rb_replace_node(victim, new)` returns and yields a
well-formed tree of the same shape and colours with `new` in the slot of
`victim`: the cell of `new` holds the colour, parent, left and right of
`victim`; the former parent of `victim` names `new` in the link that named
`victim` (the root reference does when `victim` was the root, and keeps its
value otherwise); both former children of `victim` have `new` as parent; and
no other cell is changed. -/
theorem rb_replace_node_slot (s : State) (t : Tree) (victim new : Nat) (hw : WF s t)
    (hv : victim ∈ t.ptrs) (hn0 : new ≠ 0) (hn : new ∉ t.ptrs) :
    ∃ s', rb_replace_node victim new s = some s' ∧ WF s' (t.subst victim new) ∧
      s'.mem new = s.mem victim ∧
      ((s.mem victim).parent ≠ 0 → s'.root = s.root ∧
        s'.mem (s.mem victim).parent =
          if (s.mem (s.mem victim).parent).left = victim
            then { s.mem (s.mem victim).parent with left := new }
            else { s.mem (s.mem victim).parent with right := new }) ∧
      ((s.mem victim).parent = 0 → s.root = victim ∧ s'.root = new) ∧
      ((s.mem victim).left ≠ 0 →
        s'.mem (s.mem victim).left = { s.mem (s.mem victim).left with parent := new }) ∧
      ((s.mem victim).right ≠ 0 →
        s'.mem (s.mem victim).right = { s.mem (s.mem victim).right with parent := new }) ∧
      (∀ q, q ≠ new → q ≠ (s.mem victim).parent → q ≠ (s.mem victim).left →
        q ≠ (s.mem victim).right → s'.mem q = s.mem q) := by
  obtain ⟨ctx, l, c, r, rfl⟩ := exists_plug_of_mem hv
  obtain ⟨s', e, hw', f1, f2, f3, f4, f5, f6⟩ := rb_replace_node_full hw hn0 hn
  have h0 := (mem_focus hw).2
  obtain ⟨-, -, -, hnd⟩ := (WF_plug _ _ _).1 hw
  obtain ⟨htn, -, hdis⟩ := nodup_focus hnd
  have hc := List.nodup_iff_count_le_one.1 htn
  simp only [Tree.ptrs, List.count_append, List.count_cons] at hc
  have hvl : victim ∉ l.ptrs := fun h => by
    have h1 := hc victim
    have h2 := List.count_pos_iff.2 h
    simp only [beq_self_eq_true, if_true] at h1
    omega
  have hvr : victim ∉ r.ptrs := fun h => by
    have h1 := hc victim
    have h2 := List.count_pos_iff.2 h
    simp only [beq_self_eq_true, if_true] at h1
    omega
  have hvc := hdis victim (by simp [Tree.ptrs])
  have hsub : (plug ctx (Tree.node l victim c r)).subst victim new =
      plug ctx (Tree.node l new c r) := by
    rw [subst_plug victim new ctx _ (fun h => hvc (Or.inl h)) (fun h => hvc (Or.inr h))]
    simp only [Tree.subst, subst_of_not_mem victim new l hvl, subst_of_not_mem victim new r hvr,
      if_true]
  rw [hsub, h0]
  refine ⟨s', e, hw', f1.trans h0, f3, fun h => ⟨?_, f4 h⟩, f5, f6, f2⟩
  have hctx : ctx = [] := by
    cases ctx with
    | nil => rfl
    | cons f fs =>
      obtain ⟨-, hctx, -, -⟩ := (WF_plug _ _ _).1 hw
      cases f with
      | L p cp rp => exact absurd h hctx.1
      | R lp p cp => exact absurd h hctx.1
  exact (root_eq_focus_iff hw).2 hctx

theorem rb_replace_node_slot_witness :
    ∃ s', rb_replace_node 1008 5008 ex_state3 = some s' ∧
      WF s' (ex_tree3.subst 1008 5008) ∧
      s'.mem 5008 = ex_state3.mem 1008 ∧
      ((ex_state3.mem 1008).parent ≠ 0 → s'.root = ex_state3.root ∧
        s'.mem (ex_state3.mem 1008).parent =
          if (ex_state3.mem (ex_state3.mem 1008).parent).left = 1008
            then { ex_state3.mem (ex_state3.mem 1008).parent with left := 5008 }
            else { ex_state3.mem (ex_state3.mem 1008).parent with right := 5008 }) ∧
      ((ex_state3.mem 1008).parent = 0 → ex_state3.root = 1008 ∧ s'.root = 5008) ∧
      ((ex_state3.mem 1008).left ≠ 0 →
        s'.mem (ex_state3.mem 1008).left =
          { ex_state3.mem (ex_state3.mem 1008).left with parent := 5008 }) ∧
      ((ex_state3.mem 1008).right ≠ 0 →
        s'.mem (ex_state3.mem 1008).right =
          { ex_state3.mem (ex_state3.mem 1008).right with parent := 5008 }) ∧
      (∀ q, q ≠ 5008 → q ≠ (ex_state3.mem 1008).parent → q ≠ (ex_state3.mem 1008).left →
        q ≠ (ex_state3.mem 1008).right → s'.mem q = ex_state3.mem q) :=
  rb_replace_node_slot ex_state3 ex_tree3 1008 5008 (by decide) (by decide) (by decide)
    (by decide)

/-! ## The fixup loop of removal: `_rb_remove_color` -/

/-- The loop body of `_rb_remove_color` is made of its left and right
branches. -/
theorem remove_color_loop_unfold (fuel node parent : Nat) (s : State) :
    _rb_remove_color_loop (fuel + 1) node parent s =
      if rb_is_black s node = true ∧ parent ≠ 0 then do
        let pl ← s.get_left parent
        if pl = node then remove_color_left (_rb_remove_color_loop fuel) parent s
        else remove_color_right (_rb_remove_color_loop fuel) parent s
      else some (node, s) := by
  rw [_rb_remove_color_loop]
  rfl

theorem remove_color_eq (fuel node parent : Nat) (s : State) :
    _rb_remove_color fuel node parent s =
      (_rb_remove_color_loop fuel node parent s).bind remove_finish := by
  rw [_rb_remove_color]
  rfl

theorem blacken_of_black {t : Tree} (h : t.isRed = false) : t.blacken = t := by
  cases t with
  | nil => rfl
  | node l p c r =>
    cases c with
    | red => simp at h
    | black => rfl

theorem noRedRed_blacken {t : Tree} (h : t.noRedRed) : t.blacken.noRedRed := by
  cases t with
  | nil => trivial
  | node l p c r => exact ⟨by simp, h.2⟩

theorem bh_pos_ne_nil {t : Tree} (h : 0 < t.bh) : t ≠ Tree.nil := by
  rintro rfl
  simp [Tree.bh] at h

theorem black_node_of {t : Tree} (h : t.isRed = false) (hne : t ≠ Tree.nil) :
    ∃ l p r, t = Tree.node l p Color.black r := by
  cases t with
  | nil => exact absurd rfl hne
  | node l p c r =>
    cases c with
    | red => simp at h
    | black => exact ⟨l, p, r, rfl⟩

theorem black_node_of' {t : Tree} (h : t.isRed = false) (hne : t ≠ Tree.nil) :
    ∃ r p l, t = Tree.node l p Color.black r := by
  obtain ⟨l, p, r, rfl⟩ := black_node_of h hne
  exact ⟨r, p, l, rfl⟩

/-- The test `parent->left == node` with a node that may be null and a sibling
that is not. -/
theorem left_eq_iff_sib {s : State} {f : Frame} {fs : Ctx} {t : Tree}
    (hw : WF s (plug (f :: fs) t)) (ht : f.sib ≠ Tree.nil) :
    ((s.mem f.ptr).left = t.ptr) = (f.isL = true) := by
  cases f with
  | L p c r =>
    have hw' : WF s (plug fs (Tree.node t p c r)) := hw
    simp [(mem_focus hw').2, Frame.isL]
  | R l p c =>
    have hw' : WF s (plug fs (Tree.node l p c t)) := hw
    simp [(mem_focus hw').2, Frame.isL, children_ne hw' (Or.inl ht)]

theorem rootBlack_head {f g : Frame} {fs : Ctx} (h : Ctx.rootBlack (f :: fs))
    (hc : f.color = g.color) : Ctx.rootBlack (g :: fs) := by
  cases fs with
  | nil =>
    have h' : f.color = Color.black := h
    exact (hc ▸ h' : g.color = Color.black)
  | cons a as => exact h

theorem remove_post_of_final {res : Option (Nat × State)} {l : List Nat} {s4 : State}
    {t4 : Tree} (hres : res = some (s4.root, s4)) (hw : WF s4 t4) (hne : t4 ≠ Tree.nil)
    (h1 : t4.noRedRed) (h2 : t4.balanced) (h3 : t4.ptrs = l) : RemovePost res l := by
  obtain ⟨s5, e5, w5⟩ := blacken_spec hw hne
  have hr0 : s4.root ≠ 0 := by
    rw [hw.1]
    exact fun e => hne ((Rep_ptr_eq_zero hw.2.1).1 e)
  refine ⟨_, s5, t4.blacken, hres, ?_, w5, RB_blacken h1 h2, by rw [ptrs_blacken, h3]⟩
  simp only [remove_finish, ne_eq, hr0, not_false_eq_true, if_true, e5]

/-- Case 6 of the removal fixup. -/
theorem remove_color_left_case6_spec {s : State} {fs : Ctx} {sub a b c : Tree}
    {p ps q : Nat} {cp : Color}
    (hw : WF s (plug (Frame.L p cp (Tree.node a ps Color.black (Tree.node b q Color.red c)) :: fs)
      sub))
    (hsub : sub.isRed = false)
    (hinv : RemoveInv (Frame.L p cp (Tree.node a ps Color.black (Tree.node b q Color.red c)) :: fs)
      sub) :
    RemovePost (remove_color_left_case6 p ps s)
      (plug (Frame.L p cp (Tree.node a ps Color.black (Tree.node b q Color.red c)) :: fs)
        sub).ptrs := by
  have hwp : WF s (plug fs (Tree.node sub p cp
    (Tree.node a ps Color.black (Tree.node b q Color.red c)))) := hw
  obtain ⟨hp0, hp⟩ := mem_focus hwp
  have hws : WF s (plug (Frame.R sub p cp :: fs)
    (Tree.node a ps Color.black (Tree.node b q Color.red c))) := hw
  obtain ⟨hps0, -⟩ := mem_focus hws
  obtain ⟨s1, e1, w1⟩ := set_color_spec cp hws
  have w1' : WF s1 (plug fs (Tree.node sub p cp
    (Tree.node a ps cp (Tree.node b q Color.red c)))) := w1
  obtain ⟨s2, e2, w2⟩ := rb_set_black_spec w1'
  have w2s : WF s2 (plug (Frame.R sub p Color.black :: fs)
    (Tree.node a ps cp (Tree.node b q Color.red c))) := w2
  obtain ⟨-, hps2⟩ := mem_focus w2s
  have w2q : WF s2 (plug (Frame.R a ps cp :: Frame.R sub p Color.black :: fs)
    (Tree.node b q Color.red c)) := w2
  obtain ⟨s3, e3, w3⟩ := rb_set_black_spec w2q
  have w3' : WF s3 (plug fs (Tree.node sub p Color.black
    (Tree.node a ps cp (Tree.node b q Color.black c)))) := w3
  obtain ⟨s4, e4, w4⟩ := rotate_left_spec w3'
  have hres : remove_color_left_case6 p ps s = some (s4.root, s4) := by
    simp only [remove_color_left_case6, get_color_eq _ _ hp0, hp, Option.bind_eq_bind,
      Option.some_bind, e1, e2, get_right_eq _ _ hps0, get_left_eq _ _ hps0, hps2, ptr_node, e3,
      e4]
  obtain ⟨hi1, hi2, hi3, hi4, hi5⟩ := hinv
  rw [blacken_of_black hsub] at hi1
  have hn6 : cp = Color.red → Ctx.isRed fs = false := fun h => (hi3.2.1 h).2
  have hn7 : Ctx.noRedRed fs := hi3.2.2
  have hb7 : Ctx.balanced fs (sub.bh + 1 + cp.weight) := hi4.2.2
  have hs1 := hi3.1
  have hs2 := hi4.1
  have hs3 := hi4.2.1
  simp only [Tree.noRedRed, Tree.balanced, Tree.bh, Frame.sib, weight_red, weight_black,
    isRed_node, decide_True, decide_False, reduceCtorEq, forall_const, and_true, true_and,
    Nat.add_zero, false_implies, decide_eq_false_iff_not, decide_eq_true_eq,
    Bool.false_eq_true, not_false_eq_true] at hs1 hs2 hs3
  casesm* _ ∧ _
  refine remove_post_of_final hres w4 (plug_ne_nil _ _ _ _ _) ?_ ?_ ?_
  · refine noRedRed_plug.2 ⟨hn7, ?_, ?_⟩
    · simp only [Tree.noRedRed, isRed_node, reduceCtorEq, decide_False, and_self, implies_true,
        false_implies, true_and]
      tauto
    · intro h
      cases cp with
      | red =>
        rw [hn6 rfl] at h
        exact absurd h (by simp)
      | black => simp
  · refine balanced_plug.2 ⟨?_, ?_⟩
    · convert hb7 using 1 <;>
        first | omega | (simp only [Tree.bh, weight_red, weight_black]; omega)
    · simp only [Tree.balanced, Tree.bh, weight_red, weight_black]
      repeat' constructor
      all_goals first | omega | assumption
  · simp [ptrs_plug, Tree.ptrs, Ctx.before, Ctx.after]

/-- Case 6 of the removal fixup. -/
theorem remove_color_right_case6_spec {s : State} {fs : Ctx} {sub a b c : Tree}
    {p ps q : Nat} {cp : Color}
    (hw : WF s (plug (Frame.R (Tree.node (Tree.node c q Color.red b) ps Color.black a) p cp :: fs)
      sub))
    (hsub : sub.isRed = false)
    (hinv : RemoveInv (Frame.R (Tree.node (Tree.node c q Color.red b) ps Color.black a) p cp :: fs)
      sub) :
    RemovePost (remove_color_right_case6 p ps s)
      (plug (Frame.R (Tree.node (Tree.node c q Color.red b) ps Color.black a) p cp :: fs)
        sub).ptrs := by
  have hwp : WF s (plug fs (Tree.node (Tree.node (Tree.node c q Color.red b) ps Color.black a) p cp
    sub)) := hw
  obtain ⟨hp0, hp⟩ := mem_focus hwp
  have hws : WF s (plug (Frame.L p cp sub :: fs)
    (Tree.node (Tree.node c q Color.red b) ps Color.black a)) := hw
  obtain ⟨hps0, -⟩ := mem_focus hws
  obtain ⟨s1, e1, w1⟩ := set_color_spec cp hws
  have w1' : WF s1 (plug fs (Tree.node (Tree.node (Tree.node c q Color.red b) ps cp a) p cp
    sub)) := w1
  obtain ⟨s2, e2, w2⟩ := rb_set_black_spec w1'
  have w2s : WF s2 (plug (Frame.L p Color.black sub :: fs)
    (Tree.node (Tree.node c q Color.red b) ps cp a)) := w2
  obtain ⟨-, hps2⟩ := mem_focus w2s
  have w2q : WF s2 (plug (Frame.L ps cp a :: Frame.L p Color.black sub :: fs)
    (Tree.node c q Color.red b)) := w2
  obtain ⟨s3, e3, w3⟩ := rb_set_black_spec w2q
  have w3' : WF s3 (plug fs (Tree.node (Tree.node (Tree.node c q Color.black b) ps cp a) p Color.black
    sub)) := w3
  obtain ⟨s4, e4, w4⟩ := rotate_right_spec w3'
  have hres : remove_color_right_case6 p ps s = some (s4.root, s4) := by
    simp only [remove_color_right_case6, get_color_eq _ _ hp0, hp, Option.bind_eq_bind,
      Option.some_bind, e1, e2, get_left_eq _ _ hps0, get_right_eq _ _ hps0, hps2, ptr_node, e3,
      e4]
  obtain ⟨hi1, hi2, hi3, hi4, hi5⟩ := hinv
  rw [blacken_of_black hsub] at hi1
  have hn6 : cp = Color.red → Ctx.isRed fs = false := fun h => (hi3.2.1 h).2
  have hn7 : Ctx.noRedRed fs := hi3.2.2
  have hb7 : Ctx.balanced fs (sub.bh + 1 + cp.weight) := hi4.2.2
  have hs1 := hi3.1
  have hs2 := hi4.1
  have hs3 := hi4.2.1
  simp only [Tree.noRedRed, Tree.balanced, Tree.bh, Frame.sib, weight_red, weight_black,
    isRed_node, decide_True, decide_False, reduceCtorEq, forall_const, and_true, true_and,
    Nat.add_zero, false_implies, decide_eq_false_iff_not, decide_eq_true_eq,
    Bool.false_eq_true, not_false_eq_true] at hs1 hs2 hs3
  casesm* _ ∧ _
  refine remove_post_of_final hres w4 (plug_ne_nil _ _ _ _ _) ?_ ?_ ?_
  · refine noRedRed_plug.2 ⟨hn7, ?_, ?_⟩
    · simp only [Tree.noRedRed, isRed_node, reduceCtorEq, decide_False, and_self, implies_true,
        false_implies, true_and]
      tauto
    · intro h
      cases cp with
      | red =>
        rw [hn6 rfl] at h
        exact absurd h (by simp)
      | black => simp
  · refine balanced_plug.2 ⟨?_, ?_⟩
    · convert hb7 using 1 <;>
        first | omega | (simp only [Tree.bh, weight_red, weight_black]; omega)
    · simp only [Tree.balanced, Tree.bh, weight_red, weight_black]
      repeat' constructor
      all_goals first | omega | assumption
  · simp [ptrs_plug, Tree.ptrs, Ctx.after, Ctx.before]

/-- Cases 3 to 6 of the removal fixup, with a black sibling. -/
theorem remove_color_left_tail_spec {fuel : Nat} (ih : RemoveLoopOK fuel) {s : State}
    {fs : Ctx} {sub sl sr : Tree} {p ps : Nat} {cp : Color}
    (hw : WF s (plug (Frame.L p cp (Tree.node sl ps Color.black sr) :: fs) sub))
    (hsub : sub.isRed = false)
    (hinv : RemoveInv (Frame.L p cp (Tree.node sl ps Color.black sr) :: fs) sub)
    (hfuel : fs.length < fuel ∨ (cp = Color.red ∧ 0 < fuel)) :
    RemovePost (remove_color_left_tail (_rb_remove_color_loop fuel) p ps s)
      (plug (Frame.L p cp (Tree.node sl ps Color.black sr) :: fs) sub).ptrs := by
  have hws : WF s (plug (Frame.R sub p cp :: fs) (Tree.node sl ps Color.black sr)) := hw
  obtain ⟨hps0, hps⟩ := mem_focus hws
  obtain ⟨hsl, hsr⟩ := focus_children hws
  have hinv0 := hinv
  obtain ⟨hi1, hi2, hi3, hi4, hi5⟩ := hinv
  rw [blacken_of_black hsub] at hi1
  have hn6 : cp = Color.red → Ctx.isRed fs = false := fun h => (hi3.2.1 h).2
  have hn7 : Ctx.noRedRed fs := hi3.2.2
  have hb7 : Ctx.balanced fs (sub.bh + 1 + cp.weight) := hi4.2.2
  have hs1 := hi3.1
  have hs2 := hi4.1
  have hs3 := hi4.2.1
  simp only [Tree.noRedRed, Tree.balanced, Tree.bh, Frame.sib, weight_red, weight_black,
    isRed_node, decide_True, decide_False, reduceCtorEq, forall_const, and_true, true_and,
    Nat.add_zero, false_implies, decide_eq_false_iff_not, decide_eq_true_eq,
    Bool.false_eq_true, not_false_eq_true] at hs1 hs2 hs3
  simp only [remove_color_left_tail, get_right_eq _ _ hps0, get_left_eq _ _ hps0, hps,
    Option.bind_eq_bind, Option.some_bind, rb_is_black_ptr hsl, rb_is_black_ptr hsr]
  cases hsrc : sr.isRed with
  | true =>
    -- case 6
    obtain ⟨b, q, c, rfl⟩ := isRed_eq_true hsrc
    simp only [Bool.not_true, Bool.false_eq_true, false_and, and_false, if_false,
      Option.pure_def, Option.some_bind]
    exact remove_color_left_case6_spec hw hsub hinv0
  | false =>
    cases hslc : sl.isRed with
    | false =>
      -- cases 3 and 4
      obtain ⟨s1, e1, w1⟩ := rb_set_red_spec hws
      have w1p : WF s1 (plug fs (Tree.node sub p cp (Tree.node sl ps Color.red sr))) := w1
      obtain ⟨hp0, hp1⟩ := mem_focus w1p
      simp only [Bool.not_false, and_self, if_true, e1, Option.some_bind,
        get_parent_eq _ _ hp0, hp1]
      have hpost := ih fs (Tree.node sub p cp (Tree.node sl ps Color.red sr)) s1
        (by
          rcases hfuel with h | ⟨h1, h2⟩
          · exact Or.inl h
          · exact Or.inr ⟨by simp [h1], h2⟩)
        w1p
        (by
          casesm* _ ∧ _
          refine ⟨?_, ?_, hn7, ?_, rootBlack_tail hi5⟩
          · simp only [Tree.blacken, Tree.noRedRed, isRed_node, reduceCtorEq, decide_False,
              and_self, implies_true, false_implies, true_and, forall_const, decide_True]
            tauto
          · simp only [Tree.balanced, Tree.bh, weight_red, weight_black]
            repeat' constructor
            all_goals first | omega | assumption
          · convert hb7 using 1 <;>
              first | omega | (simp only [Tree.bh, weight_red, weight_black]; omega))
      simp only [ptr_node] at hpost
      convert hpost using 1
      simp [ptrs_plug, Tree.ptrs, Ctx.before, Ctx.after]
    | true =>
      -- case 5, then case 6
      obtain ⟨sll, pl, slr, rfl⟩ := isRed_eq_true hslc
      obtain ⟨s1, e1, w1⟩ := rotate_right_spec hws
      have w1' : WF s1 (plug (Frame.R sll pl Color.red :: Frame.R sub p cp :: fs)
        (Tree.node slr ps Color.black sr)) := w1
      obtain ⟨s2, e2, w2⟩ := rb_set_red_spec w1'
      have w2' : WF s2 (plug (Frame.R sub p cp :: fs)
        (Tree.node sll pl Color.red (Tree.node slr ps Color.red sr))) := w2
      obtain ⟨s3, e3, w3⟩ := rb_set_black_spec w2'
      have w3' : WF s3 (plug (Frame.L p cp
        (Tree.node sll pl Color.black (Tree.node slr ps Color.red sr)) :: fs) sub) := w3
      simp only [Bool.not_true, Bool.not_false, Bool.false_eq_true, false_and, and_false,
        if_false, if_true, e1, e2, ptr_node, e3, Option.pure_def, Option.some_bind,
        Option.bind_eq_bind]
      have hpost := remove_color_left_case6_spec w3' hsub
        (by
          simp only [Tree.noRedRed, Tree.balanced, Tree.bh, weight_red, weight_black,
            isRed_node, decide_True, decide_False, reduceCtorEq, forall_const, and_true,
            true_and, Nat.add_zero, false_implies, decide_eq_false_iff_not, decide_eq_true_eq,
            Bool.false_eq_true, not_false_eq_true] at hs1 hs2 hs3
          casesm* _ ∧ _
          refine ⟨by rw [blacken_of_black hsub]; exact hi1, hi2, ⟨?_, ?_, hn7⟩,
            ⟨?_, ?_, ?_⟩, rootBlack_head hi5 rfl⟩
          · simp only [Frame.sib, Tree.noRedRed, isRed_node, reduceCtorEq, decide_False,
              and_self, implies_true, false_implies, true_and, forall_const, decide_True]
            tauto
          · intro h
            exact ⟨by simp [Frame.sib], hn6 h⟩
          · simp only [Frame.sib, Tree.bh, weight_red, weight_black]
            omega
          · simp only [Frame.sib, Tree.balanced, Tree.bh, weight_red, weight_black]
            repeat' constructor
            all_goals first | omega | assumption
          · exact hb7)
      convert hpost using 1
      simp [ptrs_plug, Tree.ptrs, Ctx.before, Ctx.after]

/-- Cases 3 to 6 of the removal fixup, with a black sibling. -/
theorem remove_color_right_tail_spec {fuel : Nat} (ih : RemoveLoopOK fuel) {s : State}
    {fs : Ctx} {sub sl sr : Tree} {p ps : Nat} {cp : Color}
    (hw : WF s (plug (Frame.R (Tree.node sr ps Color.black sl) p cp :: fs) sub))
    (hsub : sub.isRed = false)
    (hinv : RemoveInv (Frame.R (Tree.node sr ps Color.black sl) p cp :: fs) sub)
    (hfuel : fs.length < fuel ∨ (cp = Color.red ∧ 0 < fuel)) :
    RemovePost (remove_color_right_tail (_rb_remove_color_loop fuel) p ps s)
      (plug (Frame.R (Tree.node sr ps Color.black sl) p cp :: fs) sub).ptrs := by
  have hws : WF s (plug (Frame.L p cp sub :: fs) (Tree.node sr ps Color.black sl)) := hw
  obtain ⟨hps0, hps⟩ := mem_focus hws
  obtain ⟨hsl, hsr⟩ := focus_children' hws
  have hinv0 := hinv
  obtain ⟨hi1, hi2, hi3, hi4, hi5⟩ := hinv
  rw [blacken_of_black hsub] at hi1
  have hn6 : cp = Color.red → Ctx.isRed fs = false := fun h => (hi3.2.1 h).2
  have hn7 : Ctx.noRedRed fs := hi3.2.2
  have hb7 : Ctx.balanced fs (sub.bh + 1 + cp.weight) := hi4.2.2
  have hs1 := hi3.1
  have hs2 := hi4.1
  have hs3 := hi4.2.1
  simp only [Tree.noRedRed, Tree.balanced, Tree.bh, Frame.sib, weight_red, weight_black,
    isRed_node, decide_True, decide_False, reduceCtorEq, forall_const, and_true, true_and,
    Nat.add_zero, false_implies, decide_eq_false_iff_not, decide_eq_true_eq,
    Bool.false_eq_true, not_false_eq_true] at hs1 hs2 hs3
  simp only [remove_color_right_tail, get_left_eq _ _ hps0, get_right_eq _ _ hps0, hps,
    Option.bind_eq_bind, Option.some_bind, rb_is_black_ptr hsl, rb_is_black_ptr hsr]
  cases hsrc : sr.isRed with
  | true =>
    -- case 6
    obtain ⟨b, q, c, rfl⟩ := isRed_eq_true' hsrc
    simp only [Bool.not_true, Bool.false_eq_true, false_and, and_false, if_false,
      Option.pure_def, Option.some_bind]
    exact remove_color_right_case6_spec hw hsub hinv0
  | false =>
    cases hslc : sl.isRed with
    | false =>
      -- cases 3 and 4
      obtain ⟨s1, e1, w1⟩ := rb_set_red_spec hws
      have w1p : WF s1 (plug fs (Tree.node (Tree.node sr ps Color.red sl) p cp sub)) := w1
      obtain ⟨hp0, hp1⟩ := mem_focus w1p
      simp only [Bool.not_false, and_self, if_true, e1, Option.some_bind,
        get_parent_eq _ _ hp0, hp1]
      have hpost := ih fs (Tree.node (Tree.node sr ps Color.red sl) p cp sub) s1
        (by
          rcases hfuel with h | ⟨h1, h2⟩
          · exact Or.inl h
          · exact Or.inr ⟨by simp [h1], h2⟩)
        w1p
        (by
          casesm* _ ∧ _
          refine ⟨?_, ?_, hn7, ?_, rootBlack_tail hi5⟩
          · simp only [Tree.blacken, Tree.noRedRed, isRed_node, reduceCtorEq, decide_False,
              and_self, implies_true, false_implies, true_and, forall_const, decide_True]
            tauto
          · simp only [Tree.balanced, Tree.bh, weight_red, weight_black]
            repeat' constructor
            all_goals first | omega | assumption
          · convert hb7 using 1 <;>
              first | omega | (simp only [Tree.bh, weight_red, weight_black]; omega))
      simp only [ptr_node] at hpost
      convert hpost using 1
      simp [ptrs_plug, Tree.ptrs, Ctx.after, Ctx.before]
    | true =>
      -- case 5, then case 6
      obtain ⟨sll, pl, slr, rfl⟩ := isRed_eq_true' hslc
      obtain ⟨s1, e1, w1⟩ := rotate_left_spec hws
      have w1' : WF s1 (plug (Frame.L pl Color.red sll :: Frame.L p cp sub :: fs)
        (Tree.node sr ps Color.black slr)) := w1
      obtain ⟨s2, e2, w2⟩ := rb_set_red_spec w1'
      have w2' : WF s2 (plug (Frame.L p cp sub :: fs)
        (Tree.node (Tree.node sr ps Color.red slr) pl Color.red sll)) := w2
      obtain ⟨s3, e3, w3⟩ := rb_set_black_spec w2'
      have w3' : WF s3 (plug (Frame.R (Tree.node (Tree.node sr ps Color.red slr) pl Color.black sll) p
        cp :: fs) sub) := w3
      simp only [Bool.not_true, Bool.not_false, Bool.false_eq_true, false_and, and_false,
        if_false, if_true, e1, e2, ptr_node, e3, Option.pure_def, Option.some_bind,
        Option.bind_eq_bind]
      have hpost := remove_color_right_case6_spec w3' hsub
        (by
          simp only [Tree.noRedRed, Tree.balanced, Tree.bh, weight_red, weight_black,
            isRed_node, decide_True, decide_False, reduceCtorEq, forall_const, and_true,
            true_and, Nat.add_zero, false_implies, decide_eq_false_iff_not, decide_eq_true_eq,
            Bool.false_eq_true, not_false_eq_true] at hs1 hs2 hs3
          casesm* _ ∧ _
          refine ⟨by rw [blacken_of_black hsub]; exact hi1, hi2, ⟨?_, ?_, hn7⟩,
            ⟨?_, ?_, ?_⟩, rootBlack_head hi5 rfl⟩
          · simp only [Frame.sib, Tree.noRedRed, isRed_node, reduceCtorEq, decide_False,
              and_self, implies_true, false_implies, true_and, forall_const, decide_True]
            tauto
          · intro h
            exact ⟨by simp [Frame.sib], hn6 h⟩
          · simp only [Frame.sib, Tree.bh, weight_red, weight_black]
            omega
          · simp only [Frame.sib, Tree.balanced, Tree.bh, weight_red, weight_black]
            repeat' constructor
            all_goals first | omega | assumption
          · exact hb7)
      convert hpost using 1
      simp [ptrs_plug, Tree.ptrs, Ctx.after, Ctx.before]

/-- One branch of the loop body of the removal fixup. -/
theorem remove_color_left_spec {fuel : Nat} (ih : RemoveLoopOK fuel) {s : State}
    {fs : Ctx} {sub sib : Tree} {p : Nat} {cp : Color}
    (hw : WF s (plug (Frame.L p cp sib :: fs) sub)) (hsub : sub.isRed = false)
    (hinv : RemoveInv (Frame.L p cp sib :: fs) sub) (hfuel : fs.length < fuel) :
    RemovePost (remove_color_left (_rb_remove_color_loop fuel) p s)
      (plug (Frame.L p cp sib :: fs) sub).ptrs := by
  have hwp : WF s (plug fs (Tree.node sub p cp sib)) := hw
  obtain ⟨hp0, hp⟩ := mem_focus hwp
  have hsibrep := (focus_children hwp).2
  have hinv0 := hinv
  obtain ⟨hi1, hi2, hi3, hi4, hi5⟩ := hinv
  have hn6 : cp = Color.red → sib.isRed = false ∧ Ctx.isRed fs = false := hi3.2.1
  have hn7 : Ctx.noRedRed fs := hi3.2.2
  have hb7 : Ctx.balanced fs (sub.bh + 1 + cp.weight) := hi4.2.2
  have hs1 : sib.noRedRed := hi3.1
  have hs2 : sib.bh = sub.bh + 1 := hi4.1
  have hs3 : sib.balanced := hi4.2.1
  have hsne : sib ≠ Tree.nil := bh_pos_ne_nil (by omega)
  simp only [remove_color_left, get_right_eq _ _ hp0, get_left_eq _ _ hp0, hp,
    Option.bind_eq_bind, Option.some_bind, rb_is_red_ptr hsibrep]
  cases hsc : sib.isRed with
  | false =>
    obtain ⟨sl, ps, sr, rfl⟩ := black_node_of hsc hsne
    simp only [Bool.false_eq_true, if_false, Option.pure_def, Option.some_bind, ptr_node]
    exact remove_color_left_tail_spec ih hw hsub hinv0 (Or.inl hfuel)
  | true =>
    obtain ⟨sl, ps, sr, rfl⟩ := isRed_eq_true hsc
    have hcp : cp = Color.black := by
      cases cp with
      | red => exact absurd (hn6 rfl).1 (by simp)
      | black => rfl
    subst hcp
    obtain ⟨s1, e1, w1⟩ := rotate_left_spec hwp
    obtain ⟨s2, e2, w2⟩ := rb_set_black_spec w1
    have w2' : WF s2 (plug (Frame.L ps Color.black sr :: fs)
      (Tree.node sub p Color.black sl)) := w2
    obtain ⟨s3, e3, w3⟩ := rb_set_red_spec w2'
    obtain ⟨-, hp3⟩ := mem_focus w3
    have w3' : WF s3 (plug (Frame.L p Color.red sl :: Frame.L ps Color.black sr :: fs) sub) :=
      w3
    simp only [Tree.noRedRed, Tree.balanced, Tree.bh, weight_red, weight_black,
      isRed_node, decide_True, decide_False, reduceCtorEq, forall_const, and_true, true_and,
      Nat.add_zero, false_implies, decide_eq_false_iff_not, decide_eq_true_eq,
      Bool.false_eq_true, not_false_eq_true] at hs1 hs2 hs3 hb7
    casesm* _ ∧ _
    have hslne : sl ≠ Tree.nil := bh_pos_ne_nil (by omega)
    obtain ⟨sll, pl, slr, rfl⟩ := black_node_of (by assumption) hslne
    simp only [if_true, e1, ptr_node, e2, e3, get_right_eq _ _ hp0, get_left_eq _ _ hp0, hp3,
      Option.pure_def, Option.some_bind, Option.bind_eq_bind]
    have hpost := remove_color_left_tail_spec ih w3' hsub
      (by
        have hrb : Ctx.rootBlack (Frame.L ps Color.black sr :: fs) := rootBlack_head hi5 rfl
        refine ⟨hi1, hi2, ⟨by assumption, ?_, ?_, ?_, hn7⟩, ⟨?_, by assumption, ?_, ?_, ?_⟩,
          hrb⟩
        · intro _
          exact ⟨by simp [Frame.sib], by simp [Frame.color]⟩
        · assumption
        · intro h
          exact absurd h (by simp [Frame.color])
        · simp only [Frame.sib]
          omega
        · simp only [Frame.sib, Frame.color, weight_red, Nat.add_zero]
          omega
        · assumption
        · simp only [Frame.color, weight_red, weight_black, Nat.add_zero]
          exact hb7)
      (Or.inr ⟨rfl, by omega⟩)
    convert hpost using 1
    simp [ptrs_plug, Tree.ptrs, Ctx.before, Ctx.after]

/-- One branch of the loop body of the removal fixup. -/
theorem remove_color_right_spec {fuel : Nat} (ih : RemoveLoopOK fuel) {s : State}
    {fs : Ctx} {sub sib : Tree} {p : Nat} {cp : Color}
    (hw : WF s (plug (Frame.R sib p cp :: fs) sub)) (hsub : sub.isRed = false)
    (hinv : RemoveInv (Frame.R sib p cp :: fs) sub) (hfuel : fs.length < fuel) :
    RemovePost (remove_color_right (_rb_remove_color_loop fuel) p s)
      (plug (Frame.R sib p cp :: fs) sub).ptrs := by
  have hwp : WF s (plug fs (Tree.node sib p cp sub)) := hw
  obtain ⟨hp0, hp⟩ := mem_focus hwp
  have hsibrep := (focus_children' hwp).2
  have hinv0 := hinv
  obtain ⟨hi1, hi2, hi3, hi4, hi5⟩ := hinv
  have hn6 : cp = Color.red → sib.isRed = false ∧ Ctx.isRed fs = false := hi3.2.1
  have hn7 : Ctx.noRedRed fs := hi3.2.2
  have hb7 : Ctx.balanced fs (sub.bh + 1 + cp.weight) := hi4.2.2
  have hs1 : sib.noRedRed := hi3.1
  have hs2 : sib.bh = sub.bh + 1 := hi4.1
  have hs3 : sib.balanced := hi4.2.1
  have hsne : sib ≠ Tree.nil := bh_pos_ne_nil (by omega)
  simp only [remove_color_right, get_left_eq _ _ hp0, get_right_eq _ _ hp0, hp,
    Option.bind_eq_bind, Option.some_bind, rb_is_red_ptr hsibrep]
  cases hsc : sib.isRed with
  | false =>
    obtain ⟨sl, ps, sr, rfl⟩ := black_node_of' hsc hsne
    simp only [Bool.false_eq_true, if_false, Option.pure_def, Option.some_bind, ptr_node]
    exact remove_color_right_tail_spec ih hw hsub hinv0 (Or.inl hfuel)
  | true =>
    obtain ⟨sl, ps, sr, rfl⟩ := isRed_eq_true' hsc
    have hcp : cp = Color.black := by
      cases cp with
      | red => exact absurd (hn6 rfl).1 (by simp)
      | black => rfl
    subst hcp
    obtain ⟨s1, e1, w1⟩ := rotate_right_spec hwp
    obtain ⟨s2, e2, w2⟩ := rb_set_black_spec w1
    have w2' : WF s2 (plug (Frame.R sr ps Color.black :: fs)
      (Tree.node sl p Color.black sub)) := w2
    obtain ⟨s3, e3, w3⟩ := rb_set_red_spec w2'
    obtain ⟨-, hp3⟩ := mem_focus w3
    have w3' : WF s3 (plug (Frame.R sl p Color.red :: Frame.R sr ps Color.black :: fs) sub) :=
      w3
    simp only [Tree.noRedRed, Tree.balanced, Tree.bh, weight_red, weight_black,
      isRed_node, decide_True, decide_False, reduceCtorEq, forall_const, and_true, true_and,
      Nat.add_zero, false_implies, decide_eq_false_iff_not, decide_eq_true_eq,
      Bool.false_eq_true, not_false_eq_true] at hs1 hs2 hs3 hb7
    casesm* _ ∧ _
    have hslne : sl ≠ Tree.nil := bh_pos_ne_nil (by omega)
    obtain ⟨sll, pl, slr, rfl⟩ := black_node_of' (by assumption) hslne
    simp only [if_true, e1, ptr_node, e2, e3, get_left_eq _ _ hp0, get_right_eq _ _ hp0, hp3,
      Option.pure_def, Option.some_bind, Option.bind_eq_bind]
    have hpost := remove_color_right_tail_spec ih w3' hsub
      (by
        have hrb : Ctx.rootBlack (Frame.R sr ps Color.black :: fs) := rootBlack_head hi5 rfl
        refine ⟨hi1, hi2, ⟨by assumption, ?_, ?_, ?_, hn7⟩, ⟨?_, by assumption, ?_, ?_, ?_⟩,
          hrb⟩
        · intro _
          exact ⟨by simp [Frame.sib], by simp [Frame.color]⟩
        · assumption
        · intro h
          exact absurd h (by simp [Frame.color])
        · simp only [Frame.sib]
          omega
        · simp only [Frame.sib, Frame.color, weight_red, Nat.add_zero]
          omega
        · assumption
        · simp only [Frame.color, weight_red, weight_black, Nat.add_zero]
          exact hb7)
      (Or.inr ⟨rfl, by omega⟩)
    convert hpost using 1
    simp [ptrs_plug, Tree.ptrs, Ctx.after, Ctx.before]

theorem remove_exit {s : State} {ctx : Ctx} {sub : Tree} (hw : WF s (plug ctx sub))
    (hinv : RemoveInv ctx sub) (h : sub.isRed = true ∨ ctx = []) :
    RemovePost (some (sub.ptr, s)) (plug ctx sub).ptrs := by
  obtain ⟨hi1, hi2, hi3, hi4, hi5⟩ := hinv
  have hrb : RB (plug ctx sub.blacken) := by
    refine RB_plug.2 ⟨⟨hi5, fun _ => ?_⟩, ⟨hi3, hi1, fun _ => ?_⟩, ⟨?_, ?_⟩⟩
    · cases sub <;> simp [Tree.blacken]
    · cases sub <;> simp [Tree.blacken]
    · rcases h with h | h
      · obtain ⟨l, x, r, rfl⟩ := isRed_eq_true h
        simpa [Tree.blacken, Tree.bh] using hi4
      · subst h
        trivial
    · cases sub with
      | nil => trivial
      | node l x c r => exact hi2
  cases sub with
  | nil =>
    exact ⟨_, s, _, rfl, by simp [remove_finish], hw, hrb, rfl⟩
  | node l x c r =>
    obtain ⟨s1, e1, w1⟩ := rb_set_black_spec hw
    obtain ⟨hx0, -⟩ := mem_focus hw
    refine ⟨_, s1, _, rfl, ?_, w1, hrb, ?_⟩
    · simp only [remove_finish, ptr_node, ne_eq, hx0, not_false_eq_true, if_true, e1]
    · simp [ptrs_plug, Tree.ptrs, Tree.blacken]

/-- The loop of `_rb_remove_color` restores the red-black invariants. -/
theorem remove_color_loop_ok : ∀ fuel, RemoveLoopOK fuel := by
  intro fuel
  induction fuel with
  | zero =>
    intro ctx sub s h
    rcases h with h | ⟨-, h⟩ <;> exact absurd h (Nat.not_lt_zero _)
  | succ fuel ih =>
    intro ctx sub s hfuel hw hinv
    have hsubrep := ((WF_plug _ _ _).1 hw).2.2.1
    rw [remove_color_loop_unfold]
    simp only [rb_is_black_ptr hsubrep]
    cases hred : sub.isRed with
    | true =>
      simp only [Bool.not_true, Bool.false_eq_true, false_and, if_false]
      exact remove_exit hw hinv (Or.inl hred)
    | false =>
      cases ctx with
      | nil =>
        simp only [top_nil, ne_eq, not_true_eq_false, and_false, if_false]
        exact remove_exit hw hinv (Or.inr rfl)
      | cons f fs =>
        have hlen : fs.length < fuel := by
          rcases hfuel with h | ⟨h, -⟩
          · simpa using h
          · rw [hred] at h
            exact absurd h (by simp)
        have hsne : f.sib ≠ Tree.nil := bh_pos_ne_nil (by
          have := hinv.2.2.2.1.1
          omega)
        have htest := left_eq_iff_sib hw hsne
        have hf0 : f.ptr ≠ 0 := by
          cases f with
          | L p c r =>
            have hw' : WF s (plug fs (Tree.node sub p c r)) := hw
            exact (mem_focus hw').1
          | R l p c =>
            have hw' : WF s (plug fs (Tree.node l p c sub)) := hw
            exact (mem_focus hw').1
        simp only [top_cons, Bool.not_false, ne_eq, hf0, not_false_eq_true, and_self, if_true,
          get_left_eq _ _ hf0, Option.bind_eq_bind, Option.some_bind, htest]
        cases f with
        | L p c r =>
          simp only [Frame.isL, if_true, ptr_L]
          exact remove_color_left_spec ih hw hred hinv hlen
        | R l p c =>
          simp only [Frame.isL, Bool.false_eq_true, if_false, ptr_R]
          exact remove_color_right_spec ih hw hred hinv hlen

/-! ## In-order sequences of paths -/

theorem before_append (c1 c2 : Ctx) : Ctx.before (c1 ++ c2) = c2.before ++ c1.before := by
  induction c1 with
  | nil => simp [Ctx.before]
  | cons f fs ih => cases f <;> simp [Ctx.before, ih]

theorem after_append (c1 c2 : Ctx) : Ctx.after (c1 ++ c2) = c1.after ++ c2.after := by
  induction c1 with
  | nil => simp [Ctx.after]
  | cons f fs ih => cases f <;> simp [Ctx.after, ih]

/-- The path from a subtree to its leftmost node. -/
theorem exists_leftmost : ∀ (r : Tree), r ≠ Tree.nil →
    ∃ cL y cy ry, r = plug cL (Tree.node Tree.nil y cy ry) ∧ Ctx.before cL = [] := by
  intro r
  induction r with
  | nil => intro h; exact absurd rfl h
  | node l p c r' ihl _ =>
    intro _
    by_cases hl : l = Tree.nil
    · subst hl
      exact ⟨[], p, c, r', rfl, rfl⟩
    · obtain ⟨cL, y, cy, ry, e, hb⟩ := ihl hl
      refine ⟨cL ++ [Frame.L p c r'], y, cy, ry, ?_, ?_⟩
      · rw [plug_append, ← e]
        rfl
      · rw [before_append, hb]
        rfl

/-- The colour and balance conditions on a path do not depend on the addresses
of its nodes. -/
theorem ctx_inv_congr : ∀ (c1 c2 : Ctx),
    c1.map (fun f => (f.color, f.sib)) = c2.map (fun f => (f.color, f.sib)) →
    (c1.noRedRed → c2.noRedRed) ∧ (∀ h, c1.balanced h → c2.balanced h) ∧
      (c1.rootBlack → c2.rootBlack) ∧ c1.isRed = c2.isRed := by
  intro c1
  induction c1 with
  | nil =>
    intro c2 h
    cases c2 with
    | nil => simp
    | cons g gs => simp at h
  | cons f fs ih =>
    intro c2 h
    cases c2 with
    | nil => simp at h
    | cons g gs =>
      simp only [List.map_cons, List.cons.injEq, Prod.mk.injEq] at h
      obtain ⟨⟨hc, hs⟩, ht⟩ := h
      obtain ⟨i1, i2, i3, i4⟩ := ih gs ht
      refine ⟨?_, ?_, ?_, ?_⟩
      · intro ⟨a, b, c⟩
        refine ⟨hs ▸ a, fun hg => ?_, i1 c⟩
        have := b (hc ▸ hg)
        exact ⟨hs ▸ this.1, i4 ▸ this.2⟩
      · intro h ⟨a, b, c⟩
        exact ⟨hs ▸ a, hs ▸ b, i2 _ (hc ▸ c)⟩
      · intro hr
        cases fs with
        | nil =>
          cases gs with
          | nil =>
            have hr' : f.color = Color.black := hr
            exact (hc ▸ hr' : g.color = Color.black)
          | cons b bs => simp at ht
        | cons a as =>
          cases gs with
          | nil => simp at ht
          | cons b bs => exact i3 hr
      · simp [Ctx.isRed, hc]

theorem length_lt_height (ctx : Ctx) (l r : Tree) (p : Nat) (c : Color) :
    ctx.length < (plug ctx (Tree.node l p c r)).height := by
  have := height_plug ctx (Tree.node l p c r)
  simp only [Tree.height] at this
  omega

theorem height_sub_le (ctx : Ctx) (t : Tree) : t.height ≤ (plug ctx t).height := by
  have := height_plug ctx t
  omega

/-! ## Removal: `rb_remove` -/

/-- The last step of `rb_remove`: the fixup runs when the detached node was
black. -/
theorem remove_fixup_step (col : Color) (fuel : Nat) {s1 : State} {ctx : Ctx} {sub : Tree}
    (hw : WF s1 (plug ctx sub)) (hlen : ctx.length < fuel)
    (hblack : col = Color.black → RemoveInv ctx sub)
    (hred : col = Color.red → RB (plug ctx sub)) :
    ∃ s' t', (if col.enc = RB_BLACK then _rb_remove_color fuel sub.ptr ctx.top s1 else some s1)
        = some s' ∧ WF s' t' ∧ RB t' ∧ t'.ptrs = (plug ctx sub).ptrs := by
  cases col with
  | black =>
    obtain ⟨r, s3, t', e1, e2, w, hrb, hp⟩ :=
      remove_color_loop_ok fuel ctx sub s1 (Or.inl hlen) hw (hblack rfl)
    refine ⟨s3, t', ?_, w, hrb, hp⟩
    simp only [Color.enc, if_true, remove_color_eq, e1, Option.some_bind, e2]
  | red =>
    refine ⟨s1, _, ?_, hw, hred rfl, rfl⟩
    simp [Color.enc, RB_RED, RB_BLACK]

theorem bind_ite {α β : Type} (c : Prop) [Decidable c] (x y : Option α) (f : α → Option β) :
    (if c then x else y).bind f = if c then x.bind f else y.bind f := by
  split_ifs <;> rfl

/-- Function `rb_remove` is its first part, which unlinks the node, followed by
the fixup when the colour that was removed is black. -/
theorem rb_remove_eq_unlink (fuel n : Nat) (s : State) :
    rb_remove fuel n s = (rb_remove_unlink fuel n s).bind (fun r =>
      if r.1 = RB_BLACK then _rb_remove_color fuel r.2.1 r.2.2.1 r.2.2.2 else some r.2.2.2) := by
  unfold rb_remove rb_remove_unlink
  cases h1 : s.get_left n with
  | none => rfl
  | some nl =>
    cases h2 : s.get_right n with
    | none => rfl
    | some nr =>
      simp only [Option.bind_eq_bind, Option.some_bind]
      simp only [bind_ite, Option.bind_assoc]

/-- The first part of `rb_remove` on a node with at most one child: the child
takes the place of the node. -/
theorem rb_remove_unlink_simple {s : State} {ctx : Ctx} {l r : Tree} {n : Nat} {c : Color}
    {fuel : Nat} (hw : WF s (plug ctx (Tree.node l n c r)))
    (hrb : RB (plug ctx (Tree.node l n c r)))
    (hf : (plug ctx (Tree.node l n c r)).height ≤ fuel) (hlr : l = Tree.nil ∨ r = Tree.nil) :
    ∃ s1 ctx' sub col, rb_remove_unlink fuel n s = some (Color.enc col, sub.ptr, Ctx.top ctx', s1) ∧
      WF s1 (plug ctx' sub) ∧ ctx'.length < fuel ∧ (col = Color.black → RemoveInv ctx' sub) ∧
      (col = Color.red → RB (plug ctx' sub)) ∧
      (plug ctx' sub).ptrs = ctx.before ++ l.ptrs ++ (r.ptrs ++ ctx.after) := by
  obtain ⟨hn0, hmem⟩ := mem_focus hw
  obtain ⟨hl, hr⟩ := focus_children hw
  have hlen := length_lt_height ctx l r n c
  obtain ⟨⟨hr1, hr2⟩, ⟨hn1, hn2, hn3⟩, ⟨hb1, hb2⟩⟩ := RB_plug.1 hrb
  simp only [Tree.noRedRed, Tree.balanced, Tree.bh] at hn2 hb1 hb2
  -- the child that takes the place of the node
  have key : ∃ ch : Tree, ((l = Tree.nil ∧ ch = r) ∨ (r = Tree.nil ∧ ch = l)) ∧
      (if l.ptr ≠ 0 then l.ptr else r.ptr) = ch.ptr ∧ ch.bh = l.bh ∧
      ch.ptrs = l.ptrs ++ r.ptrs := by
    by_cases hl0 : l = Tree.nil
    · subst hl0
      exact ⟨r, Or.inl ⟨rfl, rfl⟩, by simp, by simpa [Tree.bh] using hb2.1.symm,
        by simp [Tree.ptrs]⟩
    · have hr0 : r = Tree.nil := by tauto
      subst hr0
      have : l.ptr ≠ 0 := fun e => hl0 ((Rep_ptr_eq_zero hl).1 e)
      exact ⟨l, Or.inr ⟨rfl, rfl⟩, by simp [this], rfl, by simp [Tree.ptrs]⟩
  obtain ⟨ch, hch, hchp, hchb, hchptrs⟩ := key
  obtain ⟨s0, s1, e0, e1, w1⟩ := splice_spec hw hch
  have hcond : l.ptr = 0 ∨ r.ptr = 0 := by
    rcases hlr with h | h
    · exact Or.inl ((Rep_ptr_eq_zero hl).2 h)
    · exact Or.inr ((Rep_ptr_eq_zero hr).2 h)
  have hchsub : ch.noRedRed ∧ ch.balanced ∧ (c = Color.red → ch.isRed = false) := by
    rcases hch with ⟨-, rfl⟩ | ⟨-, rfl⟩
    · exact ⟨hn2.2.2, hb2.2.2, fun h => (hn2.1 h).2⟩
    · exact ⟨hn2.2.1, hb2.2.1, fun h => (hn2.1 h).1⟩
  refine ⟨s1, ctx, ch, c, ?_, w1, by omega,
    (fun hc => by
      subst hc
      refine ⟨noRedRed_blacken hchsub.1, hchsub.2.1, hn1, ?_, hr1⟩
      rw [hchb]
      exact hb1),
    (fun hc => by
      subst hc
      refine RB_plug.2 ⟨⟨hr1, fun h => ?_⟩, ⟨hn1, hchsub.1, fun _ => hchsub.2.2 rfl⟩, ⟨?_, hchsub.2.1⟩⟩
      · have := hr2 h
        simp at this
      · rw [hchb]
        simpa using hb1), ?_⟩
  · simp only [rb_remove_unlink, get_left_eq _ _ hn0, get_right_eq _ _ hn0,
      get_color_eq _ _ hn0, get_parent_eq _ _ hn0, hmem, Option.bind_eq_bind, Option.some_bind,
      hcond, if_true, hchp, e0, Option.pure_def]
    by_cases h0 : ch.ptr = 0
    · simp only [h0, ne_eq, not_true_eq_false, if_false, Option.some.injEq] at e1 ⊢
      subst e1
      simp
    · simp only [ne_eq, h0, not_false_eq_true, if_true] at e1 ⊢
      simp only [e1, Option.some_bind]
  · rw [ptrs_plug, hchptrs]
    simp

/-- Function `rb_remove` from its first part: the fixup restores the
invariants. -/
theorem rb_remove_of_unlink {s : State} {n fuel : Nat} {ps : List Nat}
    (h : ∃ s1 ctx' sub col,
      rb_remove_unlink fuel n s = some (Color.enc col, sub.ptr, Ctx.top ctx', s1) ∧
      WF s1 (plug ctx' sub) ∧ ctx'.length < fuel ∧ (col = Color.black → RemoveInv ctx' sub) ∧
      (col = Color.red → RB (plug ctx' sub)) ∧ (plug ctx' sub).ptrs = ps) :
    ∃ s' t', rb_remove fuel n s = some s' ∧ WF s' t' ∧ RB t' ∧ t'.ptrs = ps := by
  obtain ⟨s1, ctx', sub, col, e, w, hlen, hb, hr, hp⟩ := h
  obtain ⟨s', t', e2, w2, rb2, p2⟩ := remove_fixup_step col fuel w hlen hb hr
  refine ⟨s', t', ?_, w2, rb2, p2.trans hp⟩
  rw [rb_remove_eq_unlink, e]
  exact e2

/-- Function `rb_remove` on a node with at most one child. -/
theorem rb_remove_simple {s : State} {ctx : Ctx} {l r : Tree} {n : Nat} {c : Color}
    {fuel : Nat} (hw : WF s (plug ctx (Tree.node l n c r)))
    (hrb : RB (plug ctx (Tree.node l n c r)))
    (hf : (plug ctx (Tree.node l n c r)).height ≤ fuel) (hlr : l = Tree.nil ∨ r = Tree.nil) :
    ∃ s' t', rb_remove fuel n s = some s' ∧ WF s' t' ∧ RB t' ∧
      t'.ptrs = ctx.before ++ l.ptrs ++ (r.ptrs ++ ctx.after) :=
  rb_remove_of_unlink (rb_remove_unlink_simple hw hrb hf hlr)

/-- The first part of `rb_remove` on a node with two children: the in-order
successor is detached and put into the place of the node. -/
theorem rb_remove_unlink_two {s : State} {ctx : Ctx} {l r : Tree} {n : Nat} {c : Color}
    {fuel : Nat} (hw : WF s (plug ctx (Tree.node l n c r)))
    (hrb : RB (plug ctx (Tree.node l n c r)))
    (hf : (plug ctx (Tree.node l n c r)).height ≤ fuel) (hl0 : l ≠ Tree.nil)
    (hr0 : r ≠ Tree.nil) :
    ∃ s1 ctx' sub col, rb_remove_unlink fuel n s = some (Color.enc col, sub.ptr, Ctx.top ctx', s1) ∧
      WF s1 (plug ctx' sub) ∧ ctx'.length < fuel ∧ (col = Color.black → RemoveInv ctx' sub) ∧
      (col = Color.red → RB (plug ctx' sub)) ∧
      (plug ctx' sub).ptrs = ctx.before ++ l.ptrs ++ (r.ptrs ++ ctx.after) := by
  obtain ⟨hn0, hmem⟩ := mem_focus hw
  obtain ⟨hl, hr⟩ := focus_children hw
  obtain ⟨cL, y, cy, ry, rfl, hbef⟩ := exists_leftmost r hr0
  have hplug : ∀ (p : Nat) (t : Tree), plug (cL ++ Frame.R l p c :: ctx) t =
      plug ctx (Tree.node l p c (plug cL t)) := fun p t => by rw [plug_append]; rfl
  have hwy : WF s (plug (cL ++ Frame.R l n c :: ctx) (Tree.node Tree.nil y cy ry)) := by
    rw [hplug]; exact hw
  have hrby : RB (plug (cL ++ Frame.R l n c :: ctx) (Tree.node Tree.nil y cy ry)) := by
    rw [hplug]; exact hrb
  have hlen : (cL ++ Frame.R l y c :: ctx).length < fuel := by
    have := length_lt_height (cL ++ Frame.R l n c :: ctx) Tree.nil ry y cy
    rw [hplug] at this
    simp only [List.length_append, List.length_cons] at this ⊢
    omega
  -- reads at the two nodes
  obtain ⟨hy0, hmemy⟩ := mem_focus hwy
  have hl1 : l.ptr ≠ 0 := fun e => hl0 ((Rep_ptr_eq_zero hl).1 e)
  have hr1 : (plug cL (Tree.node Tree.nil y cy ry)).ptr ≠ 0 := fun e =>
    hr0 ((Rep_ptr_eq_zero hr).1 e)
  have hw' : WF s (plug (Frame.R l n c :: ctx) (plug cL (Tree.node Tree.nil y cy ry))) := hw
  have hlm := rb_leftmost_spec _ _ fuel s hw' hr0 (by
    have := height_sub_le (Frame.R l n c :: ctx) (plug cL (Tree.node Tree.nil y cy ry))
    have e : plug (Frame.R l n c :: ctx) (plug cL (Tree.node Tree.nil y cy ry)) =
      plug ctx (Tree.node l n c (plug cL (Tree.node Tree.nil y cy ry))) := rfl
    rw [e] at this
    omega)
  have hhead : (plug cL (Tree.node Tree.nil y cy ry)).ptrs.headD 0 = y := by
    simp [ptrs_plug, hbef, Tree.ptrs]
  rw [hhead] at hlm
  -- the successor is spliced out
  obtain ⟨s0, s1, e0, e1, w1⟩ := splice_spec hwy (Or.inl ⟨rfl, rfl⟩)
  -- the parent used by the fixup
  have hnd := hw.2.2
  have hc := List.nodup_iff_count_le_one.1 hnd
  simp only [ptrs_plug, Tree.ptrs, hbef, List.count_append, List.count_cons, List.count_nil,
    List.nil_append] at hc
  have hpar : (if n = (cL ++ Frame.R l n c :: ctx).top then y
      else (cL ++ Frame.R l n c :: ctx).top) = (cL ++ Frame.R l y c :: ctx).top := by
    cases cL with
    | nil => simp
    | cons f fs =>
      have hfn : n ≠ f.ptr := by
        intro e
        have h1 := hc n
        have hm := top_mem (f :: fs) (by simp)
        rw [hbef] at hm
        simp only [top_cons, List.not_mem_nil, false_or] at hm
        have h2 := List.count_pos_iff.2 (e ▸ hm)
        simp only [beq_self_eq_true, if_true] at h1
        omega
      simp [hfn]
  -- the successor takes the place of the node
  have w1' : WF s1 (plug ctx (Tree.node l n c (plug cL ry))) := by
    rw [← hplug]; exact w1
  have hyfresh : y ∉ (plug ctx (Tree.node l n c (plug cL ry))).ptrs := by
    intro hy
    have h1 := hc y
    simp only [ptrs_plug, Tree.ptrs, hbef, List.mem_append, List.mem_cons, List.nil_append] at hy
    simp only [beq_self_eq_true, if_true] at h1
    have hyn : ¬ y = n := by
      rintro rfl
      simp only [beq_self_eq_true, if_true] at h1
      omega
    rcases hy with (hy | hy | hy | hy | hy) | hy
    · have := List.count_pos_iff.2 hy; omega
    · have := List.count_pos_iff.2 hy; omega
    · exact hyn hy
    · have := List.count_pos_iff.2 hy; omega
    · have := List.count_pos_iff.2 hy; omega
    · have := List.count_pos_iff.2 hy; omega
  obtain ⟨s2, e2, w2⟩ := rb_replace_node_spec w1' hy0 hyfresh
  have w2' : WF s2 (plug (cL ++ Frame.R l y c :: ctx) ry) := by
    rw [hplug]; exact w2
  -- the invariants along the path
  obtain ⟨⟨hr1', -⟩, ⟨hn1, hn2, hn3⟩, ⟨hb1, hb2⟩⟩ := RB_plug.1 hrby
  obtain ⟨g1, g2, g3, g4⟩ := ctx_inv_congr (cL ++ Frame.R l n c :: ctx)
    (cL ++ Frame.R l y c :: ctx) (by simp [Frame.color, Frame.sib])
  simp only [Tree.noRedRed, Tree.balanced, Tree.bh] at hn2 hb1 hb2
  refine ⟨s2, cL ++ Frame.R l y c :: ctx, ry, cy, ?_, w2', hlen,
    (fun hcy => by
      subst hcy
      refine ⟨noRedRed_blacken hn2.2.2, hb2.2.2, g1 hn1, g2 _ ?_, g3 hr1'⟩
      rw [← hb2.1]
      exact hb1),
    (fun hcy => by
      subst hcy
      refine RB_plug.2 ⟨⟨g3 hr1', fun h => ?_⟩, ⟨g1 hn1, hn2.2.2, fun _ => (hn2.1 rfl).2⟩,
        ⟨g2 _ ?_, hb2.2.2⟩⟩
      · simp at h
      · rw [← hb2.1]
        exact hb1), ?_⟩
  · simp only [rb_remove_unlink, get_left_eq _ _ hn0, get_right_eq _ _ hn0, hmem,
      Option.bind_eq_bind, Option.some_bind, hl1, hr1, or_self, if_false, hlm,
      get_color_eq _ _ hy0, get_right_eq _ _ hy0, get_parent_eq _ _ hy0, hmemy, e0,
      Option.pure_def, hpar]
    by_cases h0 : ry.ptr = 0
    · simp only [h0, ne_eq, not_true_eq_false, if_false, Option.some.injEq] at e1 ⊢
      subst e1
      simp only [Option.some_bind, e2]
    · simp only [ne_eq, h0, not_false_eq_true, if_true] at e1 ⊢
      simp only [e1, Option.some_bind, e2]
  · rw [ptrs_plug, ptrs_plug, before_append, after_append, hbef]
    simp [Ctx.before, Ctx.after, Tree.ptrs]

/-- Function `rb_remove` on a node with two children: the in-order successor
is detached and put into the place of the node. -/
theorem rb_remove_two {s : State} {ctx : Ctx} {l r : Tree} {n : Nat} {c : Color}
    {fuel : Nat} (hw : WF s (plug ctx (Tree.node l n c r)))
    (hrb : RB (plug ctx (Tree.node l n c r)))
    (hf : (plug ctx (Tree.node l n c r)).height ≤ fuel) (hl0 : l ≠ Tree.nil)
    (hr0 : r ≠ Tree.nil) :
    ∃ s' t', rb_remove fuel n s = some s' ∧ WF s' t' ∧ RB t' ∧
      t'.ptrs = ctx.before ++ l.ptrs ++ (r.ptrs ++ ctx.after) :=
  rb_remove_of_unlink (rb_remove_unlink_two hw hrb hf hl0 hr0)

/-- The first part of `rb_remove` on any node of a red-black tree: it returns
the removed colour and a hole; when the colour is black the hole satisfies the
invariant of the fixup loop. -/
theorem rb_remove_unlink_split {s : State} {t : Tree} {fuel : Nat} (hw : WF s t) (hrb : RB t)
    (hf : t.height ≤ fuel) {n : Nat} (hn : n ∈ t.ptrs) :
    ∃ s1 ctx' sub col, rb_remove_unlink fuel n s = some (Color.enc col, sub.ptr, Ctx.top ctx', s1) ∧
      WF s1 (plug ctx' sub) ∧ (col = Color.black → RemoveInv ctx' sub) := by
  obtain ⟨xs, ys, h⟩ := List.append_of_mem hn
  obtain ⟨ctx, l, c, r, rfl, rfl, rfl⟩ := exists_focus_of_split hw h
  by_cases hl0 : l = Tree.nil
  · obtain ⟨s1, ctx', sub, col, e, w, -, hb, -, -⟩ :=
      rb_remove_unlink_simple hw hrb hf (Or.inl hl0)
    exact ⟨s1, ctx', sub, col, e, w, hb⟩
  · by_cases hr0 : r = Tree.nil
    · obtain ⟨s1, ctx', sub, col, e, w, -, hb, -, -⟩ :=
        rb_remove_unlink_simple hw hrb hf (Or.inr hr0)
      exact ⟨s1, ctx', sub, col, e, w, hb⟩
    · obtain ⟨s1, ctx', sub, col, e, w, -, hb, -, -⟩ :=
        rb_remove_unlink_two hw hrb hf hl0 hr0
      exact ⟨s1, ctx', sub, col, e, w, hb⟩

/-- Function `rb_remove` on any node of a red-black tree: it returns, the
result is a red-black tree, and its in-order sequence is the old one without
the node. -/
theorem rb_remove_focus {s : State} {ctx : Ctx} {l r : Tree} {n : Nat} {c : Color}
    {fuel : Nat} (hw : WF s (plug ctx (Tree.node l n c r)))
    (hrb : RB (plug ctx (Tree.node l n c r)))
    (hf : (plug ctx (Tree.node l n c r)).height ≤ fuel) :
    ∃ s' t', rb_remove fuel n s = some s' ∧ WF s' t' ∧ RB t' ∧
      t'.ptrs = ctx.before ++ l.ptrs ++ (r.ptrs ++ ctx.after) := by
  by_cases hl0 : l = Tree.nil
  · exact rb_remove_simple hw hrb hf (Or.inl hl0)
  · by_cases hr0 : r = Tree.nil
    · exact rb_remove_simple hw hrb hf (Or.inr hr0)
    · exact rb_remove_two hw hrb hf hl0 hr0

theorem rb_remove_split {s : State} {t : Tree} {fuel : Nat} (hw : WF s t) (hrb : RB t)
    (hf : t.height ≤ fuel) {xs ys : List Nat} {n : Nat} (h : t.ptrs = xs ++ n :: ys) :
    ∃ s' t', rb_remove fuel n s = some s' ∧ WF s' t' ∧ RB t' ∧ t'.ptrs = xs ++ ys := by
  obtain ⟨ctx, l, c, r, rfl, rfl, rfl⟩ := exists_focus_of_split hw h
  exact rb_remove_focus hw hrb hf

/-- C2. Claim: for every tree that satisfies the red-black invariants (root
black or tree empty, no red node has a red child, equal black counts on all
paths to null links) and every node of that tree, `rb_remove` returns and the
tree after the call satisfies the three invariants again, whether the node has
no child, one child or two children. -/
theorem rb_remove_preserves_invariants (fuel : Nat) (s : State) (t : Tree) (n : Nat)
    (hw : WF s t) (hrb : RB t) (hf : t.height ≤ fuel) (hn : n ∈ t.ptrs) :
    ∃ s' t', rb_remove fuel n s = some s' ∧ WF s' t' ∧
      t'.isRed = false ∧ t'.noRedRed ∧ t'.balanced := by
  obtain ⟨xs, ys, h⟩ := List.append_of_mem hn
  obtain ⟨s', t', e, w, rb, -⟩ := rb_remove_split hw hrb hf h
  exact ⟨s', t', e, w, rb⟩

theorem rb_remove_preserves_invariants_witness :
    ∃ s' t', rb_remove 2 2008 ex_state3 = some s' ∧ WF s' t' ∧
      t'.isRed = false ∧ t'.noRedRed ∧ t'.balanced :=
  rb_remove_preserves_invariants 2 ex_state3 ex_tree3 2008 (by decide) (by decide) (by decide)
    (by decide)

/-- C5. Claim: for every valid tree and every node of it, the in-order sequence
of nodes after `rb_remove` is the old in-order sequence with that one node
deleted: every other node is still in the tree, in the same relative order, the
removed node is not, and the size is one less (also when the node has two
children and its successor is moved into its place). -/
theorem rb_remove_inorder (fuel : Nat) (s : State) (t : Tree) (xs ys : List Nat) (n : Nat)
    (hw : WF s t) (hrb : RB t) (hf : t.height ≤ fuel) (h : t.ptrs = xs ++ n :: ys) :
    ∃ s' t', rb_remove fuel n s = some s' ∧ WF s' t' ∧ t'.ptrs = xs ++ ys ∧
      t'.ptrs = t.ptrs.erase n ∧ (∀ q ∈ t.ptrs, q ≠ n → q ∈ t'.ptrs) ∧ n ∉ t'.ptrs ∧
      t'.size + 1 = t.size := by
  obtain ⟨s', t', e, w, -, p⟩ := rb_remove_split hw hrb hf h
  have hnd := hw.2.2
  rw [h] at hnd
  have hnx : n ∉ xs := fun hx => by
    have := (List.nodup_append.1 hnd).2.2
    exact List.disjoint_left.1 this hx (by simp)
  have hny : n ∉ ys := fun hy => by
    have := (List.nodup_cons.1 (List.nodup_append.1 hnd).2.1).1
    exact this hy
  refine ⟨s', t', e, w, p, ?_, ?_, ?_, ?_⟩
  · rw [p, h, List.erase_append_right _ hnx, List.erase_cons_head]
  · intro q hq hqn
    rw [h] at hq
    rw [p]
    simp only [List.mem_append, List.mem_cons] at hq ⊢
    tauto
  · rw [p]
    simp only [List.mem_append, not_or]
    exact ⟨hnx, hny⟩
  · rw [size_eq_length, size_eq_length, p, h]
    simp
    omega

theorem rb_remove_inorder_witness :
    ∃ s' t', rb_remove 2 2008 ex_state3 = some s' ∧ WF s' t' ∧ t'.ptrs = [1008] ++ [3008] ∧
      t'.ptrs = ex_tree3.ptrs.erase 2008 ∧ (∀ q ∈ ex_tree3.ptrs, q ≠ 2008 → q ∈ t'.ptrs) ∧
      2008 ∉ t'.ptrs ∧ t'.size + 1 = ex_tree3.size :=
  rb_remove_inorder 2 ex_state3 ex_tree3 [1008] [3008] 2008 (by decide) (by decide) (by decide)
    (by decide)

/-! ## A cursor taken before a removal -/

/-- C14. Claim: in a valid tree, let `c = rb_next(n)` be taken before
`rb_remove(n)`.  Both calls return; `c` is the node right after `n` in the old
in-order sequence (`NULL` exactly when `n` was the last node); and when `c` is
not `NULL`, after the removal `c` is still a node of the tree, `rb_prev(c)` is
the old `rb_prev(n)`, and the loop that repeats `rb_next` from `c` until `NULL`
visits exactly the nodes that followed `n`, in the same order. -/
theorem rb_remove_keeps_cursor (fuel : Nat) (s : State) (t : Tree) (xs ys : List Nat) (n : Nat)
    (hw : WF s t) (hrb : RB t) (hf : t.size ≤ fuel) (h : t.ptrs = xs ++ n :: ys) :
    ∃ c s' t', rb_next fuel n s = some c ∧ c = ys.headD 0 ∧ (c = 0 ↔ ys = []) ∧
      rb_remove fuel n s = some s' ∧ WF s' t' ∧
      (c ≠ 0 → c ∈ t'.ptrs ∧ rb_prev fuel c s' = rb_prev fuel n s ∧
        ∀ steps, ys.length < steps → rb_walk fuel steps c s' = some ys) := by
  have hh := height_le_size t
  have hf1 : t.height ≤ fuel := by omega
  obtain ⟨s', t', e, hw', -, hp⟩ := rb_remove_split hw hrb hf1 h
  have hsz : t'.size ≤ t.size := by
    rw [size_eq_length, size_eq_length, hp, h]
    simp
  have hh' := height_le_size t'
  have hf2 : t'.height ≤ fuel := by omega
  have hnz : ∀ q ∈ ys, q ≠ 0 := fun q hq =>
    Rep_ptrs_ne_zero hw.2.1 q (by rw [h]; simp [hq])
  refine ⟨ys.headD 0, s', t', rb_next_split hw hf1 h, rfl, headD_eq_zero hnz, e, hw', ?_⟩
  intro hc
  cases ys with
  | nil => exact absurd rfl hc
  | cons c ys' =>
    simp only [List.headD_cons]
    refine ⟨by rw [hp]; simp, ?_, fun steps hs => ?_⟩
    · rw [rb_prev_split hw' hf2 hp, rb_prev_split hw hf1 h]
    · exact rb_walk_spec hw' hf2 (c :: ys') xs steps hp hs

theorem rb_remove_keeps_cursor_witness :
    ∃ c s' t', rb_next 3 2008 ex_state3 = some c ∧ c = [3008].headD 0 ∧ (c = 0 ↔ [3008] = []) ∧
      rb_remove 3 2008 ex_state3 = some s' ∧ WF s' t' ∧
      (c ≠ 0 → c ∈ t'.ptrs ∧ rb_prev 3 c s' = rb_prev 3 2008 ex_state3 ∧
        ∀ steps, [3008].length < steps → rb_walk 3 steps c s' = some [3008]) :=
  rb_remove_keeps_cursor 3 ex_state3 ex_tree3 [1008] [3008] 2008 (by decide) (by decide)
    (by decide) (by decide)

/-! ## Height of a red-black tree -/

theorem height_le_bh : ∀ (t : Tree), t.noRedRed → t.balanced →
    t.height ≤ 2 * t.bh + (if t.isRed = true then 1 else 0) := by
  intro t
  induction t with
  | nil => intro _ _; simp [Tree.height]
  | node l p c r ihl ihr =>
    intro hn hb
    simp only [Tree.noRedRed] at hn
    simp only [Tree.balanced] at hb
    have h1 := ihl hn.2.1 hb.2.1
    have h2 := ihr hn.2.2 hb.2.2
    have h3 := hb.1
    cases c with
    | red =>
      obtain ⟨e1, e2⟩ := hn.1 rfl
      simp only [e1, e2, Bool.false_eq_true, if_false, Nat.add_zero] at h1 h2
      simp only [Tree.height, Tree.bh, weight_red, isRed_node, decide_True, if_true]
      omega
    | black =>
      simp only [Tree.height, Tree.bh, weight_black, isRed_node, reduceCtorEq, decide_False,
        Bool.false_eq_true, if_false]
      split at h1 <;> split at h2 <;> omega

theorem pow_bh_le_size : ∀ (t : Tree), t.balanced → 2 ^ t.bh ≤ t.size + 1 := by
  intro t
  induction t with
  | nil => intro _; simp [Tree.bh, Tree.size]
  | node l p c r ihl ihr =>
    intro hb
    simp only [Tree.balanced] at hb
    have h1 := ihl hb.2.1
    have h2 := ihr hb.2.2
    rw [← hb.1] at h2
    have h3 : 2 ^ (l.bh + c.weight) ≤ 2 ^ (l.bh + 1) :=
      Nat.pow_le_pow_right (by decide) (by cases c <;> simp [Color.weight])
    simp only [Tree.bh, Tree.size]
    rw [Nat.pow_succ] at h3
    omega

/-- A red-black tree with `n` nodes has a height `h` with `2 ^ h ≤ (n + 1) ^ 2`,
and `h` is at most twice the integer part of `log2 (n + 1)`. -/
theorem RB_height_bound {t : Tree} (h : RB t) :
    2 ^ t.height ≤ (t.size + 1) ^ 2 ∧ t.height ≤ 2 * Nat.log 2 (t.size + 1) := by
  obtain ⟨h1, h2, h3⟩ := h
  have h4 := height_le_bh t h2 h3
  simp only [h1, Bool.false_eq_true, if_false, Nat.add_zero] at h4
  have h5 := pow_bh_le_size t h3
  constructor
  · calc 2 ^ t.height ≤ 2 ^ (2 * t.bh) := Nat.pow_le_pow_right (by decide) h4
      _ = (2 ^ t.bh) ^ 2 := by rw [Nat.mul_comm, Nat.pow_mul]
      _ ≤ (t.size + 1) ^ 2 := Nat.pow_le_pow_left h5 2
  · have h6 : t.bh ≤ Nat.log 2 (t.size + 1) :=
      Nat.le_log_of_pow_le (by decide) h5
    omega

/-! ## Sequences of calls -/

theorem admissible_congr (ops : rb_ops) : ∀ (os : List Op) (ps qs : List Nat),
    (∀ p, p ∈ ps ↔ p ∈ qs) → admissible ops os ps → admissible ops os qs := by
  intro os
  induction os with
  | nil => intro _ _ _ _; trivial
  | cons o os ih =>
    intro ps qs h ha
    cases o with
    | insert item =>
      obtain ⟨a1, a2, a3, a4⟩ := ha
      refine ⟨a1, a2, fun p hp => a3 p ((h p).2 hp), ih _ _ (fun p => ?_) a4⟩
      simp only [List.mem_cons, h p]
    | remove node =>
      obtain ⟨a1, a2⟩ := ha
      refine ⟨(h node).1 a1, ih _ _ (fun p => ?_) a2⟩
      simp only [List.mem_filter, h p]

theorem nodes_after_congr (ops : rb_ops) : ∀ (os : List Op) (ps qs : List Nat),
    (∀ p, p ∈ ps ↔ p ∈ qs) → ∀ p, p ∈ nodes_after ops os ps ↔ p ∈ nodes_after ops os qs := by
  intro os
  induction os with
  | nil => intro _ _ h; exact h
  | cons o os ih =>
    intro ps qs h
    cases o with
    | insert item =>
      exact ih _ _ (fun p => by simp only [List.mem_cons, h p])
    | remove node =>
      exact ih _ _ (fun p => by simp only [List.mem_filter, h p])

theorem admissible_take (ops : rb_ops) : ∀ (os : List Op) (ps : List Nat) (k : Nat),
    admissible ops os ps → admissible ops (os.take k) ps := by
  intro os
  induction os with
  | nil => intro _ k _; simp [admissible]
  | cons o os ih =>
    intro ps k ha
    cases k with
    | zero => trivial
    | succ k =>
      cases o with
      | insert item =>
        obtain ⟨a1, a2, a3, a4⟩ := ha
        exact ⟨a1, a2, a3, ih _ k a4⟩
      | remove node =>
        obtain ⟨a1, a2⟩ := ha
        exact ⟨a1, ih _ k a2⟩

/-- A sequence of calls of which each meets its precondition: every call
returns, and the final state holds a valid sorted tree with the expected
nodes. -/
theorem rb_run_spec {K : Type} [LinearOrder K] (key : Nat → K) (ops : rb_ops)
    (hcmp : compare_by ops key) (fuel : Nat) :
    ∀ (os : List Op) (s : State) (t : Tree), WF s t → RB t →
      sorted_by key (t.records ops) → t.size + os.length ≤ fuel →
      admissible ops os t.ptrs →
      ∃ s' t', rb_run fuel ops os s = some s' ∧ WF s' t' ∧ RB t' ∧
        sorted_by key (t'.records ops) ∧
        (∀ p, p ∈ t'.ptrs ↔ p ∈ nodes_after ops os t.ptrs) := by
  intro os
  induction os with
  | nil =>
    intro s t hw hrb hs _ _
    exact ⟨s, t, rfl, hw, hrb, hs, fun _ => Iff.rfl⟩
  | cons o os ih =>
    intro s t hw hrb hs hf ha
    have hh := height_le_size t
    simp only [List.length_cons] at hf
    cases o with
    | insert item =>
      obtain ⟨a1, a2, a3, a4⟩ := ha
      obtain ⟨s1, t1, e1, hw1, hrb1, ⟨xs, ys, hx, hy⟩, -, hs1, -, -, hz1⟩ :=
        rb_insert_item_full key ops item fuel s t hw hrb (by omega) a1 a2 hcmp hs
          (fun r hr => by
            obtain ⟨p, hp, rfl⟩ := List.mem_map.1 hr
            exact a3 p hp)
      have hmem : ∀ p, p ∈ t1.ptrs ↔ p ∈ ptr_add item ops.offset :: t.ptrs := by
        intro p
        rw [hx, hy]
        simp only [List.mem_append, List.mem_cons]
        tauto
      obtain ⟨s2, t2, e2, hw2, hrb2, hs2, hm2⟩ := ih s1 t1 hw1 hrb1 hs1 (by omega)
        (admissible_congr ops os _ _ (fun p => (hmem p).symm) a4)
      refine ⟨s2, t2, ?_, hw2, hrb2, hs2, fun p => ?_⟩
      · simp only [rb_run, rb_apply, e1, Option.map_some', Option.some_bind, e2]
      · rw [hm2]
        exact nodes_after_congr ops os _ _ hmem p
    | remove node =>
      obtain ⟨a1, a2⟩ := ha
      obtain ⟨xs, ys, h⟩ := List.append_of_mem a1
      obtain ⟨s1, t1, e1, hw1, hrb1, hp1⟩ :=
        @rb_remove_split s t fuel hw hrb (by omega) xs ys node h
      have hnd := hw.2.2
      rw [h] at hnd
      have hnx : node ∉ xs := fun hx =>
        List.disjoint_left.1 (List.nodup_append.1 hnd).2.2 hx (by simp)
      have hny : node ∉ ys := (List.nodup_cons.1 (List.nodup_append.1 hnd).2.1).1
      have hmem : ∀ p, p ∈ t1.ptrs ↔ p ∈ t.ptrs.filter (fun p => p ≠ node) := by
        intro p
        rw [hp1, h]
        simp only [List.mem_append, List.mem_cons, List.mem_filter, decide_eq_true_eq]
        constructor
        · rintro (hp | hp)
          · exact ⟨Or.inl hp, fun e => hnx (e ▸ hp)⟩
          · exact ⟨Or.inr (Or.inr hp), fun e => hny (e ▸ hp)⟩
        · rintro ⟨hp | hp | hp, hne⟩
          · exact Or.inl hp
          · exact absurd hp hne
          · exact Or.inr hp
      have hsz : t1.size ≤ t.size := by
        rw [size_eq_length, size_eq_length, hp1, h]
        simp
      have hs1 : sorted_by key (t1.records ops) := by
        refine List.Pairwise.sublist ?_ hs
        rw [Tree.records, Tree.records, hp1, h]
        exact List.Sublist.map _ (List.Sublist.append_left (List.sublist_cons_self _ _) _)
      obtain ⟨s2, t2, e2, hw2, hrb2, hs2, hm2⟩ := ih s1 t1 hw1 hrb1 hs1 (by omega)
        (admissible_congr ops os _ _ (fun p => (hmem p).symm) a2)
      refine ⟨s2, t2, ?_, hw2, hrb2, hs2, fun p => ?_⟩
      · simp only [rb_run, rb_apply, e1, Option.some_bind, e2]
      · rw [hm2]
        exact nodes_after_congr ops os _ _ hmem p

/-- A sequence of calls from the empty tree, with the state after every
prefix. -/
theorem rb_run_prefix {K : Type} [LinearOrder K] (key : Nat → K) (ops : rb_ops)
    (hcmp : compare_by ops key) (fuel : Nat) (os : List Op) (s : State) (hroot : s.root = 0)
    (hf : os.length ≤ fuel) (ha : admissible ops os []) (k : Nat) :
    ∃ s' t', rb_run fuel ops (os.take k) s = some s' ∧ WF s' t' ∧ RB t' ∧
      sorted_by key (t'.records ops) ∧
      (∀ p, p ∈ t'.ptrs ↔ p ∈ nodes_after ops (os.take k) []) := by
  have hlen : (os.take k).length ≤ os.length := by
    rw [List.length_take]
    exact Nat.min_le_right _ _
  exact rb_run_spec key ops hcmp fuel (os.take k) s Tree.nil ⟨hroot, trivial, List.nodup_nil⟩
    ⟨rfl, trivial, trivial⟩ List.Pairwise.nil (by simp only [Tree.size]; omega)
    (admissible_take ops os [] k ha)

/-! ## Insertions followed by removals -/

theorem admissible_append_inserts {K : Type} [LinearOrder K] (key : Nat → K) (ops : rb_ops)
    (hcmp : compare_by ops key) (rest : List Op) :
    ∀ (items prev : List Nat),
      (∀ i ∈ items, i < 2 ^ PTR_BITS ∧ ptr_add i ops.offset ≠ 0) →
      (∀ i ∈ prev, i < 2 ^ PTR_BITS) → (items.map key).Nodup →
      (∀ i ∈ items, ∀ p ∈ prev, key p ≠ key i) →
      admissible ops rest ((items.reverse ++ prev).map (fun i => ptr_add i ops.offset)) →
      admissible ops (items.map Op.insert ++ rest)
        (prev.map (fun i => ptr_add i ops.offset)) := by
  intro items
  induction items with
  | nil => intro prev _ _ _ _ h; simpa using h
  | cons i is ih =>
    intro prev hv hp hd hk h
    rw [List.map_cons, List.nodup_cons] at hd
    obtain ⟨hv1, hv2⟩ := hv i (List.mem_cons_self _ _)
    refine ⟨hv1, hv2, fun p hp' => ?_, ?_⟩
    · obtain ⟨j, hj, rfl⟩ := List.mem_map.1 hp'
      have hrec : record ops (ptr_add j ops.offset) = j := ptr_sub_add j ops.offset (hp j hj)
      rw [hrec]
      exact fun e => hk i (List.mem_cons_self _ _) j hj ((compare_eq_zero_iff hcmp j i).1 e)
    · have := ih (i :: prev) (fun j hj => hv j (List.mem_cons_of_mem _ hj))
        (fun j hj => by
          rcases List.mem_cons.1 hj with rfl | hj
          · exact hv1
          · exact hp j hj)
        hd.2
        (fun j hj p hp' => by
          rcases List.mem_cons.1 hp' with rfl | hp'
          · exact fun e => hd.1 (e ▸ List.mem_map_of_mem key hj)
          · exact hk j (List.mem_cons_of_mem _ hj) p hp')
        (by simpa using h)
      simpa using this

theorem nodes_after_append_inserts (ops : rb_ops) (rest : List Op) :
    ∀ (items prev : List Nat),
      nodes_after ops (items.map Op.insert ++ rest) (prev.map (fun i => ptr_add i ops.offset)) =
        nodes_after ops rest ((items.reverse ++ prev).map (fun i => ptr_add i ops.offset)) := by
  intro items
  induction items with
  | nil => intro prev; simp
  | cons i is ih =>
    intro prev
    have := ih (i :: prev)
    simp only [List.map_cons, List.cons_append, nodes_after, List.reverse_cons,
      List.append_assoc, List.singleton_append] at this ⊢
    exact this

theorem admissible_removes (ops : rb_ops) : ∀ (nodes ps : List Nat), nodes.Nodup →
    (∀ n ∈ nodes, n ∈ ps) →
    admissible ops (nodes.map Op.remove) ps ∧
      ∀ p, p ∈ nodes_after ops (nodes.map Op.remove) ps ↔ p ∈ ps ∧ p ∉ nodes := by
  intro nodes
  induction nodes with
  | nil => intro ps _ _; simp [admissible, nodes_after]
  | cons n ns ih =>
    intro ps hd hm
    rw [List.nodup_cons] at hd
    obtain ⟨h1, h2⟩ := ih (ps.filter (fun p => p ≠ n)) hd.2 (fun m hm' => by
      simp only [List.mem_filter, decide_eq_true_eq]
      exact ⟨hm m (List.mem_cons_of_mem _ hm'), fun e => hd.1 (e ▸ hm')⟩)
    refine ⟨⟨hm n (List.mem_cons_self _ _), h1⟩, fun p => ?_⟩
    simp only [List.map_cons, nodes_after, h2, List.mem_filter, decide_eq_true_eq,
      List.mem_cons, not_or]
    tauto

/-- Inserting records with pairwise distinct keys and then removing their
nodes in the same order: every call meets its precondition, and no node is left
at the end. -/
theorem admissible_insert_then_remove {K : Type} [LinearOrder K] (key : Nat → K)
    (ops : rb_ops) (hcmp : compare_by ops key) (items : List Nat)
    (hitems : ∀ i ∈ items, i < 2 ^ PTR_BITS ∧ ptr_add i ops.offset ≠ 0)
    (hkeys : (items.map key).Nodup) :
    admissible ops (insert_then_remove ops items) [] ∧
      ∀ p, p ∉ nodes_after ops (insert_then_remove ops items) [] := by
  have hinj : ∀ i ∈ items, ∀ j ∈ items, ptr_add i ops.offset = ptr_add j ops.offset → i = j := by
    intro i hi j hj e
    rw [← ptr_sub_add i ops.offset (hitems i hi).1, e, ptr_sub_add j ops.offset (hitems j hj).1]
  have hnd : (items.map (fun i => ptr_add i ops.offset)).Nodup :=
    List.Nodup.map_on hinj (List.Nodup.of_map key hkeys)
  have hrem : items.map (fun i => Op.remove (ptr_add i ops.offset)) =
      (items.map (fun i => ptr_add i ops.offset)).map Op.remove := by
    rw [List.map_map]
    rfl
  obtain ⟨h1, h2⟩ := admissible_removes ops (items.map (fun i => ptr_add i ops.offset))
    ((items.reverse ++ []).map (fun i => ptr_add i ops.offset)) hnd
    (fun n hn => by simpa using hn)
  have ha := admissible_append_inserts key ops hcmp
    ((items.map (fun i => ptr_add i ops.offset)).map Op.remove) items []
    hitems (fun _ h => absurd h (List.not_mem_nil _)) hkeys
    (fun _ _ _ h => absurd h (List.not_mem_nil _)) h1
  have hn := nodes_after_append_inserts ops
    ((items.map (fun i => ptr_add i ops.offset)).map Op.remove) items []
  rw [insert_then_remove, hrem]
  refine ⟨by simpa using ha, fun p hp => ?_⟩
  simp only [List.map_nil] at hn
  rw [hn, h2] at hp
  exact hp.2 (by simpa using hp.1)

/-- C12. Claim: after every sequence of `rb_insert_item` calls with distinct
keys and `rb_remove` calls on present nodes, started on the empty tree, every
call has returned and the tree, with `n` nodes, is a red-black tree whose height
`h` (nodes on the longest path from the root to a null link) satisfies
`2 ^ h ≤ (n + 1) ^ 2`, that is `h ≤ 2 * log2 (n + 1)`; `h` is even at most twice
the integer part of `log2 (n + 1)`. -/
theorem rb_height_log_bound {K : Type} [LinearOrder K] (key : Nat → K) (ops : rb_ops)
    (hcmp : compare_by ops key) (fuel : Nat) (os : List Op) (s : State) (hroot : s.root = 0)
    (hf : os.length ≤ fuel) (ha : admissible ops os []) :
    ∃ s' t', rb_run fuel ops os s = some s' ∧ WF s' t' ∧ RB t' ∧
      sorted_by key (t'.records ops) ∧ (∀ p, p ∈ t'.ptrs ↔ p ∈ nodes_after ops os []) ∧
      2 ^ t'.height ≤ (t'.size + 1) ^ 2 ∧ t'.height ≤ 2 * Nat.log 2 (t'.size + 1) := by
  obtain ⟨s', t', e, hw, hrb, hs, hm⟩ :=
    rb_run_spec key ops hcmp fuel os s Tree.nil ⟨hroot, trivial, List.nodup_nil⟩
      ⟨rfl, trivial, trivial⟩ List.Pairwise.nil (by simpa [Tree.size] using hf) ha
  exact ⟨s', t', e, hw, hrb, hs, hm, RB_height_bound hrb⟩

theorem rb_height_log_bound_witness :
    (∃ s' t', rb_run 6 ex_ops64 ex_scenario ex_state0 = some s' ∧ WF s' t' ∧ RB t' ∧
      sorted_by (fun a => ((a / 64 : Nat) : Int)) (t'.records ex_ops64) ∧
      (∀ p, p ∈ t'.ptrs ↔ p ∈ nodes_after ex_ops64 ex_scenario []) ∧
      2 ^ t'.height ≤ (t'.size + 1) ^ 2 ∧ t'.height ≤ 2 * Nat.log 2 (t'.size + 1)) ∧
    (∃ s' ∈ rb_run 6 ex_ops64 ex_scenario ex_state0, WF s' ex_tree6) ∧
    (ex_tree6.records ex_ops64).map (fun a => a / 64) = [5, 10, 15, 20, 25, 30] ∧
    ex_tree6.isRed = false ∧ ex_tree6.height ≤ 5 :=
  ⟨rb_height_log_bound (fun a => ((a / 64 : Nat) : Int)) ex_ops64
      (fun a b => by simp only [ex_ops64]; omega) 6 ex_scenario ex_state0 rfl (by decide)
      (by decide),
    by decide!, by decide, by decide, by decide⟩

/-- C15. Claim: for every `n`, inserting records with the keys `1..n` in
ascending order into an empty tree and then removing their nodes in the same
order: every call returns, after every single call (every prefix of the
sequence) the state holds a red-black tree with a strictly increasing in-order
sequence, and at the end the tree is empty, the root reference is `NULL`. -/
theorem rb_insert_remove_ascending (key : Nat → Nat) (ops : rb_ops)
    (hcmp : compare_by ops key) (n fuel : Nat) (items : List Nat) (s : State)
    (hroot : s.root = 0) (hkeys : items.map key = List.range' 1 n)
    (hitems : ∀ i ∈ items, i < 2 ^ PTR_BITS ∧ ptr_add i ops.offset ≠ 0) (hf : 2 * n ≤ fuel) :
    (∀ k, ∃ s' t', rb_run fuel ops ((insert_then_remove ops items).take k) s = some s' ∧
      WF s' t' ∧ RB t' ∧ sorted_by key (t'.records ops)) ∧
    ∃ s', rb_run fuel ops (insert_then_remove ops items) s = some s' ∧ WF s' Tree.nil ∧
      s'.root = 0 := by
  have hnd : (items.map key).Nodup := by
    rw [hkeys]
    exact List.nodup_range' 1 n
  have hlen : items.length = n := by
    have := congrArg List.length hkeys
    simpa using this
  obtain ⟨ha, hn⟩ := admissible_insert_then_remove key ops hcmp items hitems hnd
  have hl : (insert_then_remove ops items).length ≤ fuel := by
    simp only [insert_then_remove, List.length_append, List.length_map]
    omega
  constructor
  · intro k
    obtain ⟨s', t', e, hw, hrb, hs, -⟩ :=
      rb_run_prefix key ops hcmp fuel _ s hroot hl ha k
    exact ⟨s', t', e, hw, hrb, hs⟩
  · obtain ⟨s', t', e, hw, -, -, hm⟩ :=
      rb_run_spec key ops hcmp fuel _ s Tree.nil ⟨hroot, trivial, List.nodup_nil⟩
        ⟨rfl, trivial, trivial⟩ List.Pairwise.nil (by simpa [Tree.size] using hl) ha
    have ht : t' = Tree.nil := by
      rw [← ptrs_eq_nil]
      exact List.eq_nil_iff_forall_not_mem.2 (fun p hp => hn p ((hm p).1 hp))
    subst ht
    exact ⟨s', e, hw, hw.1⟩

theorem ex_items_keys (n : Nat) : (ex_items n).map (fun a => a / 64) = List.range' 1 n := by
  rw [ex_items, List.map_map]
  have : ((fun a => a / 64) ∘ fun k => 64 * k) = id := by
    funext k
    simp only [Function.comp_apply, id_eq]
    omega
  rw [this, List.map_id]

theorem ex_items_valid (n : Nat) (hn : n < 2 ^ 50) :
    ∀ i ∈ ex_items n, i < 2 ^ PTR_BITS ∧ ptr_add i ex_ops64.offset ≠ 0 := by
  intro i hi
  obtain ⟨k, hk, rfl⟩ := List.mem_map.1 hi
  rw [List.mem_range'_1] at hk
  simp only [PTR_BITS, ptr_add, ex_ops64] at *
  omega

theorem rb_insert_remove_ascending_witness :
    (∀ k, ∃ s' t',
      rb_run 2000 ex_ops64 ((insert_then_remove ex_ops64 (ex_items 1000)).take k) ex_state0
        = some s' ∧
      WF s' t' ∧ RB t' ∧ sorted_by (fun a => a / 64) (t'.records ex_ops64)) ∧
    ∃ s', rb_run 2000 ex_ops64 (insert_then_remove ex_ops64 (ex_items 1000)) ex_state0
        = some s' ∧ WF s' Tree.nil ∧ s'.root = 0 :=
  rb_insert_remove_ascending (fun a => a / 64) ex_ops64
    (fun a b => by simp only [ex_ops64]; omega) 1000 2000 (ex_items 1000) ex_state0 rfl
    (ex_items_keys 1000) (ex_items_valid 1000 (by norm_num)) (by norm_num)

/-! ## Inserting a record again after its removal -/

theorem pathOK_append (cmp : Nat → Int) : ∀ (c1 c2 : Ctx),
    Ctx.pathOK cmp (c1 ++ c2) ↔ Ctx.pathOK cmp c1 ∧ Ctx.pathOK cmp c2 := by
  intro c1
  induction c1 with
  | nil => intro c2; simp [Ctx.pathOK]
  | cons f fs ih =>
    intro c2
    cases f <;> simp [Ctx.pathOK, ih, and_assoc]

/-- A path whose plugged tree is not its hole ends with the frame of the
root. -/
theorem plug_eq_node {ctx : Ctx} {X l r : Tree} {p : Nat} {c : Color}
    (h : plug ctx X = Tree.node l p c r) :
    (ctx = [] ∧ X = Tree.node l p c r) ∨
      (∃ c0, ctx = c0 ++ [Frame.L p c r] ∧ plug c0 X = l) ∨
      (∃ c0, ctx = c0 ++ [Frame.R l p c] ∧ plug c0 X = r) := by
  rcases List.eq_nil_or_concat ctx with rfl | ⟨c0, f, rfl⟩
  · exact Or.inl ⟨rfl, h⟩
  · rw [List.concat_eq_append, plug_append] at h
    rw [List.concat_eq_append]
    cases f with
    | L q cq rq =>
      simp only [plug_cons, plug_nil, Frame.fill, Tree.node.injEq] at h
      obtain ⟨h1, rfl, rfl, rfl⟩ := h
      exact Or.inr (Or.inl ⟨c0, rfl, h1⟩)
    | R lq q cq =>
      simp only [plug_cons, plug_nil, Frame.fill, Tree.node.injEq] at h
      obtain ⟨rfl, rfl, rfl, h1⟩ := h
      exact Or.inr (Or.inr ⟨c0, rfl, h1⟩)

/-- The search path to an empty slot is determined by the tree. -/
theorem path_unique (cmp : Nat → Int) : ∀ (t : Tree) (c c' : Ctx),
    plug c Tree.nil = t → plug c' Tree.nil = t → Ctx.pathOK cmp c → Ctx.pathOK cmp c' →
    c = c' := by
  intro t
  induction t with
  | nil =>
    intro c c' h h' _ _
    have e1 : c = [] := by
      rcases List.eq_nil_or_concat c with rfl | ⟨c0, f, rfl⟩
      · rfl
      · rw [List.concat_eq_append, plug_append] at h
        cases f <;> simp [Frame.fill] at h
    have e2 : c' = [] := by
      rcases List.eq_nil_or_concat c' with rfl | ⟨c0, f, rfl⟩
      · rfl
      · rw [List.concat_eq_append, plug_append] at h'
        cases f <;> simp [Frame.fill] at h'
    rw [e1, e2]
  | node l p cl r ihl ihr =>
    intro c c' h h' hp hp'
    rcases plug_eq_node h with ⟨-, e⟩ | ⟨c0, rfl, h0⟩ | ⟨c0, rfl, h0⟩
    · cases e
    · rcases plug_eq_node h' with ⟨-, e⟩ | ⟨c1, rfl, h1⟩ | ⟨c1, rfl, h1⟩
      · cases e
      · rw [pathOK_append] at hp hp'
        rw [ihl c0 c1 h0 h1 hp.1 hp'.1]
      · rw [pathOK_append] at hp hp'
        have a1 := hp.2.1
        have a2 := hp'.2.1
        omega
    · rcases plug_eq_node h' with ⟨-, e⟩ | ⟨c1, rfl, h1⟩ | ⟨c1, rfl, h1⟩
      · cases e
      · rw [pathOK_append] at hp hp'
        have a1 := hp.2.1
        have a2 := hp'.2.1
        omega
      · rw [pathOK_append] at hp hp'
        rw [ihr c0 c1 h0 h1 hp.1 hp'.1]

/-- A path whose hole lies between the smaller and the larger keys is the
search path of the key. -/
theorem pathOK_of_bounds {K : Type} [LinearOrder K] {key : Nat → K} {ops : rb_ops}
    (hcmp : compare_by ops key) (item : Nat) : ∀ (c : Ctx),
    (∀ q ∈ c.before, key (record ops q) < key item) →
    (∀ q ∈ c.after, key item < key (record ops q)) →
    c.pathOK (fun p => ops.compare (ptr_sub p ops.offset) item ops.context) := by
  intro c
  induction c with
  | nil => intro _ _; trivial
  | cons f fs ih =>
    intro hb ha
    cases f with
    | L p cp r =>
      simp only [Ctx.before, Ctx.after, List.mem_append, List.mem_cons] at hb ha
      refine ⟨(hcmp _ _).2.2 (ha p (Or.inl (Or.inl rfl))), ih hb (fun q hq => ha q (Or.inr hq))⟩
    | R l p cp =>
      simp only [Ctx.before, Ctx.after, List.mem_append, List.mem_cons, List.mem_singleton,
        List.not_mem_nil, or_false] at hb ha
      refine ⟨(hcmp _ _).1.2 (hb p (Or.inr (Or.inr rfl))), ih (fun q hq => hb q (Or.inl hq)) ha⟩

/-- Function `rb_remove` on a red leaf: the leaf is cut off and nothing else
changes in the tree. -/
theorem rb_remove_red_leaf {s : State} {ctx : Ctx} {n : Nat} (fuel : Nat)
    (hw : WF s (plug ctx (Tree.node Tree.nil n Color.red Tree.nil))) :
    ∃ s', rb_remove fuel n s = some s' ∧ WF s' (plug ctx Tree.nil) := by
  obtain ⟨hn0, hmem⟩ := mem_focus hw
  obtain ⟨s0, s1, e0, e1, w1⟩ := splice_spec hw (Or.inl ⟨rfl, rfl⟩)
  simp only [ptr_nil, ne_eq, not_true_eq_false, if_false, Option.some.injEq] at e0 e1
  subst e1
  refine ⟨s0, ?_, w1⟩
  simp only [rb_remove, get_left_eq _ _ hn0, get_right_eq _ _ hn0, get_color_eq _ _ hn0,
    get_parent_eq _ _ hn0, hmem, Option.bind_eq_bind, Option.some_bind, ptr_nil, or_self,
    if_true, ne_eq, not_true_eq_false, if_false, e0, Option.pure_def]
  simp [Color.enc, RB_RED, RB_BLACK]

/-- Function `rb_remove` on the only node of a tree: the tree is empty
afterwards. -/
theorem rb_remove_root_leaf {s : State} {n : Nat} {c : Color} (fuel : Nat) (hf : 0 < fuel)
    (hw : WF s (Tree.node Tree.nil n c Tree.nil)) :
    ∃ s', rb_remove fuel n s = some s' ∧ WF s' Tree.nil := by
  have hw0 : WF s (plug [] (Tree.node Tree.nil n c Tree.nil)) := hw
  obtain ⟨hn0, hmem⟩ := mem_focus hw0
  obtain ⟨s0, s1, e0, e1, w1⟩ := splice_spec hw0 (Or.inl ⟨rfl, rfl⟩)
  simp only [ptr_nil, ne_eq, not_true_eq_false, if_false, Option.some.injEq, top_nil] at e0 e1
  subst e1
  refine ⟨s0, ?_, w1⟩
  obtain ⟨fuel, rfl⟩ : ∃ k, fuel = k + 1 := ⟨fuel - 1, by omega⟩
  simp only [rb_remove, get_left_eq _ _ hn0, get_right_eq _ _ hn0, get_color_eq _ _ hn0,
    get_parent_eq _ _ hn0, hmem, Option.bind_eq_bind, Option.some_bind, ptr_nil, or_self,
    if_true, ne_eq, not_true_eq_false, if_false, e0, Option.pure_def, top_nil,
    remove_color_eq, remove_color_loop_unfold, and_false, remove_finish]
  simp

/-- Function `rb_remove` on a black node between two red leaves: the right
leaf, its successor, takes its place and its colour. -/
theorem rb_remove_between {s : State} {ctx : Ctx} {n p g : Nat} (fuel : Nat) (hf : 0 < fuel)
    (hw : WF s (plug ctx (Tree.node (Tree.node Tree.nil p Color.red Tree.nil) n Color.black
      (Tree.node Tree.nil g Color.red Tree.nil)))) :
    ∃ s', rb_remove fuel n s = some s' ∧
      WF s' (plug ctx (Tree.node (Tree.node Tree.nil p Color.red Tree.nil) g Color.black
        Tree.nil)) := by
  obtain ⟨hn0, hmem⟩ := mem_focus hw
  have hwp : WF s (plug (Frame.L n Color.black (Tree.node Tree.nil g Color.red Tree.nil) :: ctx)
      (Tree.node Tree.nil p Color.red Tree.nil)) := hw
  obtain ⟨hp0, -⟩ := mem_focus hwp
  have hwy : WF s (plug (Frame.R (Tree.node Tree.nil p Color.red Tree.nil) n Color.black :: ctx)
      (Tree.node Tree.nil g Color.red Tree.nil)) := hw
  obtain ⟨hg0, hmemg⟩ := mem_focus hwy
  obtain ⟨s0, s1, e0, e1, w1⟩ := splice_spec hwy (Or.inl ⟨rfl, rfl⟩)
  simp only [ptr_nil, ne_eq, not_true_eq_false, if_false, Option.some.injEq, top_cons,
    ptr_R] at e0 e1
  subst e1
  have w1' : WF s0 (plug ctx (Tree.node (Tree.node Tree.nil p Color.red Tree.nil) n Color.black
      Tree.nil)) := w1
  have hnd := hw.2.2
  have hc := List.nodup_iff_count_le_one.1 hnd
  simp only [ptrs_plug, Tree.ptrs, List.count_append, List.count_cons, List.count_nil,
    List.nil_append, List.append_nil] at hc
  have hgfresh : g ∉ (plug ctx (Tree.node (Tree.node Tree.nil p Color.red Tree.nil) n
      Color.black Tree.nil)).ptrs := by
    intro hy
    have h1 := hc g
    simp only [ptrs_plug, Tree.ptrs, List.mem_append, List.mem_cons, List.nil_append,
      List.append_nil, List.not_mem_nil, or_false] at hy
    simp only [beq_self_eq_true, if_true] at h1
    rcases hy with (hy | hy | hy) | hy
    · have := List.count_pos_iff.2 hy; omega
    · subst hy
      simp only [beq_self_eq_true, if_true] at h1
      omega
    · subst hy
      simp only [beq_self_eq_true, if_true] at h1
      omega
    · have := List.count_pos_iff.2 hy; omega
  obtain ⟨s2, e2, w2⟩ := rb_replace_node_spec w1' hg0 hgfresh
  refine ⟨s2, ?_, w2⟩
  obtain ⟨fuel, rfl⟩ : ∃ k, fuel = k + 1 := ⟨fuel - 1, by omega⟩
  simp only [rb_remove, get_left_eq _ _ hn0, get_right_eq _ _ hn0, hmem, ptr_node,
    Option.bind_eq_bind, Option.some_bind, hp0, hg0, or_self, if_false, rb_leftmost,
    get_left_eq _ _ hg0, get_color_eq _ _ hg0, get_right_eq _ _ hg0, get_parent_eq _ _ hg0,
    hmemg, ptr_nil, ne_eq, not_true_eq_false, top_cons, ptr_R, e0, Option.pure_def, if_true, e2]
  simp [Color.enc, RB_RED, RB_BLACK]

theorem WF_update_outside {s : State} {t : Tree} (hw : WF s t) {n : Nat} (hn : n ∉ t.ptrs)
    (cell : rb_node) : WF { s with mem := Function.update s.mem n cell } t := by
  refine ⟨hw.1, Rep_congr (fun q hq => ?_) hw.2.1, hw.2.2⟩
  have : q ≠ n := fun e => hn (e ▸ hq)
  simp [Function.update_apply, this]

/-- Insertion of a record at a known empty slot: when the fixup of that slot
yields the sorted tree `t1`, the call returns the record and leaves `t1`. -/
theorem reinsert_at {K : Type} [LinearOrder K] (key : Nat → K) (ops : rb_ops)
    (hcmp : compare_by ops key) (item fuel : Nat) {s2 : State} {c2 : Ctx} {t1 : Tree}
    (hw2 : WF s2 (plug c2 Tree.nil)) (hrb2 : RB (plug c2 Tree.nil)) (hf : t1.size ≤ fuel)
    (hitem : item < 2 ^ PTR_BITS) (hnode : ptr_add item ops.offset ≠ 0)
    (hs1 : sorted_by key (t1.records ops))
    (hp1 : t1.ptrs = c2.before ++ ptr_add item ops.offset :: c2.after)
    (hx : (link_color_tree c2
      (Tree.node Tree.nil (ptr_add item ops.offset) Color.red Tree.nil)).blacken = t1) :
    ∃ s3, rb_insert_item fuel item s2 ops = some (item, s3) ∧ WF s3 t1 := by
  have hrec : record ops (ptr_add item ops.offset) = item := ptr_sub_add item ops.offset hitem
  have hsp := sorted_ptrs hs1
  rw [hp1, List.pairwise_append] at hsp
  obtain ⟨-, hsa, hsb⟩ := hsp
  rw [List.pairwise_cons] at hsa
  have hb : ∀ q ∈ c2.before, key (record ops q) < key item := fun q hq => by
    have := hsb q hq _ (List.mem_cons_self _ _)
    rwa [hrec] at this
  have ha : ∀ q ∈ c2.after, key item < key (record ops q) := fun q hq => by
    have := hsa.1 q hq
    rwa [hrec] at this
  have hmem : ∀ q ∈ (plug c2 Tree.nil).ptrs, key (record ops q) ≠ key item := by
    intro q hq
    simp only [ptrs_plug, Tree.ptrs, List.append_nil, List.mem_append] at hq
    rcases hq with hq | hq
    · exact ne_of_lt (hb q hq)
    · exact (ne_of_lt (ha q hq)).symm
  have hsz : (plug c2 Tree.nil).size + 1 = t1.size := by
    rw [size_eq_length, size_eq_length, hp1, ptrs_plug]
    simp [Tree.ptrs]
    omega
  have hh := height_le_size (plug c2 Tree.nil)
  obtain ⟨ctx, s3, t3, e1, e2, e3, w3, -, -, x3⟩ :=
    rb_insert_item_vacant ops item fuel s2 (plug c2 Tree.nil) hw2 hrb2 (by omega) hnode
      (fun h => hmem _ h (by rw [hrec]))
      (fun q hq e => hmem q hq ((compare_eq_zero_iff hcmp _ _).1 e))
  have hc : ctx = c2 := path_unique _ _ ctx c2 e1.symm rfl e2 (pathOK_of_bounds hcmp item c2 hb ha)
  subst hc
  rw [hx] at x3
  subst x3
  exact ⟨s3, e3, w3⟩

/-- C13. Claim: for every valid sorted tree and every record whose key is not
in it, `rb_insert_item` of the record, then `rb_remove` of its node, then
`rb_insert_item` of the record again: all three calls return, both insertions
return the record itself, whatever the cell of the node holds after the removal,
and the final state lays out exactly the tree that the first insertion built:
same shape, same colours, same nodes, the same root reference and the same
cell contents at every node. -/
theorem rb_insert_remove_insert {K : Type} [LinearOrder K] (key : Nat → K) (ops : rb_ops)
    (item fuel : Nat) (s : State) (t : Tree) (hw : WF s t) (hrb : RB t)
    (hfuel : t.size + 1 < fuel) (hitem : item < 2 ^ PTR_BITS)
    (hnode : ptr_add item ops.offset ≠ 0) (hcmp : compare_by ops key)
    (hsorted : sorted_by key (t.records ops))
    (hne : ∀ r ∈ t.records ops, ops.compare r item ops.context ≠ 0) :
    ∃ s1 t1 s2, rb_insert_item fuel item s ops = some (item, s1) ∧ WF s1 t1 ∧ RB t1 ∧
      rb_remove fuel (ptr_add item ops.offset) s1 = some s2 ∧
      ∀ cell : rb_node, ∃ s3,
        rb_insert_item fuel item
          { s2 with mem := Function.update s2.mem (ptr_add item ops.offset) cell } ops
            = some (item, s3) ∧
        WF s3 t1 ∧ s3.root = s1.root ∧ ∀ p ∈ t1.ptrs, s3.mem p = s1.mem p := by
  have hh := height_le_size t
  obtain ⟨s1, t1, e1, w1, rb1, ⟨xs, ys, hx, hy⟩, -, hs1, -, -, hz1⟩ :=
    rb_insert_item_full key ops item fuel s t hw hrb (by omega) hitem hnode hcmp hsorted hne
  have hrec : record ops (ptr_add item ops.offset) = item := ptr_sub_add item ops.offset hitem
  have hfresh : ptr_add item ops.offset ∉ t.ptrs := by
    intro hin
    have hmem : item ∈ t.records ops := by
      rw [← hrec]
      exact List.mem_map_of_mem _ hin
    exact hne item hmem ((compare_eq_zero_iff hcmp item item).2 rfl)
  obtain ⟨ctx, s1', t1', et, -, e1', w1', -, -, x1⟩ :=
    rb_insert_item_vacant ops item fuel s t hw hrb (by omega) hnode hfresh
      (fun p hp => hne _ (List.mem_map_of_mem _ hp))
  rw [e1] at e1'
  simp only [Option.some.injEq, Prod.mk.injEq, true_and] at e1'
  subst e1'
  have := WF_unique w1' w1
  subst this
  subst et
  obtain ⟨⟨hr0, -⟩, -, -⟩ := RB_plug.1 hrb
  -- the removal, and the slot it leaves empty
  have key2 : ∃ s2 c2, rb_remove fuel (ptr_add item ops.offset) s1 = some s2 ∧
      WF s2 (plug c2 Tree.nil) ∧ RB (plug c2 Tree.nil) ∧
      t1'.ptrs = c2.before ++ ptr_add item ops.offset :: c2.after ∧
      (link_color_tree c2
        (Tree.node Tree.nil (ptr_add item ops.offset) Color.red Tree.nil)).blacken = t1' := by
    rcases link_tree_shape ctx (ptr_add item ops.offset) hr0 with
      h | ⟨c, h, hc0, hcr⟩ | ⟨c, lp, p, rg, g, h⟩
    · rw [← x1] at h
      subst h
      obtain ⟨s2, e2, w2⟩ := rb_remove_root_leaf fuel (by omega) w1
      exact ⟨s2, [], e2, w2, ⟨rfl, trivial, trivial⟩, rfl, rfl⟩
    · rw [← x1] at h
      subst h
      obtain ⟨s2, e2, w2⟩ := rb_remove_red_leaf fuel w1
      obtain ⟨⟨a1, -⟩, ⟨a2, -, -⟩, ⟨a3, -⟩⟩ := RB_plug.1 rb1
      refine ⟨s2, c, e2, w2, RB_plug.2 ⟨⟨a1, fun _ => rfl⟩, ⟨a2, trivial, fun _ => rfl⟩,
        ⟨by simpa [Tree.bh] using a3, trivial⟩⟩, by simp [ptrs_plug, Tree.ptrs], ?_⟩
      cases c with
      | nil => exact absurd rfl hc0
      | cons f fs =>
        have hfb : f.color = Color.black := by
          cases hf : f.color
          · simp [hf] at hcr
          · rfl
        rw [link_color_tree_black hfb]
        exact blacken_of_black rb1.1
    · rw [← x1] at h
      subst h
      obtain ⟨⟨a1, -⟩, ⟨a2, a4, -⟩, ⟨a3, a5⟩⟩ := RB_plug.1 rb1
      simp only [Tree.noRedRed, Tree.balanced, Tree.bh, weight_red, weight_black, Nat.add_zero,
        forall_const, true_and, and_true, isRed_nil, reduceCtorEq, false_implies] at a3 a4 a5
      have hlp : lp = Tree.nil := eq_nil_of_bh_zero (by omega) (by tauto)
      have hrg : rg = Tree.nil := eq_nil_of_bh_zero (by omega) (by tauto)
      subst hlp hrg
      obtain ⟨s2, e2, w2⟩ := rb_remove_between fuel (by omega) w1
      refine ⟨s2, Frame.R Tree.nil p Color.red :: Frame.L g Color.black Tree.nil :: c, e2, w2,
        ?_, by simp [ptrs_plug, Tree.ptrs, Ctx.before, Ctx.after], ?_⟩
      · have e : plug (Frame.R Tree.nil p Color.red :: Frame.L g Color.black Tree.nil :: c)
            Tree.nil = plug c (Tree.node (Tree.node Tree.nil p Color.red Tree.nil) g Color.black
              Tree.nil) := rfl
        rw [e]
        refine RB_plug.2 ⟨⟨a1, fun _ => rfl⟩, ⟨a2, ?_, fun _ => rfl⟩, ⟨?_, ?_⟩⟩
        · simp [Tree.noRedRed]
        · simpa [Tree.bh] using a3
        · simp [Tree.balanced, Tree.bh]
      · rw [@link_color_tree_case4 (Frame.R Tree.nil p Color.red)
          (Frame.L g Color.black Tree.nil) c _ rfl rfl]
        exact blacken_of_black rb1.1
  obtain ⟨s2, c2, e2, w2, rb2, hp2, hx2⟩ := key2
  refine ⟨s1, t1', s2, e1, w1, rb1, e2, fun cell => ?_⟩
  have hn2 : ptr_add item ops.offset ∉ (plug c2 Tree.nil).ptrs := by
    have hnd := w1.2.2
    rw [hp2] at hnd
    have hc := List.nodup_iff_count_le_one.1 hnd (ptr_add item ops.offset)
    simp only [List.count_append, List.count_cons, beq_self_eq_true, if_true] at hc
    simp only [ptrs_plug, Tree.ptrs, List.append_nil, List.mem_append]
    rintro (h | h) <;> have := List.count_pos_iff.2 h <;> omega
  obtain ⟨s3, e3, w3⟩ := reinsert_at key ops hcmp item fuel
    (WF_update_outside w2 hn2 cell) rb2 (by omega) hitem hnode hs1 hp2 hx2
  exact ⟨s3, e3, w3, w3.1.trans w1.1.symm, fun p hp => Rep_mem_eq _ _ w3.2.1 w1.2.1 p hp⟩

theorem rb_insert_remove_insert_witness :
    ∃ s1 t1 s2, rb_insert_item 6 500 ex_state3 ex_ops = some (500, s1) ∧ WF s1 t1 ∧ RB t1 ∧
      rb_remove 6 (ptr_add 500 ex_ops.offset) s1 = some s2 ∧
      ∀ cell : rb_node, ∃ s3,
        rb_insert_item 6 500
          { s2 with mem := Function.update s2.mem (ptr_add 500 ex_ops.offset) cell } ex_ops
            = some (500, s3) ∧
        WF s3 t1 ∧ s3.root = s1.root ∧ ∀ p ∈ t1.ptrs, s3.mem p = s1.mem p :=
  rb_insert_remove_insert (fun a => (a : Int)) ex_ops 500 6 ex_state3 ex_tree3 (by decide)
    (by decide) (by decide) (by decide) (by decide) (fun a b => by simp only [ex_ops]; omega)
    (by simp [sorted_by, Tree.records, ex_tree3, Tree.ptrs, record, ex_ops, ptr_sub, PTR_BITS])
    (by decide)

/-! ## The sibling in the removal fixup -/

theorem remove_color_left_eq (k : Nat → Nat → State → Option (Nat × State)) (p : Nat)
    (s : State) : remove_color_left k p s =
      (remove_left_case2 p s).bind (fun r => remove_color_left_tail k p r.2 r.1) := by
  unfold remove_color_left remove_left_case2
  cases h1 : s.get_right p with
  | none => rfl
  | some sib =>
    simp only [Option.bind_eq_bind, Option.some_bind]
    by_cases hr : rb_is_red s sib = true
    · simp only [hr, if_true, Option.bind_assoc, Option.pure_def, Option.some_bind]
    · simp only [hr, Bool.false_eq_true, if_false, Option.pure_def, Option.some_bind]

theorem remove_color_right_eq (k : Nat → Nat → State → Option (Nat × State)) (p : Nat)
    (s : State) : remove_color_right k p s =
      (remove_right_case2 p s).bind (fun r => remove_color_right_tail k p r.2 r.1) := by
  unfold remove_color_right remove_right_case2
  cases h1 : s.get_left p with
  | none => rfl
  | some sib =>
    simp only [Option.bind_eq_bind, Option.some_bind]
    by_cases hr : rb_is_red s sib = true
    · simp only [hr, if_true, Option.bind_assoc, Option.pure_def, Option.some_bind]
    · simp only [hr, Bool.false_eq_true, if_false, Option.pure_def, Option.some_bind]

theorem remove_color_left_tail_eq (k : Nat → Nat → State → Option (Nat × State))
    (p sib : Nat) (s : State) : remove_color_left_tail k p sib s =
      (s.get_right sib).bind (fun sr => (s.get_left sib).bind (fun sl =>
        if rb_is_black s sr = true ∧ rb_is_black s sl = true then
          (rb_set_red s sib).bind (fun s' => (s'.get_parent p).bind (fun p' => k p p' s'))
        else (remove_left_case5 sib sr sl s).bind
          (fun r => remove_color_left_case6 p r.2 r.1))) := by
  unfold remove_color_left_tail remove_left_case5
  cases h1 : s.get_right sib with
  | none => rfl
  | some sr =>
    cases h2 : s.get_left sib with
    | none => rfl
    | some sl =>
      simp only [Option.bind_eq_bind, Option.some_bind]
      by_cases hb : rb_is_black s sr = true ∧ rb_is_black s sl = true
      · simp only [hb, and_self, if_true]
      · rw [if_neg hb, if_neg hb]
        by_cases hr : rb_is_black s sr = true
        · simp only [hr, if_true, Option.bind_assoc, Option.pure_def, Option.some_bind]
        · simp only [hr, Bool.false_eq_true, if_false, Option.pure_def, Option.some_bind]

theorem remove_color_right_tail_eq (k : Nat → Nat → State → Option (Nat × State))
    (p sib : Nat) (s : State) : remove_color_right_tail k p sib s =
      (s.get_right sib).bind (fun sr => (s.get_left sib).bind (fun sl =>
        if rb_is_black s sr = true ∧ rb_is_black s sl = true then
          (rb_set_red s sib).bind (fun s' => (s'.get_parent p).bind (fun p' => k p p' s'))
        else (remove_right_case5 sib sl sr s).bind
          (fun r => remove_color_right_case6 p r.2 r.1))) := by
  unfold remove_color_right_tail remove_right_case5
  cases h1 : s.get_right sib with
  | none => rfl
  | some sr =>
    cases h2 : s.get_left sib with
    | none => rfl
    | some sl =>
      simp only [Option.bind_eq_bind, Option.some_bind]
      by_cases hb : rb_is_black s sr = true ∧ rb_is_black s sl = true
      · simp only [hb, and_self, if_true]
      · rw [if_neg hb, if_neg hb]
        by_cases hr : rb_is_black s sl = true
        · simp only [hr, if_true, Option.bind_assoc, Option.pure_def, Option.some_bind]
        · simp only [hr, Bool.false_eq_true, if_false, Option.pure_def, Option.some_bind]

theorem branch_L {α : Type} {c : Prop} [Decidable c] (h : c) (a b : α) :
    (if c then a else b) = a := if_pos h

theorem branch_R {α : Type} {c : Prop} [Decidable c] (h : ¬ c) (a b : α) :
    (if c then a else b) = b := if_neg h

/-- An iteration of the loop of `_rb_remove_color` that ends in `continue`
goes on like the loop started at the parent. -/
theorem remove_color_loop_continue {n p n' p' : Nat} {s s' : State}
    (h : remove_color_continue n p s = some (n', p', s')) (fuel : Nat) :
    _rb_remove_color_loop (fuel + 1) n p s = _rb_remove_color_loop fuel n' p' s' := by
  rw [remove_color_loop_unfold]
  unfold remove_color_continue at h
  by_cases hc : rb_is_black s n = true ∧ p ≠ 0
  · rw [if_pos hc] at h
    rw [if_pos hc]
    cases h1 : s.get_left p with
    | none => simp [h1] at h
    | some pl =>
      simp only [h1, Option.bind_eq_bind, Option.some_bind] at h ⊢
      by_cases hpn : pl = n
      · rw [branch_L hpn] at h
        rw [branch_L hpn, remove_color_left_eq]
        cases h2 : remove_left_case2 p s with
        | none => simp [h2] at h
        | some r =>
          obtain ⟨st, sb⟩ := r
          simp only [h2, Option.some_bind] at h ⊢
          rw [remove_color_left_tail_eq]
          cases h3 : st.get_right sb with
          | none => simp [h3] at h
          | some sr =>
            simp only [h3, Option.some_bind] at h ⊢
            cases h4 : st.get_left sb with
            | none => simp [h4] at h
            | some sl =>
              simp only [h4, Option.some_bind] at h ⊢
              by_cases hb : rb_is_black st sr = true ∧ rb_is_black st sl = true
              · rw [if_pos hb] at h
                rw [if_pos hb]
                cases h5 : rb_set_red st sb with
                | none => simp [h5] at h
                | some s2 =>
                  simp only [h5, Option.some_bind] at h ⊢
                  cases h6 : s2.get_parent p with
                  | none => simp [h6] at h
                  | some q =>
                    simp only [h6, Option.some_bind, Option.some.injEq, Prod.mk.injEq] at h ⊢
                    obtain ⟨rfl, rfl, rfl⟩ := h
                    rfl
              · rw [if_neg hb] at h
                cases h
      · rw [branch_R hpn] at h
        rw [branch_R hpn, remove_color_right_eq]
        cases h2 : remove_right_case2 p s with
        | none => simp [h2] at h
        | some r =>
          obtain ⟨st, sb⟩ := r
          simp only [h2, Option.some_bind] at h ⊢
          rw [remove_color_right_tail_eq]
          cases h3 : st.get_right sb with
          | none => simp [h3] at h
          | some sr =>
            simp only [h3, Option.some_bind] at h ⊢
            cases h4 : st.get_left sb with
            | none => simp [h4] at h
            | some sl =>
              simp only [h4, Option.some_bind] at h ⊢
              by_cases hb : rb_is_black st sr = true ∧ rb_is_black st sl = true
              · rw [if_pos hb] at h
                rw [if_pos hb]
                cases h5 : rb_set_red st sb with
                | none => simp [h5] at h
                | some s2 =>
                  simp only [h5, Option.some_bind] at h ⊢
                  cases h6 : s2.get_parent p with
                  | none => simp [h6] at h
                  | some q =>
                    simp only [h6, Option.some_bind, Option.some.injEq, Prod.mk.injEq] at h ⊢
                    obtain ⟨rfl, rfl, rfl⟩ := h
                    rfl
              · rw [if_neg hb] at h
                cases h
  · rw [if_neg hc] at h
    cases h

/-- Case 2 of the removal fixup: the sibling that is read is not null, and
the sibling that the later cases work on is a black node. -/
theorem remove_left_case2_spec {s : State} {fs : Ctx} {sub sib : Tree} {p : Nat} {cp : Color}
    (hw : WF s (plug (Frame.L p cp sib :: fs) sub))
    (hinv : RemoveInv (Frame.L p cp sib :: fs) sub) :
    (s.mem p).right ≠ 0 ∧
    ∃ st cp' fs' sl ps sr, remove_left_case2 p s = some (st, ps) ∧ ps ≠ 0 ∧
      WF st (plug (Frame.L p cp' (Tree.node sl ps Color.black sr) :: fs') sub) ∧
      RemoveInv (Frame.L p cp' (Tree.node sl ps Color.black sr) :: fs') sub := by
  have hwp : WF s (plug fs (Tree.node sub p cp sib)) := hw
  obtain ⟨hp0, hp⟩ := mem_focus hwp
  have hsibrep := (focus_children hwp).2
  have hinv0 := hinv
  obtain ⟨hi1, hi2, hi3, hi4, hi5⟩ := hinv
  have hn6 : cp = Color.red → sib.isRed = false ∧ Ctx.isRed fs = false := hi3.2.1
  have hn7 : Ctx.noRedRed fs := hi3.2.2
  have hb7 : Ctx.balanced fs (sub.bh + 1 + cp.weight) := hi4.2.2
  have hs1 : sib.noRedRed := hi3.1
  have hs2 : sib.bh = sub.bh + 1 := hi4.1
  have hs3 : sib.balanced := hi4.2.1
  have hsne : sib ≠ Tree.nil := bh_pos_ne_nil (by omega)
  have hsib0 : sib.ptr ≠ 0 := fun e => hsne ((Rep_ptr_eq_zero hsibrep).1 e)
  refine ⟨by rw [hp]; exact hsib0, ?_⟩
  simp only [remove_left_case2, get_right_eq _ _ hp0, get_left_eq _ _ hp0, hp,
    Option.bind_eq_bind, Option.some_bind, rb_is_red_ptr hsibrep]
  cases hsc : sib.isRed with
  | false =>
    obtain ⟨sl, ps, sr, rfl⟩ := black_node_of hsc hsne
    simp only [Bool.false_eq_true, if_false, Option.pure_def, ptr_node]
    exact ⟨s, cp, fs, sl, ps, sr, rfl, hsib0, hw, hinv0⟩
  | true =>
    obtain ⟨sl, ps, sr, rfl⟩ := isRed_eq_true hsc
    have hcp : cp = Color.black := by
      cases cp with
      | red => exact absurd (hn6 rfl).1 (by simp)
      | black => rfl
    subst hcp
    obtain ⟨s1, e1, w1⟩ := rotate_left_spec hwp
    obtain ⟨s2, e2, w2⟩ := rb_set_black_spec w1
    have w2' : WF s2 (plug (Frame.L ps Color.black sr :: fs)
      (Tree.node sub p Color.black sl)) := w2
    obtain ⟨s3, e3, w3⟩ := rb_set_red_spec w2'
    obtain ⟨-, hp3⟩ := mem_focus w3
    have w3' : WF s3 (plug (Frame.L p Color.red sl :: Frame.L ps Color.black sr :: fs) sub) :=
      w3
    simp only [Tree.noRedRed, Tree.balanced, Tree.bh, weight_red, weight_black,
      isRed_node, decide_True, decide_False, reduceCtorEq, forall_const, and_true, true_and,
      Nat.add_zero, false_implies, decide_eq_false_iff_not, decide_eq_true_eq,
      Bool.false_eq_true, not_false_eq_true] at hs1 hs2 hs3 hb7
    casesm* _ ∧ _
    have hslne : sl ≠ Tree.nil := bh_pos_ne_nil (by omega)
    obtain ⟨sll, pl, slr, rfl⟩ := black_node_of (by assumption) hslne
    have w3s : WF s3 (plug (Frame.R sub p Color.red :: Frame.L ps Color.black sr :: fs)
      (Tree.node sll pl Color.black slr)) := w3
    simp only [if_true, e1, ptr_node, e2, e3, get_right_eq _ _ hp0, get_left_eq _ _ hp0, hp3,
      Option.pure_def, Option.some_bind, Option.bind_eq_bind]
    refine ⟨s3, Color.red, Frame.L ps Color.black sr :: fs, sll, pl, slr, rfl,
      (mem_focus w3s).1, w3', ?_⟩
    have hrb : Ctx.rootBlack (Frame.L ps Color.black sr :: fs) := rootBlack_head hi5 rfl
    refine ⟨hi1, hi2, ⟨by assumption, ?_, ?_, ?_, hn7⟩, ⟨?_, by assumption, ?_, ?_, ?_⟩,
      hrb⟩
    · intro _
      exact ⟨by simp [Frame.sib], by simp [Frame.color]⟩
    · assumption
    · intro h
      exact absurd h (by simp [Frame.color])
    · simp only [Frame.sib]
      omega
    · simp only [Frame.sib, Frame.color, weight_red, Nat.add_zero]
      omega
    · assumption
    · simp only [Frame.color, weight_red, weight_black, Nat.add_zero]
      exact hb7

/-- Case 2 of the removal fixup: the sibling that is read is not null, and
the sibling that the later cases work on is a black node. -/
theorem remove_right_case2_spec {s : State} {fs : Ctx} {sub sib : Tree} {p : Nat} {cp : Color}
    (hw : WF s (plug (Frame.R sib p cp :: fs) sub))
    (hinv : RemoveInv (Frame.R sib p cp :: fs) sub) :
    (s.mem p).left ≠ 0 ∧
    ∃ st cp' fs' sr ps sl, remove_right_case2 p s = some (st, ps) ∧ ps ≠ 0 ∧
      WF st (plug (Frame.R (Tree.node sl ps Color.black sr) p cp' :: fs') sub) ∧
      RemoveInv (Frame.R (Tree.node sl ps Color.black sr) p cp' :: fs') sub := by
  have hwp : WF s (plug fs (Tree.node sib p cp sub)) := hw
  obtain ⟨hp0, hp⟩ := mem_focus hwp
  have hsibrep := (focus_children' hwp).2
  have hinv0 := hinv
  obtain ⟨hi1, hi2, hi3, hi4, hi5⟩ := hinv
  have hn6 : cp = Color.red → sib.isRed = false ∧ Ctx.isRed fs = false := hi3.2.1
  have hn7 : Ctx.noRedRed fs := hi3.2.2
  have hb7 : Ctx.balanced fs (sub.bh + 1 + cp.weight) := hi4.2.2
  have hs1 : sib.noRedRed := hi3.1
  have hs2 : sib.bh = sub.bh + 1 := hi4.1
  have hs3 : sib.balanced := hi4.2.1
  have hsne : sib ≠ Tree.nil := bh_pos_ne_nil (by omega)
  have hsib0 : sib.ptr ≠ 0 := fun e => hsne ((Rep_ptr_eq_zero hsibrep).1 e)
  refine ⟨by rw [hp]; exact hsib0, ?_⟩
  simp only [remove_right_case2, get_left_eq _ _ hp0, get_right_eq _ _ hp0, hp,
    Option.bind_eq_bind, Option.some_bind, rb_is_red_ptr hsibrep]
  cases hsc : sib.isRed with
  | false =>
    obtain ⟨sr, ps, sl, rfl⟩ := black_node_of' hsc hsne
    simp only [Bool.false_eq_true, if_false, Option.pure_def, ptr_node]
    exact ⟨s, cp, fs, sr, ps, sl, rfl, hsib0, hw, hinv0⟩
  | true =>
    obtain ⟨sr, ps, sl, rfl⟩ := isRed_eq_true' hsc
    have hcp : cp = Color.black := by
      cases cp with
      | red => exact absurd (hn6 rfl).1 (by simp)
      | black => rfl
    subst hcp
    obtain ⟨s1, e1, w1⟩ := rotate_right_spec hwp
    obtain ⟨s2, e2, w2⟩ := rb_set_black_spec w1
    have w2' : WF s2 (plug (Frame.R sl ps Color.black :: fs)
      (Tree.node sr p Color.black sub)) := w2
    obtain ⟨s3, e3, w3⟩ := rb_set_red_spec w2'
    obtain ⟨-, hp3⟩ := mem_focus w3
    have w3' : WF s3 (plug (Frame.R sr p Color.red :: Frame.R sl ps Color.black :: fs) sub) :=
      w3
    simp only [Tree.noRedRed, Tree.balanced, Tree.bh, weight_red, weight_black,
      isRed_node, decide_True, decide_False, reduceCtorEq, forall_const, and_true, true_and,
      Nat.add_zero, false_implies, decide_eq_false_iff_not, decide_eq_true_eq,
      Bool.false_eq_true, not_false_eq_true] at hs1 hs2 hs3 hb7
    casesm* _ ∧ _
    have hslne : sr ≠ Tree.nil := bh_pos_ne_nil (by omega)
    obtain ⟨sll, pl, slr, rfl⟩ := black_node_of' (by assumption) hslne
    have w3s : WF s3 (plug (Frame.L p Color.red sub :: Frame.R sl ps Color.black :: fs)
      (Tree.node slr pl Color.black sll)) := w3
    simp only [if_true, e1, ptr_node, e2, e3, get_left_eq _ _ hp0, get_right_eq _ _ hp0, hp3,
      Option.pure_def, Option.some_bind, Option.bind_eq_bind]
    refine ⟨s3, Color.red, Frame.R sl ps Color.black :: fs, sll, pl, slr, rfl,
      (mem_focus w3s).1, w3', ?_⟩
    have hrb : Ctx.rootBlack (Frame.R sl ps Color.black :: fs) := rootBlack_head hi5 rfl
    refine ⟨hi1, hi2, ⟨by assumption, ?_, ?_, ?_, hn7⟩, ⟨?_, by assumption, ?_, ?_, ?_⟩,
      hrb⟩
    · intro _
      exact ⟨by simp [Frame.sib], by simp [Frame.color]⟩
    · assumption
    · intro h
      exact absurd h (by simp [Frame.color])
    · simp only [Frame.sib]
      omega
    · simp only [Frame.sib, Frame.color, weight_red, Nat.add_zero]
      omega
    · assumption
    · simp only [Frame.color, weight_red, weight_black, Nat.add_zero]
      exact hb7

/-- Cases 3 to 6 of the removal fixup at a black sibling: the loop goes on at
the parent with the invariant, or case 6 finds its sibling and the far child of
that sibling not null. -/
theorem remove_left_tail_safe {st : State} {fs : Ctx} {sub sl sr : Tree} {p ps : Nat}
    {cp : Color}
    (hw : WF st (plug (Frame.L p cp (Tree.node sl ps Color.black sr) :: fs) sub))
    (hsub : sub.isRed = false)
    (hinv : RemoveInv (Frame.L p cp (Tree.node sl ps Color.black sr) :: fs) sub) :
    st.get_right ps = some sr.ptr ∧ st.get_left ps = some sl.ptr ∧
    (st.mem ps).right = sr.ptr ∧ (st.mem ps).left = sl.ptr ∧
    rb_is_black st sr.ptr = !sr.isRed ∧ rb_is_black st sl.ptr = !sl.isRed ∧
    (sr.isRed = false → sl.isRed = false →
      ∃ s', rb_set_red st ps = some s' ∧ s'.get_parent p = some (Ctx.top fs) ∧
        RemoveHeadInv s' p (Ctx.top fs)) ∧
    (¬ (sr.isRed = false ∧ sl.isRed = false) →
      ∃ st' sb', remove_left_case5 ps sr.ptr sl.ptr st = some (st', sb') ∧ sb' ≠ 0 ∧
        (st'.mem sb').right ≠ 0) := by
  have hws : WF st (plug (Frame.R sub p cp :: fs) (Tree.node sl ps Color.black sr)) := hw
  obtain ⟨hps0, hps⟩ := mem_focus hws
  obtain ⟨hsl, hsr⟩ := focus_children hws
  obtain ⟨hi1, hi2, hi3, hi4, hi5⟩ := hinv
  rw [blacken_of_black hsub] at hi1
  have hn6 : cp = Color.red → Ctx.isRed fs = false := fun h => (hi3.2.1 h).2
  have hn7 : Ctx.noRedRed fs := hi3.2.2
  have hb7 : Ctx.balanced fs (sub.bh + 1 + cp.weight) := hi4.2.2
  have hs1 := hi3.1
  have hs2 := hi4.1
  have hs3 := hi4.2.1
  simp only [Tree.noRedRed, Tree.balanced, Tree.bh, Frame.sib, weight_red, weight_black,
    isRed_node, decide_True, decide_False, reduceCtorEq, forall_const, and_true, true_and,
    Nat.add_zero, false_implies, decide_eq_false_iff_not, decide_eq_true_eq,
    Bool.false_eq_true, not_false_eq_true] at hs1 hs2 hs3
  refine ⟨by rw [get_right_eq _ _ hps0, hps], by rw [get_left_eq _ _ hps0, hps], by rw [hps],
    by rw [hps], rb_is_black_ptr hsr, rb_is_black_ptr hsl, ?_, ?_⟩
  · intro hsrc hslc
    obtain ⟨s1, e1, w1⟩ := rb_set_red_spec hws
    have w1p : WF s1 (plug fs (Tree.node sub p cp (Tree.node sl ps Color.red sr))) := w1
    obtain ⟨hp0, hp1⟩ := mem_focus w1p
    refine ⟨s1, e1, by rw [get_parent_eq _ _ hp0, hp1], fs,
      Tree.node sub p cp (Tree.node sl ps Color.red sr), rfl, rfl, w1p, ?_⟩
    casesm* _ ∧ _
    refine ⟨?_, ?_, hn7, ?_, rootBlack_tail hi5⟩
    · simp only [Tree.blacken, Tree.noRedRed, isRed_node, reduceCtorEq, decide_False,
        and_self, implies_true, false_implies, true_and, forall_const, decide_True]
      tauto
    · simp only [Tree.balanced, Tree.bh, weight_red, weight_black]
      repeat' constructor
      all_goals first | omega | assumption
    · convert hb7 using 1 <;>
        first | omega | (simp only [Tree.bh, weight_red, weight_black]; omega)
  · intro hnb
    simp only [remove_left_case5, rb_is_black_ptr hsr]
    cases hsrc : sr.isRed with
    | true =>
      obtain ⟨b, q, c, rfl⟩ := isRed_eq_true hsrc
      have hwq : WF st (plug (Frame.R sl ps Color.black :: Frame.R sub p cp :: fs)
        (Tree.node b q Color.red c)) := hw
      simp only [Bool.not_true, Bool.false_eq_true, if_false, Option.pure_def]
      exact ⟨st, ps, rfl, hps0, by rw [hps]; exact (mem_focus hwq).1⟩
    | false =>
      have hslc : sl.isRed = true := by
        cases h : sl.isRed
        · exact absurd ⟨hsrc, h⟩ hnb
        · rfl
      obtain ⟨sll, pl, slr, rfl⟩ := isRed_eq_true hslc
      obtain ⟨s1, e1, w1⟩ := rotate_right_spec hws
      have w1' : WF s1 (plug (Frame.R sll pl Color.red :: Frame.R sub p cp :: fs)
        (Tree.node slr ps Color.black sr)) := w1
      obtain ⟨s2, e2, w2⟩ := rb_set_red_spec w1'
      have w2' : WF s2 (plug (Frame.R sub p cp :: fs)
        (Tree.node sll pl Color.red (Tree.node slr ps Color.red sr))) := w2
      obtain ⟨s3, e3, w3⟩ := rb_set_black_spec w2'
      obtain ⟨hpl0, hpl⟩ := mem_focus w3
      have w3q : WF s3 (plug (Frame.R sll pl Color.black :: Frame.R sub p cp :: fs)
        (Tree.node slr ps Color.red sr)) := w3
      simp only [Bool.not_false, if_true, e1, e2, ptr_node, e3, Option.pure_def,
        Option.some_bind, Option.bind_eq_bind]
      exact ⟨s3, pl, rfl, hpl0, by rw [hpl]; exact (mem_focus w3q).1⟩

/-- Cases 3 to 6 of the removal fixup at a black sibling: the loop goes on at
the parent with the invariant, or case 6 finds its sibling and the far child of
that sibling not null. -/
theorem remove_right_tail_safe {st : State} {fs : Ctx} {sub sr sl : Tree} {p ps : Nat}
    {cp : Color}
    (hw : WF st (plug (Frame.R (Tree.node sl ps Color.black sr) p cp :: fs) sub))
    (hsub : sub.isRed = false)
    (hinv : RemoveInv (Frame.R (Tree.node sl ps Color.black sr) p cp :: fs) sub) :
    st.get_left ps = some sl.ptr ∧ st.get_right ps = some sr.ptr ∧
    (st.mem ps).left = sl.ptr ∧ (st.mem ps).right = sr.ptr ∧
    rb_is_black st sl.ptr = !sl.isRed ∧ rb_is_black st sr.ptr = !sr.isRed ∧
    (sl.isRed = false → sr.isRed = false →
      ∃ s', rb_set_red st ps = some s' ∧ s'.get_parent p = some (Ctx.top fs) ∧
        RemoveHeadInv s' p (Ctx.top fs)) ∧
    (¬ (sl.isRed = false ∧ sr.isRed = false) →
      ∃ st' sb', remove_right_case5 ps sl.ptr sr.ptr st = some (st', sb') ∧ sb' ≠ 0 ∧
        (st'.mem sb').left ≠ 0) := by
  have hws : WF st (plug (Frame.L p cp sub :: fs) (Tree.node sl ps Color.black sr)) := hw
  obtain ⟨hps0, hps⟩ := mem_focus hws
  obtain ⟨hsl, hsr⟩ := focus_children' hws
  obtain ⟨hi1, hi2, hi3, hi4, hi5⟩ := hinv
  rw [blacken_of_black hsub] at hi1
  have hn6 : cp = Color.red → Ctx.isRed fs = false := fun h => (hi3.2.1 h).2
  have hn7 : Ctx.noRedRed fs := hi3.2.2
  have hb7 : Ctx.balanced fs (sub.bh + 1 + cp.weight) := hi4.2.2
  have hs1 := hi3.1
  have hs2 := hi4.1
  have hs3 := hi4.2.1
  simp only [Tree.noRedRed, Tree.balanced, Tree.bh, Frame.sib, weight_red, weight_black,
    isRed_node, decide_True, decide_False, reduceCtorEq, forall_const, and_true, true_and,
    Nat.add_zero, false_implies, decide_eq_false_iff_not, decide_eq_true_eq,
    Bool.false_eq_true, not_false_eq_true] at hs1 hs2 hs3
  refine ⟨by rw [get_left_eq _ _ hps0, hps], by rw [get_right_eq _ _ hps0, hps], by rw [hps],
    by rw [hps], rb_is_black_ptr hsr, rb_is_black_ptr hsl, ?_, ?_⟩
  · intro hsrc hslc
    obtain ⟨s1, e1, w1⟩ := rb_set_red_spec hws
    have w1p : WF s1 (plug fs (Tree.node (Tree.node sl ps Color.red sr) p cp sub)) := w1
    obtain ⟨hp0, hp1⟩ := mem_focus w1p
    refine ⟨s1, e1, by rw [get_parent_eq _ _ hp0, hp1], fs,
      Tree.node (Tree.node sl ps Color.red sr) p cp sub, rfl, rfl, w1p, ?_⟩
    casesm* _ ∧ _
    refine ⟨?_, ?_, hn7, ?_, rootBlack_tail hi5⟩
    · simp only [Tree.blacken, Tree.noRedRed, isRed_node, reduceCtorEq, decide_False,
        and_self, implies_true, false_implies, true_and, forall_const, decide_True]
      tauto
    · simp only [Tree.balanced, Tree.bh, weight_red, weight_black]
      repeat' constructor
      all_goals first | omega | assumption
    · convert hb7 using 1 <;>
        first | omega | (simp only [Tree.bh, weight_red, weight_black]; omega)
  · intro hnb
    simp only [remove_right_case5, rb_is_black_ptr hsr]
    cases hsrc : sl.isRed with
    | true =>
      obtain ⟨b, q, c, rfl⟩ := isRed_eq_true' hsrc
      have hwq : WF st (plug (Frame.L ps Color.black sr :: Frame.L p cp sub :: fs)
        (Tree.node c q Color.red b)) := hw
      simp only [Bool.not_true, Bool.false_eq_true, if_false, Option.pure_def]
      exact ⟨st, ps, rfl, hps0, by rw [hps]; exact (mem_focus hwq).1⟩
    | false =>
      have hslc : sr.isRed = true := by
        cases h : sr.isRed
        · exact absurd ⟨hsrc, h⟩ hnb
        · rfl
      obtain ⟨sll, pl, slr, rfl⟩ := isRed_eq_true' hslc
      obtain ⟨s1, e1, w1⟩ := rotate_left_spec hws
      have w1' : WF s1 (plug (Frame.L pl Color.red sll :: Frame.L p cp sub :: fs)
        (Tree.node sl ps Color.black slr)) := w1
      obtain ⟨s2, e2, w2⟩ := rb_set_red_spec w1'
      have w2' : WF s2 (plug (Frame.L p cp sub :: fs)
        (Tree.node (Tree.node sl ps Color.red slr) pl Color.red sll)) := w2
      obtain ⟨s3, e3, w3⟩ := rb_set_black_spec w2'
      obtain ⟨hpl0, hpl⟩ := mem_focus w3
      have w3q : WF s3 (plug (Frame.L pl Color.black sll :: Frame.L p cp sub :: fs)
        (Tree.node sl ps Color.red slr)) := w3
      simp only [Bool.not_false, if_true, e1, e2, ptr_node, e3, Option.pure_def,
        Option.some_bind, Option.bind_eq_bind]
      exact ⟨s3, pl, rfl, hpl0, by rw [hpl]; exact (mem_focus w3q).1⟩

/-- At a loop test of `_rb_remove_color` that lets the body run, the body finds
every sibling it reads, and an iteration that ends in `continue` keeps the
invariant. -/
theorem remove_head_safe {s : State} {node parent : Nat} (hi : RemoveHeadInv s node parent)
    (hc : rb_is_black s node = true ∧ parent ≠ 0) :
    RemoveSafe s node parent ∧
      ∀ n' p' s', remove_color_continue node parent s = some (n', p', s') →
        RemoveHeadInv s' n' p' := by
  obtain ⟨ctx, sub, rfl, rfl, hw, hinv⟩ := hi
  have hsubrep := ((WF_plug _ _ _).1 hw).2.2.1
  have hc0 := hc
  rw [rb_is_black_ptr hsubrep] at hc
  have hsub : sub.isRed = false := by
    cases h : sub.isRed
    · rfl
    · rw [h] at hc
      exact absurd hc.1 (by simp)
  cases ctx with
  | nil => exact absurd rfl hc.2
  | cons f fs =>
    have hsne : f.sib ≠ Tree.nil := bh_pos_ne_nil (by
      have := hinv.2.2.2.1.1
      omega)
    have htest := left_eq_iff_sib hw hsne
    cases f with
    | L p cp sib =>
      have hwp : WF s (plug fs (Tree.node sub p cp sib)) := hw
      obtain ⟨hp0, hp⟩ := mem_focus hwp
      have hl : (s.mem p).left = sub.ptr := by rw [hp]
      obtain ⟨hne, st, cp', fs', sl, ps, sr, e2, hps0, w2, inv2⟩ :=
        remove_left_case2_spec hw hinv
      obtain ⟨t1, t2, t3, t4, t5, t6, t7, t8⟩ := remove_left_tail_safe w2 hsub inv2
      refine ⟨⟨fun _ => ⟨hne, st, ps, e2, hps0, fun hnb => ?_⟩, fun h => absurd hl h⟩, ?_⟩
      · rw [t3, t4]
        apply t8
        rw [t3, t4, t5, t6] at hnb
        simpa using hnb
      · intro n' p' s' h
        unfold remove_color_continue at h
        rw [if_pos hc0] at h
        simp only [top_cons, ptr_L, get_left_eq _ _ hp0, hl, Option.bind_eq_bind,
          Option.some_bind, if_true, e2, t1, t2, t5, t6] at h
        by_cases hb : sr.isRed = false ∧ sl.isRed = false
        · obtain ⟨s1, e, gp, hinv'⟩ := t7 hb.1 hb.2
          simp only [hb.1, hb.2, Bool.not_false, and_self, if_true, e, Option.some_bind, gp,
            Option.some.injEq, Prod.mk.injEq] at h
          obtain ⟨rfl, rfl, rfl⟩ := h
          exact hinv'
        · rw [if_neg (by simpa using hb)] at h
          cases h
    | R sib p cp =>
      have hwp : WF s (plug fs (Tree.node sib p cp sub)) := hw
      obtain ⟨hp0, hp⟩ := mem_focus hwp
      have hl : (s.mem p).left ≠ sub.ptr := by
        intro e
        have := htest.mp e
        simp [Frame.isL] at this
      obtain ⟨hne, st, cp', fs', sr, ps, sl, e2, hps0, w2, inv2⟩ :=
        remove_right_case2_spec hw hinv
      obtain ⟨t1, t2, t3, t4, t5, t6, t7, t8⟩ := remove_right_tail_safe w2 hsub inv2
      refine ⟨⟨fun h => absurd h hl, fun _ => ⟨hne, st, ps, e2, hps0, fun hnb => ?_⟩⟩, ?_⟩
      · rw [t3, t4]
        apply t8
        rw [t3, t4, t5, t6] at hnb
        simpa [and_comm] using hnb
      · intro n' p' s' h
        unfold remove_color_continue at h
        rw [if_pos hc0] at h
        simp only [top_cons, ptr_R, get_left_eq _ _ hp0, hl, Option.bind_eq_bind,
          Option.some_bind, if_false, e2, t1, t2, t5, t6] at h
        by_cases hb : sr.isRed = false ∧ sl.isRed = false
        · obtain ⟨s1, e, gp, hinv'⟩ := t7 hb.2 hb.1
          simp only [hb.1, hb.2, Bool.not_false, and_self, if_true, e, Option.some_bind, gp,
            Option.some.injEq, Prod.mk.injEq] at h
          obtain ⟨rfl, rfl, rfl⟩ := h
          exact hinv'
        · rw [if_neg (by simpa using hb)] at h
          cases h

/-- The configurations at the loop test of `_rb_remove_color`: each satisfies
the invariant, and the loop started at the first one goes on like the loop
started at the later one. -/
theorem remove_color_head_inv : ∀ (k : Nat) (n p : Nat) (s : State) (n' p' : Nat)
    (s' : State), RemoveHeadInv s n p → remove_color_head k n p s = some (n', p', s') →
    RemoveHeadInv s' n' p' ∧
      ∀ fuel, _rb_remove_color_loop (fuel + k) n p s = _rb_remove_color_loop fuel n' p' s' := by
  intro k
  induction k with
  | zero =>
    intro n p s n' p' s' hi h
    simp only [remove_color_head, Option.some.injEq, Prod.mk.injEq] at h
    obtain ⟨rfl, rfl, rfl⟩ := h
    exact ⟨hi, fun _ => rfl⟩
  | succ k ih =>
    intro n p s n' p' s' hi h
    simp only [remove_color_head] at h
    cases hc : remove_color_continue n p s with
    | none => simp [hc] at h
    | some r =>
      obtain ⟨n1, p1, s1⟩ := r
      simp only [hc, Option.some_bind] at h
      have hcond : rb_is_black s n = true ∧ p ≠ 0 := by
        by_contra hcn
        unfold remove_color_continue at hc
        rw [if_neg hcn] at hc
        cases hc
      have hi1 := (remove_head_safe hi hcond).2 n1 p1 s1 hc
      obtain ⟨h1, h2⟩ := ih n1 p1 s1 n' p' s' hi1 h
      refine ⟨h1, fun fuel => ?_⟩
      rw [← h2 fuel, ← Nat.add_assoc]
      exact remove_color_loop_continue hc (fuel + k)

/-- C19. Claim: `rb_remove` is called on a node of a tree that satisfies the
red-black invariants.  Its first part returns the removed colour and the child
and parent that the fixup starts with; when the colour is black, at the loop
test of `_rb_remove_color` in the first and in every later iteration (after any
number `k` of iterations that ended in `continue`), whenever the loop body runs:
the sibling is not `NULL` when its colour is read, the sibling read again after
the rotation of the red-sibling case is not `NULL` when its children are read,
and when the last case is reached its sibling and the far child of that
sibling, which is painted black, are not `NULL`. -/
theorem rb_remove_sibling_exists (fuel : Nat) (s : State) (t : Tree) (n : Nat)
    (hw : WF s t) (hrb : RB t) (hf : t.height ≤ fuel) (hn : n ∈ t.ptrs) :
    ∃ color child parent s0, rb_remove_unlink fuel n s = some (color, child, parent, s0) ∧
      rb_remove fuel n s =
        (if color = RB_BLACK then _rb_remove_color fuel child parent s0 else some s0) ∧
      (color = RB_BLACK → ∀ k node par sk,
        remove_color_head k child parent s0 = some (node, par, sk) →
        (∀ fuel', _rb_remove_color_loop (fuel' + k) child parent s0 =
          _rb_remove_color_loop fuel' node par sk) ∧
        (rb_is_black sk node = true ∧ par ≠ 0 → RemoveSafe sk node par)) := by
  obtain ⟨s1, ctx, sub, col, e, w, hb⟩ := rb_remove_unlink_split hw hrb hf hn
  refine ⟨Color.enc col, sub.ptr, Ctx.top ctx, s1, e, ?_, fun hcol k node par sk h => ?_⟩
  · rw [rb_remove_eq_unlink, e]
    rfl
  · have hblack : col = Color.black := by
      cases col with
      | red => exact absurd hcol (by decide)
      | black => rfl
    have hi : RemoveHeadInv s1 sub.ptr (Ctx.top ctx) := ⟨ctx, sub, rfl, rfl, w, hb hblack⟩
    obtain ⟨h1, h2⟩ := remove_color_head_inv k sub.ptr (Ctx.top ctx) s1 node par sk hi h
    exact ⟨h2, fun hc => (remove_head_safe h1 hc).1⟩

theorem rb_remove_sibling_exists_witness :
    ∃ color child parent s0,
      rb_remove_unlink 2 1008 ex_state3b = some (color, child, parent, s0) ∧
      rb_remove 2 1008 ex_state3b =
        (if color = RB_BLACK then _rb_remove_color 2 child parent s0 else some s0) ∧
      (color = RB_BLACK → ∀ k node par sk,
        remove_color_head k child parent s0 = some (node, par, sk) →
        (∀ fuel', _rb_remove_color_loop (fuel' + k) child parent s0 =
          _rb_remove_color_loop fuel' node par sk) ∧
        (rb_is_black sk node = true ∧ par ≠ 0 → RemoveSafe sk node par)) :=
  rb_remove_sibling_exists 2 ex_state3b ex_tree3b 1008 (by decide) (by decide) (by decide)
    (by decide)

/-! ## The circular list: `list_replace` -/

/-- C16. Evaluation at a failing input: the list of head 100 with the single
member 200 is well formed and cell 300 is outside it, yet after
`list_replace(200, 300)` the head still links to 200 in both directions, cell
300 links to itself and not to the head, and a traversal from the head still
yields 200: the function reads `item->prev` and `item->next` where the links of
`victim` are meant, so its result does not depend on `victim` at all. -/
theorem list_replace_ignores_victim :
    list_wf ex_list 100 [200] ∧ 300 ∉ [100, 200] ∧
      (∃ h', list_replace 200 300 ex_list = some h' ∧
        (h' 100).next = 200 ∧ (h' 100).prev = 200 ∧
        (h' 300).prev = 300 ∧ (h' 300).next = 300 ∧
        list_walk h' 100 3 (h' 100).next = some [200] ∧ ¬ list_wf h' 100 [300]) ∧
      (∀ (victim victim' item : Nat) (h : ListHeap),
        list_replace victim item h = list_replace victim' item h) := by
  refine ⟨by decide, by decide, ⟨_, rfl, by decide⟩, fun _ _ _ _ => rfl⟩

/-! ## Link consistency and absence of cycles -/

theorem sizeAt_of_not_mem : ∀ (t : Tree) (n : Nat), n ∉ t.ptrs → t.sizeAt n = 0 := by
  intro t
  induction t with
  | nil => intro n _; rfl
  | node l p c r ihl ihr =>
    intro n hn
    simp only [Tree.ptrs, List.mem_append, List.mem_cons, not_or] at hn
    have hp : ¬ p = n := fun e => hn.2.1 e.symm
    simp only [Tree.sizeAt, hp, if_false, ihl n hn.1, ihr n hn.2.2]

theorem sizeAt_ptr {t : Tree} (h : t ≠ Tree.nil) : t.sizeAt t.ptr = t.size := by
  cases t with
  | nil => exact absurd rfl h
  | node l p c r => simp [Tree.sizeAt, Tree.ptr]

/-- In a laid out subtree without repeated nodes, a child link from a node of
the subtree leads to the root of a smaller subtree, which has the node as its
parent. -/
theorem child_link_in_tree {s : State} : ∀ (t : Tree) (par : Nat), Rep s.mem par t →
    t.ptrs.Nodup → ∀ n ∈ t.ptrs, ∀ m, child_link s n m →
      m ∈ t.ptrs ∧ t.sizeAt m < t.sizeAt n ∧ (s.mem m).parent = n := by
  intro t
  induction t with
  | nil => intro par _ _ n hn; simp [Tree.ptrs] at hn
  | node l p c r ihl ihr =>
    intro par hrep hnd n hn m hch
    obtain ⟨hp0, hm, hl, hr⟩ := hrep
    simp only [Tree.ptrs] at hnd hn
    rw [List.nodup_append] at hnd
    obtain ⟨hndl, hndr, hdis⟩ := hnd
    rw [List.nodup_cons] at hndr
    have hpl : p ∉ l.ptrs := fun h => hdis h (List.mem_cons_self _ _)
    have hpr : p ∉ r.ptrs := hndr.1
    have hlr : ∀ q, q ∈ l.ptrs → q ∉ r.ptrs := fun q h1 h2 =>
      hdis h1 (List.mem_cons_of_mem _ h2)
    have key : ∀ (u : Tree), Rep s.mem p u → (u = l ∨ u = r) → u.ptr = m → m ≠ 0 →
        u.ptrs.Nodup → m ∈ u.ptrs ∧ u.sizeAt m = u.size ∧ (s.mem m).parent = p := by
      intro u hu _ hum hm0 _
      cases u with
      | nil => exact absurd hum.symm hm0
      | node ul up uc ur =>
        simp only [Tree.ptr] at hum
        subst hum
        exact ⟨by simp [Tree.ptrs], by simp [Tree.sizeAt], by rw [hu.2.1]⟩
    rcases List.mem_append.1 hn with h | h
    · have hnp : ¬ p = n := fun e => hpl (e ▸ h)
      obtain ⟨i1, i2, i3⟩ := ihl p hl hndl n h m hch
      have hmp : ¬ p = m := fun e => hpl (e ▸ i1)
      refine ⟨by simp [Tree.ptrs, i1], ?_, i3⟩
      simp only [Tree.sizeAt, hnp, hmp, if_false, sizeAt_of_not_mem r n (hlr n h),
        sizeAt_of_not_mem r m (hlr m i1)]
      omega
    · rcases List.mem_cons.1 h with h | h
      · subst h
        obtain ⟨-, hm0, hlinks⟩ := hch
        rw [hm] at hlinks
        rcases hlinks with e | e
        · obtain ⟨k1, k2, k3⟩ := key l hl (Or.inl rfl) e hm0 hndl
          have hmp : ¬ n = m := fun e => hpl (e ▸ k1)
          refine ⟨by simp [Tree.ptrs, k1], ?_, k3⟩
          simp only [Tree.sizeAt, hmp, if_false, if_true, k2, Tree.size,
            sizeAt_of_not_mem r m (hlr m k1)]
          omega
        · obtain ⟨k1, k2, k3⟩ := key r hr (Or.inr rfl) e hm0 hndr.2
          have hmp : ¬ n = m := fun e => hpr (e ▸ k1)
          have hml : m ∉ l.ptrs := fun h => hlr m h k1
          refine ⟨by simp [Tree.ptrs, k1], ?_, k3⟩
          simp only [Tree.sizeAt, hmp, if_false, if_true, k2, Tree.size,
            sizeAt_of_not_mem l m hml]
          omega
      · have hnp : ¬ p = n := fun e => hpr (e ▸ h)
        have hnl : n ∉ l.ptrs := fun h1 => hlr n h1 h
        obtain ⟨i1, i2, i3⟩ := ihr p hr hndr.2 n h m hch
        have hmp : ¬ p = m := fun e => hpr (e ▸ i1)
        have hml : m ∉ l.ptrs := fun h1 => hlr m h1 i1
        refine ⟨by simp [Tree.ptrs, i1], ?_, i3⟩
        simp only [Tree.sizeAt, hnp, hmp, if_false, sizeAt_of_not_mem l n hnl,
          sizeAt_of_not_mem l m hml]
        omega

/-- Every node that is reached from the root is a node of the tree. -/
theorem reachable_mem {s : State} {t : Tree} (hw : WF s t) {n : Nat} (h : reachable s n) :
    n ∈ t.ptrs := by
  obtain ⟨h0, hpath⟩ := h
  induction hpath with
  | refl =>
    rw [hw.1] at h0 ⊢
    exact ptr_mem_ptrs (fun e => h0 ((Rep_ptr_eq_zero hw.2.1).2 e))
  | tail _ hstep ih => exact (child_link_in_tree t 0 hw.2.1 hw.2.2 _ ih _ hstep).1

/-- A path of child links leads to the root of a smaller subtree. -/
theorem path_sizeAt {s : State} {t : Tree} (hw : WF s t) {n m : Nat} (hn : n ∈ t.ptrs)
    (h : Relation.TransGen (child_link s) n m) : m ∈ t.ptrs ∧ t.sizeAt m < t.sizeAt n := by
  induction h with
  | single hstep =>
    obtain ⟨h1, h2, -⟩ := child_link_in_tree t 0 hw.2.1 hw.2.2 _ hn _ hstep
    exact ⟨h1, h2⟩
  | tail _ hstep ih =>
    obtain ⟨h1, h2, -⟩ := child_link_in_tree t 0 hw.2.1 hw.2.2 _ ih.1 _ hstep
    exact ⟨h1, lt_trans h2 ih.2⟩

/-- A well-formed tree is link-consistent. -/
theorem WF_links_ok {s : State} {t : Tree} (hw : WF s t) : links_ok s := by
  refine ⟨fun h0 => ?_, fun n hn => ?_⟩
  · obtain ⟨hroot, hrep, -⟩ := hw
    rw [hroot] at h0 ⊢
    cases t with
    | nil => exact absurd rfl h0
    | node l p c r => rw [Tree.ptr, hrep.2.1]
  · have hmem := reachable_mem hw hn
    have hn0 := Rep_ptrs_ne_zero hw.2.1 n hmem
    exact ⟨fun h => (child_link_in_tree t 0 hw.2.1 hw.2.2 n hmem _ ⟨hn0, h, Or.inl rfl⟩).2.2,
      fun h => (child_link_in_tree t 0 hw.2.1 hw.2.2 n hmem _ ⟨hn0, h, Or.inr rfl⟩).2.2⟩

/-- A well-formed tree has no cycle. -/
theorem WF_acyclic {s : State} {t : Tree} (hw : WF s t) : acyclic s := by
  intro n hn hcyc
  exact lt_irrefl _ (path_sizeAt hw (reachable_mem hw hn) hcyc).2

theorem links_kept_of_WF {res : Option State} {s' : State} {t' : Tree} (e : res = some s')
    (hw : WF s' t') : links_kept res :=
  ⟨s', e, WF_links_ok hw, WF_acyclic hw⟩

/-- Function `rb_insert_item` on a red-black tree returns a red-black tree,
whether the item is linked or an equal record is found. -/
theorem rb_insert_item_WF (ops : rb_ops) (item fuel : Nat) (s : State) (t : Tree)
    (hw : WF s t) (hrb : RB t) (hfuel : t.height < fuel)
    (hnode : ptr_add item ops.offset ≠ 0) (hfresh : ptr_add item ops.offset ∉ t.ptrs) :
    ∃ r s' t', rb_insert_item fuel item s ops = some (r, s') ∧ WF s' t' ∧ RB t' := by
  have hw0 : WF s (plug [] t) := hw
  rcases insert_loop_spec ops item t [] fuel s hw0 hfuel trivial with
    ⟨ctx, e1, e2, e3, e4⟩ | ⟨ctx, l, p, c, r, e1, e2, e3, e4⟩
  · simp only [plug_nil] at e1
    subst e1
    have hlen : ctx.length < fuel := by
      have := height_plug ctx Tree.nil
      simp only [List.length_nil, Nat.zero_add] at e3
      omega
    obtain ⟨s', t', h1, h2, h3, -⟩ := rb_link_spec fuel hw hrb hnode hfresh hlen
    refine ⟨item, s', t', ?_, h2, h3⟩
    simp only [top_nil, slotOf_nil] at e4
    simp only [rb_insert_item, e4, Option.bind_eq_bind, Option.some_bind, h1]
  · refine ⟨ptr_sub p ops.offset, s, t, ?_, hw, hrb⟩
    simp only [top_nil, slotOf_nil] at e4
    simp only [rb_insert_item, e4, Option.bind_eq_bind, Option.some_bind]

/-- C20 (as amended). Claim: when the state lays out a well-formed binary tree
(so that the root has no parent, every non-null child names its node as
parent, and no node is linked twice), both rotations and `rb_replace_node`
return a state that is link-consistent again and has no cycle among the nodes
reached from the root; when the tree also satisfies the red-black invariants,
so do `rb_link`, `rb_insert_item` and `rb_remove`. -/
theorem mutators_keep_links (s : State) (t : Tree) (hw : WF s t) :
    links_ok s ∧ acyclic s ∧
    (∀ n ∈ t.ptrs, (s.mem n).right ≠ 0 → links_kept (_rb_rotate_left n s)) ∧
    (∀ n ∈ t.ptrs, (s.mem n).left ≠ 0 → links_kept (_rb_rotate_right n s)) ∧
    (∀ victim ∈ t.ptrs, ∀ new, new ≠ 0 → new ∉ t.ptrs →
      links_kept (rb_replace_node victim new s)) ∧
    (RB t → ∀ fuel, t.height < fuel →
      (∀ ctx node, t = plug ctx Tree.nil → node ≠ 0 → node ∉ t.ptrs →
        links_kept (rb_link fuel node ctx.top (slotOf ctx) s)) ∧
      (∀ ops item, ptr_add item ops.offset ≠ 0 → ptr_add item ops.offset ∉ t.ptrs →
        links_kept ((rb_insert_item fuel item s ops).map Prod.snd)) ∧
      (∀ n ∈ t.ptrs, links_kept (rb_remove fuel n s))) := by
  refine ⟨WF_links_ok hw, WF_acyclic hw, ?_, ?_, ?_, ?_⟩
  · intro n hn hr
    obtain ⟨ctx, l, c, r, rfl⟩ := exists_plug_of_mem hn
    rw [(mem_focus hw).2] at hr
    cases r with
    | nil => exact absurd rfl hr
    | node b x cx cc =>
      obtain ⟨s', e, hw'⟩ := rotate_left_spec hw
      exact links_kept_of_WF e hw'
  · intro n hn hl
    obtain ⟨ctx, l, c, r, rfl⟩ := exists_plug_of_mem hn
    rw [(mem_focus hw).2] at hl
    cases l with
    | nil => exact absurd rfl hl
    | node cc x cx b =>
      obtain ⟨s', e, hw'⟩ := rotate_right_spec hw
      exact links_kept_of_WF e hw'
  · intro victim hv new hn0 hn
    obtain ⟨ctx, l, c, r, rfl⟩ := exists_plug_of_mem hv
    obtain ⟨s', e, hw'⟩ := rb_replace_node_spec hw hn0 hn
    exact links_kept_of_WF e hw'
  · intro hrb fuel hfuel
    refine ⟨?_, ?_, ?_⟩
    · rintro ctx node rfl hn0 hfresh
      have hlen : ctx.length < fuel := by
        have := height_plug ctx Tree.nil
        omega
      obtain ⟨s', t', e, hw', -⟩ := rb_link_spec fuel hw hrb hn0 hfresh hlen
      exact links_kept_of_WF e hw'
    · intro ops item hnode hfresh
      obtain ⟨r, s', t', e, hw', -⟩ := rb_insert_item_WF ops item fuel s t hw hrb hfuel hnode hfresh
      exact links_kept_of_WF (by rw [e]; rfl) hw'
    · intro n hn
      obtain ⟨xs, ys, h⟩ := List.append_of_mem hn
      obtain ⟨s', t', e, hw', -⟩ := @rb_remove_split s t fuel hw hrb (by omega) xs ys n h
      exact links_kept_of_WF e hw'

theorem mutators_keep_links_witness :
    (links_ok ex_state3 ∧ acyclic ex_state3 ∧
      (∀ n ∈ ex_tree3.ptrs, (ex_state3.mem n).right ≠ 0 →
        links_kept (_rb_rotate_left n ex_state3)) ∧
      (∀ n ∈ ex_tree3.ptrs, (ex_state3.mem n).left ≠ 0 →
        links_kept (_rb_rotate_right n ex_state3)) ∧
      (∀ victim ∈ ex_tree3.ptrs, ∀ new, new ≠ 0 → new ∉ ex_tree3.ptrs →
        links_kept (rb_replace_node victim new ex_state3)) ∧
      (RB ex_tree3 → ∀ fuel, ex_tree3.height < fuel →
        (∀ ctx node, ex_tree3 = plug ctx Tree.nil → node ≠ 0 → node ∉ ex_tree3.ptrs →
          links_kept (rb_link fuel node ctx.top (slotOf ctx) ex_state3)) ∧
        (∀ ops item, ptr_add item ops.offset ≠ 0 → ptr_add item ops.offset ∉ ex_tree3.ptrs →
          links_kept ((rb_insert_item fuel item ex_state3 ops).map Prod.snd)) ∧
        (∀ n ∈ ex_tree3.ptrs, links_kept (rb_remove fuel n ex_state3)))) ∧
    links_kept (_rb_rotate_left 2008 ex_state3) ∧
    links_kept (_rb_rotate_right 2008 ex_state3) ∧
    links_kept (rb_replace_node 1008 5008 ex_state3) ∧
    links_kept (rb_link 3 508 1008 (Slot.left 1008) ex_state3) ∧
    links_kept ((rb_insert_item 3 500 ex_state3 ex_ops).map Prod.snd) ∧
    links_kept (rb_remove 3 2008 ex_state3) :=
  ⟨mutators_keep_links ex_state3 ex_tree3 (by decide),
    (mutators_keep_links ex_state3 ex_tree3 (by decide)).2.2.1 2008 (by decide) (by decide),
    (mutators_keep_links ex_state3 ex_tree3 (by decide)).2.2.2.1 2008 (by decide) (by decide),
    (mutators_keep_links ex_state3 ex_tree3 (by decide)).2.2.2.2.1 1008 (by decide) 5008
      (by decide) (by decide),
    ((mutators_keep_links ex_state3 ex_tree3 (by decide)).2.2.2.2.2 (by decide) 3
      (by decide)).1 [Frame.L 1008 Color.red Tree.nil,
        Frame.L 2008 Color.black (Tree.node Tree.nil 3008 Color.red Tree.nil)] 508
      (by decide) (by decide) (by decide),
    ((mutators_keep_links ex_state3 ex_tree3 (by decide)).2.2.2.2.2 (by decide) 3
      (by decide)).2.1 ex_ops 500 (by decide) (by decide),
    ((mutators_keep_links ex_state3 ex_tree3 (by decide)).2.2.2.2.2 (by decide) 3
      (by decide)).2.2 2008 (by decide)⟩

/-- C20 (as stated). Link consistency alone does not carry through the calls.
With a red root, which is link-consistent, `rb_link` of a node under the root
reads the parent of the root, a null pointer, and does not return for any fuel.
With a node that is both the left and the right child of the root, which is
link-consistent too, `_rb_rotate_left` at the root returns a state in which the
old root still names the new root as its left child while the new root has no
parent, and the two lie on a cycle. -/
theorem links_ok_not_preserved :
    (links_ok ex_state_red ∧
      ∀ fuel, rb_link fuel 1008 2008 (Slot.left 2008) ex_state_red = none) ∧
    (links_ok ex_state_twin ∧
      ∃ s', _rb_rotate_left 2008 ex_state_twin = some s' ∧ ¬ links_ok s' ∧ ¬ acyclic s') := by
  have hred : WF ex_state_red (Tree.node Tree.nil 2008 Color.red Tree.nil) := by decide
  have hreach : ∀ n, reachable ex_state_twin n → n = 2008 ∨ n = 1008 := by
    rintro n ⟨-, h⟩
    induction h with
    | refl => exact Or.inl rfl
    | tail _ hstep ih =>
      obtain ⟨-, hb0, hl⟩ := hstep
      rcases ih with rfl | rfl
      · right
        rcases hl with e | e <;> exact e.symm
      · exfalso
        rcases hl with e | e <;> exact hb0 e.symm
  have hrot : ∃ s', _rb_rotate_left 2008 ex_state_twin = some s' ∧ s'.root = 1008 ∧
      (s'.mem 1008).left = 2008 ∧ (s'.mem 2008).left = 1008 ∧ (s'.mem 1008).parent = 0 :=
    ⟨_, rfl, by decide, by decide, by decide, by decide⟩
  refine ⟨⟨WF_links_ok hred, fun fuel => ?_⟩, ⟨fun _ => rfl, fun n hn => ?_⟩, ?_⟩
  · cases fuel <;> rfl
  · rcases hreach n hn with rfl | rfl <;> constructor <;> intro h <;>
      first | rfl | exact absurd rfl h
  · obtain ⟨s', e, h1, h2, h3, h4⟩ := hrot
    have hroot : s'.root ≠ 0 := by rw [h1]; decide
    have c1 : child_link s' 1008 2008 := ⟨by decide, by decide, Or.inl h2⟩
    have c2 : child_link s' 2008 1008 := ⟨by decide, by decide, Or.inl h3⟩
    have r1 : reachable s' 1008 := ⟨hroot, by rw [h1]⟩
    have r2 : reachable s' 2008 :=
      ⟨hroot, by rw [h1]; exact Relation.ReflTransGen.single c1⟩
    refine ⟨s', e, fun hl => ?_, fun ha => ?_⟩
    · have := (hl.2 2008 r2).1 (by rw [h3]; decide)
      rw [h3, h4] at this
      exact absurd this (by decide)
    · exact ha 1008 r1 (Relation.TransGen.tail (Relation.TransGen.single c1) c2)

end Rbtree
